import Mathlib

/-!
Verification of the JSON Selection literal-expression parser (`LitExpr`),
a shallow embedding of `lit_expr.rs` from the connector expression language.

The embedding follows the nom-based recursive-descent source: parsers map a
`Span` (remaining text plus absolute offset) to a three-way result
(`ok` / recoverable error / fatal failure), mirroring nom's
`IResult` with `Err::Error` and `Err::Failure`.  Helper modules that are not
part of the verified source tree (location merging, whitespace and comment
skipping, string literals, keys, path selections, the ordered map) are
modelled from the specification and marked as such in their doc comments.
-/

namespace Router

/-- A half-open byte-offset range into the original input. -/
abbrev Loc := Nat × Nat

/-- Modelled from the spec: `merge_locs` (location helpers are outside the
verified sources).  Given two optional ranges, produce the smallest range
enclosing both, or `none` when both are `none`. -/
def mergeLocs : Option Loc → Option Loc → Option Loc
  | none, none => none
  | some l, none => some l
  | none, some r => some r
  | some l, some r => some (min l.1 r.1, max l.2 r.2)

/-- A located value: a node plus an optional source range (`Parsed<T>`). -/
structure Parsed (α : Type) where
  node : α
  loc : Option Loc
  deriving Repr, DecidableEq

/-- The parser cursor: remaining text and the absolute offset of its head. -/
structure Span where
  text : List Char
  offset : Nat
  deriving Repr, DecidableEq

def Span.advance (s : Span) (n : Nat) : Span :=
  ⟨s.text.drop n, s.offset + n⟩

/-- nom-style parse result: success with remaining input, recoverable error
(`nom::Err::Error`, sibling alternatives may be tried), or fatal failure
(`nom::Err::Failure`, aborts the whole parse attempt). -/
inductive PResult (α : Type) where
  | ok (rest : Span) (val : α)
  | err
  | fail
  deriving Repr, DecidableEq

/-! ## Character classes and scanners -/

def isWsChar (c : Char) : Bool :=
  c.toNat = 32 || c.toNat = 9 || c.toNat = 10 || c.toNat = 13

def isDigitChar (c : Char) : Bool :=
  48 ≤ c.toNat && c.toNat ≤ 57

def isAlphaU (c : Char) : Bool :=
  (97 ≤ c.toNat && c.toNat ≤ 122) || (65 ≤ c.toNat && c.toNat ≤ 90) || c = '_'

def isWordChar (c : Char) : Bool :=
  isAlphaU c || isDigitChar c

/-- Count of leading ignorable characters; the boolean tracks whether the scan
is inside a `#`-to-end-of-line comment. -/
def scanIgn (inComment : Bool) : List Char → Nat
  | [] => 0
  | c :: r =>
    if inComment then
      if c = '\n' then 1 + scanIgn false r else 1 + scanIgn true r
    else if isWsChar c then 1 + scanIgn false r
    else if c = '#' then 1 + scanIgn true r
    else 0

/-- Modelled from the spec: `spaces_or_comments` (lexical helpers are outside
the verified sources).  Consumes and discards any run of whitespace and
`#`-to-end-of-line comment text between tokens. -/
def scanIgnorable (l : List Char) : Nat := scanIgn false l

def skipWs (s : Span) : Span := s.advance (scanIgnorable s.text)

def scanDigits : List Char → Nat
  | [] => 0
  | c :: r => if isDigitChar c then 1 + scanDigits r else 0

/-- Count of word characters (letters, digits, underscore). -/
def scanWord : List Char → Nat
  | [] => 0
  | c :: r => if isWordChar c then 1 + scanWord r else 0

/-- Count of identifier characters: a leading letter or underscore followed by
word characters; `0` when the head is not a valid identifier start. -/
def scanIdent : List Char → Nat
  | [] => 0
  | c :: r => if isAlphaU c then 1 + scanWord r else 0

/-! ## Token-level parsers -/

def listIsPrefix : List Char → List Char → Bool
  | [], _ => true
  | _ :: _, [] => false
  | a :: as, b :: bs => a = b && listIsPrefix as bs

/-- `parsed_span`: nom `tag` wrapped with its source location
`(start, start + consumed_length)`. -/
def parsedSpan (tok : List Char) (s : Span) : PResult (Parsed Unit) :=
  if listIsPrefix tok s.text then
    .ok (s.advance tok.length) ⟨(), some (s.offset, s.offset + tok.length)⟩
  else .err

/-- nom `char`: match one exact character, recoverable error otherwise. -/
def charTok (c : Char) (s : Span) : PResult Unit :=
  match s.text with
  | c2 :: _ => if c2 = c then .ok (s.advance 1) () else .err
  | [] => .err

/-- `recognize(many1(one_of "0123456789"))`: a nonempty run of digits with its
location. -/
def digits1 (s : Span) : PResult (Parsed (List Char)) :=
  let n := scanDigits s.text
  if n = 0 then .err
  else .ok (s.advance n) ⟨s.text.take n, some (s.offset, s.offset + n)⟩

/-- `recognize(many0(one_of "0123456789"))`: a possibly empty run of digits
with its location. -/
def digits0 (s : Span) : PResult (Parsed (List Char)) :=
  let n := scanDigits s.text
  .ok (s.advance n) ⟨s.text.take n, some (s.offset, s.offset + n)⟩

/-! ## Numbers: model of `serde_json::Number` -/

/-- Model of `serde_json::Number`: integers (u64 / i64 range) exactly, floats
as exact decimals `mantissa / 10 ^ scale`.  Binary rounding of f64 mantissas
is not modelled; overflow of the f64 finite range is (it is the one failure
mode of the final conversion reachable from the number grammar). -/
inductive JNumber where
  | int (i : Int)
  | float (mantissa : Int) (scale : Nat)
  deriving Repr, DecidableEq

def natOfDigits (l : List Char) : Nat :=
  l.foldl (fun a c => 10 * a + (c.toNat - 48)) 0

/-- Smallest positive real that rounds to `+inf` under IEEE-754
round-to-nearest-even: `2^1024 - 2^970`. -/
def f64OverflowThreshold : Nat := 2 ^ 1024 - 2 ^ 970

/-- Model of `str::parse::<serde_json::Number>()` restricted to the grammar of
normalized number strings `-? digits (. digits)?`: integer literals go to
u64 / i64 when in range, everything else falls back to a finite f64 value,
and a value at or beyond the f64 overflow threshold is a conversion error. -/
def serdeNumberFromString (s : List Char) : Option JNumber :=
  let (neg, rest) := match s with
    | '-' :: r => (true, r)
    | r => (false, r)
  let ni := scanDigits rest
  if ni = 0 then none
  else
    let intDigits := rest.take ni
    match rest.drop ni with
    | [] =>
      let v : Int := if neg then -(natOfDigits intDigits : Int) else (natOfDigits intDigits : Int)
      if 0 ≤ v ∧ v < 2 ^ 64 then some (.int v)
      else if -(2 ^ 63) ≤ v ∧ v < 0 then some (.int v)
      else if f64OverflowThreshold ≤ natOfDigits intDigits then none
      else some (.float v 0)
    | '.' :: fr =>
      let nf := scanDigits fr
      if nf = 0 then none
      else if fr.drop nf ≠ [] then none
      else
        let mantNat := natOfDigits (intDigits ++ fr.take nf)
        let mant : Int := if neg then -(mantNat : Int) else (mantNat : Int)
        if f64OverflowThreshold * 10 ^ nf ≤ mantNat then none
        else some (.float mant nf)
    | _ => none

/-! ## Keys, string literals, variables, path selections -/

/-- A single property-access token: a bare identifier or a quoted string.
The two forms are distinct AST variants (round-trip fidelity). -/
inductive Key where
  | field (name : List Char)
  | quoted (name : List Char)
  deriving Repr, DecidableEq

def Key.asText : Key → List Char
  | .field s => s
  | .quoted s => s

def Key.isQuotedForm : Key → Bool
  | .field _ => false
  | .quoted _ => true

/-- Modelled from the spec: key lookup equality (the `Key` equality and hash
implementation is outside the verified sources).  A bare key and a quoted key
with the same text are interchangeable wherever a key is used as a map
lookup, so lookup equality compares only the text. -/
def keyLookupEq (a b : Key) : Bool := a.asText == b.asText

/-- The single-quote character, kept out of character-literal syntax. -/
def squote : Char := Char.ofNat 39

/-- Scan a quoted string body after the opening quote `q`: returns the decoded
content and the number of characters consumed including the closing quote, or
`none` when the string is unterminated. -/
def scanStrBody (q : Char) : List Char → Option (List Char × Nat)
  | [] => none
  | c :: r =>
    if c = q then some ([], 1)
    else if c = '\\' then
      match r with
      | [] => none
      | e :: r2 =>
        match scanStrBody q r2 with
        | some (cs, n) => some (e :: cs, n + 2)
        | none => none
    else
      match scanStrBody q r with
      | some (cs, n) => some (c :: cs, n + 1)
      | none => none

/-- Modelled from the spec: `parse_string_literal` (outside the verified
sources).  Recognizes a single- or double-quoted string, decoding
backslash escape sequences, and returns the decoded text with its full
location including the quotes. -/
def parseStringLit (s : Span) : PResult (Parsed (List Char)) :=
  match s.text with
  | q :: rest =>
    if q = squote ∨ q = '"' then
      match scanStrBody q rest with
      | some (content, n) => .ok (s.advance (n + 1)) ⟨content, some (s.offset, s.offset + n + 1)⟩
      | none => .err
    else .err
  | [] => .err

/-- Modelled from the spec: `Key::parse` (outside the verified sources).
`Key ::= Identifier | QuotedString`, with ignorable text permitted around the
token; produces a located bare or quoted key, recoverable failure when
neither alternative matches. -/
def keyParse (s : Span) : PResult (Parsed Key) :=
  let s1 := skipWs s
  match parseStringLit s1 with
  | .ok r v => .ok (skipWs r) ⟨.quoted v.node, v.loc⟩
  | .fail => .fail
  | .err =>
    let n := scanIdent s1.text
    if n = 0 then .err
    else .ok (skipWs (s1.advance n)) ⟨.field (s1.text.take n), some (s1.offset, s1.offset + n)⟩

/-- Modelled from the spec: the closed set of recognized variable names, plus
an opaque pass-through for other names (the parser only records the name). -/
inductive KnownVariable where
  | args
  | this
  | env
  | root
  | named (name : List Char)
  deriving Repr, DecidableEq

def knownVariableOfName (n : List Char) : KnownVariable :=
  if n = ['a', 'r', 'g', 's'] then .args
  else if n = ['t', 'h', 'i', 's'] then .this
  else if n = ['e', 'n', 'v'] then .env
  else if n = [] then .root
  else .named n

/-- A path: a singly-linked chain of variable / key segments closed by the
empty terminator, always at the tail. -/
inductive PathList where
  | var (v : Parsed KnownVariable) (tail : Parsed PathList)
  | key (k : Parsed Key) (tail : Parsed PathList)
  | empty
  deriving Repr

structure PathSelection where
  path : Parsed PathList
  deriving Repr

/-- Modelled from the spec: the dotted tail of a path,
`PathTail ::= ("." Key PathTail) | ε`, with ignorable text around each dot;
a failed step backtracks to before any ignorable text it consumed. -/
def pathTailScan (fuel : Nat) (s : Span) : Span × Parsed PathList :=
  match fuel with
  | 0 => (s, ⟨.empty, none⟩)
  | fuel + 1 =>
    let s1 := skipWs s
    match parsedSpan ['.'] s1 with
    | .ok s2 _ =>
      match keyParse s2 with
      | .ok s3 k =>
        let (s4, tail) := pathTailScan fuel s3
        (s4, ⟨.key k tail, mergeLocs k.loc tail.loc⟩)
      | _ => (s, ⟨.empty, none⟩)
    | _ => (s, ⟨.empty, none⟩)

/-- Modelled from the spec: `PathSelection::parse` (outside the verified
sources).  `PathSelection ::= VarRef PathTail | "." Key PathTail | Key
PathTail` with `VarRef ::= "$" Identifier?`; a leading bare `.` means "start
from the ambient input root" and requires a key to follow; the location is
the merge of the segments' locations. -/
def pathSelectionParse (fuel : Nat) (s : Span) : PResult (Parsed PathSelection) :=
  match s.text with
  | '$' :: _ =>
    let s1 := skipWs (s.advance 1)
    let n := scanIdent s1.text
    let v : Parsed KnownVariable :=
      ⟨knownVariableOfName (s1.text.take n), some (s.offset, s1.offset + n)⟩
    let (s2, tail) := pathTailScan fuel (s1.advance n)
    let loc := mergeLocs v.loc tail.loc
    .ok s2 ⟨⟨⟨.var v tail, loc⟩⟩, loc⟩
  | _ =>
    match parsedSpan ['.'] s with
    | .ok s1 _ =>
      match keyParse s1 with
      | .ok s2 k =>
        let (s3, tail) := pathTailScan fuel s2
        let loc := mergeLocs k.loc tail.loc
        .ok s3 ⟨⟨⟨.key k tail, loc⟩⟩, loc⟩
      | .fail => .fail
      | .err => .err
    | _ =>
      match keyParse s with
      | .ok s1 k =>
        let (s2, tail) := pathTailScan fuel s1
        let loc := mergeLocs k.loc tail.loc
        .ok s2 ⟨⟨⟨.key k tail, loc⟩⟩, loc⟩
      | .fail => .fail
      | .err => .err

/-! ## The literal-expression AST -/

/-- The `LitExpr` AST: JSON-like literals plus path selections as a
first-class literal alternative.  Objects are an ordered mapping represented
as its entry sequence in insertion order (the `IndexMap` model below). -/
inductive LitExpr where
  | str (s : List Char)
  | num (n : JNumber)
  | bool (b : Bool)
  | null
  | obj (entries : List (Parsed Key × Parsed LitExpr))
  | arr (elems : List (Parsed LitExpr))
  | path (p : Parsed PathSelection)

/-- Model of `IndexMap::insert` (the ordered-map crate is outside the
verified sources): overwrite the value at an existing key without moving its
insertion position, otherwise append the new entry at the end.  Entries are
keyed by located keys whose equality ignores the location and treats bare and
quoted keys with the same text as the same key. -/
def indexMapInsert (m : List (Parsed Key × Parsed LitExpr)) (k : Parsed Key)
    (v : Parsed LitExpr) : List (Parsed Key × Parsed LitExpr) :=
  match m with
  | [] => [(k, v)]
  | (k0, v0) :: rest =>
    if keyLookupEq k0.node k.node then (k0, v) :: rest
    else (k0, v0) :: indexMapInsert rest k v

/-- The object construction in `parse_object`: insert the first property, then
each of the remaining properties in source order. -/
def buildObjectEntries (props : List (Parsed Key × Parsed LitExpr)) :
    List (Parsed Key × Parsed LitExpr) :=
  props.foldl (fun m kv => indexMapInsert m kv.1 kv.2) []

/-! ## Number parsing (`LitExpr::parse_number`) -/

/-- First number alternative:
`pair(recognize(many1 digit), opt(tuple(sc, ".", sc, recognize(many0 digit))))`,
producing the normalized digit text (a trailing bare `.` gains an implicit
`0`) and its merged location. -/
def numBranch1 (s : Span) : PResult (Parsed (List Char)) :=
  match digits1 s with
  | .err => .err
  | .fail => .fail
  | .ok s1 intP =>
    let s2 := skipWs s1
    match parsedSpan ['.'] s2 with
    | .fail => .fail
    | .err => .ok s1 ⟨intP.node, intP.loc⟩
    | .ok s3 dot =>
      match digits0 (skipWs s3) with
      | .ok s5 fracP =>
        let fracLoc := if fracP.node.length > 0 then fracP.loc else none
        let fullLoc := mergeLocs intP.loc (mergeLocs dot.loc fracLoc)
        let text := intP.node ++ ['.'] ++ (if fracP.node = [] then ['0'] else fracP.node)
        .ok s5 ⟨text, fullLoc⟩
      | .err => .err
      | .fail => .fail

/-- Second number alternative:
`tuple(sc, ".", sc, recognize(many1 digit))`, producing the normalized digit
text (a leading bare `.` gains an implicit `0`) and its merged location. -/
def numBranch2 (s : Span) : PResult (Parsed (List Char)) :=
  let s1 := skipWs s
  match parsedSpan ['.'] s1 with
  | .err => .err
  | .fail => .fail
  | .ok s2 dot =>
    match digits1 (skipWs s2) with
    | .err => .err
    | .fail => .fail
    | .ok s3 fracP => .ok s3 ⟨'0' :: '.' :: fracP.node, mergeLocs dot.loc fracP.loc⟩

/-- The tuple matched by `parse_number` before the final conversion:
ignorable text, an optional `-` sign, ignorable text, one of the two digit
alternatives, ignorable text.  Returns the optional located sign and the
normalized digit text. -/
def numberTuple (s : Span) : PResult (Option (Parsed Unit) × Parsed (List Char)) :=
  let s1 := skipWs s
  let signAndRest : Option (Parsed Unit) × Span :=
    match parsedSpan ['-'] s1 with
    | .ok r t => (some t, r)
    | _ => (none, s1)
  let s3 := skipWs signAndRest.2
  match numBranch1 s3 with
  | .ok r v => .ok (skipWs r) (signAndRest.1, v)
  | .fail => .fail
  | .err =>
    match numBranch2 s3 with
    | .ok r v => .ok (skipWs r) (signAndRest.1, v)
    | .fail => .fail
    | .err => .err

/-- The full textual form handed to the numeric conversion: the sign, when
present, prepended to the normalized digit text. -/
def numberText (neg : Option (Parsed Unit)) (num : Parsed (List Char)) : List Char :=
  (if neg.isSome then ['-'] else []) ++ num.node

/-- `LitExpr::parse_number`: the number tuple followed by the final numeric
conversion of the normalized text; a conversion error is a fatal failure
(`nom::Err::Failure`), so no sibling alternative is tried. -/
def parseNumber (s : Span) : PResult (Parsed LitExpr) :=
  match numberTuple s with
  | .err => .err
  | .fail => .fail
  | .ok rest (neg, num) =>
    match serdeNumberFromString (numberText neg num) with
    | some n =>
      let loc := mergeLocs (match neg with | some t => t.loc | none => none) num.loc
      .ok rest ⟨.num n, loc⟩
    | none => .fail

/-! ## The recursive grammar (`LitExpr::parse`)

The grammar is mutually recursive in the source; here each production is a
non-recursive function over `rec`, the parser for nested literal
expressions, and a single fuel-indexed fixpoint ties the knot.  Fuel is a
modelling artifact only: the top-level entry point supplies fuel that is
always sufficient for the input length. -/

/-- `LitProperty ::= Key ":" LitExpr`. -/
def parseProperty (rec : Span → PResult (Parsed LitExpr)) (s : Span) :
    PResult (Parsed Key × Parsed LitExpr) :=
  match keyParse s with
  | .err => .err
  | .fail => .fail
  | .ok s1 k =>
    match charTok ':' s1 with
    | .err => .err
    | .fail => .fail
    | .ok s2 _ =>
      match rec s2 with
      | .ok s3 v => .ok s3 (k, v)
      | .err => .err
      | .fail => .fail

/-- `many0(preceded(char(','), parse_property))`: further properties, each
introduced by a comma; a comma whose property does not follow is left
unconsumed (it may be the trailing comma). -/
def parsePropsRest (rec : Span → PResult (Parsed LitExpr)) :
    Nat → Span → PResult (List (Parsed Key × Parsed LitExpr))
  | 0, _ => .err
  | fuel + 1, s =>
    match charTok ',' s with
    | .err => .ok s []
    | .fail => .ok s []
    | .ok s1 _ =>
      match parseProperty rec s1 with
      | .fail => .fail
      | .err => .ok s []
      | .ok s2 p =>
        match parsePropsRest rec fuel s2 with
        | .ok s3 ps => .ok s3 (p :: ps)
        | .err => .err
        | .fail => .fail

/-- `LitExpr::parse_object`: `"{" (LitProperty ("," LitProperty)* ","?)? "}"`
with ignorable text around the tokens; the node's location is the merge of
the two braces' locations. -/
def parseObject (rec : Span → PResult (Parsed LitExpr)) (fuel : Nat) (s : Span) :
    PResult (Parsed LitExpr) :=
  let s1 := skipWs s
  match parsedSpan ['{'] s1 with
  | .err => .err
  | .fail => .fail
  | .ok s2 openB =>
    let s3 := skipWs s2
    let propsRes : PResult (List (Parsed Key × Parsed LitExpr)) :=
      match parseProperty rec s3 with
      | .fail => .fail
      | .err => .ok s3 []
      | .ok s4 p1 =>
        match parsePropsRest rec fuel s4 with
        | .ok s5 ps =>
          match charTok ',' s5 with
          | .ok s6 _ => .ok s6 (p1 :: ps)
          | _ => .ok s5 (p1 :: ps)
        | .err => .err
        | .fail => .fail
    match propsRes with
    | .fail => .fail
    | .err => .err
    | .ok s7 props =>
      match parsedSpan ['}'] (skipWs s7) with
      | .ok s8 closeB =>
        .ok (skipWs s8) ⟨.obj (buildObjectEntries props), mergeLocs openB.loc closeB.loc⟩
      | .err => .err
      | .fail => .fail

/-- `many0(preceded(char(','), LitExpr::parse))`: further array elements, each
introduced by a comma; a comma whose element does not follow is left
unconsumed (it may be the trailing comma). -/
def parseElemsRest (rec : Span → PResult (Parsed LitExpr)) :
    Nat → Span → PResult (List (Parsed LitExpr))
  | 0, _ => .err
  | fuel + 1, s =>
    match charTok ',' s with
    | .err => .ok s []
    | .fail => .ok s []
    | .ok s1 _ =>
      match rec s1 with
      | .fail => .fail
      | .err => .ok s []
      | .ok s2 e =>
        match parseElemsRest rec fuel s2 with
        | .ok s3 es => .ok s3 (e :: es)
        | .err => .err
        | .fail => .fail

/-- `LitExpr::parse_array`: `"[" (LitExpr ("," LitExpr)* ","?)? "]"` with
ignorable text around the tokens; the node's location is the merge of the two
brackets' locations. -/
def parseArray (rec : Span → PResult (Parsed LitExpr)) (fuel : Nat) (s : Span) :
    PResult (Parsed LitExpr) :=
  let s1 := skipWs s
  match parsedSpan ['['] s1 with
  | .err => .err
  | .fail => .fail
  | .ok s2 openB =>
    let s3 := skipWs s2
    let elemsRes : PResult (List (Parsed LitExpr)) :=
      match rec s3 with
      | .fail => .fail
      | .err => .ok s3 []
      | .ok s4 e1 =>
        match parseElemsRest rec fuel s4 with
        | .ok s5 es =>
          match charTok ',' s5 with
          | .ok s6 _ => .ok s6 (e1 :: es)
          | _ => .ok s5 (e1 :: es)
        | .err => .err
        | .fail => .fail
    match elemsRes with
    | .fail => .fail
    | .err => .err
    | .ok s7 elems =>
      match parsedSpan [']'] (skipWs s7) with
      | .ok s8 closeB =>
        .ok (skipWs s8) ⟨.arr elems, mergeLocs openB.loc closeB.loc⟩
      | .err => .err
      | .fail => .fail

/-- The ordered alternatives of `LitExpr::parse`: string, number, `true`,
`false`, `null`, object, array, path selection.  A recoverable error moves to
the next alternative; a fatal failure aborts immediately. -/
def litAlt (rec : Span → PResult (Parsed LitExpr)) (fuel : Nat) (s1 : Span) :
    PResult (Parsed LitExpr) :=
  match parseStringLit s1 with
  | .ok rest v => .ok rest ⟨.str v.node, v.loc⟩
  | .fail => .fail
  | .err =>
    match parseNumber s1 with
    | .ok rest v => .ok rest v
    | .fail => .fail
    | .err =>
      match parsedSpan ['t', 'r', 'u', 'e'] s1 with
      | .ok rest t => .ok rest ⟨.bool true, t.loc⟩
      | .fail => .fail
      | .err =>
        match parsedSpan ['f', 'a', 'l', 's', 'e'] s1 with
        | .ok rest t => .ok rest ⟨.bool false, t.loc⟩
        | .fail => .fail
        | .err =>
          match parsedSpan ['n', 'u', 'l', 'l'] s1 with
          | .ok rest t => .ok rest ⟨.null, t.loc⟩
          | .fail => .fail
          | .err =>
            match parseObject rec fuel s1 with
            | .ok rest v => .ok rest v
            | .fail => .fail
            | .err =>
              match parseArray rec fuel s1 with
              | .ok rest v => .ok rest v
              | .fail => .fail
              | .err =>
                match pathSelectionParse fuel s1 with
                | .ok rest p => .ok rest ⟨.path p, p.node.path.loc⟩
                | .fail => .fail
                | .err => .err

/-- `LitExpr::parse`: ignorable text, then the ordered alternatives, then
ignorable text; nested literal expressions are parsed with one unit of fuel
less. -/
def litParse : Nat → Span → PResult (Parsed LitExpr)
  | 0, _ => .err
  | fuel + 1, s =>
    match litAlt (litParse fuel) fuel (skipWs s) with
    | .ok rest v => .ok (skipWs rest) v
    | .err => .err
    | .fail => .fail

/-! ## The token view of an input

The grammar is whitespace-insensitive outside quoted strings: every decision
`LitExpr::parse` makes is a function of the sequence of tokens of its input.
The lexer below makes that token sequence explicit; it is the yardstick both
for the fuel of the top-level entry point and for the whitespace-insensitivity
results. -/

/-- A lexical token: punctuation, a maximal identifier-started word, a maximal
digit run, a terminated quoted string (by decoded content), or an unterminated
quoted string swallowing the rest of the input verbatim. -/
inductive Tok where
  | punct (c : Char)
  | word (w : List Char)
  | num (ds : List Char)
  | str (content : List Char)
  | badStr (raw : List Char)
  deriving Repr, DecidableEq

/-- Length of a `#` comment: everything up to and including the newline, or
the whole rest of the input. -/
def scanCmt : List Char → Nat
  | [] => 0
  | c :: r => if c = '\n' then 1 else 1 + scanCmt r

/-- The lexer, fueled for kernel computability: one unit of fuel per token or
skipped ignorable run, so `l.length + 1` always suffices. -/
def lexF : Nat → List Char → List Tok
  | 0, _ => []
  | fuel + 1, l =>
    match l with
    | [] => []
    | c :: r =>
      if isWsChar c then lexF fuel r
      else if c = '#' then lexF fuel (r.drop (scanCmt r))
      else if isAlphaU c then
        .word (c :: r.take (scanWord r)) :: lexF fuel (r.drop (scanWord r))
      else if isDigitChar c then
        .num (c :: r.take (scanDigits r)) :: lexF fuel (r.drop (scanDigits r))
      else if c = squote ∨ c = '"' then
        match scanStrBody c r with
        | some (content, n) => .str content :: lexF fuel (r.drop n)
        | none => [.badStr (c :: r)]
      else .punct c :: lexF fuel r

/-- The token sequence of an input. -/
def lex (l : List Char) : List Tok := lexF (l.length + 1) l

/-- Fuel that is always sufficient for an input of `n` tokens: every unit of
grammar nesting or loop iteration consumes at least one whole token. -/
def litFuel (n : Nat) : Nat := 4 * n + 16

/-- Top-level entry point: `LitExpr::parse` on a whole input.  The fuel is a
modelling artifact (the source recursion terminates because every nesting
level and loop iteration consumes input); it is measured on the token
sequence, which bounds the nesting depth and the loop iterations. -/
def litParseTop (l : List Char) : PResult (Parsed LitExpr) :=
  litParse (litFuel (lex l).length) ⟨l, 0⟩

/-! ## Location stripping (`strip_loc`) -/

/-- Location is metadata, not identity: replace every location by `none`. -/
def PathList.strip : PathList → PathList
  | .var ⟨v, _⟩ ⟨t, _⟩ => .var ⟨v, none⟩ ⟨t.strip, none⟩
  | .key ⟨k, _⟩ ⟨t, _⟩ => .key ⟨k, none⟩ ⟨t.strip, none⟩
  | .empty => .empty

def PathSelection.strip (p : PathSelection) : PathSelection :=
  ⟨⟨p.path.node.strip, none⟩⟩

mutual

/-- `strip_loc` on a literal expression: the same tree with every location
replaced by `none`. -/
def LitExpr.strip : LitExpr → LitExpr
  | .str s => .str s
  | .num n => .num n
  | .bool b => .bool b
  | .null => .null
  | .obj es => .obj (stripEntries es)
  | .arr es => .arr (stripElems es)
  | .path ⟨⟨⟨p, _⟩⟩, _⟩ => .path ⟨⟨⟨p.strip, none⟩⟩, none⟩

def stripEntries : List (Parsed Key × Parsed LitExpr) → List (Parsed Key × Parsed LitExpr)
  | [] => []
  | (⟨k, _⟩, ⟨v, _⟩) :: rest => (⟨k, none⟩, ⟨v.strip, none⟩) :: stripEntries rest

def stripElems : List (Parsed LitExpr) → List (Parsed LitExpr)
  | [] => []
  | ⟨v, _⟩ :: rest => ⟨v.strip, none⟩ :: stripElems rest

end

/-- Parse and strip locations: the observable AST shape of an input, with
`none` for both kinds of parse failure. -/
def litParseStrip (l : List Char) : Option LitExpr :=
  match litParseTop l with
  | .ok _ v => some v.node.strip
  | _ => none

/-! ## Free-variable extraction (`external_var_paths`) -/

/-- Modelled from the spec: `PathSelection`'s `external_var_paths`
implementation is outside the verified sources.  Per the extraction contract,
every `Path` leaf contributes its embedded path selection. -/
def PathSelection.externalVarPaths (p : PathSelection) : List PathSelection := [p]

mutual

/-- `external_var_paths` for `LitExpr`: primitives contribute nothing,
objects and arrays concatenate their children's results in order, and a
`Path` leaf delegates to the path selection. -/
def LitExpr.externalVarPaths : LitExpr → List PathSelection
  | .str _ => []
  | .num _ => []
  | .bool _ => []
  | .null => []
  | .obj es => evpEntries es
  | .arr es => evpElems es
  | .path ⟨p, _⟩ => p.externalVarPaths

def evpEntries : List (Parsed Key × Parsed LitExpr) → List PathSelection
  | [] => []
  | (_, ⟨v, _⟩) :: rest => v.externalVarPaths ++ evpEntries rest

def evpElems : List (Parsed LitExpr) → List PathSelection
  | [] => []
  | ⟨v, _⟩ :: rest => v.externalVarPaths ++ evpElems rest

end

mutual

/-- The claim's specification of extraction, written from its words: the list
of all `PathSelection` values sitting at `Path` leaves, in left-to-right
depth-first order over the AST (object values in insertion order, array
elements in order), nothing for primitives. -/
def specPathLeaves : LitExpr → List PathSelection
  | .str _ => []
  | .num _ => []
  | .bool _ => []
  | .null => []
  | .obj es => specPathLeavesEntries es
  | .arr es => specPathLeavesElems es
  | .path ⟨p, _⟩ => [p]

def specPathLeavesEntries : List (Parsed Key × Parsed LitExpr) → List PathSelection
  | [] => []
  | (_, ⟨v, _⟩) :: rest => specPathLeaves v ++ specPathLeavesEntries rest

def specPathLeavesElems : List (Parsed LitExpr) → List PathSelection
  | [] => []
  | ⟨v, _⟩ :: rest => specPathLeaves v ++ specPathLeavesElems rest

end

/-! ## Equality of literal expressions (derived `PartialEq` model) -/

/-- Model of `serde_json::Number` equality: same variant and same numeric
value (floats compare by their exact decimal value). -/
def jnumEq : JNumber → JNumber → Bool
  | .int a, .int b => a == b
  | .float m p, .float n q => m * (10 : Int) ^ q == n * (10 : Int) ^ p
  | _, _ => false

/-- Location-insensitive equality of path lists: located segments compare by
node only. -/
def pathListBeq : PathList → PathList → Bool
  | .var v t, .var v2 t2 => v.node == v2.node && pathListBeq t.node t2.node
  | .key k t, .key k2 t2 => k.node == k2.node && pathListBeq t.node t2.node
  | .empty, .empty => true
  | _, _ => false

mutual

/-- The derived `PartialEq` on `LitExpr`, fuel-indexed so that the nested
recursion through the unordered object comparison stays executable: located
values compare by node only, objects compare as `IndexMap` equality (same
size, and every entry of the left map is bound to an equal value in the right
map, insertion order ignored), arrays compare pointwise. -/
def litEqF (fuel : Nat) : LitExpr → LitExpr → Bool
  | .str a, .str b => a == b
  | .num a, .num b => jnumEq a b
  | .bool a, .bool b => a == b
  | .null, .null => true
  | .obj a, .obj b =>
    (match fuel with
     | 0 => false
     | fuel + 1 => a.length == b.length && objSubF fuel a b)
  | .arr a, .arr b =>
    (match fuel with
     | 0 => false
     | fuel + 1 => arrEqF fuel a b)
  | .path a, .path b => pathListBeq a.node.path.node b.node.path.node
  | _, _ => false

/-- Every entry of `a` is bound, at its key, to an equal value in `b`. -/
def objSubF (fuel : Nat) (a b : List (Parsed Key × Parsed LitExpr)) : Bool :=
  match fuel with
  | 0 => false
  | fuel + 1 =>
    match a with
    | [] => true
    | (k, v) :: rest => findValF fuel k.node v.node b && objSubF fuel rest b

/-- `IndexMap::get` followed by value comparison: find the entry of `b` whose
key equals `k` and compare its value with `v`. -/
def findValF (fuel : Nat) (k : Key) (v : LitExpr) (b : List (Parsed Key × Parsed LitExpr)) : Bool :=
  match fuel with
  | 0 => false
  | fuel + 1 =>
    match b with
    | [] => false
    | (k0, v0) :: rest =>
      if keyLookupEq k0.node k then litEqF fuel v v0.node else findValF fuel k v rest

def arrEqF (fuel : Nat) (a b : List (Parsed LitExpr)) : Bool :=
  match fuel with
  | 0 => false
  | fuel + 1 =>
    match a, b with
    | [], [] => true
    | x :: xs, y :: ys => litEqF fuel x.node y.node && arrEqF fuel xs ys
    | _, _ => false

end

/-! ## Helpers for stating claims -/

/-- `IndexMap::get` on the entry list: the first (and, by the insert
invariant, only) entry whose key looks up equal to `k`. -/
def indexMapGet (m : List (Parsed Key × Parsed LitExpr)) (k : Key) : Option (Parsed LitExpr) :=
  match m with
  | [] => none
  | (k0, v0) :: rest => if keyLookupEq k0.node k then some v0 else indexMapGet rest k

/-- The value bound to `k` by the last property with that key, if any. -/
def lastBinding (props : List (Parsed Key × Parsed LitExpr)) (k : Key) : Option (Parsed LitExpr) :=
  match props with
  | [] => none
  | (k0, v0) :: rest =>
    match lastBinding rest k with
    | some v => some v
    | none => if keyLookupEq k0.node k then some v0 else none

/-- The key sequence of an entry list, in iteration order. -/
def keysOf (m : List (Parsed Key × Parsed LitExpr)) : List Key :=
  m.map (fun kv => kv.1.node)

/-- First-occurrence deduplication of a key sequence (by lookup equality):
drop any key that already occurred. -/
def dedupKeysAux (seen : List Key) : List Key → List Key
  | [] => []
  | k :: rest =>
    if seen.any (fun s => keyLookupEq s k) then dedupKeysAux seen rest
    else k :: dedupKeysAux (k :: seen) rest

def dedupKeys (l : List Key) : List Key := dedupKeysAux [] l

mutual

/-- A structural size measure used to pick sufficient fuel. -/
def LitExpr.fsize : LitExpr → Nat
  | .str _ => 1
  | .num _ => 1
  | .bool _ => 1
  | .null => 1
  | .obj es => 1 + fsizeEntries es
  | .arr es => 1 + fsizeElems es
  | .path _ => 1

def fsizeEntries : List (Parsed Key × Parsed LitExpr) → Nat
  | [] => 0
  | (_, ⟨v, _⟩) :: rest => 1 + v.fsize + fsizeEntries rest

def fsizeElems : List (Parsed LitExpr) → Nat
  | [] => 0
  | ⟨v, _⟩ :: rest => 1 + v.fsize + fsizeElems rest

end

/-- `LitExpr` equality, the derived `PartialEq` model, with enough fuel for
the two trees being compared. -/
def litEq (x y : LitExpr) : Bool := litEqF ((x.fsize + 1) * (y.fsize + 1)) x y

def LitExpr.isPathLit : LitExpr → Bool
  | .path _ => true
  | _ => false

/-- The parsed node of a whole input, when it parses. -/
def nodeOfParse (l : List Char) : Option LitExpr :=
  match litParseTop l with
  | .ok _ v => some v.node
  | _ => none

/-- The location of the parsed node of a whole input, when it parses. -/
def locOfParse (l : List Char) : Option (Option Loc) :=
  match litParseTop l with
  | .ok _ v => some v.loc
  | _ => none

/-- The key sequence of a parsed object literal, in iteration order. -/
def objKeysOfParse (l : List Char) : Option (List Key) :=
  match litParseTop l with
  | .ok _ v =>
    match v.node with
    | .obj es => some (keysOf es)
    | _ => none
  | _ => none

/-- The extracted external variable paths of a parsed input, stripped of
locations. -/
def evpOfParse (l : List Char) : Option (List PathSelection) :=
  match litParseTop l with
  | .ok _ v => some (v.node.externalVarPaths.map PathSelection.strip)
  | _ => none

/-! ## Concrete inputs used by the claims -/

def srcTrueKw : List Char := ['t', 'r', 'u', 'e']

/-- The object literal with two variable paths from the extraction claim. -/
def srcEvpObj : List Char :=
  ['{', 'a', ':', ' ', '$', 'a', 'r', 'g', 's', '.', 'a', ',', ' ',
   'b', ':', ' ', '$', 't', 'h', 'i', 's', '.', 'b', '}']

def srcDupKeys : List Char :=
  ['{', 'a', ':', ' ', '1', ',', ' ', 'b', ':', ' ', '2', ',', ' ', 'a', ':', ' ', '3', '}']

def srcArrTrailing : List Char := ['[', '1', ',', ' ', '2', ',', ']']

def srcArrPlain : List Char := ['[', '1', ',', ' ', '2', ']']

def srcObjTrailing : List Char :=
  ['{', 'a', ':', ' ', '1', ',', ' ', 'b', ':', ' ', '2', ',', '}']

def srcObjPlain : List Char :=
  ['{', 'a', ':', ' ', '1', ',', ' ', 'b', ':', ' ', '2', '}']

def srcArrTight : List Char := ['[', '1', ',', '2', ']']

def srcArrSpaced : List Char := ['[', ' ', '1', ' ', ',', ' ', '2', ' ', ']']

def srcObjSpaced : List Char := ['{', ' ', 'a', ':', ' ', '1', ' ', '}']

def srcObjBareKey : List Char := ['{', 'a', ':', ' ', '1', '}']

def srcObjQuotedKey : List Char := ['{', '"', 'a', '"', ':', ' ', '1', '}']

def srcObjSingleQuotedKey : List Char := ['{', squote, 'a', squote, ':', ' ', '1', '}']

/-- An object with a bare key `a` and then a quoted key `"a"`. -/
def srcMixedKeyForms : List Char :=
  ['{', 'a', ':', ' ', '1', ',', ' ', '"', 'a', '"', ':', ' ', '2', '}']

def srcObjAB : List Char :=
  ['{', 'a', ':', ' ', '1', ',', ' ', 'b', ':', ' ', '2', '}']

def srcObjBA : List Char :=
  ['{', 'b', ':', ' ', '2', ',', ' ', 'a', ':', ' ', '1', '}']

/-- The stripped `$args.a` path selection. -/
def psArgsA : PathSelection :=
  ⟨⟨.var ⟨.args, none⟩ ⟨.key ⟨.field ['a'], none⟩ ⟨.empty, none⟩, none⟩, none⟩⟩

/-- The stripped `$this.b` path selection. -/
def psThisB : PathSelection :=
  ⟨⟨.var ⟨.this, none⟩ ⟨.key ⟨.field ['b'], none⟩ ⟨.empty, none⟩, none⟩, none⟩⟩

/-! ## Decimal numerals (the number grammar's surface forms, for C1) -/

/-- The body of an optionally signed decimal numeral:
digits, digits-dot-digits (the fraction may be empty), or dot-digits. -/
inductive NumForm where
  | intOnly (ds : List Char)
  | intFrac (ds : List Char) (fs : List Char)
  | fracOnly (fs : List Char)

/-- Well-formedness: the digit runs hold only digits, and the mandatory runs
are nonempty (`.` alone has no digits at all and is excluded). -/
def NumForm.wfB : NumForm → Bool
  | .intOnly ds => !ds.isEmpty && ds.all isDigitChar
  | .intFrac ds fs => !ds.isEmpty && ds.all isDigitChar && fs.all isDigitChar
  | .fracOnly fs => !fs.isEmpty && fs.all isDigitChar

/-- The numeral body's source text. -/
def NumForm.render : NumForm → List Char
  | .intOnly ds => ds
  | .intFrac ds fs => ds ++ '.' :: fs
  | .fracOnly fs => '.' :: fs

/-- The canonical textual form: a trailing bare `.` gains an implicit `0`
after it, a leading bare `.` gains an implicit `0` before it. -/
def NumForm.normalized : NumForm → List Char
  | .intOnly ds => ds
  | .intFrac ds fs => ds ++ ['.'] ++ (if fs = [] then ['0'] else fs)
  | .fracOnly fs => '0' :: '.' :: fs

/-- An optionally signed decimal numeral. -/
structure Numeral where
  neg : Bool
  form : NumForm

def Numeral.wfB (n : Numeral) : Bool := n.form.wfB

/-- The numeral's source text, with arbitrary whitespace `w` between the sign
and the digits (and before the digits when there is no sign). -/
def Numeral.render (n : Numeral) (w : List Char) : List Char :=
  (if n.neg then ['-'] else []) ++ (w ++ n.form.render)

/-- The canonical textual form handed to the numeric conversion. -/
def Numeral.normalized (n : Numeral) : List Char :=
  (if n.neg then ['-'] else []) ++ n.form.normalized

/-! ## Scanner and span lemmas -/

/-- The head of the text, if any, is not ignorable. -/
def headNotIgn : List Char → Prop
  | [] => True
  | c :: _ => isWsChar c = false ∧ c ≠ '#'

/-- The head of the text, if any, is not a digit. -/
def headNotDigit : List Char → Prop
  | [] => True
  | c :: _ => isDigitChar c = false

/-- The head of the text, if any, is not a word character. -/
def headNotWord : List Char → Prop
  | [] => True
  | c :: _ => isWordChar c = false

/-- `c` lexes as one-character punctuation: not ignorable, not a word
character, not a quote. -/
def punctClass (c : Char) : Prop :=
  isWsChar c = false ∧ c ≠ '#' ∧ isAlphaU c = false ∧ isDigitChar c = false
  ∧ ¬(c = squote ∨ c = '"')

/-- Correspondence of two parse results: the same constructor, and for success
token-equal remaining inputs with `veq`-related values. -/
def RelPR {α : Type} (veq : α → α → Prop) : PResult α → PResult α → Prop
  | .ok r₁ v₁, .ok r₂ v₂ => lex r₁.text = lex r₂.text ∧ veq v₁ v₂
  | .err, .err => True
  | .fail, .fail => True
  | _, _ => False

theorem scanIgn_drop_eq_zero : ∀ (l : List Char) (b : Bool),
    scanIgn false (l.drop (scanIgn b l)) = 0 := by
  intro l
  induction l with
  | nil => intro b; cases b <;> rfl
  | cons c r ih =>
    intro b
    cases b with
    | true =>
      by_cases hc : c = '\n'
      · have h1 : scanIgn true (c :: r) = scanIgn false r + 1 := by
          simp [scanIgn, hc, Nat.add_comm]
        rw [h1, List.drop_succ_cons]; exact ih _
      · have h1 : scanIgn true (c :: r) = scanIgn true r + 1 := by
          simp [scanIgn, hc, Nat.add_comm]
        rw [h1, List.drop_succ_cons]; exact ih _
    | false =>
      by_cases hw : isWsChar c
      · have h1 : scanIgn false (c :: r) = scanIgn false r + 1 := by
          simp [scanIgn, hw, Nat.add_comm]
        rw [h1, List.drop_succ_cons]; exact ih _
      · by_cases hh : c = '#'
        · subst hh
          have h1 : scanIgn false ('#' :: r) = scanIgn true r + 1 := by
            simp [scanIgn, show isWsChar '#' = false from rfl, Nat.add_comm]
          rw [h1, List.drop_succ_cons]; exact ih _
        · have h1 : scanIgn false (c :: r) = 0 := by simp [scanIgn, hw, hh]
          rw [h1, List.drop_zero, h1]

theorem skipWs_idem (s : Span) : skipWs (skipWs s) = skipWs s := by
  simp [skipWs, Span.advance, scanIgnorable, scanIgn_drop_eq_zero]

theorem scanIgnorable_append (w : List Char) (r : List Char)
    (hw : w.all isWsChar = true) :
    scanIgnorable (w ++ r) = w.length + scanIgnorable r := by
  induction w with
  | nil => simp [scanIgnorable]
  | cons c t ih =>
    simp only [List.all_cons, Bool.and_eq_true] at hw
    have h1 : scanIgnorable (c :: (t ++ r)) = 1 + scanIgnorable (t ++ r) := by
      simp [scanIgnorable, scanIgn, hw.1]
    rw [List.cons_append, h1, ih hw.2]
    simp only [List.length_cons]
    omega

theorem scanIgnorable_eq_zero (r : List Char) (h : headNotIgn r) :
    scanIgnorable r = 0 := by
  cases r with
  | nil => rfl
  | cons c t =>
    obtain ⟨h1, h2⟩ := h
    simp [scanIgnorable, scanIgn, h1, h2]

theorem skipWs_append (w r : List Char) (o : Nat)
    (hw : w.all isWsChar = true) (hr : headNotIgn r) :
    skipWs ⟨w ++ r, o⟩ = ⟨r, o + w.length⟩ := by
  simp only [skipWs, Span.advance, scanIgnorable_append w r hw,
    scanIgnorable_eq_zero r hr, Nat.add_zero]
  congr 1
  exact List.drop_left w r

theorem skipWs_of_headNotIgn (r : List Char) (o : Nat) (hr : headNotIgn r) :
    skipWs ⟨r, o⟩ = ⟨r, o⟩ := by
  simp [skipWs, Span.advance, scanIgnorable_eq_zero r hr]

theorem scanDigits_append (ds r : List Char) (h : ds.all isDigitChar = true) :
    scanDigits (ds ++ r) = ds.length + scanDigits r := by
  induction ds with
  | nil => simp
  | cons c t ih =>
    simp only [List.all_cons, Bool.and_eq_true] at h
    have h1 : scanDigits (c :: (t ++ r)) = 1 + scanDigits (t ++ r) := by
      simp [scanDigits, h.1]
    rw [List.cons_append, h1, ih h.2]
    simp only [List.length_cons]
    omega

theorem scanDigits_eq_zero (r : List Char) (h : headNotDigit r) :
    scanDigits r = 0 := by
  cases r with
  | nil => rfl
  | cons c t => simp [scanDigits, show isDigitChar c = false from h]

theorem digits1_append (ds r : List Char) (o : Nat)
    (hds : ds.all isDigitChar = true) (hne : ds ≠ []) (hr : headNotDigit r) :
    digits1 ⟨ds ++ r, o⟩ = .ok ⟨r, o + ds.length⟩ ⟨ds, some (o, o + ds.length)⟩ := by
  have hscan : scanDigits (ds ++ r) = ds.length := by
    rw [scanDigits_append ds r hds, scanDigits_eq_zero r hr]
    omega
  have hlen : ds.length ≠ 0 := by
    cases ds with
    | nil => exact absurd rfl hne
    | cons _ _ => simp
  simp only [digits1, hscan]
  rw [if_neg hlen]
  show PResult.ok (Span.advance ⟨ds ++ r, o⟩ ds.length) _ = _
  simp only [Span.advance, List.drop_left, List.take_left]

theorem digits0_append (ds r : List Char) (o : Nat)
    (hds : ds.all isDigitChar = true) (hr : headNotDigit r) :
    digits0 ⟨ds ++ r, o⟩ = .ok ⟨r, o + ds.length⟩ ⟨ds, some (o, o + ds.length)⟩ := by
  have hscan : scanDigits (ds ++ r) = ds.length := by
    rw [scanDigits_append ds r hds, scanDigits_eq_zero r hr]
    omega
  simp only [digits0, hscan, Span.advance, List.drop_left, List.take_left]

theorem digits1_ok_head (s : Span) (r : Span) (p : Parsed (List Char))
    (h : digits1 s = .ok r p) : ∃ c t, s.text = c :: t ∧ isDigitChar c = true := by
  rw [digits1] at h
  split at h
  · exact absurd h (by simp)
  · rename_i hnz
    cases hs : s.text with
    | nil => rw [hs] at hnz; exact (hnz rfl).elim
    | cons c t =>
      refine ⟨c, t, rfl, ?_⟩
      cases hd : isDigitChar c
      · rw [hs] at hnz
        exact absurd (by simp [scanDigits, hd]) hnz
      · rfl

theorem parsedSpan_single_ok (c : Char) (r : List Char) (o : Nat) :
    parsedSpan [c] ⟨c :: r, o⟩ = .ok ⟨r, o + 1⟩ ⟨(), some (o, o + 1)⟩ := by
  simp [parsedSpan, listIsPrefix, Span.advance]

theorem parsedSpan_single_err (c : Char) (s : Span)
    (h : ∀ t, s.text ≠ c :: t) : parsedSpan [c] s = .err := by
  rw [parsedSpan, if_neg]
  intro hpre
  cases hs : s.text with
  | nil => rw [hs] at hpre; exact absurd hpre (by simp [listIsPrefix])
  | cons b bs =>
    rw [hs] at hpre
    simp only [listIsPrefix, Bool.and_eq_true, decide_eq_true_eq] at hpre
    exact h bs (by rw [hs, hpre.1])

theorem parsedSpan_ok_shape (tok : List Char) (s : Span) (r : Span) (p : Parsed Unit)
    (h : parsedSpan tok s = .ok r p) :
    listIsPrefix tok s.text = true
    ∧ r = s.advance tok.length ∧ p = ⟨(), some (s.offset, s.offset + tok.length)⟩ := by
  rw [parsedSpan] at h
  split at h
  · rename_i hp
    refine ⟨hp, ?_, ?_⟩ <;> cases h <;> rfl
  · exact absurd h (by simp)

theorem listIsPrefix_single (c : Char) (l : List Char)
    (h : listIsPrefix [c] l = true) : ∃ t, l = c :: t := by
  cases l with
  | nil => exact absurd h (by simp [listIsPrefix])
  | cons b bs =>
    simp only [listIsPrefix, Bool.and_eq_true, decide_eq_true_eq] at h
    exact ⟨bs, by rw [h.1]⟩

/-! ## The lexer: basic properties -/

theorem lexF_congr : (f : Nat) → ∀ (g : Nat) (l : List Char),
    l.length < f → l.length < g → lexF f l = lexF g l
  | 0 => fun g l hf _ => absurd hf (by omega)
  | f + 1 => fun g l hf hg => by
    obtain ⟨g2, rfl⟩ : ∃ g2, g = g2 + 1 := ⟨g - 1, by omega⟩
    cases l with
    | nil => rfl
    | cons c r =>
      have hr : r.length < f ∧ r.length < g2 := by
        simp only [List.length_cons] at hf hg; omega
      show lexF (f + 1) (c :: r) = lexF (g2 + 1) (c :: r)
      simp only [lexF]
      by_cases h1 : isWsChar c
      · simp only [h1, if_true]
        exact lexF_congr f g2 r hr.1 hr.2
      · simp only [h1, Bool.false_eq_true, if_false]
        by_cases h2 : c = '#'
        · simp only [h2, if_true]
          have hd : (r.drop (scanCmt r)).length ≤ r.length := by
            rw [List.length_drop]; omega
          exact lexF_congr f g2 _ (by omega) (by omega)
        · simp only [h2, if_false]
          by_cases h3 : isAlphaU c
          · simp only [h3, if_true]
            have hd : (r.drop (scanWord r)).length ≤ r.length := by
              rw [List.length_drop]; omega
            rw [lexF_congr f g2 _ (by omega) (by omega)]
          · simp only [h3, Bool.false_eq_true, if_false]
            by_cases h4 : isDigitChar c
            · simp only [h4, if_true]
              have hd : (r.drop (scanDigits r)).length ≤ r.length := by
                rw [List.length_drop]; omega
              rw [lexF_congr f g2 _ (by omega) (by omega)]
            · simp only [h4, Bool.false_eq_true, if_false]
              by_cases h5 : c = squote ∨ c = '"'
              · simp only [h5, if_true]
                cases hs : scanStrBody c r with
                | some p =>
                  obtain ⟨content, n⟩ := p
                  dsimp only
                  have hd : (r.drop n).length ≤ r.length := by
                    rw [List.length_drop]; omega
                  rw [lexF_congr f g2 (r.drop n) (by omega) (by omega)]
                | none => rfl
              · simp only [h5, if_false]
                rw [lexF_congr f g2 r hr.1 hr.2]

/-! Character-class facts. -/

theorem wordChar_classes (c : Char) (h : isWordChar c = true) :
    isWsChar c = false ∧ c ≠ '#' := by
  simp only [isWordChar, isAlphaU, isDigitChar, Bool.or_eq_true,
    Bool.and_eq_true, decide_eq_true_eq] at h
  constructor
  · cases hw : isWsChar c with
    | false => rfl
    | true =>
      exfalso
      simp only [isWsChar, Bool.or_eq_true, decide_eq_true_eq] at hw
      rcases h with ((⟨h1, h2⟩ | ⟨h1, h2⟩) | h1) | ⟨h1, h2⟩
      · omega
      · omega
      · subst h1; exact absurd hw (by decide)
      · omega
  · intro hc
    subst hc
    rcases h with ((⟨h1, h2⟩ | ⟨h1, h2⟩) | h1) | ⟨h1, h2⟩
    · revert h1; decide
    · revert h1; decide
    · revert h1; decide
    · revert h1; decide

theorem digit_not_alphaU (c : Char) (h : isDigitChar c = true) :
    isAlphaU c = false := by
  simp only [isDigitChar, Bool.and_eq_true, decide_eq_true_eq] at h
  cases ha : isAlphaU c with
  | false => rfl
  | true =>
    exfalso
    simp only [isAlphaU, Bool.or_eq_true, Bool.and_eq_true,
      decide_eq_true_eq] at ha
    rcases ha with (⟨h1, h2⟩ | ⟨h1, h2⟩) | h1
    · omega
    · omega
    · subst h1; exact absurd h (by decide)

theorem quote_classes (q : Char) (h : q = squote ∨ q = '"') :
    isWsChar q = false ∧ q ≠ '#' ∧ isAlphaU q = false ∧ isDigitChar q = false := by
  rcases h with h | h <;> subst h <;> exact ⟨by decide, by decide, by decide, by decide⟩

/-! One-step unfoldings of the lexer, restoring `lex` on the remaining
input. -/

theorem lexF_cons (fuel : Nat) (c : Char) (r : List Char) :
    lexF (fuel + 1) (c :: r) =
      if isWsChar c then lexF fuel r
      else if c = '#' then lexF fuel (r.drop (scanCmt r))
      else if isAlphaU c then
        .word (c :: r.take (scanWord r)) :: lexF fuel (r.drop (scanWord r))
      else if isDigitChar c then
        .num (c :: r.take (scanDigits r)) :: lexF fuel (r.drop (scanDigits r))
      else if c = squote ∨ c = '"' then
        match scanStrBody c r with
        | some (content, n) => .str content :: lexF fuel (r.drop n)
        | none => [.badStr (c :: r)]
      else .punct c :: lexF fuel r := rfl

theorem lex_cons_fuel (c : Char) (r : List Char) :
    lex (c :: r) = lexF (r.length + 1 + 1) (c :: r) := by
  simp only [lex, List.length_cons]

theorem lex_ws (c : Char) (r : List Char) (h : isWsChar c = true) :
    lex (c :: r) = lex r := by
  rw [lex_cons_fuel, lexF_cons, if_pos h]
  rfl

theorem lex_comment (r : List Char) :
    lex ('#' :: r) = lex (r.drop (scanCmt r)) := by
  rw [lex_cons_fuel, lexF_cons,
    if_neg (show ¬(isWsChar '#' = true) by decide), if_pos rfl]
  exact lexF_congr _ _ _ (by rw [List.length_drop]; omega)
    (Nat.lt_succ_self _)

theorem lex_word (c : Char) (r : List Char) (h : isAlphaU c = true) :
    lex (c :: r)
      = .word (c :: r.take (scanWord r)) :: lex (r.drop (scanWord r)) := by
  have hw : isWordChar c = true := by simp [isWordChar, h]
  have hc := wordChar_classes c hw
  rw [lex_cons_fuel, lexF_cons, if_neg (by rw [hc.1]; exact Bool.false_ne_true),
    if_neg hc.2, if_pos h]
  congr 1
  exact lexF_congr _ _ _ (by rw [List.length_drop]; omega) (Nat.lt_succ_self _)

theorem lex_digit (c : Char) (r : List Char) (h : isDigitChar c = true) :
    lex (c :: r)
      = .num (c :: r.take (scanDigits r)) :: lex (r.drop (scanDigits r)) := by
  have hw : isWordChar c = true := by simp [isWordChar, h]
  have hc := wordChar_classes c hw
  rw [lex_cons_fuel, lexF_cons, if_neg (by rw [hc.1]; exact Bool.false_ne_true),
    if_neg hc.2, if_neg (by rw [digit_not_alphaU c h]; exact Bool.false_ne_true),
    if_pos h]
  congr 1
  exact lexF_congr _ _ _ (by rw [List.length_drop]; omega) (Nat.lt_succ_self _)

theorem lex_strOk (q : Char) (r content : List Char) (n : Nat)
    (hq : q = squote ∨ q = '"') (hs : scanStrBody q r = some (content, n)) :
    lex (q :: r) = .str content :: lex (r.drop n) := by
  obtain ⟨h1, h2, h3, h4⟩ := quote_classes q hq
  rw [lex_cons_fuel, lexF_cons, if_neg (by rw [h1]; exact Bool.false_ne_true),
    if_neg h2, if_neg (by rw [h3]; exact Bool.false_ne_true),
    if_neg (by rw [h4]; exact Bool.false_ne_true), if_pos hq, hs]
  dsimp only
  congr 1
  exact lexF_congr _ _ _ (by rw [List.length_drop]; omega) (Nat.lt_succ_self _)

theorem lex_strBad (q : Char) (r : List Char)
    (hq : q = squote ∨ q = '"') (hs : scanStrBody q r = none) :
    lex (q :: r) = [.badStr (q :: r)] := by
  obtain ⟨h1, h2, h3, h4⟩ := quote_classes q hq
  rw [lex_cons_fuel, lexF_cons, if_neg (by rw [h1]; exact Bool.false_ne_true),
    if_neg h2, if_neg (by rw [h3]; exact Bool.false_ne_true),
    if_neg (by rw [h4]; exact Bool.false_ne_true), if_pos hq, hs]

theorem lex_punct (c : Char) (r : List Char) (h : punctClass c) :
    lex (c :: r) = .punct c :: lex r := by
  obtain ⟨h1, h2, h3, h4, h5⟩ := h
  rw [lex_cons_fuel, lexF_cons, if_neg (by rw [h1]; exact Bool.false_ne_true),
    if_neg h2, if_neg (by rw [h3]; exact Bool.false_ne_true),
    if_neg (by rw [h4]; exact Bool.false_ne_true), if_neg h5]
  rfl

/-! Ignorable text is invisible to the lexer. -/

theorem scanIgn_true_eq (r : List Char) :
    scanIgn true r = scanCmt r + scanIgn false (r.drop (scanCmt r)) := by
  induction r with
  | nil => rfl
  | cons c t ih =>
    by_cases hc : c = '\n'
    · subst hc
      simp [scanIgn, scanCmt]
    · have h1 : scanIgn true (c :: t) = 1 + scanIgn true t := by
        simp [scanIgn, hc, Nat.add_comm]
      have h2 : scanCmt (c :: t) = 1 + scanCmt t := by
        simp [scanCmt, hc, Nat.add_comm]
      have h3 : (c :: t).drop (1 + scanCmt t) = t.drop (scanCmt t) := by
        rw [Nat.add_comm, List.drop_succ_cons]
      rw [h1, h2, h3, ih]
      omega

theorem lex_drop_ign : (n : Nat) → ∀ (l : List Char), l.length ≤ n →
    lex (l.drop (scanIgnorable l)) = lex l
  | 0 => fun l h => by
    have h0 : l = [] := List.eq_nil_of_length_eq_zero (by omega)
    subst h0; rfl
  | n + 1 => fun l h => by
    cases l with
    | nil => rfl
    | cons c r =>
      by_cases h1 : isWsChar c
      · have hsc : scanIgnorable (c :: r) = 1 + scanIgnorable r := by
          simp [scanIgnorable, scanIgn, h1, Nat.add_comm]
        have h3 : (c :: r).drop (1 + scanIgnorable r) = r.drop (scanIgnorable r) := by
          rw [Nat.add_comm, List.drop_succ_cons]
        rw [hsc, h3, lex_drop_ign n r (by simp only [List.length_cons] at h; omega),
          lex_ws c r h1]
      · by_cases h2 : c = '#'
        · subst h2
          have hsc : scanIgnorable ('#' :: r) = 1 + scanIgn true r := by
            simp [scanIgnorable, scanIgn,
              show isWsChar '#' = false from by decide, Nat.add_comm]
          have h3 : ('#' :: r).drop (1 + scanIgn true r) = r.drop (scanIgn true r) := by
            rw [Nat.add_comm, List.drop_succ_cons]
          rw [hsc, h3, scanIgn_true_eq]
          have h4 : r.drop (scanCmt r + scanIgn false (r.drop (scanCmt r)))
              = (r.drop (scanCmt r)).drop (scanIgnorable (r.drop (scanCmt r))) := by
            rw [List.drop_drop]
            congr 1
          rw [h4, lex_drop_ign n (r.drop (scanCmt r))
            (by rw [List.length_drop]; simp only [List.length_cons] at h; omega),
            lex_comment]
        · have hsc : scanIgnorable (c :: r) = 0 := by
            simp [scanIgnorable, scanIgn, h1, h2]
          rw [hsc, List.drop_zero]

/-- Skipping ignorable text leaves the token sequence unchanged. -/
theorem lex_skipWs (s : Span) : lex (skipWs s).text = lex s.text :=
  lex_drop_ign s.text.length s.text le_rfl

/-- A span that has skipped its ignorable text is normalized. -/
theorem skipWs_norm (s : Span) : scanIgnorable (skipWs s).text = 0 :=
  scanIgn_drop_eq_zero s.text false

/-! Maximal-run facts for words and digits. -/

theorem scanWord_append (w r : List Char) (h : w.all isWordChar = true) :
    scanWord (w ++ r) = w.length + scanWord r := by
  induction w with
  | nil => simp
  | cons c t ih =>
    simp only [List.all_cons, Bool.and_eq_true] at h
    have h1 : scanWord (c :: (t ++ r)) = 1 + scanWord (t ++ r) := by
      simp [scanWord, h.1]
    rw [List.cons_append, h1, ih h.2]
    simp only [List.length_cons]
    omega

theorem scanWord_eq_zero (r : List Char) (h : headNotWord r) :
    scanWord r = 0 := by
  cases r with
  | nil => rfl
  | cons c t => simp [scanWord, show isWordChar c = false from h]

theorem scanWord_all (l : List Char) (h : l.all isWordChar = true) :
    scanWord l = l.length := by
  have := scanWord_append l [] h
  simpa using this

theorem scanWord_take_all (r : List Char) :
    (r.take (scanWord r)).all isWordChar = true := by
  induction r with
  | nil => rfl
  | cons c t ih =>
    cases hw : isWordChar c with
    | true =>
      have h1 : scanWord (c :: t) = 1 + scanWord t := by simp [scanWord, hw]
      rw [h1, Nat.add_comm, List.take_succ_cons, List.all_cons, hw, ih]
      rfl
    | false =>
      have h1 : scanWord (c :: t) = 0 := by simp [scanWord, hw]
      rw [h1]
      rfl

theorem scanWord_drop_head (r : List Char) :
    headNotWord (r.drop (scanWord r)) := by
  induction r with
  | nil => trivial
  | cons c t ih =>
    cases hw : isWordChar c with
    | true =>
      have h1 : scanWord (c :: t) = 1 + scanWord t := by simp [scanWord, hw]
      rw [h1, Nat.add_comm, List.drop_succ_cons]
      exact ih
    | false =>
      have h1 : scanWord (c :: t) = 0 := by simp [scanWord, hw]
      rw [h1, List.drop_zero]
      exact hw

theorem scanDigits_all (l : List Char) (h : l.all isDigitChar = true) :
    scanDigits l = l.length := by
  have := scanDigits_append l [] h
  simpa using this

theorem scanDigits_take_all (r : List Char) :
    (r.take (scanDigits r)).all isDigitChar = true := by
  induction r with
  | nil => rfl
  | cons c t ih =>
    cases hw : isDigitChar c with
    | true =>
      have h1 : scanDigits (c :: t) = 1 + scanDigits t := by simp [scanDigits, hw]
      rw [h1, Nat.add_comm, List.take_succ_cons, List.all_cons, hw, ih]
      rfl
    | false =>
      have h1 : scanDigits (c :: t) = 0 := by simp [scanDigits, hw]
      rw [h1]
      rfl

theorem scanDigits_drop_head (r : List Char) :
    headNotDigit (r.drop (scanDigits r)) := by
  induction r with
  | nil => trivial
  | cons c t ih =>
    cases hw : isDigitChar c with
    | true =>
      have h1 : scanDigits (c :: t) = 1 + scanDigits t := by simp [scanDigits, hw]
      rw [h1, Nat.add_comm, List.drop_succ_cons]
      exact ih
    | false =>
      have h1 : scanDigits (c :: t) = 0 := by simp [scanDigits, hw]
      rw [h1, List.drop_zero]
      exact hw

theorem scanDigits_le (l : List Char) : scanDigits l ≤ l.length := by
  induction l with
  | nil => exact Nat.le_refl 0
  | cons c t ih =>
    cases hd : isDigitChar c with
    | true =>
      have h1 : scanDigits (c :: t) = 1 + scanDigits t := by simp [scanDigits, hd]
      rw [h1]
      simp only [List.length_cons]
      omega
    | false =>
      have h1 : scanDigits (c :: t) = 0 := by simp [scanDigits, hd]
      rw [h1]
      exact Nat.zero_le _

theorem scanDigits_append2 (a b : List Char) :
    scanDigits (a ++ b)
      = scanDigits a + (if a.drop (scanDigits a) = [] then scanDigits b else 0) := by
  induction a with
  | nil => simp [scanDigits]
  | cons c t ih =>
    cases hd : isDigitChar c with
    | true =>
      have h1 : scanDigits (c :: (t ++ b)) = 1 + scanDigits (t ++ b) := by
        simp [scanDigits, hd]
      have h2 : scanDigits (c :: t) = 1 + scanDigits t := by simp [scanDigits, hd]
      have h3 : (c :: t).drop (1 + scanDigits t) = t.drop (scanDigits t) := by
        rw [Nat.add_comm, List.drop_succ_cons]
      rw [List.cons_append, h1, ih, h2, h3]
      omega
    | false =>
      have h1 : scanDigits (c :: (t ++ b)) = 0 := by simp [scanDigits, hd]
      have h2 : scanDigits (c :: t) = 0 := by simp [scanDigits, hd]
      rw [List.cons_append, h1, h2]
      simp

theorem headNotWord_notDigit (u : List Char) (h : headNotWord u) :
    headNotDigit u := by
  cases u with
  | nil => trivial
  | cons c t =>
    have hw : isWordChar c = false := h
    cases hd : isDigitChar c with
    | false => exact hd
    | true =>
      exfalso
      have : isWordChar c = true := by simp [isWordChar, hd]
      rw [hw] at this
      exact Bool.noConfusion this

theorem all_isWordChar_drop (l : List Char) (n : Nat)
    (h : l.all isWordChar = true) : (l.drop n).all isWordChar = true := by
  simp only [List.all_eq_true] at h ⊢
  intro x hx
  exact h x (List.mem_of_mem_drop hx)

/-- A tag of word characters matches a prefix of `w ++ u` exactly when it
matches a prefix of the word run `w` alone. -/
theorem prefix_thru_word : (tag : List Char) → ∀ (w u : List Char),
    tag.all isWordChar = true → headNotWord u →
    listIsPrefix tag (w ++ u) = listIsPrefix tag w
  | [] => fun _ _ _ _ => rfl
  | a :: as => fun w u htag hu => by
    simp only [List.all_cons, Bool.and_eq_true] at htag
    cases w with
    | nil =>
      show listIsPrefix (a :: as) u = false
      cases u with
      | nil => rfl
      | cons x xs =>
        have hx : isWordChar x = false := hu
        have hax : ¬(a = x) := by
          intro hax
          rw [hax] at htag
          rw [hx] at htag
          exact Bool.noConfusion htag.1
        show (decide (a = x) && listIsPrefix as xs) = false
        rw [decide_eq_false hax]
        rfl
    | cons b bs =>
      show (decide (a = b) && listIsPrefix as (bs ++ u))
        = (decide (a = b) && listIsPrefix as bs)
      rw [prefix_thru_word as bs u htag.2 hu]

theorem listIsPrefix_decomp : (tag : List Char) → ∀ (l : List Char),
    listIsPrefix tag l = true → l = tag ++ l.drop tag.length
  | [] => fun l _ => by simp
  | a :: as => fun l h => by
    cases l with
    | nil => exact absurd h (by simp [listIsPrefix])
    | cons b bs =>
      have h2 : (decide (a = b) && listIsPrefix as bs) = true := h
      simp only [Bool.and_eq_true, decide_eq_true_eq] at h2
      have h3 := listIsPrefix_decomp as bs h2.2
      simp only [List.length_cons, List.drop_succ_cons, List.cons_append]
      rw [h2.1, ← h3]

/-- Lexing distributes over the boundary between a run of word characters and
a non-word continuation. -/
theorem lexAppendWord : (n : Nat) → ∀ (p u : List Char), p.length ≤ n →
    p.all isWordChar = true → headNotWord u → lex (p ++ u) = lex p ++ lex u
  | 0 => fun p u hn _ _ => by
    have h0 : p = [] := List.eq_nil_of_length_eq_zero (by omega)
    subst h0
    rw [List.nil_append, show lex [] = [] from rfl, List.nil_append]
  | n + 1 => fun p u hn hall hu => by
    cases p with
    | nil => rw [List.nil_append, show lex [] = [] from rfl, List.nil_append]
    | cons c p2 =>
      simp only [List.all_cons, Bool.and_eq_true] at hall
      by_cases ha : isAlphaU c
      · rw [List.cons_append, lex_word c (p2 ++ u) ha, lex_word c p2 ha]
        have h1 : scanWord (p2 ++ u) = p2.length := by
          rw [scanWord_append p2 u hall.2, scanWord_eq_zero u hu]
          omega
        have h2 : scanWord p2 = p2.length := scanWord_all p2 hall.2
        rw [h1, h2, List.take_left, List.drop_left, List.take_length,
          List.drop_length]
        show _ = (Tok.word (c :: p2) :: lex []) ++ lex u
        rw [show lex [] = [] from rfl]
        rfl
      · have hd : isDigitChar c = true := by
          have h3 := hall.1
          simp only [isWordChar, Bool.or_eq_true] at h3
          rcases h3 with h3 | h3
          · exact absurd h3 ha
          · exact h3
        rw [List.cons_append, lex_digit c (p2 ++ u) hd, lex_digit c p2 hd]
        have hsd := scanDigits_append2 p2 u
        by_cases he : p2.drop (scanDigits p2) = []
        · have hk : scanDigits p2 = p2.length := by
            have h5 := List.length_drop (scanDigits p2) p2
            rw [he] at h5
            have h6 := scanDigits_le p2
            simp only [List.length_nil] at h5
            omega
          have h1 : scanDigits (p2 ++ u) = p2.length := by
            rw [hsd, if_pos he, hk,
              scanDigits_eq_zero u (headNotWord_notDigit u hu)]
            omega
          rw [h1, hk, List.take_left, List.drop_left, List.take_length,
            List.drop_length]
          show _ = (Tok.num (c :: p2) :: lex []) ++ lex u
          rw [show lex [] = [] from rfl]
          rfl
        · have h1 : scanDigits (p2 ++ u) = scanDigits p2 := by
            rw [hsd, if_neg he]
            omega
          have hk := scanDigits_le p2
          have ht : (p2 ++ u).take (scanDigits p2) = p2.take (scanDigits p2) := by
            rw [List.take_append_eq_append_take, Nat.sub_eq_zero_of_le hk,
              List.take_zero, List.append_nil]
          have hd2 : (p2 ++ u).drop (scanDigits p2) = p2.drop (scanDigits p2) ++ u := by
            rw [List.drop_append_eq_append_drop, Nat.sub_eq_zero_of_le hk,
              List.drop_zero]
          rw [h1, ht, hd2]
          have hrec := lexAppendWord n (p2.drop (scanDigits p2)) u
            (by
              rw [List.length_drop]
              simp only [List.length_cons] at hn
              omega)
            (all_isWordChar_drop p2 (scanDigits p2) hall.2) hu
          rw [hrec]
          rfl

/-- Forward decomposition of a normalized input by its first token. -/
theorem lexHead (t : List Char) (h : scanIgnorable t = 0) :
    (t = [] ∧ lex t = [])
    ∨ (∃ c r, t = c :: r ∧ punctClass c ∧ lex t = .punct c :: lex r)
    ∨ (∃ wc wr u, t = (wc :: wr) ++ u ∧ isAlphaU wc = true
        ∧ (wc :: wr).all isWordChar = true ∧ headNotWord u
        ∧ lex t = .word (wc :: wr) :: lex u)
    ∨ (∃ ds u, t = ds ++ u ∧ ds ≠ [] ∧ ds.all isDigitChar = true
        ∧ headNotDigit u ∧ lex t = .num ds :: lex u)
    ∨ (∃ q r content n, t = q :: r ∧ (q = squote ∨ q = '"')
        ∧ scanStrBody q r = some (content, n)
        ∧ lex t = .str content :: lex (r.drop n))
    ∨ (∃ q r, t = q :: r ∧ (q = squote ∨ q = '"') ∧ scanStrBody q r = none
        ∧ lex t = [.badStr (q :: r)]) := by
  cases t with
  | nil => exact Or.inl ⟨rfl, rfl⟩
  | cons c r =>
    have hnw : isWsChar c = false := by
      cases hw : isWsChar c with
      | false => rfl
      | true => exfalso; simp [scanIgnorable, scanIgn, hw] at h
    have hnh : c ≠ '#' := by
      intro hc
      subst hc
      simp [scanIgnorable, scanIgn,
        show isWsChar '#' = false from by decide] at h
    by_cases ha : isAlphaU c
    · right; right; left
      refine ⟨c, r.take (scanWord r), r.drop (scanWord r), ?_, ha, ?_,
        scanWord_drop_head r, lex_word c r ha⟩
      · rw [List.cons_append, List.take_append_drop]
      · rw [List.all_cons, scanWord_take_all r]
        simp [isWordChar, ha]
    · by_cases hd : isDigitChar c
      · right; right; right; left
        refine ⟨c :: r.take (scanDigits r), r.drop (scanDigits r), ?_,
          by simp, ?_, scanDigits_drop_head r, lex_digit c r hd⟩
        · rw [List.cons_append, List.take_append_drop]
        · rw [List.all_cons, scanDigits_take_all r]
          simp [hd]
      · have ha2 : isAlphaU c = false := by
          cases hh : isAlphaU c with
          | false => rfl
          | true => exact absurd hh ha
        have hd2 : isDigitChar c = false := by
          cases hh : isDigitChar c with
          | false => rfl
          | true => exact absurd hh hd
        by_cases hq : c = squote ∨ c = '"'
        · cases hs : scanStrBody c r with
          | some p =>
            obtain ⟨content, n⟩ := p
            right; right; right; right; left
            exact ⟨c, r, content, n, rfl, hq, hs, lex_strOk c r content n hq hs⟩
          | none =>
            right; right; right; right; right
            exact ⟨c, r, rfl, hq, hs, lex_strBad c r hq hs⟩
        · right; left
          exact ⟨c, r, rfl, ⟨hnw, hnh, ha2, hd2, hq⟩,
            lex_punct c r ⟨hnw, hnh, ha2, hd2, hq⟩⟩

/-- Two normalized token-equal inputs agree on their first token, with
identically shaped heads and token-equal continuations. -/
theorem headSync (t₁ t₂ : List Char)
    (h1 : scanIgnorable t₁ = 0) (h2 : scanIgnorable t₂ = 0)
    (he : lex t₁ = lex t₂) :
    (t₁ = [] ∧ t₂ = [])
    ∨ (∃ c r₁ r₂, t₁ = c :: r₁ ∧ t₂ = c :: r₂ ∧ punctClass c ∧ lex r₁ = lex r₂)
    ∨ (∃ wc wr u₁ u₂, t₁ = (wc :: wr) ++ u₁ ∧ t₂ = (wc :: wr) ++ u₂
        ∧ isAlphaU wc = true ∧ (wc :: wr).all isWordChar = true
        ∧ headNotWord u₁ ∧ headNotWord u₂ ∧ lex u₁ = lex u₂)
    ∨ (∃ ds u₁ u₂, t₁ = ds ++ u₁ ∧ t₂ = ds ++ u₂ ∧ ds ≠ []
        ∧ ds.all isDigitChar = true ∧ headNotDigit u₁ ∧ headNotDigit u₂
        ∧ lex u₁ = lex u₂)
    ∨ (∃ q₁ q₂ r₁ r₂ content n₁ n₂, t₁ = q₁ :: r₁ ∧ t₂ = q₂ :: r₂
        ∧ (q₁ = squote ∨ q₁ = '"') ∧ (q₂ = squote ∨ q₂ = '"')
        ∧ scanStrBody q₁ r₁ = some (content, n₁)
        ∧ scanStrBody q₂ r₂ = some (content, n₂)
        ∧ lex (r₁.drop n₁) = lex (r₂.drop n₂))
    ∨ (t₁ = t₂ ∧ ∃ q r, t₁ = q :: r ∧ (q = squote ∨ q = '"')
        ∧ scanStrBody q r = none) := by
  rcases lexHead t₁ h1 with ⟨he1, hl1⟩ | ⟨c, r, he1, hp, hl1⟩
    | ⟨wc, wr, u, he1, hwc, hall, hu, hl1⟩ | ⟨ds, u, he1, hne, hall, hu, hl1⟩
    | ⟨q, r, content, n, he1, hq, hs, hl1⟩ | ⟨q, r, he1, hq, hs, hl1⟩ <;>
  rcases lexHead t₂ h2 with ⟨he2, hl2⟩ | ⟨c2, r2, he2, hp2, hl2⟩
    | ⟨wc2, wr2, u2, he2, hwc2, hall2, hu2, hl2⟩
    | ⟨ds2, u2, he2, hne2, hall2, hu2, hl2⟩
    | ⟨q2, r2, content2, n2, he2, hq2, hs2, hl2⟩ | ⟨q2, r2, he2, hq2, hs2, hl2⟩ <;>
  rw [hl1, hl2] at he
  -- t₁ head: nil
  · exact Or.inl ⟨he1, he2⟩
  · injection he
  · injection he
  · injection he
  · injection he
  · injection he
  -- t₁ head: punct
  · injection he
  · injection he with hh ht
    injection hh with hc
    subst hc
    exact Or.inr (Or.inl ⟨c, r, r2, he1, he2, hp, ht⟩)
  · injection he with hh ht
    injection hh
  · injection he with hh ht
    injection hh
  · injection he with hh ht
    injection hh
  · injection he with hh ht
    injection hh
  -- t₁ head: word
  · injection he
  · injection he with hh ht
    injection hh
  · injection he with hh ht
    injection hh with hw
    injection hw with hwceq hwreq
    subst hwceq
    subst hwreq
    exact Or.inr (Or.inr (Or.inl ⟨wc, wr, u, u2, he1, he2, hwc, hall, hu, hu2, ht⟩))
  · injection he with hh ht
    injection hh
  · injection he with hh ht
    injection hh
  · injection he with hh ht
    injection hh
  -- t₁ head: num
  · injection he
  · injection he with hh ht
    injection hh
  · injection he with hh ht
    injection hh
  · injection he with hh ht
    injection hh with hds
    subst hds
    exact Or.inr (Or.inr (Or.inr (Or.inl ⟨ds, u, u2, he1, he2, hne, hall, hu, hu2, ht⟩)))
  · injection he with hh ht
    injection hh
  · injection he with hh ht
    injection hh
  -- t₁ head: str
  · injection he
  · injection he with hh ht
    injection hh
  · injection he with hh ht
    injection hh
  · injection he with hh ht
    injection hh
  · injection he with hh ht
    injection hh with hcon
    subst hcon
    exact Or.inr (Or.inr (Or.inr (Or.inr (Or.inl
      ⟨q, q2, r, r2, content, n, n2, he1, he2, hq, hq2, hs, hs2, ht⟩))))
  · injection he with hh ht
    injection hh
  -- t₁ head: badStr
  · injection he
  · injection he with hh ht
    injection hh
  · injection he with hh ht
    injection hh
  · injection he with hh ht
    injection hh
  · injection he with hh ht
    injection hh
  · injection he with hh ht
    injection hh with hraw
    refine Or.inr (Or.inr (Or.inr (Or.inr (Or.inr
      ⟨?_, q, r, he1, hq, hs⟩))))
    rw [he1, he2]
    exact hraw

/-! ## Correspondence of the primitive parsers on token-equal inputs -/

theorem alphaU_not_digit (c : Char) (h : isAlphaU c = true) :
    isDigitChar c = false := by
  cases hd : isDigitChar c with
  | false => rfl
  | true => rw [digit_not_alphaU c hd] at h; exact Bool.noConfusion h

theorem alphaU_not_quote (c : Char) (h : isAlphaU c = true) :
    ¬(c = squote ∨ c = '"') := by
  intro hq
  obtain ⟨-, -, h3, -⟩ := quote_classes c hq
  rw [h3] at h
  exact Bool.noConfusion h

theorem digit_not_quote (c : Char) (h : isDigitChar c = true) :
    ¬(c = squote ∨ c = '"') := by
  intro hq
  obtain ⟨-, -, -, h4⟩ := quote_classes c hq
  rw [h4] at h
  exact Bool.noConfusion h

theorem RelPR_ok_left {α : Type} {veq : α → α → Prop} {r : Span} {v : α}
    {x : PResult α} (h : RelPR veq (.ok r v) x) :
    ∃ r₂ v₂, x = .ok r₂ v₂ ∧ lex r.text = lex r₂.text ∧ veq v v₂ := by
  cases x with
  | ok r₂ v₂ => exact ⟨r₂, v₂, rfl, h.1, h.2⟩
  | err => exact h.elim
  | fail => exact h.elim

theorem RelPR_err_left {α : Type} {veq : α → α → Prop} {x : PResult α}
    (h : RelPR veq .err x) : x = .err := by
  cases x with
  | ok r₂ v₂ => exact h.elim
  | err => rfl
  | fail => exact h.elim

theorem RelPR_fail_left {α : Type} {veq : α → α → Prop} {x : PResult α}
    (h : RelPR veq .fail x) : x = .fail := by
  cases x with
  | ok r₂ v₂ => exact h.elim
  | err => exact h.elim
  | fail => rfl

theorem charTok_cons (c x : Char) (r : List Char) (o : Nat) :
    charTok c ⟨x :: r, o⟩ = if x = c then .ok ⟨r, o + 1⟩ () else .err := by
  simp [charTok, Span.advance]

/-- Two normalized token-equal inputs agree on whether they start with the
punctuation character `c`, with token-equal continuations when they do. -/
theorem headChar_sync (c : Char) (hcw : isWordChar c = false)
    (hcq : ¬(c = squote ∨ c = '"'))
    (t₁ t₂ : List Char) (h1 : scanIgnorable t₁ = 0) (h2 : scanIgnorable t₂ = 0)
    (he : lex t₁ = lex t₂) :
    (∃ r₁ r₂, t₁ = c :: r₁ ∧ t₂ = c :: r₂ ∧ lex r₁ = lex r₂)
    ∨ ((∀ t, t₁ ≠ c :: t) ∧ (∀ t, t₂ ≠ c :: t)) := by
  rcases headSync t₁ t₂ h1 h2 he with ⟨hn1, hn2⟩
    | ⟨c0, r₁, r₂, hT1, hT2, hp, hr⟩
    | ⟨wc, wr, u₁, u₂, hT1, hT2, hwc, hall, hu1, hu2, huu⟩
    | ⟨ds, u₁, u₂, hT1, hT2, hne, hall, hu1, hu2, huu⟩
    | ⟨q₁, q₂, r₁, r₂, content, n₁, n₂, hT1, hT2, hq1, hq2, hs1, hs2, hrr⟩
    | ⟨hT12, q, r, hT1, hq, hsn⟩
  · subst hn1; subst hn2
    exact Or.inr ⟨fun t ht => List.noConfusion ht, fun t ht => List.noConfusion ht⟩
  · by_cases hcc : c0 = c
    · subst hcc
      exact Or.inl ⟨r₁, r₂, hT1, hT2, hr⟩
    · refine Or.inr ⟨fun t ht => ?_, fun t ht => ?_⟩
      · rw [hT1] at ht
        injection ht with hx hxs
        exact hcc hx
      · rw [hT2] at ht
        injection ht with hx hxs
        exact hcc hx
  · have hwcw : isWordChar wc = true := by
      simp only [List.all_cons, Bool.and_eq_true] at hall
      exact hall.1
    have hne2 : wc ≠ c := fun hh => by
      rw [hh, hcw] at hwcw; exact Bool.noConfusion hwcw
    refine Or.inr ⟨fun t ht => ?_, fun t ht => ?_⟩
    · rw [hT1, List.cons_append] at ht
      injection ht with hx hxs
      exact hne2 hx
    · rw [hT2, List.cons_append] at ht
      injection ht with hx hxs
      exact hne2 hx
  · obtain ⟨d, ds2, rfl⟩ : ∃ d ds2, ds = d :: ds2 := by
      cases ds with
      | nil => exact absurd rfl hne
      | cons d ds2 => exact ⟨d, ds2, rfl⟩
    have hdw : isWordChar d = true := by
      simp only [List.all_cons, Bool.and_eq_true] at hall
      simp [isWordChar, hall.1]
    have hne2 : d ≠ c := fun hh => by
      rw [hh, hcw] at hdw; exact Bool.noConfusion hdw
    refine Or.inr ⟨fun t ht => ?_, fun t ht => ?_⟩
    · rw [hT1, List.cons_append] at ht
      injection ht with hx hxs
      exact hne2 hx
    · rw [hT2, List.cons_append] at ht
      injection ht with hx hxs
      exact hne2 hx
  · have hne1 : q₁ ≠ c := fun hh => hcq (hh ▸ hq1)
    have hne2 : q₂ ≠ c := fun hh => hcq (hh ▸ hq2)
    refine Or.inr ⟨fun t ht => ?_, fun t ht => ?_⟩
    · rw [hT1] at ht
      injection ht with hx hxs
      exact hne1 hx
    · rw [hT2] at ht
      injection ht with hx hxs
      exact hne2 hx
  · have hne1 : q ≠ c := fun hh => hcq (hh ▸ hq)
    refine Or.inr ⟨fun t ht => ?_, fun t ht => ?_⟩
    · rw [hT1] at ht
      injection ht with hx hxs
      exact hne1 hx
    · rw [← hT12, hT1] at ht
      injection ht with hx hxs
      exact hne1 hx

theorem charTok_sync (c : Char) (hcw : isWordChar c = false)
    (hcq : ¬(c = squote ∨ c = '"'))
    (s₁ s₂ : Span) (h1 : scanIgnorable s₁.text = 0)
    (h2 : scanIgnorable s₂.text = 0) (he : lex s₁.text = lex s₂.text) :
    RelPR (fun _ _ => True) (charTok c s₁) (charTok c s₂) := by
  obtain ⟨t₁, o₁⟩ := s₁
  obtain ⟨t₂, o₂⟩ := s₂
  rcases headChar_sync c hcw hcq t₁ t₂ h1 h2 he with
    ⟨r₁, r₂, hT1, hT2, hr⟩ | ⟨hn1, hn2⟩
  · subst hT1; subst hT2
    rw [charTok_cons, charTok_cons, if_pos rfl, if_pos rfl]
    exact ⟨hr, trivial⟩
  · have e1 : charTok c ⟨t₁, o₁⟩ = .err := by
      cases ht : t₁ with
      | nil => rfl
      | cons x xs =>
        rw [charTok_cons, if_neg (fun hh => hn1 xs (by rw [ht, hh]))]
    have e2 : charTok c ⟨t₂, o₂⟩ = .err := by
      cases ht : t₂ with
      | nil => rfl
      | cons x xs =>
        rw [charTok_cons, if_neg (fun hh => hn2 xs (by rw [ht, hh]))]
    rw [e1, e2]
    trivial

theorem parsedSpanPunct_sync (c : Char) (hcw : isWordChar c = false)
    (hcq : ¬(c = squote ∨ c = '"'))
    (s₁ s₂ : Span) (h1 : scanIgnorable s₁.text = 0)
    (h2 : scanIgnorable s₂.text = 0) (he : lex s₁.text = lex s₂.text) :
    RelPR (fun _ _ => True) (parsedSpan [c] s₁) (parsedSpan [c] s₂) := by
  obtain ⟨t₁, o₁⟩ := s₁
  obtain ⟨t₂, o₂⟩ := s₂
  rcases headChar_sync c hcw hcq t₁ t₂ h1 h2 he with
    ⟨r₁, r₂, hT1, hT2, hr⟩ | ⟨hn1, hn2⟩
  · subst hT1; subst hT2
    rw [parsedSpan_single_ok, parsedSpan_single_ok]
    exact ⟨hr, trivial⟩
  · rw [parsedSpan_single_err c ⟨t₁, o₁⟩ hn1,
      parsedSpan_single_err c ⟨t₂, o₂⟩ hn2]
    trivial

theorem all_alphaU_word (tag : List Char) (h : tag.all isAlphaU = true) :
    tag.all isWordChar = true := by
  simp only [List.all_eq_true] at h ⊢
  intro x hx
  simp [isWordChar, h x hx]

theorem parsedSpan_err_of_false (tok : List Char) (s : Span)
    (h : listIsPrefix tok s.text = false) : parsedSpan tok s = .err := by
  rw [parsedSpan, if_neg (by rw [h]; exact Bool.false_ne_true)]

theorem listIsPrefix_cons_false (a x : Char) (as xs : List Char)
    (h : a ≠ x) : listIsPrefix (a :: as) (x :: xs) = false := by
  show (decide (a = x) && listIsPrefix as xs) = false
  rw [decide_eq_false h]
  rfl

/-- Keyword tags (`true`, `false`, `null`): two normalized token-equal inputs
agree on a letters-only tag, with token-equal rests on success. -/
theorem parsedSpanKw_sync (a : Char) (as : List Char)
    (htag : (a :: as).all isAlphaU = true)
    (s₁ s₂ : Span) (h1 : scanIgnorable s₁.text = 0)
    (h2 : scanIgnorable s₂.text = 0) (he : lex s₁.text = lex s₂.text) :
    RelPR (fun _ _ => True) (parsedSpan (a :: as) s₁) (parsedSpan (a :: as) s₂) := by
  have haw : isAlphaU a = true := by
    simp only [List.all_cons, Bool.and_eq_true] at htag
    exact htag.1
  obtain ⟨t₁, o₁⟩ := s₁
  obtain ⟨t₂, o₂⟩ := s₂
  rcases headSync t₁ t₂ h1 h2 he with ⟨hn1, hn2⟩
    | ⟨c0, r₁, r₂, hT1, hT2, hp, hr⟩
    | ⟨wc, wr, u₁, u₂, hT1, hT2, hwc, hall, hu1, hu2, huu⟩
    | ⟨ds, u₁, u₂, hT1, hT2, hne, hall, hu1, hu2, huu⟩
    | ⟨q₁, q₂, r₁, r₂, content, n₁, n₂, hT1, hT2, hq1, hq2, hs1, hs2, hrr⟩
    | ⟨hT12, q, r, hT1, hq, hsn⟩
  · subst hn1; subst hn2
    rw [parsedSpan_err_of_false _ _ (by show listIsPrefix (a :: as) [] = false; rfl),
      parsedSpan_err_of_false _ _ (by show listIsPrefix (a :: as) [] = false; rfl)]
    trivial
  · have hne : a ≠ c0 := fun hh => by
      rw [← hh] at hp
      rw [hp.2.2.1] at haw
      exact Bool.noConfusion haw
    subst hT1; subst hT2
    rw [parsedSpan_err_of_false _ _ (listIsPrefix_cons_false a c0 as r₁ hne),
      parsedSpan_err_of_false _ _ (listIsPrefix_cons_false a c0 as r₂ hne)]
    trivial
  · have hword : (a :: as).all isWordChar = true := all_alphaU_word _ htag
    have hpre1 := prefix_thru_word (a :: as) (wc :: wr) u₁ hword hu1
    have hpre2 := prefix_thru_word (a :: as) (wc :: wr) u₂ hword hu2
    subst hT1; subst hT2
    cases hp : listIsPrefix (a :: as) (wc :: wr) with
    | false =>
      rw [parsedSpan_err_of_false _ _ (by rw [hpre1, hp]),
        parsedSpan_err_of_false _ _ (by rw [hpre2, hp])]
      trivial
    | true =>
      obtain ⟨w2, hw2⟩ : ∃ w2, wc :: wr = (a :: as) ++ w2 :=
        ⟨_, listIsPrefix_decomp (a :: as) (wc :: wr) hp⟩
      have hw2all : w2.all isWordChar = true := by
        rw [hw2, List.all_append, Bool.and_eq_true] at hall
        exact hall.2
      have htext1 : ((wc :: wr) ++ u₁).drop (a :: as).length = w2 ++ u₁ := by
        rw [hw2, List.append_assoc, List.drop_left]
      have htext2 : ((wc :: wr) ++ u₂).drop (a :: as).length = w2 ++ u₂ := by
        rw [hw2, List.append_assoc, List.drop_left]
      rw [parsedSpan, if_pos (by rw [hpre1, hp]),
        parsedSpan, if_pos (by rw [hpre2, hp])]
      refine ⟨?_, trivial⟩
      show lex (((wc :: wr) ++ u₁).drop (a :: as).length)
        = lex (((wc :: wr) ++ u₂).drop (a :: as).length)
      rw [htext1, htext2,
        lexAppendWord w2.length w2 u₁ le_rfl hw2all hu1,
        lexAppendWord w2.length w2 u₂ le_rfl hw2all hu2, huu]
  · obtain ⟨d, ds2, rfl⟩ : ∃ d ds2, ds = d :: ds2 := by
      cases ds with
      | nil => exact absurd rfl hne
      | cons d ds2 => exact ⟨d, ds2, rfl⟩
    have hdd : isDigitChar d = true := by
      simp only [List.all_cons, Bool.and_eq_true] at hall
      exact hall.1
    have hne2 : a ≠ d := fun hh => by
      rw [alphaU_not_digit d (hh ▸ haw)] at hdd
      exact Bool.noConfusion hdd
    subst hT1; subst hT2
    rw [List.cons_append, List.cons_append,
      parsedSpan_err_of_false _ _ (listIsPrefix_cons_false a d as _ hne2),
      parsedSpan_err_of_false _ _ (listIsPrefix_cons_false a d as _ hne2)]
    trivial
  · have hne1 : a ≠ q₁ := fun hh => alphaU_not_quote a haw (hh ▸ hq1)
    have hne2 : a ≠ q₂ := fun hh => alphaU_not_quote a haw (hh ▸ hq2)
    subst hT1; subst hT2
    rw [parsedSpan_err_of_false _ _ (listIsPrefix_cons_false a q₁ as r₁ hne1),
      parsedSpan_err_of_false _ _ (listIsPrefix_cons_false a q₂ as r₂ hne2)]
    trivial
  · have hne1 : a ≠ q := fun hh => alphaU_not_quote a haw (hh ▸ hq)
    subst hT12
    subst hT1
    rw [parsedSpan_err_of_false _ _ (listIsPrefix_cons_false a q as r hne1),
      parsedSpan_err_of_false _ _ (listIsPrefix_cons_false a q as r hne1)]
    trivial

theorem digits1_err_of_headNot (s : Span) (h : headNotDigit s.text) :
    digits1 s = .err := by
  rw [digits1]
  rw [scanDigits_eq_zero s.text h]
  rfl

theorem digits0_of_headNot (s : Span) (h : headNotDigit s.text) :
    digits0 s = .ok ⟨s.text, s.offset + 0⟩ ⟨[], some (s.offset, s.offset + 0)⟩ := by
  rw [digits0]
  rw [scanDigits_eq_zero s.text h]
  rfl

theorem punctClass_notDigit (c : Char) (h : punctClass c) :
    isDigitChar c = false := h.2.2.2.1

/-- The digit-run parsers on two normalized token-equal inputs. -/
theorem digits1_sync (s₁ s₂ : Span) (h1 : scanIgnorable s₁.text = 0)
    (h2 : scanIgnorable s₂.text = 0) (he : lex s₁.text = lex s₂.text) :
    RelPR (fun v₁ v₂ : Parsed (List Char) => v₁.node = v₂.node)
      (digits1 s₁) (digits1 s₂) := by
  obtain ⟨t₁, o₁⟩ := s₁
  obtain ⟨t₂, o₂⟩ := s₂
  rcases headSync t₁ t₂ h1 h2 he with ⟨hn1, hn2⟩
    | ⟨c0, r₁, r₂, hT1, hT2, hp, hr⟩
    | ⟨wc, wr, u₁, u₂, hT1, hT2, hwc, hall, hu1, hu2, huu⟩
    | ⟨ds, u₁, u₂, hT1, hT2, hne, hall, hu1, hu2, huu⟩
    | ⟨q₁, q₂, r₁, r₂, content, n₁, n₂, hT1, hT2, hq1, hq2, hs1, hs2, hrr⟩
    | ⟨hT12, q, r, hT1, hq, hsn⟩
  · subst hn1; subst hn2
    rw [digits1_err_of_headNot ⟨[], o₁⟩ trivial,
      digits1_err_of_headNot ⟨[], o₂⟩ trivial]
    trivial
  · subst hT1; subst hT2
    rw [digits1_err_of_headNot ⟨c0 :: r₁, o₁⟩ (punctClass_notDigit c0 hp),
      digits1_err_of_headNot ⟨c0 :: r₂, o₂⟩ (punctClass_notDigit c0 hp)]
    trivial
  · subst hT1; subst hT2
    rw [List.cons_append, List.cons_append,
      digits1_err_of_headNot ⟨wc :: (wr ++ u₁), o₁⟩ (alphaU_not_digit wc hwc),
      digits1_err_of_headNot ⟨wc :: (wr ++ u₂), o₂⟩ (alphaU_not_digit wc hwc)]
    trivial
  · subst hT1; subst hT2
    rw [digits1_append ds u₁ o₁ hall hne hu1,
      digits1_append ds u₂ o₂ hall hne hu2]
    exact ⟨huu, rfl⟩
  · subst hT1; subst hT2
    rw [digits1_err_of_headNot ⟨q₁ :: r₁, o₁⟩ ((quote_classes q₁ hq1).2.2.2),
      digits1_err_of_headNot ⟨q₂ :: r₂, o₂⟩ ((quote_classes q₂ hq2).2.2.2)]
    trivial
  · subst hT12; subst hT1
    rw [digits1_err_of_headNot ⟨q :: r, o₁⟩ ((quote_classes q hq).2.2.2),
      digits1_err_of_headNot ⟨q :: r, o₂⟩ ((quote_classes q hq).2.2.2)]
    trivial

theorem digits0_sync (s₁ s₂ : Span) (h1 : scanIgnorable s₁.text = 0)
    (h2 : scanIgnorable s₂.text = 0) (he : lex s₁.text = lex s₂.text) :
    RelPR (fun v₁ v₂ : Parsed (List Char) => v₁.node = v₂.node)
      (digits0 s₁) (digits0 s₂) := by
  obtain ⟨t₁, o₁⟩ := s₁
  obtain ⟨t₂, o₂⟩ := s₂
  rcases headSync t₁ t₂ h1 h2 he with ⟨hn1, hn2⟩
    | ⟨c0, r₁, r₂, hT1, hT2, hp, hr⟩
    | ⟨wc, wr, u₁, u₂, hT1, hT2, hwc, hall, hu1, hu2, huu⟩
    | ⟨ds, u₁, u₂, hT1, hT2, hne, hall, hu1, hu2, huu⟩
    | ⟨q₁, q₂, r₁, r₂, content, n₁, n₂, hT1, hT2, hq1, hq2, hs1, hs2, hrr⟩
    | ⟨hT12, q, r, hT1, hq, hsn⟩
  · subst hn1; subst hn2
    rw [digits0_of_headNot ⟨[], o₁⟩ trivial, digits0_of_headNot ⟨[], o₂⟩ trivial]
    exact ⟨rfl, rfl⟩
  · subst hT1; subst hT2
    rw [digits0_of_headNot ⟨c0 :: r₁, o₁⟩ (punctClass_notDigit c0 hp),
      digits0_of_headNot ⟨c0 :: r₂, o₂⟩ (punctClass_notDigit c0 hp)]
    exact ⟨he, rfl⟩
  · subst hT1; subst hT2
    rw [List.cons_append, List.cons_append,
      digits0_of_headNot ⟨wc :: (wr ++ u₁), o₁⟩ (alphaU_not_digit wc hwc),
      digits0_of_headNot ⟨wc :: (wr ++ u₂), o₂⟩ (alphaU_not_digit wc hwc)]
    exact ⟨he, rfl⟩
  · subst hT1; subst hT2
    rw [digits0_append ds u₁ o₁ hall hu1, digits0_append ds u₂ o₂ hall hu2]
    exact ⟨huu, rfl⟩
  · subst hT1; subst hT2
    rw [digits0_of_headNot ⟨q₁ :: r₁, o₁⟩ ((quote_classes q₁ hq1).2.2.2),
      digits0_of_headNot ⟨q₂ :: r₂, o₂⟩ ((quote_classes q₂ hq2).2.2.2)]
    exact ⟨he, rfl⟩
  · subst hT12; subst hT1
    rw [digits0_of_headNot ⟨q :: r, o₁⟩ ((quote_classes q hq).2.2.2),
      digits0_of_headNot ⟨q :: r, o₂⟩ ((quote_classes q hq).2.2.2)]
    exact ⟨rfl, rfl⟩

theorem parseStringLit_err_of_head (s : Span) (c : Char) (t : List Char)
    (hct : s.text = c :: t) (hq : ¬(c = squote ∨ c = '"')) :
    parseStringLit s = .err := by
  rw [parseStringLit, hct]
  simp [hq]

theorem parseStringLit_strOk (q : Char) (r content : List Char) (n : Nat)
    (o : Nat) (hq : q = squote ∨ q = '"')
    (hs : scanStrBody q r = some (content, n)) :
    parseStringLit ⟨q :: r, o⟩
      = .ok ⟨r.drop n, o + (n + 1)⟩ ⟨content, some (o, o + n + 1)⟩ := by
  rw [parseStringLit]
  simp only [hq, if_true, hs, Span.advance, List.drop_succ_cons]

/-- The string-literal parser on two normalized token-equal inputs. -/
theorem parseStringLit_sync (s₁ s₂ : Span) (h1 : scanIgnorable s₁.text = 0)
    (h2 : scanIgnorable s₂.text = 0) (he : lex s₁.text = lex s₂.text) :
    RelPR (fun v₁ v₂ : Parsed (List Char) => v₁.node = v₂.node)
      (parseStringLit s₁) (parseStringLit s₂) := by
  obtain ⟨t₁, o₁⟩ := s₁
  obtain ⟨t₂, o₂⟩ := s₂
  rcases headSync t₁ t₂ h1 h2 he with ⟨hn1, hn2⟩
    | ⟨c0, r₁, r₂, hT1, hT2, hp, hr⟩
    | ⟨wc, wr, u₁, u₂, hT1, hT2, hwc, hall, hu1, hu2, huu⟩
    | ⟨ds, u₁, u₂, hT1, hT2, hne, hall, hu1, hu2, huu⟩
    | ⟨q₁, q₂, r₁, r₂, content, n₁, n₂, hT1, hT2, hq1, hq2, hs1, hs2, hrr⟩
    | ⟨hT12, q, r, hT1, hq, hsn⟩
  · subst hn1; subst hn2
    exact trivial
  · subst hT1; subst hT2
    rw [parseStringLit_err_of_head ⟨c0 :: r₁, o₁⟩ c0 r₁ rfl hp.2.2.2.2,
      parseStringLit_err_of_head ⟨c0 :: r₂, o₂⟩ c0 r₂ rfl hp.2.2.2.2]
    trivial
  · subst hT1; subst hT2
    rw [List.cons_append, List.cons_append,
      parseStringLit_err_of_head ⟨wc :: (wr ++ u₁), o₁⟩ wc (wr ++ u₁) rfl
        (alphaU_not_quote wc hwc),
      parseStringLit_err_of_head ⟨wc :: (wr ++ u₂), o₂⟩ wc (wr ++ u₂) rfl
        (alphaU_not_quote wc hwc)]
    trivial
  · obtain ⟨d, ds2, rfl⟩ : ∃ d ds2, ds = d :: ds2 := by
      cases ds with
      | nil => exact absurd rfl hne
      | cons d ds2 => exact ⟨d, ds2, rfl⟩
    have hdd : isDigitChar d = true := by
      simp only [List.all_cons, Bool.and_eq_true] at hall
      exact hall.1
    subst hT1; subst hT2
    rw [List.cons_append, List.cons_append,
      parseStringLit_err_of_head ⟨d :: (ds2 ++ u₁), o₁⟩ d (ds2 ++ u₁) rfl
        (digit_not_quote d hdd),
      parseStringLit_err_of_head ⟨d :: (ds2 ++ u₂), o₂⟩ d (ds2 ++ u₂) rfl
        (digit_not_quote d hdd)]
    trivial
  · subst hT1; subst hT2
    rw [parseStringLit_strOk q₁ r₁ content n₁ o₁ hq1 hs1,
      parseStringLit_strOk q₂ r₂ content n₂ o₂ hq2 hs2]
    exact ⟨hrr, rfl⟩
  · subst hT12; subst hT1
    have e1 : ∀ o, parseStringLit ⟨q :: r, o⟩ = .err := by
      intro o
      rw [parseStringLit]
      simp only [hq, if_true, hsn]
    rw [e1 o₁, e1 o₂]
    trivial

/-- The identifier scanner on two normalized token-equal inputs: both zero, or
both the same word with token-equal rests. -/
theorem scanIdent_sync (t₁ t₂ : List Char) (h1 : scanIgnorable t₁ = 0)
    (h2 : scanIgnorable t₂ = 0) (he : lex t₁ = lex t₂) :
    (scanIdent t₁ = 0 ∧ scanIdent t₂ = 0)
    ∨ (∃ wc wr u₁ u₂, t₁ = (wc :: wr) ++ u₁ ∧ t₂ = (wc :: wr) ++ u₂
        ∧ scanIdent t₁ = wr.length + 1 ∧ scanIdent t₂ = wr.length + 1
        ∧ t₁.take (wr.length + 1) = wc :: wr ∧ t₂.take (wr.length + 1) = wc :: wr
        ∧ t₁.drop (wr.length + 1) = u₁ ∧ t₂.drop (wr.length + 1) = u₂
        ∧ lex u₁ = lex u₂) := by
  rcases headSync t₁ t₂ h1 h2 he with ⟨hn1, hn2⟩
    | ⟨c0, r₁, r₂, hT1, hT2, hp, hr⟩
    | ⟨wc, wr, u₁, u₂, hT1, hT2, hwc, hall, hu1, hu2, huu⟩
    | ⟨ds, u₁, u₂, hT1, hT2, hne, hall, hu1, hu2, huu⟩
    | ⟨q₁, q₂, r₁, r₂, content, n₁, n₂, hT1, hT2, hq1, hq2, hs1, hs2, hrr⟩
    | ⟨hT12, q, r, hT1, hq, hsn⟩
  · subst hn1; subst hn2
    exact Or.inl ⟨rfl, rfl⟩
  · subst hT1; subst hT2
    refine Or.inl ⟨?_, ?_⟩ <;> simp [scanIdent, hp.2.2.1]
  · subst hT1; subst hT2
    right
    have hwr : wr.all isWordChar = true := by
      rw [List.all_cons, Bool.and_eq_true] at hall
      exact hall.2
    have hscan1 : scanIdent ((wc :: wr) ++ u₁) = wr.length + 1 := by
      rw [List.cons_append]
      simp only [scanIdent, hwc, if_true]
      rw [scanWord_append wr u₁ hwr, scanWord_eq_zero u₁ hu1]
      omega
    have hscan2 : scanIdent ((wc :: wr) ++ u₂) = wr.length + 1 := by
      rw [List.cons_append]
      simp only [scanIdent, hwc, if_true]
      rw [scanWord_append wr u₂ hwr, scanWord_eq_zero u₂ hu2]
      omega
    have hlen : (wc :: wr).length = wr.length + 1 := by
      simp
    refine ⟨wc, wr, u₁, u₂, rfl, rfl, hscan1, hscan2, ?_, ?_, ?_, ?_, huu⟩
    · rw [← hlen, List.take_left]
    · rw [← hlen, List.take_left]
    · rw [← hlen, List.drop_left]
    · rw [← hlen, List.drop_left]
  · obtain ⟨d, ds2, rfl⟩ : ∃ d ds2, ds = d :: ds2 := by
      cases ds with
      | nil => exact absurd rfl hne
      | cons d ds2 => exact ⟨d, ds2, rfl⟩
    have hdd : isDigitChar d = true := by
      simp only [List.all_cons, Bool.and_eq_true] at hall
      exact hall.1
    subst hT1; subst hT2
    rw [List.cons_append, List.cons_append]
    refine Or.inl ⟨?_, ?_⟩ <;> simp [scanIdent, digit_not_alphaU d hdd]
  · subst hT1; subst hT2
    refine Or.inl ⟨?_, ?_⟩ <;>
      simp [scanIdent, (quote_classes q₁ hq1).2.2.1, (quote_classes q₂ hq2).2.2.1]
  · subst hT12; subst hT1
    refine Or.inl ⟨?_, ?_⟩ <;> simp [scanIdent, (quote_classes q hq).2.2.1]

/-- `Key::parse` on two token-equal inputs. -/
theorem keyParse_sync (s₁ s₂ : Span) (he : lex s₁.text = lex s₂.text) :
    RelPR (fun k₁ k₂ : Parsed Key => k₁.node = k₂.node)
      (keyParse s₁) (keyParse s₂) := by
  have hn1 := skipWs_norm s₁
  have hn2 := skipWs_norm s₂
  have he2 : lex (skipWs s₁).text = lex (skipWs s₂).text := by
    rw [lex_skipWs, lex_skipWs]; exact he
  have hstr := parseStringLit_sync (skipWs s₁) (skipWs s₂) hn1 hn2 he2
  simp only [keyParse]
  cases hps1 : parseStringLit (skipWs s₁) with
  | ok r v =>
    rw [hps1] at hstr
    obtain ⟨r₂, v₂, hps2, hrest, hval⟩ := RelPR_ok_left hstr
    rw [hps2]
    refine ⟨?_, ?_⟩
    · rw [lex_skipWs, lex_skipWs]
      exact hrest
    · show Key.quoted v.node = Key.quoted v₂.node
      rw [hval]
  | fail =>
    rw [hps1] at hstr
    rw [RelPR_fail_left hstr]
    exact trivial
  | err =>
    rw [hps1] at hstr
    rw [RelPR_err_left hstr]
    rcases scanIdent_sync (skipWs s₁).text (skipWs s₂).text hn1 hn2 he2 with
      ⟨hz1, hz2⟩ | ⟨wc, wr, u₁, u₂, hT1, hT2, hsc1, hsc2, htk1, htk2, hd1, hd2, huu⟩
    · rw [hz1, hz2, if_pos rfl, if_pos rfl]
      exact trivial
    · rw [hsc1, hsc2]
      have hnz : ¬(wr.length + 1 = 0) := by omega
      rw [if_neg hnz, if_neg hnz]
      refine ⟨?_, ?_⟩
      · rw [lex_skipWs, lex_skipWs]
        show lex ((skipWs s₁).text.drop (wr.length + 1))
          = lex ((skipWs s₂).text.drop (wr.length + 1))
        rw [hd1, hd2]
        exact huu
      · show Key.field ((skipWs s₁).text.take (wr.length + 1))
          = Key.field ((skipWs s₂).text.take (wr.length + 1))
        rw [htk1, htk2]

/-- The first number alternative on two normalized token-equal inputs. -/
theorem numBranch1_sync (s₁ s₂ : Span) (h1 : scanIgnorable s₁.text = 0)
    (h2 : scanIgnorable s₂.text = 0) (he : lex s₁.text = lex s₂.text) :
    RelPR (fun v₁ v₂ : Parsed (List Char) => v₁.node = v₂.node)
      (numBranch1 s₁) (numBranch1 s₂) := by
  have hdg := digits1_sync s₁ s₂ h1 h2 he
  rw [numBranch1, numBranch1]
  cases hq1 : digits1 s₁ with
  | err =>
    rw [hq1] at hdg
    rw [RelPR_err_left hdg]
    exact trivial
  | fail =>
    rw [hq1] at hdg
    rw [RelPR_fail_left hdg]
    exact trivial
  | ok s1b intP =>
    rw [hq1] at hdg
    obtain ⟨s2b, intP₂, hq2, hrest, hval⟩ := RelPR_ok_left hdg
    rw [hq2]
    dsimp only
    have hdot := parsedSpanPunct_sync '.' (by decide) (by decide)
      (skipWs s1b) (skipWs s2b) (skipWs_norm _) (skipWs_norm _)
      (by rw [lex_skipWs, lex_skipWs]; exact hrest)
    cases hp1 : parsedSpan ['.'] (skipWs s1b) with
    | fail =>
      rw [hp1] at hdot
      rw [RelPR_fail_left hdot]
      exact trivial
    | err =>
      rw [hp1] at hdot
      rw [RelPR_err_left hdot]
      exact ⟨hrest, hval⟩
    | ok s3 dot =>
      rw [hp1] at hdot
      obtain ⟨s3₂, dot₂, hp2, hrest3, -⟩ := RelPR_ok_left hdot
      rw [hp2]
      dsimp only
      have hfr := digits0_sync (skipWs s3) (skipWs s3₂) (skipWs_norm _)
        (skipWs_norm _) (by rw [lex_skipWs, lex_skipWs]; exact hrest3)
      cases hf1 : digits0 (skipWs s3) with
      | err =>
        rw [hf1] at hfr
        rw [RelPR_err_left hfr]
        exact trivial
      | fail =>
        rw [hf1] at hfr
        rw [RelPR_fail_left hfr]
        exact trivial
      | ok s5 fracP =>
        rw [hf1] at hfr
        obtain ⟨s5₂, fracP₂, hf2, hrest5, hfval⟩ := RelPR_ok_left hfr
        rw [hf2]
        dsimp only
        refine ⟨hrest5, ?_⟩
        show intP.node ++ ['.'] ++ (if fracP.node = [] then ['0'] else fracP.node)
          = intP₂.node ++ ['.'] ++ (if fracP₂.node = [] then ['0'] else fracP₂.node)
        rw [hval, hfval]

/-- The second number alternative on two token-equal inputs. -/
theorem numBranch2_sync (s₁ s₂ : Span) (he : lex s₁.text = lex s₂.text) :
    RelPR (fun v₁ v₂ : Parsed (List Char) => v₁.node = v₂.node)
      (numBranch2 s₁) (numBranch2 s₂) := by
  rw [numBranch2, numBranch2]
  have hdot := parsedSpanPunct_sync '.' (by decide) (by decide)
    (skipWs s₁) (skipWs s₂) (skipWs_norm _) (skipWs_norm _)
    (by rw [lex_skipWs, lex_skipWs]; exact he)
  cases hp1 : parsedSpan ['.'] (skipWs s₁) with
  | err =>
    rw [hp1] at hdot
    rw [RelPR_err_left hdot]
    exact trivial
  | fail =>
    rw [hp1] at hdot
    rw [RelPR_fail_left hdot]
    exact trivial
  | ok s2 dot =>
    rw [hp1] at hdot
    obtain ⟨s2₂, dot₂, hp2, hrest, -⟩ := RelPR_ok_left hdot
    rw [hp2]
    dsimp only
    have hfr := digits1_sync (skipWs s2) (skipWs s2₂) (skipWs_norm _)
      (skipWs_norm _) (by rw [lex_skipWs, lex_skipWs]; exact hrest)
    cases hf1 : digits1 (skipWs s2) with
    | err =>
      rw [hf1] at hfr
      rw [RelPR_err_left hfr]
      exact trivial
    | fail =>
      rw [hf1] at hfr
      rw [RelPR_fail_left hfr]
      exact trivial
    | ok s3 fracP =>
      rw [hf1] at hfr
      obtain ⟨s3₂, fracP₂, hf2, hrest3, hfval⟩ := RelPR_ok_left hfr
      rw [hf2]
      refine ⟨hrest3, ?_⟩
      show '0' :: '.' :: fracP.node = '0' :: '.' :: fracP₂.node
      rw [hfval]

/-- The number tuple on two token-equal inputs: same sign presence, same
normalized digit text, token-equal rests. -/
theorem numberTuple_sync (s₁ s₂ : Span) (he : lex s₁.text = lex s₂.text) :
    RelPR (fun p₁ p₂ : Option (Parsed Unit) × Parsed (List Char) =>
        p₁.1.isSome = p₂.1.isSome ∧ p₁.2.node = p₂.2.node)
      (numberTuple s₁) (numberTuple s₂) := by
  rw [numberTuple, numberTuple]
  have hsig := parsedSpanPunct_sync '-' (by decide) (by decide)
    (skipWs s₁) (skipWs s₂) (skipWs_norm _) (skipWs_norm _)
    (by rw [lex_skipWs, lex_skipWs]; exact he)
  have hmain : ∀ (a₁ a₂ : Option (Parsed Unit)) (t₁ t₂ : Span),
      a₁.isSome = a₂.isSome → scanIgnorable t₁.text = 0 →
      scanIgnorable t₂.text = 0 → lex t₁.text = lex t₂.text →
      RelPR (fun p₁ p₂ : Option (Parsed Unit) × Parsed (List Char) =>
          p₁.1.isSome = p₂.1.isSome ∧ p₁.2.node = p₂.2.node)
        (match numBranch1 t₁ with
         | .ok r v => .ok (skipWs r) (a₁, v)
         | .fail => .fail
         | .err =>
           match numBranch2 t₁ with
           | .ok r v => .ok (skipWs r) (a₁, v)
           | .fail => .fail
           | .err => .err)
        (match numBranch1 t₂ with
         | .ok r v => .ok (skipWs r) (a₂, v)
         | .fail => .fail
         | .err =>
           match numBranch2 t₂ with
           | .ok r v => .ok (skipWs r) (a₂, v)
           | .fail => .fail
           | .err => .err) := by
    intro a₁ a₂ t₁ t₂ hsome hn1 hn2 hte
    have hb1 := numBranch1_sync t₁ t₂ hn1 hn2 hte
    cases h1 : numBranch1 t₁ with
    | ok r v =>
      rw [h1] at hb1
      obtain ⟨r₂, v₂, h1b, hrest, hval⟩ := RelPR_ok_left hb1
      rw [h1b]
      exact ⟨by rw [lex_skipWs, lex_skipWs]; exact hrest, hsome, hval⟩
    | fail =>
      rw [h1] at hb1
      rw [RelPR_fail_left hb1]
      exact trivial
    | err =>
      rw [h1] at hb1
      rw [RelPR_err_left hb1]
      have hb2 := numBranch2_sync t₁ t₂ hte
      cases h2 : numBranch2 t₁ with
      | ok r v =>
        rw [h2] at hb2
        obtain ⟨r₂, v₂, h2b, hrest, hval⟩ := RelPR_ok_left hb2
        rw [h2b]
        exact ⟨by rw [lex_skipWs, lex_skipWs]; exact hrest, hsome, hval⟩
      | fail =>
        rw [h2] at hb2
        rw [RelPR_fail_left hb2]
        exact trivial
      | err =>
        rw [h2] at hb2
        rw [RelPR_err_left hb2]
        exact trivial
  cases hm1 : parsedSpan ['-'] (skipWs s₁) with
  | ok r t =>
    rw [hm1] at hsig
    obtain ⟨r₂, t₂, hm2, hrest, -⟩ := RelPR_ok_left hsig
    rw [hm2]
    dsimp only
    exact hmain (some t) (some t₂) (skipWs r) (skipWs r₂) rfl
      (skipWs_norm _) (skipWs_norm _)
      (by rw [lex_skipWs, lex_skipWs]; exact hrest)
  | err =>
    rw [hm1] at hsig
    rw [RelPR_err_left hsig]
    dsimp only
    exact hmain none none (skipWs (skipWs s₁)) (skipWs (skipWs s₂)) rfl
      (skipWs_norm _) (skipWs_norm _)
      (by rw [lex_skipWs, lex_skipWs, lex_skipWs, lex_skipWs]; exact he)
  | fail =>
    rw [hm1] at hsig
    rw [RelPR_fail_left hsig]
    dsimp only
    exact hmain none none (skipWs (skipWs s₁)) (skipWs (skipWs s₂)) rfl
      (skipWs_norm _) (skipWs_norm _)
      (by rw [lex_skipWs, lex_skipWs, lex_skipWs, lex_skipWs]; exact he)

/-- `LitExpr::parse_number` on two token-equal inputs: same outcome kind,
same parsed number. -/
theorem parseNumber_sync (s₁ s₂ : Span) (he : lex s₁.text = lex s₂.text) :
    RelPR (fun v₁ v₂ : Parsed LitExpr => v₁.node.strip = v₂.node.strip)
      (parseNumber s₁) (parseNumber s₂) := by
  have ht := numberTuple_sync s₁ s₂ he
  rw [parseNumber, parseNumber]
  cases h1 : numberTuple s₁ with
  | err =>
    rw [h1] at ht
    rw [RelPR_err_left ht]
    exact trivial
  | fail =>
    rw [h1] at ht
    rw [RelPR_fail_left ht]
    exact trivial
  | ok rest pr =>
    rw [h1] at ht
    obtain ⟨rest₂, pr₂, h2, hrest, hsome, hnode⟩ := RelPR_ok_left ht
    obtain ⟨neg, num⟩ := pr
    obtain ⟨neg₂, num₂⟩ := pr₂
    rw [h2]
    dsimp only
    have htext : numberText neg num = numberText neg₂ num₂ := by
      rw [numberText, numberText, hsome, hnode]
    rw [htext]
    cases hser : serdeNumberFromString (numberText neg₂ num₂) with
    | some jn => exact ⟨hrest, rfl⟩
    | none => exact trivial

/-- The dotted path tail on two token-equal inputs: token-equal rests and
equal stripped chains. -/
theorem pathTailScan_sync : (fuel : Nat) → ∀ (s₁ s₂ : Span),
    lex s₁.text = lex s₂.text →
    lex (pathTailScan fuel s₁).1.text = lex (pathTailScan fuel s₂).1.text
    ∧ (pathTailScan fuel s₁).2.node.strip = (pathTailScan fuel s₂).2.node.strip
  | 0 => fun _ _ he => ⟨he, rfl⟩
  | fuel + 1 => fun s₁ s₂ he => by
    have hdot := parsedSpanPunct_sync '.' (by decide) (by decide)
      (skipWs s₁) (skipWs s₂) (skipWs_norm _) (skipWs_norm _)
      (by rw [lex_skipWs, lex_skipWs]; exact he)
    rw [pathTailScan, pathTailScan]
    cases hp1 : parsedSpan ['.'] (skipWs s₁) with
    | err =>
      rw [hp1] at hdot
      rw [RelPR_err_left hdot]
      exact ⟨he, rfl⟩
    | fail =>
      rw [hp1] at hdot
      rw [RelPR_fail_left hdot]
      exact ⟨he, rfl⟩
    | ok s2 dt =>
      rw [hp1] at hdot
      obtain ⟨s2₂, dt₂, hp2, hrest, -⟩ := RelPR_ok_left hdot
      rw [hp2]
      dsimp only
      have hkey := keyParse_sync s2 s2₂ hrest
      cases hk1 : keyParse s2 with
      | err =>
        rw [hk1] at hkey
        rw [RelPR_err_left hkey]
        exact ⟨he, rfl⟩
      | fail =>
        rw [hk1] at hkey
        rw [RelPR_fail_left hkey]
        exact ⟨he, rfl⟩
      | ok s3 k =>
        rw [hk1] at hkey
        obtain ⟨s3₂, k₂, hk2, hrest3, hkval⟩ := RelPR_ok_left hkey
        rw [hk2]
        dsimp only
        obtain ⟨hl, hstrip⟩ := pathTailScan_sync fuel s3 s3₂ hrest3
        cases hres1 : pathTailScan fuel s3 with
        | mk s4 tail =>
          cases hres2 : pathTailScan fuel s3₂ with
          | mk s4₂ tail₂ =>
            rw [hres1, hres2] at hl hstrip
            dsimp only at hl hstrip ⊢
            refine ⟨hl, ?_⟩
            obtain ⟨kn, kl⟩ := k
            obtain ⟨kn₂, kl₂⟩ := k₂
            obtain ⟨tn, tl⟩ := tail
            obtain ⟨tn₂, tl₂⟩ := tail₂
            show PathList.key ⟨kn, none⟩ ⟨tn.strip, none⟩
              = PathList.key ⟨kn₂, none⟩ ⟨tn₂.strip, none⟩
            have hkn : kn = kn₂ := hkval
            have htn : tn.strip = tn₂.strip := hstrip
            rw [hkn, htn]

theorem pathSelectionParse_else (fuel : Nat) (s : Span)
    (h : ∀ t, s.text ≠ '$' :: t) :
    pathSelectionParse fuel s =
      (match parsedSpan ['.'] s with
       | .ok s1 _ =>
         (match keyParse s1 with
          | .ok s2 k =>
            let p := pathTailScan fuel s2
            .ok p.1 ⟨⟨⟨.key k p.2, mergeLocs k.loc p.2.loc⟩⟩,
              mergeLocs k.loc p.2.loc⟩
          | .fail => .fail
          | .err => .err)
       | _ =>
         (match keyParse s with
          | .ok s1 k =>
            let p := pathTailScan fuel s1
            .ok p.1 ⟨⟨⟨.key k p.2, mergeLocs k.loc p.2.loc⟩⟩,
              mergeLocs k.loc p.2.loc⟩
          | .fail => .fail
          | .err => .err)) := by
  rw [pathSelectionParse]
  split
  · next x heq => exact absurd heq (h x)
  · rfl

theorem pathSelectionParse_dollar (fuel : Nat) (r : List Char) (o : Nat) :
    pathSelectionParse fuel ⟨'$' :: r, o⟩
      = (let s1 := skipWs ⟨r, o + 1⟩
         let n := scanIdent s1.text
         let v : Parsed KnownVariable :=
           ⟨knownVariableOfName (s1.text.take n), some (o, s1.offset + n)⟩
         let p := pathTailScan fuel (s1.advance n)
         .ok p.1 ⟨⟨⟨.var v p.2, mergeLocs v.loc p.2.loc⟩⟩,
           mergeLocs v.loc p.2.loc⟩) := rfl

/-- `PathSelection::parse` on two normalized token-equal inputs. -/
theorem pathSelectionParse_sync (fuel : Nat) (s₁ s₂ : Span)
    (h1 : scanIgnorable s₁.text = 0) (h2 : scanIgnorable s₂.text = 0)
    (he : lex s₁.text = lex s₂.text) :
    RelPR (fun p₁ p₂ : Parsed PathSelection => p₁.node.strip = p₂.node.strip)
      (pathSelectionParse fuel s₁) (pathSelectionParse fuel s₂) := by
  obtain ⟨t₁, o₁⟩ := s₁
  obtain ⟨t₂, o₂⟩ := s₂
  rcases headChar_sync '$' (by decide) (by decide) t₁ t₂ h1 h2 he with
    ⟨r₁, r₂, hT1, hT2, hr⟩ | ⟨hn1, hn2⟩
  · subst hT1; subst hT2
    rw [pathSelectionParse_dollar fuel r₁ o₁, pathSelectionParse_dollar fuel r₂ o₂]
    dsimp only
    have hs1eq : lex (skipWs ⟨r₁, o₁ + 1⟩).text = lex (skipWs ⟨r₂, o₂ + 1⟩).text := by
      rw [lex_skipWs, lex_skipWs]
      exact hr
    rcases scanIdent_sync (skipWs ⟨r₁, o₁ + 1⟩).text (skipWs ⟨r₂, o₂ + 1⟩).text
      (skipWs_norm _) (skipWs_norm _) hs1eq with
      ⟨hz1, hz2⟩ | ⟨wc, wr, u₁, u₂, hTT1, hTT2, hsc1, hsc2, htk1, htk2, hd1, hd2, huu⟩
    · rw [hz1, hz2]
      obtain ⟨hl, hstrip⟩ := pathTailScan_sync fuel
        ((skipWs ⟨r₁, o₁ + 1⟩).advance 0) ((skipWs ⟨r₂, o₂ + 1⟩).advance 0)
        (by
          show lex ((skipWs ⟨r₁, o₁ + 1⟩).text.drop 0)
            = lex ((skipWs ⟨r₂, o₂ + 1⟩).text.drop 0)
          rw [List.drop_zero, List.drop_zero]
          exact hs1eq)
      cases hres1 : pathTailScan fuel ((skipWs ⟨r₁, o₁ + 1⟩).advance 0) with
      | mk s4 tail =>
        cases hres2 : pathTailScan fuel ((skipWs ⟨r₂, o₂ + 1⟩).advance 0) with
        | mk s4₂ tail₂ =>
          rw [hres1, hres2] at hl hstrip
          dsimp only at hl hstrip ⊢
          refine ⟨hl, ?_⟩
          obtain ⟨tn, tl⟩ := tail
          obtain ⟨tn₂, tl₂⟩ := tail₂
          show (⟨⟨.var ⟨knownVariableOfName ((skipWs ⟨r₁, o₁ + 1⟩).text.take 0), none⟩
                ⟨tn.strip, none⟩, none⟩⟩ : PathSelection)
            = ⟨⟨.var ⟨knownVariableOfName ((skipWs ⟨r₂, o₂ + 1⟩).text.take 0), none⟩
                ⟨tn₂.strip, none⟩, none⟩⟩
          rw [List.take_zero, List.take_zero]
          have htn : tn.strip = tn₂.strip := hstrip
          rw [htn]
    · rw [hsc1, hsc2]
      obtain ⟨hl, hstrip⟩ := pathTailScan_sync fuel
        ((skipWs ⟨r₁, o₁ + 1⟩).advance (wr.length + 1))
        ((skipWs ⟨r₂, o₂ + 1⟩).advance (wr.length + 1))
        (by
          show lex ((skipWs ⟨r₁, o₁ + 1⟩).text.drop (wr.length + 1))
            = lex ((skipWs ⟨r₂, o₂ + 1⟩).text.drop (wr.length + 1))
          rw [hd1, hd2]
          exact huu)
      cases hres1 : pathTailScan fuel ((skipWs ⟨r₁, o₁ + 1⟩).advance (wr.length + 1)) with
      | mk s4 tail =>
        cases hres2 : pathTailScan fuel
            ((skipWs ⟨r₂, o₂ + 1⟩).advance (wr.length + 1)) with
        | mk s4₂ tail₂ =>
          rw [hres1, hres2] at hl hstrip
          dsimp only at hl hstrip ⊢
          refine ⟨hl, ?_⟩
          obtain ⟨tn, tl⟩ := tail
          obtain ⟨tn₂, tl₂⟩ := tail₂
          show (⟨⟨.var ⟨knownVariableOfName
                  ((skipWs ⟨r₁, o₁ + 1⟩).text.take (wr.length + 1)), none⟩
                ⟨tn.strip, none⟩, none⟩⟩ : PathSelection)
            = ⟨⟨.var ⟨knownVariableOfName
                  ((skipWs ⟨r₂, o₂ + 1⟩).text.take (wr.length + 1)), none⟩
                ⟨tn₂.strip, none⟩, none⟩⟩
          rw [htk1, htk2]
          have htn : tn.strip = tn₂.strip := hstrip
          rw [htn]
  · rw [pathSelectionParse_else fuel ⟨t₁, o₁⟩ hn1,
      pathSelectionParse_else fuel ⟨t₂, o₂⟩ hn2]
    have hkeyCase : ∀ (u₁ u₂ : Span), lex u₁.text = lex u₂.text →
        RelPR (fun p₁ p₂ : Parsed PathSelection => p₁.node.strip = p₂.node.strip)
          (match keyParse u₁ with
           | .ok s2 k =>
             let p := pathTailScan fuel s2
             .ok p.1 ⟨⟨⟨.key k p.2, mergeLocs k.loc p.2.loc⟩⟩,
               mergeLocs k.loc p.2.loc⟩
           | .fail => .fail
           | .err => .err)
          (match keyParse u₂ with
           | .ok s2 k =>
             let p := pathTailScan fuel s2
             .ok p.1 ⟨⟨⟨.key k p.2, mergeLocs k.loc p.2.loc⟩⟩,
               mergeLocs k.loc p.2.loc⟩
           | .fail => .fail
           | .err => .err) := by
      intro u₁ u₂ hue
      have hkey := keyParse_sync u₁ u₂ hue
      cases hk1 : keyParse u₁ with
      | err =>
        rw [hk1] at hkey
        rw [RelPR_err_left hkey]
        exact trivial
      | fail =>
        rw [hk1] at hkey
        rw [RelPR_fail_left hkey]
        exact trivial
      | ok s3 k =>
        rw [hk1] at hkey
        obtain ⟨s3₂, k₂, hk2, hrest3, hkval⟩ := RelPR_ok_left hkey
        rw [hk2]
        dsimp only
        obtain ⟨hl, hstrip⟩ := pathTailScan_sync fuel s3 s3₂ hrest3
        cases hres1 : pathTailScan fuel s3 with
        | mk s4 tail =>
          cases hres2 : pathTailScan fuel s3₂ with
          | mk s4₂ tail₂ =>
            rw [hres1, hres2] at hl hstrip
            dsimp only at hl hstrip ⊢
            refine ⟨hl, ?_⟩
            obtain ⟨kn, kl⟩ := k
            obtain ⟨kn₂, kl₂⟩ := k₂
            obtain ⟨tn, tl⟩ := tail
            obtain ⟨tn₂, tl₂⟩ := tail₂
            show (⟨⟨.key ⟨kn, none⟩ ⟨tn.strip, none⟩, none⟩⟩ : PathSelection)
              = ⟨⟨.key ⟨kn₂, none⟩ ⟨tn₂.strip, none⟩, none⟩⟩
            have hkn : kn = kn₂ := hkval
            have htn : tn.strip = tn₂.strip := hstrip
            rw [hkn, htn]
    have hdot := parsedSpanPunct_sync '.' (by decide) (by decide)
      ⟨t₁, o₁⟩ ⟨t₂, o₂⟩ h1 h2 he
    cases hp1 : parsedSpan ['.'] ⟨t₁, o₁⟩ with
    | ok s1 dt =>
      rw [hp1] at hdot
      obtain ⟨s1₂, dt₂, hp2, hrest, -⟩ := RelPR_ok_left hdot
      rw [hp2]
      exact hkeyCase s1 s1₂ hrest
    | err =>
      rw [hp1] at hdot
      rw [RelPR_err_left hdot]
      exact hkeyCase ⟨t₁, o₁⟩ ⟨t₂, o₂⟩ he
    | fail =>
      rw [hp1] at hdot
      rw [RelPR_fail_left hdot]
      exact hkeyCase ⟨t₁, o₁⟩ ⟨t₂, o₂⟩ he

/-! ## Correspondence of the grammar loops on token-equal inputs -/

theorem keyParse_norm (s r : Span) (k : Parsed Key) (h : keyParse s = .ok r k) :
    scanIgnorable r.text = 0 := by
  rw [keyParse] at h
  cases hps : parseStringLit (skipWs s) with
  | ok r0 v =>
    rw [hps] at h
    cases h
    exact skipWs_norm r0
  | fail =>
    rw [hps] at h
    exact PResult.noConfusion h
  | err =>
    rw [hps] at h
    by_cases hn : scanIdent (skipWs s).text = 0
    · rw [if_pos hn] at h
      exact PResult.noConfusion h
    · rw [if_neg hn] at h
      cases h
      exact skipWs_norm _

theorem litParse_norm (fuel : Nat) (s r : Span) (v : Parsed LitExpr)
    (h : litParse fuel s = .ok r v) : scanIgnorable r.text = 0 := by
  cases fuel with
  | zero => exact PResult.noConfusion h
  | succ fuel =>
    rw [litParse] at h
    cases ha : litAlt (litParse fuel) fuel (skipWs s) with
    | ok r0 v0 =>
      rw [ha] at h
      cases h
      exact skipWs_norm r0
    | err => rw [ha] at h; exact PResult.noConfusion h
    | fail => rw [ha] at h; exact PResult.noConfusion h

theorem parseProperty_norm (rec : Span → PResult (Parsed LitExpr))
    (hN : ∀ t r v, rec t = .ok r v → scanIgnorable r.text = 0)
    (s r : Span) (p : Parsed Key × Parsed LitExpr)
    (h : parseProperty rec s = .ok r p) : scanIgnorable r.text = 0 := by
  rw [parseProperty] at h
  cases hk : keyParse s with
  | err => rw [hk] at h; exact PResult.noConfusion h
  | fail => rw [hk] at h; exact PResult.noConfusion h
  | ok s1 k =>
    rw [hk] at h
    dsimp only at h
    cases hc : charTok ':' s1 with
    | err => rw [hc] at h; exact PResult.noConfusion h
    | fail => rw [hc] at h; exact PResult.noConfusion h
    | ok s2 u =>
      rw [hc] at h
      dsimp only at h
      cases hv : rec s2 with
      | err => rw [hv] at h; exact PResult.noConfusion h
      | fail => rw [hv] at h; exact PResult.noConfusion h
      | ok s3 v =>
        rw [hv] at h
        dsimp only at h
        cases h
        exact hN _ _ _ hv

theorem parsePropsRest_norm (rec : Span → PResult (Parsed LitExpr))
    (hN : ∀ t r v, rec t = .ok r v → scanIgnorable r.text = 0) :
    (fuel : Nat) → ∀ (s r : Span) (ps : List (Parsed Key × Parsed LitExpr)),
    scanIgnorable s.text = 0 → parsePropsRest rec fuel s = .ok r ps →
    scanIgnorable r.text = 0
  | 0 => fun _ _ _ _ h => PResult.noConfusion h
  | fuel + 1 => fun s r ps hs h => by
    rw [parsePropsRest] at h
    cases hc : charTok ',' s with
    | err => rw [hc] at h; cases h; exact hs
    | fail => rw [hc] at h; cases h; exact hs
    | ok s1 u =>
      rw [hc] at h
      dsimp only at h
      cases hp : parseProperty rec s1 with
      | fail => rw [hp] at h; exact PResult.noConfusion h
      | err => rw [hp] at h; cases h; exact hs
      | ok s2 p =>
        rw [hp] at h
        dsimp only at h
        cases hr : parsePropsRest rec fuel s2 with
        | ok s3 ps2 =>
          rw [hr] at h
          dsimp only at h
          cases h
          exact parsePropsRest_norm rec hN fuel s2 _ _
            (parseProperty_norm rec hN s1 s2 p hp) hr
        | err => rw [hr] at h; exact PResult.noConfusion h
        | fail => rw [hr] at h; exact PResult.noConfusion h

theorem parseElemsRest_norm (rec : Span → PResult (Parsed LitExpr))
    (hN : ∀ t r v, rec t = .ok r v → scanIgnorable r.text = 0) :
    (fuel : Nat) → ∀ (s r : Span) (es : List (Parsed LitExpr)),
    scanIgnorable s.text = 0 → parseElemsRest rec fuel s = .ok r es →
    scanIgnorable r.text = 0
  | 0 => fun _ _ _ _ h => PResult.noConfusion h
  | fuel + 1 => fun s r es hs h => by
    rw [parseElemsRest] at h
    cases hc : charTok ',' s with
    | err => rw [hc] at h; cases h; exact hs
    | fail => rw [hc] at h; cases h; exact hs
    | ok s1 u =>
      rw [hc] at h
      dsimp only at h
      cases hp : rec s1 with
      | fail => rw [hp] at h; exact PResult.noConfusion h
      | err => rw [hp] at h; cases h; exact hs
      | ok s2 e =>
        rw [hp] at h
        dsimp only at h
        cases hr : parseElemsRest rec fuel s2 with
        | ok s3 es2 =>
          rw [hr] at h
          dsimp only at h
          cases h
          exact parseElemsRest_norm rec hN fuel s2 _ _ (hN s1 s2 e hp) hr
        | err => rw [hr] at h; exact PResult.noConfusion h
        | fail => rw [hr] at h; exact PResult.noConfusion h

theorem stripEntries_cons (k : Parsed Key) (v : Parsed LitExpr)
    (l : List (Parsed Key × Parsed LitExpr)) :
    stripEntries ((k, v) :: l)
      = (⟨k.node, none⟩, ⟨v.node.strip, none⟩) :: stripEntries l := by
  obtain ⟨kn, kl⟩ := k
  obtain ⟨vn, vl⟩ := v
  rfl

theorem stripElems_cons (v : Parsed LitExpr) (l : List (Parsed LitExpr)) :
    stripElems (v :: l) = ⟨v.node.strip, none⟩ :: stripElems l := by
  obtain ⟨vn, vl⟩ := v
  rfl

theorem stripEntries_insert (m : List (Parsed Key × Parsed LitExpr))
    (k : Parsed Key) (v : Parsed LitExpr) :
    stripEntries (indexMapInsert m k v)
      = indexMapInsert (stripEntries m) ⟨k.node, none⟩ ⟨v.node.strip, none⟩ := by
  induction m with
  | nil =>
    show stripEntries [(k, v)] = [(⟨k.node, none⟩, ⟨v.node.strip, none⟩)]
    rw [stripEntries_cons]
    rfl
  | cons hd tl ih =>
    obtain ⟨k0, v0⟩ := hd
    by_cases hk : keyLookupEq k0.node k.node
    · have h1 : indexMapInsert ((k0, v0) :: tl) k v = (k0, v) :: tl := by
        simp only [indexMapInsert, hk, if_true]
      have h2 : indexMapInsert (stripEntries ((k0, v0) :: tl)) ⟨k.node, none⟩
            ⟨v.node.strip, none⟩
          = (⟨k0.node, none⟩, ⟨v.node.strip, none⟩) :: stripEntries tl := by
        rw [stripEntries_cons]
        simp only [indexMapInsert, hk, if_true]
      rw [h1, h2, stripEntries_cons]
    · have h1 : indexMapInsert ((k0, v0) :: tl) k v
          = (k0, v0) :: indexMapInsert tl k v := by
        simp only [indexMapInsert]
        rw [if_neg hk]
      have h2 : indexMapInsert (stripEntries ((k0, v0) :: tl)) ⟨k.node, none⟩
            ⟨v.node.strip, none⟩
          = (⟨k0.node, none⟩, ⟨v0.node.strip, none⟩)
            :: indexMapInsert (stripEntries tl) ⟨k.node, none⟩ ⟨v.node.strip, none⟩ := by
        rw [stripEntries_cons]
        simp only [indexMapInsert]
        rw [if_neg hk]
      rw [h1, h2, stripEntries_cons, ih]

theorem stripEntries_foldl (props : List (Parsed Key × Parsed LitExpr)) :
    ∀ (m : List (Parsed Key × Parsed LitExpr)),
    stripEntries (props.foldl (fun acc kv => indexMapInsert acc kv.1 kv.2) m)
      = (stripEntries props).foldl (fun acc kv => indexMapInsert acc kv.1 kv.2)
          (stripEntries m) := by
  induction props with
  | nil => intro m; rfl
  | cons hd tl ih =>
    intro m
    obtain ⟨k, v⟩ := hd
    rw [List.foldl_cons, ih, stripEntries_cons, List.foldl_cons]
    congr 1
    exact stripEntries_insert m k v

/-- Stripping commutes with the object construction. -/
theorem stripEntries_build (props : List (Parsed Key × Parsed LitExpr)) :
    stripEntries (buildObjectEntries props)
      = buildObjectEntries (stripEntries props) := by
  rw [buildObjectEntries, buildObjectEntries, stripEntries_foldl]
  rfl

/-- `LitProperty` on two token-equal inputs, given a corresponding pair of
nested parsers. -/
theorem parseProperty_sync (rec₁ rec₂ : Span → PResult (Parsed LitExpr))
    (hrec : ∀ t₁ t₂ : Span, lex t₁.text = lex t₂.text →
      RelPR (fun v₁ v₂ : Parsed LitExpr => v₁.node.strip = v₂.node.strip)
        (rec₁ t₁) (rec₂ t₂))
    (s₁ s₂ : Span) (he : lex s₁.text = lex s₂.text) :
    RelPR (fun p₁ p₂ : Parsed Key × Parsed LitExpr =>
        p₁.1.node = p₂.1.node ∧ p₁.2.node.strip = p₂.2.node.strip)
      (parseProperty rec₁ s₁) (parseProperty rec₂ s₂) := by
  rw [parseProperty, parseProperty]
  have hkey := keyParse_sync s₁ s₂ he
  cases hk1 : keyParse s₁ with
  | err =>
    rw [hk1] at hkey
    rw [RelPR_err_left hkey]
    exact trivial
  | fail =>
    rw [hk1] at hkey
    rw [RelPR_fail_left hkey]
    exact trivial
  | ok sk k =>
    rw [hk1] at hkey
    obtain ⟨sk₂, k₂, hk2, hrest, hkval⟩ := RelPR_ok_left hkey
    rw [hk2]
    dsimp only
    have hcol := charTok_sync ':' (by decide) (by decide) sk sk₂
      (keyParse_norm s₁ sk k hk1) (keyParse_norm s₂ sk₂ k₂ hk2) hrest
    cases hc1 : charTok ':' sk with
    | err =>
      rw [hc1] at hcol
      rw [RelPR_err_left hcol]
      exact trivial
    | fail =>
      rw [hc1] at hcol
      rw [RelPR_fail_left hcol]
      exact trivial
    | ok sc u =>
      rw [hc1] at hcol
      obtain ⟨sc₂, u₂, hc2, hrest2, -⟩ := RelPR_ok_left hcol
      rw [hc2]
      dsimp only
      have hv := hrec sc sc₂ hrest2
      cases hv1 : rec₁ sc with
      | err =>
        rw [hv1] at hv
        rw [RelPR_err_left hv]
        exact trivial
      | fail =>
        rw [hv1] at hv
        rw [RelPR_fail_left hv]
        exact trivial
      | ok sv v =>
        rw [hv1] at hv
        obtain ⟨sv₂, v₂, hv2, hrest3, hvval⟩ := RelPR_ok_left hv
        rw [hv2]
        exact ⟨hrest3, hkval, hvval⟩

/-- The further-properties loop on two normalized token-equal inputs. -/
theorem parsePropsRest_sync (rec₁ rec₂ : Span → PResult (Parsed LitExpr))
    (hrec : ∀ t₁ t₂ : Span, lex t₁.text = lex t₂.text →
      RelPR (fun v₁ v₂ : Parsed LitExpr => v₁.node.strip = v₂.node.strip)
        (rec₁ t₁) (rec₂ t₂))
    (hN₁ : ∀ t r v, rec₁ t = .ok r v → scanIgnorable r.text = 0)
    (hN₂ : ∀ t r v, rec₂ t = .ok r v → scanIgnorable r.text = 0) :
    (fuel : Nat) → ∀ (s₁ s₂ : Span),
    scanIgnorable s₁.text = 0 → scanIgnorable s₂.text = 0 →
    lex s₁.text = lex s₂.text →
    RelPR (fun l₁ l₂ : List (Parsed Key × Parsed LitExpr) =>
        stripEntries l₁ = stripEntries l₂)
      (parsePropsRest rec₁ fuel s₁) (parsePropsRest rec₂ fuel s₂)
  | 0 => fun _ _ _ _ _ => trivial
  | fuel + 1 => fun s₁ s₂ hn1 hn2 he => by
    rw [parsePropsRest, parsePropsRest]
    have hcom := charTok_sync ',' (by decide) (by decide) s₁ s₂ hn1 hn2 he
    cases hc1 : charTok ',' s₁ with
    | err =>
      rw [hc1] at hcom
      rw [RelPR_err_left hcom]
      exact ⟨he, rfl⟩
    | fail =>
      rw [hc1] at hcom
      rw [RelPR_fail_left hcom]
      exact ⟨he, rfl⟩
    | ok sc u =>
      rw [hc1] at hcom
      obtain ⟨sc₂, u₂, hc2, hrest, -⟩ := RelPR_ok_left hcom
      rw [hc2]
      dsimp only
      have hp := parseProperty_sync rec₁ rec₂ hrec sc sc₂ hrest
      cases hp1 : parseProperty rec₁ sc with
      | fail =>
        rw [hp1] at hp
        rw [RelPR_fail_left hp]
        exact trivial
      | err =>
        rw [hp1] at hp
        rw [RelPR_err_left hp]
        exact ⟨he, rfl⟩
      | ok sp p =>
        rw [hp1] at hp
        obtain ⟨sp₂, p₂, hp2, hrest2, hpk, hpv⟩ := RelPR_ok_left hp
        rw [hp2]
        dsimp only
        have hrec2 := parsePropsRest_sync rec₁ rec₂ hrec hN₁ hN₂ fuel sp sp₂
          (parseProperty_norm rec₁ hN₁ sc sp p hp1)
          (parseProperty_norm rec₂ hN₂ sc₂ sp₂ p₂ hp2) hrest2
        cases hr1 : parsePropsRest rec₁ fuel sp with
        | ok sr ps =>
          rw [hr1] at hrec2
          obtain ⟨sr₂, ps₂, hr2, hrest3, hlist⟩ := RelPR_ok_left hrec2
          rw [hr2]
          refine ⟨hrest3, ?_⟩
          obtain ⟨pk, pv⟩ := p
          obtain ⟨pk₂, pv₂⟩ := p₂
          rw [stripEntries_cons, stripEntries_cons, hlist]
          have h1 : pk.node = pk₂.node := hpk
          have h2 : pv.node.strip = pv₂.node.strip := hpv
          rw [h1, h2]
        | err =>
          rw [hr1] at hrec2
          rw [RelPR_err_left hrec2]
          exact trivial
        | fail =>
          rw [hr1] at hrec2
          rw [RelPR_fail_left hrec2]
          exact trivial

/-- The further-elements loop on two normalized token-equal inputs. -/
theorem parseElemsRest_sync (rec₁ rec₂ : Span → PResult (Parsed LitExpr))
    (hrec : ∀ t₁ t₂ : Span, lex t₁.text = lex t₂.text →
      RelPR (fun v₁ v₂ : Parsed LitExpr => v₁.node.strip = v₂.node.strip)
        (rec₁ t₁) (rec₂ t₂))
    (hN₁ : ∀ t r v, rec₁ t = .ok r v → scanIgnorable r.text = 0)
    (hN₂ : ∀ t r v, rec₂ t = .ok r v → scanIgnorable r.text = 0) :
    (fuel : Nat) → ∀ (s₁ s₂ : Span),
    scanIgnorable s₁.text = 0 → scanIgnorable s₂.text = 0 →
    lex s₁.text = lex s₂.text →
    RelPR (fun l₁ l₂ : List (Parsed LitExpr) => stripElems l₁ = stripElems l₂)
      (parseElemsRest rec₁ fuel s₁) (parseElemsRest rec₂ fuel s₂)
  | 0 => fun _ _ _ _ _ => trivial
  | fuel + 1 => fun s₁ s₂ hn1 hn2 he => by
    rw [parseElemsRest, parseElemsRest]
    have hcom := charTok_sync ',' (by decide) (by decide) s₁ s₂ hn1 hn2 he
    cases hc1 : charTok ',' s₁ with
    | err =>
      rw [hc1] at hcom
      rw [RelPR_err_left hcom]
      exact ⟨he, rfl⟩
    | fail =>
      rw [hc1] at hcom
      rw [RelPR_fail_left hcom]
      exact ⟨he, rfl⟩
    | ok sc u =>
      rw [hc1] at hcom
      obtain ⟨sc₂, u₂, hc2, hrest, -⟩ := RelPR_ok_left hcom
      rw [hc2]
      dsimp only
      have hv := hrec sc sc₂ hrest
      cases hv1 : rec₁ sc with
      | fail =>
        rw [hv1] at hv
        rw [RelPR_fail_left hv]
        exact trivial
      | err =>
        rw [hv1] at hv
        rw [RelPR_err_left hv]
        exact ⟨he, rfl⟩
      | ok sv v =>
        rw [hv1] at hv
        obtain ⟨sv₂, v₂, hv2, hrest2, hvval⟩ := RelPR_ok_left hv
        rw [hv2]
        dsimp only
        have hrec2 := parseElemsRest_sync rec₁ rec₂ hrec hN₁ hN₂ fuel sv sv₂
          (hN₁ sc sv v hv1) (hN₂ sc₂ sv₂ v₂ hv2) hrest2
        cases hr1 : parseElemsRest rec₁ fuel sv with
        | ok sr es =>
          rw [hr1] at hrec2
          obtain ⟨sr₂, es₂, hr2, hrest3, hlist⟩ := RelPR_ok_left hrec2
          rw [hr2]
          refine ⟨hrest3, ?_⟩
          show stripElems (v :: es) = stripElems (v₂ :: es₂)
          rw [stripElems_cons, stripElems_cons, hlist, hvval]
        | err =>
          rw [hr1] at hrec2
          rw [RelPR_err_left hrec2]
          exact trivial
        | fail =>
          rw [hr1] at hrec2
          rw [RelPR_fail_left hrec2]
          exact trivial

/-- `LitExpr::parse_object` on two token-equal inputs. -/
theorem parseObject_sync (rec₁ rec₂ : Span → PResult (Parsed LitExpr))
    (hrec : ∀ t₁ t₂ : Span, lex t₁.text = lex t₂.text →
      RelPR (fun v₁ v₂ : Parsed LitExpr => v₁.node.strip = v₂.node.strip)
        (rec₁ t₁) (rec₂ t₂))
    (hN₁ : ∀ t r v, rec₁ t = .ok r v → scanIgnorable r.text = 0)
    (hN₂ : ∀ t r v, rec₂ t = .ok r v → scanIgnorable r.text = 0)
    (fuel : Nat) (s₁ s₂ : Span) (he : lex s₁.text = lex s₂.text) :
    RelPR (fun v₁ v₂ : Parsed LitExpr => v₁.node.strip = v₂.node.strip)
      (parseObject rec₁ fuel s₁) (parseObject rec₂ fuel s₂) := by
  rw [parseObject, parseObject]
  have hbr := parsedSpanPunct_sync '{' (by decide) (by decide)
    (skipWs s₁) (skipWs s₂) (skipWs_norm _) (skipWs_norm _)
    (by rw [lex_skipWs, lex_skipWs]; exact he)
  cases hb1 : parsedSpan ['{'] (skipWs s₁) with
  | err =>
    rw [hb1] at hbr
    rw [RelPR_err_left hbr]
    exact trivial
  | fail =>
    rw [hb1] at hbr
    rw [RelPR_fail_left hbr]
    exact trivial
  | ok s2 openB =>
    rw [hb1] at hbr
    obtain ⟨s2₂, openB₂, hb2, hrest, -⟩ := RelPR_ok_left hbr
    rw [hb2]
    dsimp only
    have hclose : ∀ (t₁ t₂ : Span)
        (props₁ props₂ : List (Parsed Key × Parsed LitExpr))
        (L₁ L₂ : Option Loc),
        lex t₁.text = lex t₂.text → stripEntries props₁ = stripEntries props₂ →
        RelPR (fun v₁ v₂ : Parsed LitExpr => v₁.node.strip = v₂.node.strip)
          (match parsedSpan ['}'] (skipWs t₁) with
           | .ok s8 closeB =>
             .ok (skipWs s8) ⟨.obj (buildObjectEntries props₁),
               mergeLocs L₁ closeB.loc⟩
           | .err => .err
           | .fail => .fail)
          (match parsedSpan ['}'] (skipWs t₂) with
           | .ok s8 closeB =>
             .ok (skipWs s8) ⟨.obj (buildObjectEntries props₂),
               mergeLocs L₂ closeB.loc⟩
           | .err => .err
           | .fail => .fail) := by
      intro t₁ t₂ props₁ props₂ L₁ L₂ hte hprops
      have hcl := parsedSpanPunct_sync '}' (by decide) (by decide)
        (skipWs t₁) (skipWs t₂) (skipWs_norm _) (skipWs_norm _)
        (by rw [lex_skipWs, lex_skipWs]; exact hte)
      cases hcb1 : parsedSpan ['}'] (skipWs t₁) with
      | err =>
        rw [hcb1] at hcl
        rw [RelPR_err_left hcl]
        exact trivial
      | fail =>
        rw [hcb1] at hcl
        rw [RelPR_fail_left hcl]
        exact trivial
      | ok s8 closeB =>
        rw [hcb1] at hcl
        obtain ⟨s8₂, closeB₂, hcb2, hrest8, -⟩ := RelPR_ok_left hcl
        rw [hcb2]
        refine ⟨by rw [lex_skipWs, lex_skipWs]; exact hrest8, ?_⟩
        show LitExpr.obj (stripEntries (buildObjectEntries props₁))
          = LitExpr.obj (stripEntries (buildObjectEntries props₂))
        rw [stripEntries_build, stripEntries_build, hprops]
    have hpp := parseProperty_sync rec₁ rec₂ hrec (skipWs s2) (skipWs s2₂)
      (by rw [lex_skipWs, lex_skipWs]; exact hrest)
    cases hpp1 : parseProperty rec₁ (skipWs s2) with
    | fail =>
      rw [hpp1] at hpp
      rw [RelPR_fail_left hpp]
      exact trivial
    | err =>
      rw [hpp1] at hpp
      rw [RelPR_err_left hpp]
      exact hclose (skipWs s2) (skipWs s2₂) [] [] openB.loc openB₂.loc
        (by rw [lex_skipWs, lex_skipWs]; exact hrest) rfl
    | ok s4 p1 =>
      rw [hpp1] at hpp
      obtain ⟨s4₂, p1₂, hpp2, hrest4, hp1k, hp1v⟩ := RelPR_ok_left hpp
      rw [hpp2]
      dsimp only
      have hps := parsePropsRest_sync rec₁ rec₂ hrec hN₁ hN₂ fuel s4 s4₂
        (parseProperty_norm rec₁ hN₁ (skipWs s2) s4 p1 hpp1)
        (parseProperty_norm rec₂ hN₂ (skipWs s2₂) s4₂ p1₂ hpp2) hrest4
      cases hps1 : parsePropsRest rec₁ fuel s4 with
      | err =>
        rw [hps1] at hps
        rw [RelPR_err_left hps]
        exact trivial
      | fail =>
        rw [hps1] at hps
        rw [RelPR_fail_left hps]
        exact trivial
      | ok s5 ps =>
        rw [hps1] at hps
        obtain ⟨s5₂, ps₂, hps2, hrest5, hlist⟩ := RelPR_ok_left hps
        rw [hps2]
        dsimp only
        have hconsEq : stripEntries (p1 :: ps) = stripEntries (p1₂ :: ps₂) := by
          obtain ⟨pk, pv⟩ := p1
          obtain ⟨pk₂, pv₂⟩ := p1₂
          rw [stripEntries_cons, stripEntries_cons, hlist]
          have h1 : pk.node = pk₂.node := hp1k
          have h2 : pv.node.strip = pv₂.node.strip := hp1v
          rw [h1, h2]
        have hcm := charTok_sync ',' (by decide) (by decide) s5 s5₂
          (parsePropsRest_norm rec₁ hN₁ fuel s4 s5 ps
            (parseProperty_norm rec₁ hN₁ (skipWs s2) s4 p1 hpp1) hps1)
          (parsePropsRest_norm rec₂ hN₂ fuel s4₂ s5₂ ps₂
            (parseProperty_norm rec₂ hN₂ (skipWs s2₂) s4₂ p1₂ hpp2) hps2)
          hrest5
        cases hcm1 : charTok ',' s5 with
        | ok s6 u =>
          rw [hcm1] at hcm
          obtain ⟨s6₂, u₂, hcm2, hrest6, -⟩ := RelPR_ok_left hcm
          rw [hcm2]
          exact hclose s6 s6₂ (p1 :: ps) (p1₂ :: ps₂) openB.loc openB₂.loc
            hrest6 hconsEq
        | err =>
          rw [hcm1] at hcm
          rw [RelPR_err_left hcm]
          exact hclose s5 s5₂ (p1 :: ps) (p1₂ :: ps₂) openB.loc openB₂.loc
            hrest5 hconsEq
        | fail =>
          rw [hcm1] at hcm
          rw [RelPR_fail_left hcm]
          exact hclose s5 s5₂ (p1 :: ps) (p1₂ :: ps₂) openB.loc openB₂.loc
            hrest5 hconsEq

/-- `LitExpr::parse_array` on two token-equal inputs. -/
theorem parseArray_sync (rec₁ rec₂ : Span → PResult (Parsed LitExpr))
    (hrec : ∀ t₁ t₂ : Span, lex t₁.text = lex t₂.text →
      RelPR (fun v₁ v₂ : Parsed LitExpr => v₁.node.strip = v₂.node.strip)
        (rec₁ t₁) (rec₂ t₂))
    (hN₁ : ∀ t r v, rec₁ t = .ok r v → scanIgnorable r.text = 0)
    (hN₂ : ∀ t r v, rec₂ t = .ok r v → scanIgnorable r.text = 0)
    (fuel : Nat) (s₁ s₂ : Span) (he : lex s₁.text = lex s₂.text) :
    RelPR (fun v₁ v₂ : Parsed LitExpr => v₁.node.strip = v₂.node.strip)
      (parseArray rec₁ fuel s₁) (parseArray rec₂ fuel s₂) := by
  rw [parseArray, parseArray]
  have hbr := parsedSpanPunct_sync '[' (by decide) (by decide)
    (skipWs s₁) (skipWs s₂) (skipWs_norm _) (skipWs_norm _)
    (by rw [lex_skipWs, lex_skipWs]; exact he)
  cases hb1 : parsedSpan ['['] (skipWs s₁) with
  | err =>
    rw [hb1] at hbr
    rw [RelPR_err_left hbr]
    exact trivial
  | fail =>
    rw [hb1] at hbr
    rw [RelPR_fail_left hbr]
    exact trivial
  | ok s2 openB =>
    rw [hb1] at hbr
    obtain ⟨s2₂, openB₂, hb2, hrest, -⟩ := RelPR_ok_left hbr
    rw [hb2]
    dsimp only
    have hclose : ∀ (t₁ t₂ : Span) (es₁ es₂ : List (Parsed LitExpr))
        (L₁ L₂ : Option Loc),
        lex t₁.text = lex t₂.text → stripElems es₁ = stripElems es₂ →
        RelPR (fun v₁ v₂ : Parsed LitExpr => v₁.node.strip = v₂.node.strip)
          (match parsedSpan [']'] (skipWs t₁) with
           | .ok s8 closeB =>
             .ok (skipWs s8) ⟨.arr es₁, mergeLocs L₁ closeB.loc⟩
           | .err => .err
           | .fail => .fail)
          (match parsedSpan [']'] (skipWs t₂) with
           | .ok s8 closeB =>
             .ok (skipWs s8) ⟨.arr es₂, mergeLocs L₂ closeB.loc⟩
           | .err => .err
           | .fail => .fail) := by
      intro t₁ t₂ es₁ es₂ L₁ L₂ hte hels
      have hcl := parsedSpanPunct_sync ']' (by decide) (by decide)
        (skipWs t₁) (skipWs t₂) (skipWs_norm _) (skipWs_norm _)
        (by rw [lex_skipWs, lex_skipWs]; exact hte)
      cases hcb1 : parsedSpan [']'] (skipWs t₁) with
      | err =>
        rw [hcb1] at hcl
        rw [RelPR_err_left hcl]
        exact trivial
      | fail =>
        rw [hcb1] at hcl
        rw [RelPR_fail_left hcl]
        exact trivial
      | ok s8 closeB =>
        rw [hcb1] at hcl
        obtain ⟨s8₂, closeB₂, hcb2, hrest8, -⟩ := RelPR_ok_left hcl
        rw [hcb2]
        refine ⟨by rw [lex_skipWs, lex_skipWs]; exact hrest8, ?_⟩
        show LitExpr.arr (stripElems es₁) = LitExpr.arr (stripElems es₂)
        rw [hels]
    have hpp := hrec (skipWs s2) (skipWs s2₂)
      (by rw [lex_skipWs, lex_skipWs]; exact hrest)
    cases hpp1 : rec₁ (skipWs s2) with
    | fail =>
      rw [hpp1] at hpp
      rw [RelPR_fail_left hpp]
      exact trivial
    | err =>
      rw [hpp1] at hpp
      rw [RelPR_err_left hpp]
      exact hclose (skipWs s2) (skipWs s2₂) [] [] openB.loc openB₂.loc
        (by rw [lex_skipWs, lex_skipWs]; exact hrest) rfl
    | ok s4 e1 =>
      rw [hpp1] at hpp
      obtain ⟨s4₂, e1₂, hpp2, hrest4, he1v⟩ := RelPR_ok_left hpp
      rw [hpp2]
      dsimp only
      have hps := parseElemsRest_sync rec₁ rec₂ hrec hN₁ hN₂ fuel s4 s4₂
        (hN₁ (skipWs s2) s4 e1 hpp1) (hN₂ (skipWs s2₂) s4₂ e1₂ hpp2) hrest4
      cases hps1 : parseElemsRest rec₁ fuel s4 with
      | err =>
        rw [hps1] at hps
        rw [RelPR_err_left hps]
        exact trivial
      | fail =>
        rw [hps1] at hps
        rw [RelPR_fail_left hps]
        exact trivial
      | ok s5 es =>
        rw [hps1] at hps
        obtain ⟨s5₂, es₂, hps2, hrest5, hlist⟩ := RelPR_ok_left hps
        rw [hps2]
        dsimp only
        have hconsEq : stripElems (e1 :: es) = stripElems (e1₂ :: es₂) := by
          rw [stripElems_cons, stripElems_cons, hlist, he1v]
        have hcm := charTok_sync ',' (by decide) (by decide) s5 s5₂
          (parseElemsRest_norm rec₁ hN₁ fuel s4 s5 es
            (hN₁ (skipWs s2) s4 e1 hpp1) hps1)
          (parseElemsRest_norm rec₂ hN₂ fuel s4₂ s5₂ es₂
            (hN₂ (skipWs s2₂) s4₂ e1₂ hpp2) hps2)
          hrest5
        cases hcm1 : charTok ',' s5 with
        | ok s6 u =>
          rw [hcm1] at hcm
          obtain ⟨s6₂, u₂, hcm2, hrest6, -⟩ := RelPR_ok_left hcm
          rw [hcm2]
          exact hclose s6 s6₂ (e1 :: es) (e1₂ :: es₂) openB.loc openB₂.loc
            hrest6 hconsEq
        | err =>
          rw [hcm1] at hcm
          rw [RelPR_err_left hcm]
          exact hclose s5 s5₂ (e1 :: es) (e1₂ :: es₂) openB.loc openB₂.loc
            hrest5 hconsEq
        | fail =>
          rw [hcm1] at hcm
          rw [RelPR_fail_left hcm]
          exact hclose s5 s5₂ (e1 :: es) (e1₂ :: es₂) openB.loc openB₂.loc
            hrest5 hconsEq

/-- The ordered alternative chain of `LitExpr::parse` on two normalized
token-equal inputs: each alternative succeeds, recovers or aborts on both
sides together, so the chain reaches the same alternative on both. -/
theorem litAlt_sync (rec₁ rec₂ : Span → PResult (Parsed LitExpr))
    (hrec : ∀ t₁ t₂ : Span, lex t₁.text = lex t₂.text →
      RelPR (fun v₁ v₂ : Parsed LitExpr => v₁.node.strip = v₂.node.strip)
        (rec₁ t₁) (rec₂ t₂))
    (hN₁ : ∀ t r v, rec₁ t = .ok r v → scanIgnorable r.text = 0)
    (hN₂ : ∀ t r v, rec₂ t = .ok r v → scanIgnorable r.text = 0)
    (fuel : Nat) (s₁ s₂ : Span)
    (h1 : scanIgnorable s₁.text = 0) (h2 : scanIgnorable s₂.text = 0)
    (he : lex s₁.text = lex s₂.text) :
    RelPR (fun v₁ v₂ : Parsed LitExpr => v₁.node.strip = v₂.node.strip)
      (litAlt rec₁ fuel s₁) (litAlt rec₂ fuel s₂) := by
  rw [litAlt, litAlt]
  have hsl := parseStringLit_sync s₁ s₂ h1 h2 he
  cases hsl1 : parseStringLit s₁ with
  | ok rs vs =>
    rw [hsl1] at hsl
    obtain ⟨rs₂, vs₂, hsl2, hrest, hval⟩ := RelPR_ok_left hsl
    rw [hsl2]
    refine ⟨hrest, ?_⟩
    show LitExpr.str vs.node = LitExpr.str vs₂.node
    rw [hval]
  | fail =>
    rw [hsl1] at hsl
    rw [RelPR_fail_left hsl]
    exact trivial
  | err =>
    rw [hsl1] at hsl
    rw [RelPR_err_left hsl]
    dsimp only
    have hnum := parseNumber_sync s₁ s₂ he
    cases hnum1 : parseNumber s₁ with
    | ok rn vn =>
      rw [hnum1] at hnum
      obtain ⟨rn₂, vn₂, hnum2, hrest, hval⟩ := RelPR_ok_left hnum
      rw [hnum2]
      exact ⟨hrest, hval⟩
    | fail =>
      rw [hnum1] at hnum
      rw [RelPR_fail_left hnum]
      exact trivial
    | err =>
      rw [hnum1] at hnum
      rw [RelPR_err_left hnum]
      dsimp only
      have htr := parsedSpanKw_sync 't' ['r', 'u', 'e'] (by decide)
        s₁ s₂ h1 h2 he
      cases htr1 : parsedSpan ['t', 'r', 'u', 'e'] s₁ with
      | ok rt vt =>
        rw [htr1] at htr
        obtain ⟨rt₂, vt₂, htr2, hrest, -⟩ := RelPR_ok_left htr
        rw [htr2]
        exact ⟨hrest, rfl⟩
      | fail =>
        rw [htr1] at htr
        rw [RelPR_fail_left htr]
        exact trivial
      | err =>
        rw [htr1] at htr
        rw [RelPR_err_left htr]
        dsimp only
        have hfa := parsedSpanKw_sync 'f' ['a', 'l', 's', 'e'] (by decide)
          s₁ s₂ h1 h2 he
        cases hfa1 : parsedSpan ['f', 'a', 'l', 's', 'e'] s₁ with
        | ok rf vf =>
          rw [hfa1] at hfa
          obtain ⟨rf₂, vf₂, hfa2, hrest, -⟩ := RelPR_ok_left hfa
          rw [hfa2]
          exact ⟨hrest, rfl⟩
        | fail =>
          rw [hfa1] at hfa
          rw [RelPR_fail_left hfa]
          exact trivial
        | err =>
          rw [hfa1] at hfa
          rw [RelPR_err_left hfa]
          dsimp only
          have hnu := parsedSpanKw_sync 'n' ['u', 'l', 'l'] (by decide)
            s₁ s₂ h1 h2 he
          cases hnu1 : parsedSpan ['n', 'u', 'l', 'l'] s₁ with
          | ok rl vl =>
            rw [hnu1] at hnu
            obtain ⟨rl₂, vl₂, hnu2, hrest, -⟩ := RelPR_ok_left hnu
            rw [hnu2]
            exact ⟨hrest, rfl⟩
          | fail =>
            rw [hnu1] at hnu
            rw [RelPR_fail_left hnu]
            exact trivial
          | err =>
            rw [hnu1] at hnu
            rw [RelPR_err_left hnu]
            dsimp only
            have hob := parseObject_sync rec₁ rec₂ hrec hN₁ hN₂ fuel s₁ s₂ he
            cases hob1 : parseObject rec₁ fuel s₁ with
            | ok ro vo =>
              rw [hob1] at hob
              obtain ⟨ro₂, vo₂, hob2, hrest, hval⟩ := RelPR_ok_left hob
              rw [hob2]
              exact ⟨hrest, hval⟩
            | fail =>
              rw [hob1] at hob
              rw [RelPR_fail_left hob]
              exact trivial
            | err =>
              rw [hob1] at hob
              rw [RelPR_err_left hob]
              dsimp only
              have har := parseArray_sync rec₁ rec₂ hrec hN₁ hN₂ fuel s₁ s₂ he
              cases har1 : parseArray rec₁ fuel s₁ with
              | ok ra va =>
                rw [har1] at har
                obtain ⟨ra₂, va₂, har2, hrest, hval⟩ := RelPR_ok_left har
                rw [har2]
                exact ⟨hrest, hval⟩
              | fail =>
                rw [har1] at har
                rw [RelPR_fail_left har]
                exact trivial
              | err =>
                rw [har1] at har
                rw [RelPR_err_left har]
                dsimp only
                have hpa := pathSelectionParse_sync fuel s₁ s₂ h1 h2 he
                cases hpa1 : pathSelectionParse fuel s₁ with
                | ok rp p =>
                  rw [hpa1] at hpa
                  obtain ⟨rp₂, p₂, hpa2, hrest, hval⟩ := RelPR_ok_left hpa
                  rw [hpa2]
                  refine ⟨hrest, ?_⟩
                  obtain ⟨⟨⟨pl₁, plo₁⟩⟩, lo₁⟩ := p
                  obtain ⟨⟨⟨pl₂, plo₂⟩⟩, lo₂⟩ := p₂
                  have hpl : pl₁.strip = pl₂.strip :=
                    congrArg (fun q : PathSelection => q.path.node) hval
                  show LitExpr.path ⟨⟨⟨pl₁.strip, none⟩⟩, none⟩
                    = LitExpr.path ⟨⟨⟨pl₂.strip, none⟩⟩, none⟩
                  rw [hpl]
                | fail =>
                  rw [hpa1] at hpa
                  rw [RelPR_fail_left hpa]
                  exact trivial
                | err =>
                  rw [hpa1] at hpa
                  rw [RelPR_err_left hpa]
                  exact trivial

/-- `LitExpr::parse` on two token-equal inputs: with the same fuel, the two
parses reach the same constructor, token-equal rests, and on success
location-stripped-equal values. -/
theorem litParse_sync : (fuel : Nat) → ∀ (s₁ s₂ : Span),
    lex s₁.text = lex s₂.text →
    RelPR (fun v₁ v₂ : Parsed LitExpr => v₁.node.strip = v₂.node.strip)
      (litParse fuel s₁) (litParse fuel s₂)
  | 0 => fun _ _ _ => trivial
  | fuel + 1 => fun s₁ s₂ he => by
    rw [litParse, litParse]
    have halt := litAlt_sync (litParse fuel) (litParse fuel)
      (litParse_sync fuel) (litParse_norm fuel) (litParse_norm fuel)
      fuel (skipWs s₁) (skipWs s₂) (skipWs_norm _) (skipWs_norm _)
      (by rw [lex_skipWs, lex_skipWs]; exact he)
    cases ha1 : litAlt (litParse fuel) fuel (skipWs s₁) with
    | ok r v =>
      rw [ha1] at halt
      obtain ⟨r₂, v₂, ha2, hrest, hval⟩ := RelPR_ok_left halt
      rw [ha2]
      exact ⟨by rw [lex_skipWs, lex_skipWs]; exact hrest, hval⟩
    | err =>
      rw [ha1] at halt
      rw [RelPR_err_left halt]
      exact trivial
    | fail =>
      rw [ha1] at halt
      rw [RelPR_fail_left halt]
      exact trivial

/-! ## Append stability: the parser looks only at the text it consumes
(supporting the general trailing-comma result, C7)

The inputs of the trailing-comma theorem are assembled from element source
chunks.  The lemmas of this section transport a successful parse of a text
`t` to the text `t ++ r`: when `t` has no `#` character and `r` begins with
one of the separator characters `,` `]` `}` of the enclosing grammar loop,
every decision the parser makes on `t ++ r` is the same as on `t`, so the
same value is produced and `r` survives untouched as the appended rest. -/

/-- The appended continuation starts with a separator of the enclosing
grammar production. -/
def closeHead (r : List Char) : Prop :=
  ∃ w, r = ',' :: w ∨ r = ']' :: w ∨ r = '}' :: w

/-- The head character of a separator continuation is in none of the
character classes the grammar's scanners and single-token parsers react
to. -/
theorem closeHead_head (r : List Char) (h : closeHead r) :
    ∃ c w, r = c :: w ∧ isWsChar c = false ∧ c ≠ '#' ∧ isDigitChar c = false
      ∧ isWordChar c = false ∧ isAlphaU c = false ∧ c ≠ '.' ∧ c ≠ '-'
      ∧ c ≠ squote ∧ c ≠ '"' ∧ c ≠ '$' ∧ c ≠ '{' ∧ c ≠ '[' := by
  obtain ⟨w, h | h | h⟩ := h
  · exact ⟨',', w, h, by decide⟩
  · exact ⟨']', w, h, by decide⟩
  · exact ⟨'}', w, h, by decide⟩

theorem closeHead_norm (r : List Char) (h : closeHead r) :
    scanIgnorable r = 0 := by
  obtain ⟨c, w, hr, hws, hhash, -⟩ := closeHead_head r h
  subst hr
  exact scanIgnorable_eq_zero _ ⟨hws, hhash⟩

theorem closeHead_notDigit (r : List Char) (h : closeHead r) :
    headNotDigit r := by
  obtain ⟨c, w, hr, -, -, hd, -⟩ := closeHead_head r h
  subst hr
  exact hd

theorem closeHead_notWord (r : List Char) (h : closeHead r) :
    headNotWord r := by
  obtain ⟨c, w, hr, -, -, -, hw, -⟩ := closeHead_head r h
  subst hr
  exact hw

theorem scanIgn_le (b : Bool) : ∀ l : List Char, scanIgn b l ≤ l.length
  | [] => Nat.le_refl 0
  | c :: r => by
    have h1 := scanIgn_le false r
    have h2 := scanIgn_le true r
    simp only [scanIgn, List.length_cons]
    split
    · split <;> omega
    · split
      · omega
      · split
        · omega
        · omega

/-- The ignorable-text scan distributes over an append when the left part has
no `#`: a comment can only swallow appended text past the left part's end. -/
theorem scanIgn_append_noHash : ∀ (u r : List Char), '#' ∉ u →
    scanIgn false (u ++ r)
      = scanIgn false u
        + (if u.drop (scanIgn false u) = [] then scanIgn false r else 0)
  | [], r, _ => by simp [scanIgn]
  | c :: u, r, h => by
    have hc : c ≠ '#' := fun he => h (he ▸ List.mem_cons_self c u)
    have hu : '#' ∉ u := fun hm => h (List.mem_cons_of_mem c hm)
    by_cases hw : isWsChar c = true
    · rw [List.cons_append,
        show scanIgn false (c :: (u ++ r)) = 1 + scanIgn false (u ++ r) from by
          simp [scanIgn, hw],
        show scanIgn false (c :: u) = 1 + scanIgn false u from by
          simp [scanIgn, hw],
        scanIgn_append_noHash u r hu,
        Nat.add_comm 1 (scanIgn false u), List.drop_succ_cons,
        Nat.add_comm (scanIgn false u) 1, Nat.add_assoc]
    · have hw' : isWsChar c = false := by
        cases hval : isWsChar c with
        | false => rfl
        | true => exact absurd hval hw
      have h0 : scanIgn false (c :: (u ++ r)) = 0 := by
        simp [scanIgn, hw', hc]
      have h0' : scanIgn false (c :: u) = 0 := by
        simp [scanIgn, hw', hc]
      rw [List.cons_append, h0, h0']
      simp

theorem scanIgnorable_append_noHash (u r : List Char) (hH : '#' ∉ u)
    (hr : scanIgnorable r = 0) :
    scanIgnorable (u ++ r) = scanIgnorable u := by
  show scanIgn false (u ++ r) = scanIgn false u
  have hr' : scanIgn false r = 0 := hr
  rw [scanIgn_append_noHash u r hH]
  split <;> omega

theorem skipWs_append_noHash (u r : List Char) (o : Nat) (hH : '#' ∉ u)
    (hr : scanIgnorable r = 0) :
    skipWs ⟨u ++ r, o⟩
      = ⟨(skipWs ⟨u, o⟩).text ++ r, (skipWs ⟨u, o⟩).offset⟩ := by
  have hle : scanIgnorable u ≤ u.length := scanIgn_le false u
  simp only [skipWs, Span.advance, scanIgnorable_append_noHash u r hH hr]
  exact congrArg (fun l => Span.mk l (o + scanIgnorable u))
    (List.drop_append_of_le_length hle)

/-- A normalized text with an empty token sequence is empty. -/
theorem lex_nil_norm (t : List Char) (hn : scanIgnorable t = 0)
    (h : lex t = []) : t = [] := by
  rcases lexHead t hn with ⟨he, -⟩
    | ⟨c, r, -, -, hl⟩
    | ⟨wc, wr, u, -, -, -, -, hl⟩
    | ⟨ds, u, -, -, -, -, hl⟩
    | ⟨q, r, content, n, -, -, -, hl⟩
    | ⟨q, r, -, -, -, hl⟩
  · exact he
  all_goals rw [hl] at h; exact List.noConfusion h

/-- Offset irrelevance for full parses: a parse that consumes the whole text
gives, at any other start offset, a full parse of a location-stripped-equal
value.  (Control flow never reads the offset; it only flows into
locations.) -/
theorem litParse_offset (F : Nat) (t : List Char) (o₁ o₂ e : Nat)
    (v : Parsed LitExpr) (h : litParse F ⟨t, o₁⟩ = .ok ⟨[], e⟩ v) :
    ∃ e₂ v₂, litParse F ⟨t, o₂⟩ = .ok ⟨[], e₂⟩ v₂
      ∧ v₂.node.strip = v.node.strip := by
  have hs := litParse_sync F ⟨t, o₁⟩ ⟨t, o₂⟩ rfl
  rw [h] at hs
  obtain ⟨r₂, v₂, h2, hrest, hval⟩ := RelPR_ok_left hs
  have hr0 : r₂.text = [] :=
    lex_nil_norm _ (litParse_norm F _ _ _ h2) (by rw [← hrest]; rfl)
  have hr : r₂ = ⟨[], r₂.offset⟩ := by
    cases r₂
    simp_all
  rw [hr] at h2
  exact ⟨r₂.offset, v₂, h2, hval.symm⟩

theorem litParse_skipWs (F : Nat) (s : Span) :
    litParse F (skipWs s) = litParse F s := by
  cases F with
  | zero => rfl
  | succ F => rw [litParse, litParse, skipWs_idem]

theorem suffix_noHash {d t : List Char} (hs : d <:+ t) (hH : '#' ∉ t) :
    '#' ∉ d :=
  fun hm => hH (hs.subset hm)

/-! ### The rest of every successful parse is a suffix of its input -/

theorem skipWs_suffix (s : Span) : (skipWs s).text <:+ s.text :=
  List.drop_suffix _ _

theorem charTok_suffix (c : Char) (s r : Span) (u : Unit)
    (h : charTok c s = .ok r u) : r.text <:+ s.text := by
  rw [charTok] at h
  cases ht : s.text with
  | nil => rw [ht] at h; exact PResult.noConfusion h
  | cons c2 tl =>
    rw [ht] at h
    dsimp only at h
    split at h
    · cases h
      simp only [Span.advance, ht]
      exact List.drop_suffix _ _
    · exact PResult.noConfusion h

theorem parsedSpan_suffix (tok : List Char) (s r : Span) (v : Parsed Unit)
    (h : parsedSpan tok s = .ok r v) : r.text <:+ s.text := by
  simp only [parsedSpan] at h
  split at h
  · cases h; exact List.drop_suffix _ _
  · exact PResult.noConfusion h

theorem digits1_suffix (s r : Span) (v : Parsed (List Char))
    (h : digits1 s = .ok r v) : r.text <:+ s.text := by
  simp only [digits1] at h
  split at h
  · exact PResult.noConfusion h
  · cases h; exact List.drop_suffix _ _

theorem digits0_suffix (s r : Span) (v : Parsed (List Char))
    (h : digits0 s = .ok r v) : r.text <:+ s.text := by
  simp only [digits0] at h
  cases h
  exact List.drop_suffix _ _

theorem parseStringLit_suffix (s r : Span) (v : Parsed (List Char))
    (h : parseStringLit s = .ok r v) : r.text <:+ s.text := by
  rw [parseStringLit] at h
  cases ht : s.text with
  | nil => rw [ht] at h; exact PResult.noConfusion h
  | cons q tl =>
    rw [ht] at h
    dsimp only at h
    split at h
    · cases hsb : scanStrBody q tl with
      | some pr =>
        obtain ⟨cs, n⟩ := pr
        rw [hsb] at h
        dsimp only at h
        cases h
        simp only [Span.advance, ht]
        exact List.drop_suffix _ _
      | none => rw [hsb] at h; exact PResult.noConfusion h
    · exact PResult.noConfusion h

theorem keyParse_suffix (s r : Span) (k : Parsed Key)
    (h : keyParse s = .ok r k) : r.text <:+ s.text := by
  simp only [keyParse] at h
  cases hps : parseStringLit (skipWs s) with
  | ok r0 v =>
    rw [hps] at h
    dsimp only at h
    cases h
    exact (List.drop_suffix _ _).trans
      ((parseStringLit_suffix _ _ _ hps).trans (List.drop_suffix _ _))
  | fail => rw [hps] at h; exact PResult.noConfusion h
  | err =>
    rw [hps] at h
    dsimp only at h
    split at h
    · exact PResult.noConfusion h
    · cases h
      exact (List.drop_suffix _ _).trans
        ((List.drop_suffix _ _).trans (List.drop_suffix _ _))

theorem pathTailScan_suffix : ∀ (fuel : Nat) (s : Span),
    (pathTailScan fuel s).1.text <:+ s.text
  | 0, _ => List.suffix_refl _
  | fuel + 1, s => by
    rw [pathTailScan]
    dsimp only
    cases hd : parsedSpan ['.'] (skipWs s) with
    | ok s2 u =>
      dsimp only
      cases hk : keyParse s2 with
      | ok s3 k =>
        dsimp only
        rcases hpt : pathTailScan fuel s3 with ⟨s4, tl⟩
        have h1 := pathTailScan_suffix fuel s3
        rw [hpt] at h1
        dsimp only
        exact h1.trans ((keyParse_suffix _ _ _ hk).trans
          ((parsedSpan_suffix _ _ _ _ hd).trans (List.drop_suffix _ _)))
      | err => exact List.suffix_refl _
      | fail => exact List.suffix_refl _
    | err => exact List.suffix_refl _
    | fail => exact List.suffix_refl _

theorem pathSelectionParse_suffix (fuel : Nat) (s r : Span)
    (p : Parsed PathSelection) (h : pathSelectionParse fuel s = .ok r p) :
    r.text <:+ s.text := by
  rw [pathSelectionParse] at h
  split at h
  · dsimp only at h
    rcases hpt : pathTailScan fuel
        ((skipWs (s.advance 1)).advance
          (scanIdent (skipWs (s.advance 1)).text)) with ⟨s4, tl⟩
    rw [hpt] at h
    dsimp only at h
    cases h
    have h1 := pathTailScan_suffix fuel
      ((skipWs (s.advance 1)).advance (scanIdent (skipWs (s.advance 1)).text))
    rw [hpt] at h1
    exact h1.trans ((List.drop_suffix _ _).trans
      ((List.drop_suffix _ _).trans (List.drop_suffix _ _)))
  · cases hd : parsedSpan ['.'] s with
    | ok s1 u =>
      rw [hd] at h
      dsimp only at h
      cases hk : keyParse s1 with
      | ok s2 k =>
        rw [hk] at h
        dsimp only at h
        rcases hpt : pathTailScan fuel s2 with ⟨s3, tl⟩
        rw [hpt] at h
        dsimp only at h
        cases h
        have h1 := pathTailScan_suffix fuel s2
        rw [hpt] at h1
        exact h1.trans ((keyParse_suffix _ _ _ hk).trans
          (parsedSpan_suffix _ _ _ _ hd))
      | err => rw [hk] at h; exact PResult.noConfusion h
      | fail => rw [hk] at h; exact PResult.noConfusion h
    | err =>
      rw [hd] at h
      dsimp only at h
      cases hk : keyParse s with
      | ok s1 k =>
        rw [hk] at h
        dsimp only at h
        rcases hpt : pathTailScan fuel s1 with ⟨s2, tl⟩
        rw [hpt] at h
        dsimp only at h
        cases h
        have h1 := pathTailScan_suffix fuel s1
        rw [hpt] at h1
        exact h1.trans (keyParse_suffix _ _ _ hk)
      | err => rw [hk] at h; exact PResult.noConfusion h
      | fail => rw [hk] at h; exact PResult.noConfusion h
    | fail =>
      rw [hd] at h
      dsimp only at h
      cases hk : keyParse s with
      | ok s1 k =>
        rw [hk] at h
        dsimp only at h
        rcases hpt : pathTailScan fuel s1 with ⟨s2, tl⟩
        rw [hpt] at h
        dsimp only at h
        cases h
        have h1 := pathTailScan_suffix fuel s1
        rw [hpt] at h1
        exact h1.trans (keyParse_suffix _ _ _ hk)
      | err => rw [hk] at h; exact PResult.noConfusion h
      | fail => rw [hk] at h; exact PResult.noConfusion h

theorem numBranch1_suffix (s r : Span) (v : Parsed (List Char))
    (h : numBranch1 s = .ok r v) : r.text <:+ s.text := by
  rw [numBranch1] at h
  cases h1 : digits1 s with
  | err => rw [h1] at h; exact PResult.noConfusion h
  | fail => rw [h1] at h; exact PResult.noConfusion h
  | ok s1 intP =>
    rw [h1] at h
    dsimp only at h
    cases h2 : parsedSpan ['.'] (skipWs s1) with
    | fail => rw [h2] at h; exact PResult.noConfusion h
    | err =>
      rw [h2] at h
      dsimp only at h
      cases h
      exact digits1_suffix _ _ _ h1
    | ok s3 dot =>
      rw [h2] at h
      dsimp only at h
      cases h3 : digits0 (skipWs s3) with
      | ok s5 fracP =>
        rw [h3] at h
        dsimp only at h
        cases h
        exact (digits0_suffix _ _ _ h3).trans ((List.drop_suffix _ _).trans
          ((parsedSpan_suffix _ _ _ _ h2).trans ((List.drop_suffix _ _).trans
            (digits1_suffix _ _ _ h1))))
      | err => rw [h3] at h; exact PResult.noConfusion h
      | fail => rw [h3] at h; exact PResult.noConfusion h

theorem numBranch2_suffix (s r : Span) (v : Parsed (List Char))
    (h : numBranch2 s = .ok r v) : r.text <:+ s.text := by
  simp only [numBranch2] at h
  cases h1 : parsedSpan ['.'] (skipWs s) with
  | err => rw [h1] at h; exact PResult.noConfusion h
  | fail => rw [h1] at h; exact PResult.noConfusion h
  | ok s2 dot =>
    rw [h1] at h
    dsimp only at h
    cases h2 : digits1 (skipWs s2) with
    | err => rw [h2] at h; exact PResult.noConfusion h
    | fail => rw [h2] at h; exact PResult.noConfusion h
    | ok s3 fracP =>
      rw [h2] at h
      dsimp only at h
      cases h
      exact (digits1_suffix _ _ _ h2).trans ((List.drop_suffix _ _).trans
        ((parsedSpan_suffix _ _ _ _ h1).trans (List.drop_suffix _ _)))

theorem numberTuple_suffix (s r : Span)
    (v : Option (Parsed Unit) × Parsed (List Char))
    (h : numberTuple s = .ok r v) : r.text <:+ s.text := by
  simp only [numberTuple] at h
  cases hsg : parsedSpan ['-'] (skipWs s) with
  | ok rs t =>
    rw [hsg] at h
    dsimp only at h
    cases hb1 : numBranch1 (skipWs rs) with
    | ok rb vb =>
      rw [hb1] at h
      dsimp only at h
      cases h
      exact (List.drop_suffix _ _).trans ((numBranch1_suffix _ _ _ hb1).trans
        ((List.drop_suffix _ _).trans ((parsedSpan_suffix _ _ _ _ hsg).trans
          (List.drop_suffix _ _))))
    | fail => rw [hb1] at h; exact PResult.noConfusion h
    | err =>
      rw [hb1] at h
      dsimp only at h
      cases hb2 : numBranch2 (skipWs rs) with
      | ok rb vb =>
        rw [hb2] at h
        dsimp only at h
        cases h
        exact (List.drop_suffix _ _).trans ((numBranch2_suffix _ _ _ hb2).trans
          ((List.drop_suffix _ _).trans ((parsedSpan_suffix _ _ _ _ hsg).trans
            (List.drop_suffix _ _))))
      | err => rw [hb2] at h; exact PResult.noConfusion h
      | fail => rw [hb2] at h; exact PResult.noConfusion h
  | err =>
    rw [hsg] at h
    dsimp only at h
    cases hb1 : numBranch1 (skipWs (skipWs s)) with
    | ok rb vb =>
      rw [hb1] at h
      dsimp only at h
      cases h
      exact (List.drop_suffix _ _).trans ((numBranch1_suffix _ _ _ hb1).trans
        ((List.drop_suffix _ _).trans (List.drop_suffix _ _)))
    | fail => rw [hb1] at h; exact PResult.noConfusion h
    | err =>
      rw [hb1] at h
      dsimp only at h
      cases hb2 : numBranch2 (skipWs (skipWs s)) with
      | ok rb vb =>
        rw [hb2] at h
        dsimp only at h
        cases h
        exact (List.drop_suffix _ _).trans ((numBranch2_suffix _ _ _ hb2).trans
          ((List.drop_suffix _ _).trans (List.drop_suffix _ _)))
      | err => rw [hb2] at h; exact PResult.noConfusion h
      | fail => rw [hb2] at h; exact PResult.noConfusion h
  | fail =>
    rw [hsg] at h
    dsimp only at h
    cases hb1 : numBranch1 (skipWs (skipWs s)) with
    | ok rb vb =>
      rw [hb1] at h
      dsimp only at h
      cases h
      exact (List.drop_suffix _ _).trans ((numBranch1_suffix _ _ _ hb1).trans
        ((List.drop_suffix _ _).trans (List.drop_suffix _ _)))
    | fail => rw [hb1] at h; exact PResult.noConfusion h
    | err =>
      rw [hb1] at h
      dsimp only at h
      cases hb2 : numBranch2 (skipWs (skipWs s)) with
      | ok rb vb =>
        rw [hb2] at h
        dsimp only at h
        cases h
        exact (List.drop_suffix _ _).trans ((numBranch2_suffix _ _ _ hb2).trans
          ((List.drop_suffix _ _).trans (List.drop_suffix _ _)))
      | err => rw [hb2] at h; exact PResult.noConfusion h
      | fail => rw [hb2] at h; exact PResult.noConfusion h

theorem parseNumber_suffix (s r : Span) (v : Parsed LitExpr)
    (h : parseNumber s = .ok r v) : r.text <:+ s.text := by
  rw [parseNumber] at h
  cases ht : numberTuple s with
  | err => rw [ht] at h; exact PResult.noConfusion h
  | fail => rw [ht] at h; exact PResult.noConfusion h
  | ok rest pr =>
    obtain ⟨neg, num⟩ := pr
    rw [ht] at h
    dsimp only at h
    split at h
    · cases h
      exact numberTuple_suffix _ _ _ ht
    · exact PResult.noConfusion h

theorem parseProperty_suffix (rec : Span → PResult (Parsed LitExpr))
    (hrecS : ∀ t r v, rec t = .ok r v → r.text <:+ t.text)
    (s r : Span) (p : Parsed Key × Parsed LitExpr)
    (h : parseProperty rec s = .ok r p) : r.text <:+ s.text := by
  rw [parseProperty] at h
  cases h1 : keyParse s with
  | err => rw [h1] at h; exact PResult.noConfusion h
  | fail => rw [h1] at h; exact PResult.noConfusion h
  | ok s1 k =>
    rw [h1] at h
    dsimp only at h
    cases h2 : charTok ':' s1 with
    | err => rw [h2] at h; exact PResult.noConfusion h
    | fail => rw [h2] at h; exact PResult.noConfusion h
    | ok s2 u =>
      rw [h2] at h
      dsimp only at h
      cases h3 : rec s2 with
      | err => rw [h3] at h; exact PResult.noConfusion h
      | fail => rw [h3] at h; exact PResult.noConfusion h
      | ok s3 v =>
        rw [h3] at h
        dsimp only at h
        cases h
        exact (hrecS _ _ _ h3).trans ((charTok_suffix _ _ _ _ h2).trans
          (keyParse_suffix _ _ _ h1))

theorem parsePropsRest_suffix (rec : Span → PResult (Parsed LitExpr))
    (hrecS : ∀ t r v, rec t = .ok r v → r.text <:+ t.text) :
    ∀ (fuel : Nat) (s r : Span) (l : List (Parsed Key × Parsed LitExpr)),
    parsePropsRest rec fuel s = .ok r l → r.text <:+ s.text
  | 0, _, _, _, h => PResult.noConfusion h
  | fuel + 1, s, r, l, h => by
    rw [parsePropsRest] at h
    cases h1 : charTok ',' s with
    | err =>
      rw [h1] at h
      cases h
      exact List.suffix_refl _
    | fail =>
      rw [h1] at h
      cases h
      exact List.suffix_refl _
    | ok s1 u =>
      rw [h1] at h
      dsimp only at h
      cases h2 : parseProperty rec s1 with
      | fail => rw [h2] at h; exact PResult.noConfusion h
      | err =>
        rw [h2] at h
        cases h
        exact List.suffix_refl _
      | ok s2 p =>
        rw [h2] at h
        dsimp only at h
        cases h3 : parsePropsRest rec fuel s2 with
        | err => rw [h3] at h; exact PResult.noConfusion h
        | fail => rw [h3] at h; exact PResult.noConfusion h
        | ok s3 ps =>
          rw [h3] at h
          dsimp only at h
          cases h
          exact (parsePropsRest_suffix rec hrecS fuel s2 _ _ h3).trans
            ((parseProperty_suffix rec hrecS _ _ _ h2).trans
              (charTok_suffix _ _ _ _ h1))

theorem parseElemsRest_suffix (rec : Span → PResult (Parsed LitExpr))
    (hrecS : ∀ t r v, rec t = .ok r v → r.text <:+ t.text) :
    ∀ (fuel : Nat) (s r : Span) (l : List (Parsed LitExpr)),
    parseElemsRest rec fuel s = .ok r l → r.text <:+ s.text
  | 0, _, _, _, h => PResult.noConfusion h
  | fuel + 1, s, r, l, h => by
    rw [parseElemsRest] at h
    cases h1 : charTok ',' s with
    | err =>
      rw [h1] at h
      cases h
      exact List.suffix_refl _
    | fail =>
      rw [h1] at h
      cases h
      exact List.suffix_refl _
    | ok s1 u =>
      rw [h1] at h
      dsimp only at h
      cases h2 : rec s1 with
      | fail => rw [h2] at h; exact PResult.noConfusion h
      | err =>
        rw [h2] at h
        cases h
        exact List.suffix_refl _
      | ok s2 e =>
        rw [h2] at h
        dsimp only at h
        cases h3 : parseElemsRest rec fuel s2 with
        | err => rw [h3] at h; exact PResult.noConfusion h
        | fail => rw [h3] at h; exact PResult.noConfusion h
        | ok s3 es =>
          rw [h3] at h
          dsimp only at h
          cases h
          exact (parseElemsRest_suffix rec hrecS fuel s2 _ _ h3).trans
            ((hrecS _ _ _ h2).trans (charTok_suffix _ _ _ _ h1))

theorem parseObject_suffix (rec : Span → PResult (Parsed LitExpr))
    (hrecS : ∀ t r v, rec t = .ok r v → r.text <:+ t.text)
    (fuel : Nat) (s r : Span) (v : Parsed LitExpr)
    (h : parseObject rec fuel s = .ok r v) : r.text <:+ s.text := by
  rw [parseObject] at h
  cases hb : parsedSpan ['{'] (skipWs s) with
  | err => rw [hb] at h; exact PResult.noConfusion h
  | fail => rw [hb] at h; exact PResult.noConfusion h
  | ok s2 openB =>
    rw [hb] at h
    dsimp only at h
    have hopen : s2.text <:+ s.text :=
      (parsedSpan_suffix _ _ _ _ hb).trans (List.drop_suffix _ _)
    have hclose : ∀ (t : Span), t.text <:+ s.text →
        ∀ (props : List (Parsed Key × Parsed LitExpr)),
        (match parsedSpan ['}'] (skipWs t) with
         | .ok s8 closeB =>
           PResult.ok (skipWs s8) (⟨.obj (buildObjectEntries props),
             mergeLocs openB.loc closeB.loc⟩ : Parsed LitExpr)
         | .err => .err
         | .fail => .fail) = .ok r v → r.text <:+ s.text := by
      intro t hts props hm
      cases hc : parsedSpan ['}'] (skipWs t) with
      | err => rw [hc] at hm; exact PResult.noConfusion hm
      | fail => rw [hc] at hm; exact PResult.noConfusion hm
      | ok s8 closeB =>
        rw [hc] at hm
        dsimp only at hm
        cases hm
        exact (List.drop_suffix _ _).trans ((parsedSpan_suffix _ _ _ _ hc).trans
          ((List.drop_suffix _ _).trans hts))
    cases hpp : parseProperty rec (skipWs s2) with
    | fail => rw [hpp] at h; exact PResult.noConfusion h
    | err =>
      rw [hpp] at h
      dsimp only at h
      exact hclose (skipWs s2) ((List.drop_suffix _ _).trans hopen) [] h
    | ok s4 p1 =>
      rw [hpp] at h
      dsimp only at h
      have hs4 : s4.text <:+ s.text :=
        (parseProperty_suffix rec hrecS _ _ _ hpp).trans
          ((List.drop_suffix _ _).trans hopen)
      cases hps : parsePropsRest rec fuel s4 with
      | err => rw [hps] at h; exact PResult.noConfusion h
      | fail => rw [hps] at h; exact PResult.noConfusion h
      | ok s5 ps =>
        rw [hps] at h
        dsimp only at h
        have hs5 : s5.text <:+ s.text :=
          (parsePropsRest_suffix rec hrecS fuel s4 s5 ps hps).trans hs4
        cases hcm : charTok ',' s5 with
        | ok s6 u =>
          rw [hcm] at h
          exact hclose s6 ((charTok_suffix _ _ _ _ hcm).trans hs5) (p1 :: ps) h
        | err =>
          rw [hcm] at h
          exact hclose s5 hs5 (p1 :: ps) h
        | fail =>
          rw [hcm] at h
          exact hclose s5 hs5 (p1 :: ps) h

theorem parseArray_suffix (rec : Span → PResult (Parsed LitExpr))
    (hrecS : ∀ t r v, rec t = .ok r v → r.text <:+ t.text)
    (fuel : Nat) (s r : Span) (v : Parsed LitExpr)
    (h : parseArray rec fuel s = .ok r v) : r.text <:+ s.text := by
  rw [parseArray] at h
  cases hb : parsedSpan ['['] (skipWs s) with
  | err => rw [hb] at h; exact PResult.noConfusion h
  | fail => rw [hb] at h; exact PResult.noConfusion h
  | ok s2 openB =>
    rw [hb] at h
    dsimp only at h
    have hopen : s2.text <:+ s.text :=
      (parsedSpan_suffix _ _ _ _ hb).trans (List.drop_suffix _ _)
    have hclose : ∀ (t : Span), t.text <:+ s.text →
        ∀ (elems : List (Parsed LitExpr)),
        (match parsedSpan [']'] (skipWs t) with
         | .ok s8 closeB =>
           PResult.ok (skipWs s8) (⟨.arr elems,
             mergeLocs openB.loc closeB.loc⟩ : Parsed LitExpr)
         | .err => .err
         | .fail => .fail) = .ok r v → r.text <:+ s.text := by
      intro t hts elems hm
      cases hc : parsedSpan [']'] (skipWs t) with
      | err => rw [hc] at hm; exact PResult.noConfusion hm
      | fail => rw [hc] at hm; exact PResult.noConfusion hm
      | ok s8 closeB =>
        rw [hc] at hm
        dsimp only at hm
        cases hm
        exact (List.drop_suffix _ _).trans ((parsedSpan_suffix _ _ _ _ hc).trans
          ((List.drop_suffix _ _).trans hts))
    cases hpp : rec (skipWs s2) with
    | fail => rw [hpp] at h; exact PResult.noConfusion h
    | err =>
      rw [hpp] at h
      dsimp only at h
      exact hclose (skipWs s2) ((List.drop_suffix _ _).trans hopen) [] h
    | ok s4 e1 =>
      rw [hpp] at h
      dsimp only at h
      have hs4 : s4.text <:+ s.text :=
        (hrecS _ _ _ hpp).trans ((List.drop_suffix _ _).trans hopen)
      cases hps : parseElemsRest rec fuel s4 with
      | err => rw [hps] at h; exact PResult.noConfusion h
      | fail => rw [hps] at h; exact PResult.noConfusion h
      | ok s5 es =>
        rw [hps] at h
        dsimp only at h
        have hs5 : s5.text <:+ s.text :=
          (parseElemsRest_suffix rec hrecS fuel s4 s5 es hps).trans hs4
        cases hcm : charTok ',' s5 with
        | ok s6 u =>
          rw [hcm] at h
          exact hclose s6 ((charTok_suffix _ _ _ _ hcm).trans hs5) (e1 :: es) h
        | err =>
          rw [hcm] at h
          exact hclose s5 hs5 (e1 :: es) h
        | fail =>
          rw [hcm] at h
          exact hclose s5 hs5 (e1 :: es) h

theorem litAlt_suffix (rec : Span → PResult (Parsed LitExpr))
    (hrecS : ∀ t r v, rec t = .ok r v → r.text <:+ t.text)
    (fuel : Nat) (s r : Span) (v : Parsed LitExpr)
    (h : litAlt rec fuel s = .ok r v) : r.text <:+ s.text := by
  rw [litAlt] at h
  cases h1 : parseStringLit s with
  | fail => rw [h1] at h; exact PResult.noConfusion h
  | ok rs vs =>
    rw [h1] at h
    cases h
    exact parseStringLit_suffix _ _ _ h1
  | err =>
    rw [h1] at h
    dsimp only at h
    cases h2 : parseNumber s with
    | fail => rw [h2] at h; exact PResult.noConfusion h
    | ok rn vn =>
      rw [h2] at h
      cases h
      exact parseNumber_suffix _ _ _ h2
    | err =>
      rw [h2] at h
      dsimp only at h
      cases h3 : parsedSpan ['t', 'r', 'u', 'e'] s with
      | fail => rw [h3] at h; exact PResult.noConfusion h
      | ok rt vt =>
        rw [h3] at h
        cases h
        exact parsedSpan_suffix _ _ _ _ h3
      | err =>
        rw [h3] at h
        dsimp only at h
        cases h4 : parsedSpan ['f', 'a', 'l', 's', 'e'] s with
        | fail => rw [h4] at h; exact PResult.noConfusion h
        | ok rf vf =>
          rw [h4] at h
          cases h
          exact parsedSpan_suffix _ _ _ _ h4
        | err =>
          rw [h4] at h
          dsimp only at h
          cases h5 : parsedSpan ['n', 'u', 'l', 'l'] s with
          | fail => rw [h5] at h; exact PResult.noConfusion h
          | ok rl vl =>
            rw [h5] at h
            cases h
            exact parsedSpan_suffix _ _ _ _ h5
          | err =>
            rw [h5] at h
            dsimp only at h
            cases h6 : parseObject rec fuel s with
            | fail => rw [h6] at h; exact PResult.noConfusion h
            | ok ro vo =>
              rw [h6] at h
              cases h
              exact parseObject_suffix rec hrecS fuel _ _ _ h6
            | err =>
              rw [h6] at h
              dsimp only at h
              cases h7 : parseArray rec fuel s with
              | fail => rw [h7] at h; exact PResult.noConfusion h
              | ok ra va =>
                rw [h7] at h
                cases h
                exact parseArray_suffix rec hrecS fuel _ _ _ h7
              | err =>
                rw [h7] at h
                dsimp only at h
                cases h8 : pathSelectionParse fuel s with
                | fail => rw [h8] at h; exact PResult.noConfusion h
                | err => rw [h8] at h; exact PResult.noConfusion h
                | ok rp pp =>
                  rw [h8] at h
                  cases h
                  exact pathSelectionParse_suffix fuel _ _ _ h8

theorem litParse_suffix : ∀ (fuel : Nat) (s r : Span) (v : Parsed LitExpr),
    litParse fuel s = .ok r v → r.text <:+ s.text
  | 0, _, _, _, h => PResult.noConfusion h
  | fuel + 1, s, r, v, h => by
    rw [litParse] at h
    cases ha : litAlt (litParse fuel) fuel (skipWs s) with
    | err => rw [ha] at h; exact PResult.noConfusion h
    | fail => rw [ha] at h; exact PResult.noConfusion h
    | ok ra va =>
      rw [ha] at h
      dsimp only at h
      cases h
      exact (List.drop_suffix _ _).trans
        ((litAlt_suffix (litParse fuel) (litParse_suffix fuel) fuel _ _ _
          ha).trans (List.drop_suffix _ _))

/-! ### Scanner compositions over an append boundary -/

theorem scanDigits_append_noCross (t r : List Char) (hr : headNotDigit r) :
    scanDigits (t ++ r) = scanDigits t := by
  rw [scanDigits_append2, scanDigits_eq_zero r hr]
  split <;> omega

theorem scanWord_le (l : List Char) : scanWord l ≤ l.length := by
  induction l with
  | nil => exact Nat.le_refl 0
  | cons c t ih =>
    simp only [scanWord, List.length_cons]
    split <;> omega

theorem scanWord_append2 (a b : List Char) :
    scanWord (a ++ b)
      = scanWord a + (if a.drop (scanWord a) = [] then scanWord b else 0) := by
  induction a with
  | nil => simp [scanWord]
  | cons c t ih =>
    cases hw : isWordChar c with
    | true =>
      have h1 : scanWord (c :: (t ++ b)) = 1 + scanWord (t ++ b) := by
        simp [scanWord, hw]
      have h2 : scanWord (c :: t) = 1 + scanWord t := by simp [scanWord, hw]
      have h3 : (c :: t).drop (1 + scanWord t) = t.drop (scanWord t) := by
        rw [Nat.add_comm, List.drop_succ_cons]
      rw [List.cons_append, h1, ih, h2, h3]
      omega
    | false =>
      have h1 : scanWord (c :: (t ++ b)) = 0 := by simp [scanWord, hw]
      have h2 : scanWord (c :: t) = 0 := by simp [scanWord, hw]
      rw [List.cons_append, h1, h2]
      simp

theorem scanWord_append_noCross (t r : List Char) (hr : headNotWord r) :
    scanWord (t ++ r) = scanWord t := by
  rw [scanWord_append2, scanWord_eq_zero r hr]
  split <;> omega

theorem scanIdent_le (l : List Char) : scanIdent l ≤ l.length := by
  cases l with
  | nil => exact Nat.le_refl 0
  | cons c t =>
    simp only [scanIdent, List.length_cons]
    have := scanWord_le t
    split <;> omega

theorem scanIdent_append_noCross (t r : List Char) (hr : headNotWord r) :
    scanIdent (t ++ r) = scanIdent t := by
  cases t with
  | nil =>
    show scanIdent r = scanIdent []
    cases r with
    | nil => rfl
    | cons c w =>
      have hw : isWordChar c = false := hr
      have ha : isAlphaU c = false := by
        cases hval : isAlphaU c with
        | false => rfl
        | true => rw [isWordChar, hval] at hw; exact Bool.noConfusion hw
      simp [scanIdent, ha]
  | cons c w =>
    rw [List.cons_append]
    simp only [scanIdent]
    split
    · rw [scanWord_append_noCross w r hr]
    · rfl

theorem listIsPrefix_append_true : ∀ (tok t r : List Char),
    listIsPrefix tok t = true → listIsPrefix tok (t ++ r) = true
  | [], _, _, _ => rfl
  | _ :: _, [], _, h => absurd h (by simp [listIsPrefix])
  | a :: as, b :: bs, r, h => by
    rw [List.cons_append]
    simp only [listIsPrefix, Bool.and_eq_true] at h ⊢
    exact ⟨h.1, listIsPrefix_append_true as bs r h.2⟩

theorem listIsPrefix_length : ∀ (tok t : List Char),
    listIsPrefix tok t = true → tok.length ≤ t.length
  | [], _, _ => Nat.zero_le _
  | _ :: _, [], h => absurd h (by simp [listIsPrefix])
  | a :: as, b :: bs, h => by
    simp only [listIsPrefix, Bool.and_eq_true] at h
    simpa using listIsPrefix_length as bs h.2

theorem scanStrBody_le : ∀ (q : Char) (u cs : List Char) (n : Nat),
    scanStrBody q u = some (cs, n) → n ≤ u.length
  | _, [], _, _, h => Option.noConfusion h
  | q, c :: u, cs, n, h => by
    rw [scanStrBody.eq_def] at h
    dsimp only at h
    split at h
    · cases h
      simp
    · split at h
      · cases u with
        | nil => exact Option.noConfusion h
        | cons e u2 =>
          dsimp only at h
          cases hs : scanStrBody q u2 with
          | some p =>
            obtain ⟨cs2, n2⟩ := p
            rw [hs] at h
            dsimp only at h
            cases h
            have := scanStrBody_le q u2 cs2 n2 hs
            simp only [List.length_cons]
            omega
          | none => rw [hs] at h; exact Option.noConfusion h
      · cases hs : scanStrBody q u with
        | some p =>
          obtain ⟨cs2, n2⟩ := p
          rw [hs] at h
          dsimp only at h
          cases h
          have := scanStrBody_le q u cs2 n2 hs
          simp only [List.length_cons]
          omega
        | none => rw [hs] at h; exact Option.noConfusion h

theorem scanStrBody_append : ∀ (q : Char) (u r cs : List Char) (n : Nat),
    scanStrBody q u = some (cs, n) → scanStrBody q (u ++ r) = some (cs, n)
  | _, [], _, _, _, h => Option.noConfusion h
  | q, c :: u, r, cs, n, h => by
    rw [scanStrBody.eq_def] at h
    dsimp only at h
    rw [List.cons_append, scanStrBody.eq_def]
    dsimp only
    split at h
    · next hc =>
      rw [if_pos hc]
      exact h
    · next hc =>
      rw [if_neg hc]
      split at h
      · next hb =>
        rw [if_pos hb]
        cases u with
        | nil => exact Option.noConfusion h
        | cons e u2 =>
          rw [List.cons_append]
          dsimp only at h ⊢
          cases hs : scanStrBody q u2 with
          | some p =>
            obtain ⟨cs2, n2⟩ := p
            rw [hs] at h
            dsimp only at h
            cases h
            rw [scanStrBody_append q u2 r cs2 n2 hs]
          | none => rw [hs] at h; exact Option.noConfusion h
      · next hb =>
        rw [if_neg hb]
        cases hs : scanStrBody q u with
        | some p =>
          obtain ⟨cs2, n2⟩ := p
          rw [hs] at h
          dsimp only at h
          cases h
          rw [scanStrBody_append q u r cs2 n2 hs]
        | none => rw [hs] at h; exact Option.noConfusion h

/-! ### Transport of each token-level parser across an append boundary -/

/-- The rest after a parse step, at a point where the enclosing production
has consumed or is about to consume a separator: the remaining text is
entirely ignorable, or its first token is one of `,` `]` `}`. -/
def sepRest (d : List Char) : Prop :=
  d.drop (scanIgnorable d) = [] ∨ closeHead (d.drop (scanIgnorable d))

theorem skipWs_transport (r : List Char) (s : Span) (hH : '#' ∉ s.text)
    (hrn : scanIgnorable r = 0) :
    skipWs ⟨s.text ++ r, s.offset⟩
      = ⟨(skipWs s).text ++ r, (skipWs s).offset⟩ :=
  skipWs_append_noHash s.text r s.offset hH hrn

theorem charTok_transport (c : Char) (r : List Char) (s d : Span) (u : Unit)
    (h : charTok c s = .ok d u) :
    charTok c ⟨s.text ++ r, s.offset⟩ = .ok ⟨d.text ++ r, d.offset⟩ u := by
  cases ht : s.text with
  | nil => rw [charTok, ht] at h; exact PResult.noConfusion h
  | cons c2 tl =>
    rw [charTok, ht] at h
    dsimp only at h
    rw [List.cons_append, charTok]
    dsimp only
    split at h
    · next hc =>
      cases h
      rw [if_pos hc]
      simp [Span.advance, ht]
    · exact PResult.noConfusion h

theorem parsedSpan_transport (tok r : List Char) (s d : Span) (v : Parsed Unit)
    (h : parsedSpan tok s = .ok d v) :
    parsedSpan tok ⟨s.text ++ r, s.offset⟩ = .ok ⟨d.text ++ r, d.offset⟩ v := by
  simp only [parsedSpan] at h ⊢
  split at h
  · next hp =>
    cases h
    have hlen : tok.length ≤ s.text.length := listIsPrefix_length tok s.text hp
    rw [if_pos (listIsPrefix_append_true tok s.text r hp)]
    simp only [Span.advance]
    rw [List.drop_append_of_le_length hlen]
  · exact PResult.noConfusion h

theorem digits1_transport (r : List Char) (s d : Span) (v : Parsed (List Char))
    (hr : headNotDigit r) (h : digits1 s = .ok d v) :
    digits1 ⟨s.text ++ r, s.offset⟩ = .ok ⟨d.text ++ r, d.offset⟩ v := by
  have hsc : scanDigits (s.text ++ r) = scanDigits s.text :=
    scanDigits_append_noCross s.text r hr
  have hle : scanDigits s.text ≤ s.text.length := scanDigits_le s.text
  simp only [digits1] at h ⊢
  rw [hsc]
  split at h
  · exact PResult.noConfusion h
  · next hn =>
    cases h
    rw [if_neg hn]
    simp only [Span.advance]
    rw [List.drop_append_of_le_length hle, List.take_append_of_le_length hle]

theorem digits0_transport (r : List Char) (s d : Span) (v : Parsed (List Char))
    (hr : headNotDigit r) (h : digits0 s = .ok d v) :
    digits0 ⟨s.text ++ r, s.offset⟩ = .ok ⟨d.text ++ r, d.offset⟩ v := by
  have hsc : scanDigits (s.text ++ r) = scanDigits s.text :=
    scanDigits_append_noCross s.text r hr
  have hle : scanDigits s.text ≤ s.text.length := scanDigits_le s.text
  simp only [digits0] at h ⊢
  cases h
  rw [hsc]
  simp only [Span.advance]
  rw [List.drop_append_of_le_length hle, List.take_append_of_le_length hle]

theorem parseStringLit_transport (r : List Char) (s d : Span)
    (v : Parsed (List Char)) (h : parseStringLit s = .ok d v) :
    parseStringLit ⟨s.text ++ r, s.offset⟩
      = .ok ⟨d.text ++ r, d.offset⟩ v := by
  cases ht : s.text with
  | nil => rw [parseStringLit, ht] at h; exact PResult.noConfusion h
  | cons q tl =>
    rw [parseStringLit, ht] at h
    dsimp only at h
    rw [List.cons_append, parseStringLit]
    dsimp only
    split at h
    · next hq =>
      rw [if_pos hq]
      cases hs : scanStrBody q tl with
      | some p =>
        obtain ⟨cs, n⟩ := p
        rw [hs] at h
        dsimp only at h
        cases h
        rw [scanStrBody_append q tl r cs n hs]
        dsimp only
        simp only [Span.advance, ht, List.drop_succ_cons]
        rw [List.drop_append_of_le_length (scanStrBody_le q tl cs n hs)]
      | none => rw [hs] at h; exact PResult.noConfusion h
    · exact PResult.noConfusion h

theorem parsedSpan_prefix_of_ok (tok : List Char) (s r : Span) (v : Parsed Unit)
    (h : parsedSpan tok s = .ok r v) : listIsPrefix tok s.text = true := by
  by_cases hp : listIsPrefix tok s.text = true
  · exact hp
  · rw [parsedSpan, if_neg hp] at h
    exact PResult.noConfusion h

theorem parsedSpan_prefix_of_err (tok : List Char) (s : Span)
    (h : parsedSpan tok s = .err) : listIsPrefix tok s.text = false := by
  cases hp : listIsPrefix tok s.text with
  | false => rfl
  | true =>
    rw [parsedSpan, if_pos hp] at h
    exact PResult.noConfusion h

theorem parsedSpan_ne_fail (tok : List Char) (s : Span) :
    parsedSpan tok s ≠ .fail := by
  rw [parsedSpan]
  split
  · exact fun h => PResult.noConfusion h
  · exact fun h => PResult.noConfusion h

theorem listIsPrefix_single_swap (c c2 : Char) (tl tl2 : List Char)
    (h : listIsPrefix [c] (c2 :: tl) = false) :
    listIsPrefix [c] (c2 :: tl2) = false := by
  simp only [listIsPrefix, Bool.and_true] at h ⊢
  exact h

/-- A single-character token that fails on the text keeps failing with a
separator continuation appended, as long as the continuation does not start
with that very character. -/
theorem parsedSpan_single_err_transport (c : Char) (r : List Char) (s : Span)
    (h : parsedSpan [c] s = .err) (hrc : ∀ w, r ≠ c :: w) :
    parsedSpan [c] ⟨s.text ++ r, s.offset⟩ = .err := by
  apply parsedSpan_err_of_false
  have hpre : listIsPrefix [c] s.text = false := parsedSpan_prefix_of_err [c] s h
  cases ht : s.text with
  | nil =>
    show listIsPrefix [c] ([] ++ r) = false
    cases r with
    | nil => rfl
    | cons c2 w =>
      show listIsPrefix [c] (c2 :: w) = false
      simp only [listIsPrefix, Bool.and_true]
      exact decide_eq_false (fun he => hrc w (by rw [he]))
  | cons c2 tl =>
    rw [ht] at hpre
    show listIsPrefix [c] ((c2 :: tl) ++ r) = false
    rw [List.cons_append]
    exact listIsPrefix_single_swap c c2 tl (tl ++ r) hpre

theorem digits1_err_transport (r : List Char) (s : Span)
    (hr : headNotDigit r) (h : digits1 s = .err) :
    digits1 ⟨s.text ++ r, s.offset⟩ = .err := by
  have hz : scanDigits s.text = 0 := by
    by_cases hz : scanDigits s.text = 0
    · exact hz
    · simp only [digits1, if_neg hz] at h
      exact PResult.noConfusion h
  simp only [digits1]
  rw [scanDigits_append_noCross s.text r hr, hz]
  rfl

theorem scanIdent_pos_head (l : List Char) (h : ¬scanIdent l = 0) :
    ∃ c w, l = c :: w ∧ isAlphaU c = true := by
  cases l with
  | nil => exact absurd rfl h
  | cons c w =>
    refine ⟨c, w, rfl, ?_⟩
    cases ha : isAlphaU c with
    | true => rfl
    | false => exact absurd (by simp [scanIdent, ha]) h

/-- `Key::parse` transported across the append boundary. -/
theorem keyParse_transport (r : List Char) (s d : Span) (k : Parsed Key)
    (hH : '#' ∉ s.text) (hcr : closeHead r) (h : keyParse s = .ok d k) :
    keyParse ⟨s.text ++ r, s.offset⟩ = .ok ⟨d.text ++ r, d.offset⟩ k := by
  have hrn : scanIgnorable r = 0 := closeHead_norm r hcr
  have hHsw : '#' ∉ (skipWs s).text := suffix_noHash (skipWs_suffix s) hH
  simp only [keyParse] at h ⊢
  rw [skipWs_transport r s hH hrn]
  cases hps : parseStringLit (skipWs s) with
  | fail => rw [hps] at h; exact PResult.noConfusion h
  | ok r0 v =>
    rw [hps] at h
    dsimp only at h
    cases h
    rw [parseStringLit_transport r (skipWs s) r0 v hps]
    dsimp only
    have hH0 : '#' ∉ r0.text :=
      suffix_noHash (parseStringLit_suffix _ _ _ hps) hHsw
    rw [skipWs_transport r r0 hH0 hrn]
  | err =>
    rw [hps] at h
    dsimp only at h
    split at h
    · exact PResult.noConfusion h
    · next hn =>
      cases h
      obtain ⟨c, w, hcw, hca⟩ := scanIdent_pos_head (skipWs s).text hn
      have hnq : ¬(c = squote ∨ c = '"') := alphaU_not_quote c hca
      rw [parseStringLit_err_of_head ⟨(skipWs s).text ++ r, (skipWs s).offset⟩
        c (w ++ r)
        (by show (skipWs s).text ++ r = c :: (w ++ r); rw [hcw]; rfl) hnq]
      dsimp only
      rw [scanIdent_append_noCross (skipWs s).text r (closeHead_notWord r hcr)]
      rw [if_neg hn]
      have hle : scanIdent (skipWs s).text ≤ (skipWs s).text.length :=
        scanIdent_le _
      have hadv : (⟨(skipWs s).text ++ r, (skipWs s).offset⟩ : Span).advance
            (scanIdent (skipWs s).text)
          = ⟨((skipWs s).advance (scanIdent (skipWs s).text)).text ++ r,
            ((skipWs s).advance (scanIdent (skipWs s).text)).offset⟩ := by
        simp only [Span.advance]
        rw [List.drop_append_of_le_length hle]
      rw [hadv]
      have hH1 : '#' ∉ ((skipWs s).advance (scanIdent (skipWs s).text)).text :=
        suffix_noHash (List.drop_suffix _ _) hHsw
      rw [skipWs_transport r ((skipWs s).advance (scanIdent (skipWs s).text))
        hH1 hrn]
      rw [List.take_append_of_le_length hle]

/-! ### Recoverable errors decided by the head character -/

theorem keyParse_err_of_head (t : List Char) (o : Nat) (c : Char)
    (w : List Char) (hct : t = c :: w) (hni : isWsChar c = false ∧ c ≠ '#')
    (hq : ¬(c = squote ∨ c = '"')) (ha : isAlphaU c = false) :
    keyParse ⟨t, o⟩ = .err := by
  subst hct
  have hsw : skipWs ⟨c :: w, o⟩ = ⟨c :: w, o⟩ := skipWs_of_headNotIgn _ o hni
  simp only [keyParse]
  rw [hsw, parseStringLit_err_of_head ⟨c :: w, o⟩ c w rfl hq]
  dsimp only
  simp [scanIdent, ha]

theorem numBranch1_err_of_headNot (s : Span) (h : headNotDigit s.text) :
    numBranch1 s = .err := by
  rw [numBranch1, digits1_err_of_headNot s h]

theorem numBranch2_err_of_head (t : List Char) (o : Nat) (c : Char)
    (w : List Char) (hct : t = c :: w) (hni : isWsChar c = false ∧ c ≠ '#')
    (hdot : c ≠ '.') : numBranch2 ⟨t, o⟩ = .err := by
  subst hct
  have hsw : skipWs ⟨c :: w, o⟩ = ⟨c :: w, o⟩ := skipWs_of_headNotIgn _ o hni
  simp only [numBranch2]
  rw [hsw, parsedSpan_err_of_false ['.'] ⟨c :: w, o⟩
    (listIsPrefix_cons_false '.' c [] w (fun he => hdot he.symm))]

theorem numberTuple_err_of_head (t : List Char) (o : Nat) (c : Char)
    (w : List Char) (hct : t = c :: w) (hni : isWsChar c = false ∧ c ≠ '#')
    (hd : isDigitChar c = false) (hdot : c ≠ '.') (hdash : c ≠ '-') :
    numberTuple ⟨t, o⟩ = .err := by
  subst hct
  have hsw : skipWs ⟨c :: w, o⟩ = ⟨c :: w, o⟩ := skipWs_of_headNotIgn _ o hni
  simp only [numberTuple]
  simp only [hsw]
  rw [parsedSpan_err_of_false ['-'] ⟨c :: w, o⟩
    (listIsPrefix_cons_false '-' c [] w (fun he => hdash he.symm))]
  dsimp only
  simp only [hsw]
  rw [numBranch1_err_of_headNot ⟨c :: w, o⟩ hd]
  dsimp only
  rw [numBranch2_err_of_head (c :: w) o c w rfl hni hdot]

theorem parseNumber_err_of_head (t : List Char) (o : Nat) (c : Char)
    (w : List Char) (hct : t = c :: w) (hni : isWsChar c = false ∧ c ≠ '#')
    (hd : isDigitChar c = false) (hdot : c ≠ '.') (hdash : c ≠ '-') :
    parseNumber ⟨t, o⟩ = .err := by
  rw [parseNumber, numberTuple_err_of_head t o c w hct hni hd hdot hdash]

theorem pathSelectionParse_err_of_head (fuel : Nat) (o : Nat) (c : Char)
    (w : List Char) (hni : isWsChar c = false ∧ c ≠ '#')
    (hq : ¬(c = squote ∨ c = '"')) (ha : isAlphaU c = false)
    (hdol : c ≠ '$') (hdot : c ≠ '.') :
    pathSelectionParse fuel ⟨c :: w, o⟩ = .err := by
  rw [pathSelectionParse_else fuel ⟨c :: w, o⟩
    (fun x he => hdol (by injection he))]
  rw [parsedSpan_err_of_false ['.'] ⟨c :: w, o⟩
    (listIsPrefix_cons_false '.' c [] w (fun he => hdot he.symm))]
  dsimp only
  rw [keyParse_err_of_head (c :: w) o c w rfl hni hq ha]

/-- Every alternative of `LitExpr::parse` fails recoverably on a text whose
first character is a separator `,` `]` `}`. -/
theorem litAlt_err_close (rec : Span → PResult (Parsed LitExpr)) (fuel : Nat)
    (o : Nat) (c : Char) (w : List Char)
    (hc : c = ',' ∨ c = ']' ∨ c = '}') :
    litAlt rec fuel ⟨c :: w, o⟩ = .err := by
  have hni : isWsChar c = false ∧ c ≠ '#' := by
    rcases hc with h | h | h <;> subst h <;> exact ⟨by decide, by decide⟩
  have hq : ¬(c = squote ∨ c = '"') := by
    rcases hc with h | h | h <;> subst h <;> decide
  have hd : isDigitChar c = false := by
    rcases hc with h | h | h <;> subst h <;> decide
  have ha : isAlphaU c = false := by
    rcases hc with h | h | h <;> subst h <;> decide
  have hdot : c ≠ '.' := by rcases hc with h | h | h <;> subst h <;> decide
  have hdash : c ≠ '-' := by rcases hc with h | h | h <;> subst h <;> decide
  have hdol : c ≠ '$' := by rcases hc with h | h | h <;> subst h <;> decide
  have hkt : 't' ≠ c := by rcases hc with h | h | h <;> subst h <;> decide
  have hkf : 'f' ≠ c := by rcases hc with h | h | h <;> subst h <;> decide
  have hkn : 'n' ≠ c := by rcases hc with h | h | h <;> subst h <;> decide
  have hob : '{' ≠ c := by rcases hc with h | h | h <;> subst h <;> decide
  have har : '[' ≠ c := by rcases hc with h | h | h <;> subst h <;> decide
  have hsw : skipWs ⟨c :: w, o⟩ = ⟨c :: w, o⟩ := skipWs_of_headNotIgn _ o hni
  rw [litAlt]
  rw [parseStringLit_err_of_head ⟨c :: w, o⟩ c w rfl hq]
  dsimp only
  rw [parseNumber_err_of_head (c :: w) o c w rfl hni hd hdot hdash]
  dsimp only
  rw [parsedSpan_err_of_false ['t', 'r', 'u', 'e'] ⟨c :: w, o⟩
    (listIsPrefix_cons_false 't' c _ w hkt)]
  dsimp only
  rw [parsedSpan_err_of_false ['f', 'a', 'l', 's', 'e'] ⟨c :: w, o⟩
    (listIsPrefix_cons_false 'f' c _ w hkf)]
  dsimp only
  rw [parsedSpan_err_of_false ['n', 'u', 'l', 'l'] ⟨c :: w, o⟩
    (listIsPrefix_cons_false 'n' c _ w hkn)]
  dsimp only
  rw [show parseObject rec fuel ⟨c :: w, o⟩ = .err from by
    simp only [parseObject]
    rw [hsw, parsedSpan_err_of_false ['{'] ⟨c :: w, o⟩
      (listIsPrefix_cons_false '{' c [] w hob)]]
  dsimp only
  rw [show parseArray rec fuel ⟨c :: w, o⟩ = .err from by
    simp only [parseArray]
    rw [hsw, parsedSpan_err_of_false ['['] ⟨c :: w, o⟩
      (listIsPrefix_cons_false '[' c [] w har)]]
  dsimp only
  rw [pathSelectionParse_err_of_head fuel o c w hni hq ha hdol hdot]

/-- `LitExpr::parse` fails recoverably when the text after leading ignorable
characters starts with a separator `,` `]` `}`. -/
theorem litParse_err_close (F : Nat) (s : Span) (c : Char) (w : List Char)
    (hpost : s.text.drop (scanIgnorable s.text) = c :: w)
    (hc : c = ',' ∨ c = ']' ∨ c = '}') :
    litParse F s = .err := by
  cases F with
  | zero => rfl
  | succ F =>
    rw [litParse]
    have hskEq : skipWs s = ⟨c :: w, (skipWs s).offset⟩ := by
      have h1 : (skipWs s).text = c :: w := hpost
      conv_lhs => rw [show skipWs s
        = ⟨(skipWs s).text, (skipWs s).offset⟩ from rfl]
      rw [h1]
    rw [hskEq, litAlt_err_close (litParse F) F _ c w hc]

/-! ### Transport of the number grammar across an append boundary -/

theorem closeHead_ne_cons (r : List Char) (hcr : closeHead r) (c0 : Char)
    (hc0 : c0 ≠ ',' ∧ c0 ≠ ']' ∧ c0 ≠ '}') : ∀ w', r ≠ c0 :: w' := by
  intro w' he
  obtain ⟨w, h | h | h⟩ := hcr
  · rw [he] at h
    exact hc0.1 (by injection h)
  · rw [he] at h
    exact hc0.2.1 (by injection h)
  · rw [he] at h
    exact hc0.2.2 (by injection h)

theorem numBranch1_transport (r : List Char) (s d : Span)
    (v : Parsed (List Char)) (hH : '#' ∉ s.text) (hcr : closeHead r)
    (h : numBranch1 s = .ok d v) :
    numBranch1 ⟨s.text ++ r, s.offset⟩ = .ok ⟨d.text ++ r, d.offset⟩ v := by
  have hrn := closeHead_norm r hcr
  have hnd := closeHead_notDigit r hcr
  rw [numBranch1] at h ⊢
  cases h1 : digits1 s with
  | err => rw [h1] at h; exact PResult.noConfusion h
  | fail => rw [h1] at h; exact PResult.noConfusion h
  | ok s1 intP =>
    rw [h1] at h
    dsimp only at h
    rw [digits1_transport r s s1 intP hnd h1]
    dsimp only
    have hH1 : '#' ∉ s1.text := suffix_noHash (digits1_suffix _ _ _ h1) hH
    rw [skipWs_transport r s1 hH1 hrn]
    cases h2 : parsedSpan ['.'] (skipWs s1) with
    | fail => rw [h2] at h; exact PResult.noConfusion h
    | err =>
      rw [h2] at h
      dsimp only at h
      injection h with hd hv
      subst hd
      subst hv
      rw [parsedSpan_single_err_transport '.' r (skipWs s1) h2
        (closeHead_ne_cons r hcr '.' (by decide))]
    | ok s3 dot =>
      rw [h2] at h
      dsimp only at h
      rw [parsedSpan_transport ['.'] r (skipWs s1) s3 dot h2]
      dsimp only
      have hH3 : '#' ∉ s3.text :=
        suffix_noHash (parsedSpan_suffix _ _ _ _ h2)
          (suffix_noHash (skipWs_suffix s1) hH1)
      rw [skipWs_transport r s3 hH3 hrn]
      cases h3 : digits0 (skipWs s3) with
      | err => rw [h3] at h; exact PResult.noConfusion h
      | fail => rw [h3] at h; exact PResult.noConfusion h
      | ok s5 fracP =>
        rw [h3] at h
        dsimp only at h
        injection h with hd hv
        subst hd
        subst hv
        rw [digits0_transport r (skipWs s3) s5 fracP hnd h3]

theorem numBranch1_err_transport (r : List Char) (s : Span)
    (hr : headNotDigit r) (h : numBranch1 s = .err) :
    numBranch1 ⟨s.text ++ r, s.offset⟩ = .err := by
  rw [numBranch1] at h ⊢
  cases h1 : digits1 s with
  | err => rw [digits1_err_transport r s hr h1]
  | fail => rw [h1] at h; exact PResult.noConfusion h
  | ok s1 intP =>
    rw [h1] at h
    dsimp only at h
    cases h2 : parsedSpan ['.'] (skipWs s1) with
    | fail => rw [h2] at h; exact PResult.noConfusion h
    | err => rw [h2] at h; dsimp only at h; exact PResult.noConfusion h
    | ok s3 dot =>
      rw [h2] at h
      dsimp only at h
      cases h3 : digits0 (skipWs s3) with
      | ok s5 fracP =>
        rw [h3] at h
        dsimp only at h
        exact PResult.noConfusion h
      | err => exact absurd h3 (by simp [digits0])
      | fail => exact absurd h3 (by simp [digits0])

theorem numBranch2_transport (r : List Char) (s d : Span)
    (v : Parsed (List Char)) (hH : '#' ∉ s.text) (hcr : closeHead r)
    (h : numBranch2 s = .ok d v) :
    numBranch2 ⟨s.text ++ r, s.offset⟩ = .ok ⟨d.text ++ r, d.offset⟩ v := by
  have hrn := closeHead_norm r hcr
  have hnd := closeHead_notDigit r hcr
  simp only [numBranch2] at h ⊢
  rw [skipWs_transport r s hH hrn]
  cases h1 : parsedSpan ['.'] (skipWs s) with
  | err => rw [h1] at h; exact PResult.noConfusion h
  | fail => rw [h1] at h; exact PResult.noConfusion h
  | ok s2 dot =>
    rw [h1] at h
    dsimp only at h
    rw [parsedSpan_transport ['.'] r (skipWs s) s2 dot h1]
    dsimp only
    have hH2 : '#' ∉ s2.text :=
      suffix_noHash (parsedSpan_suffix _ _ _ _ h1)
        (suffix_noHash (skipWs_suffix s) hH)
    rw [skipWs_transport r s2 hH2 hrn]
    cases h2 : digits1 (skipWs s2) with
    | err => rw [h2] at h; exact PResult.noConfusion h
    | fail => rw [h2] at h; exact PResult.noConfusion h
    | ok s3 fracP =>
      rw [h2] at h
      dsimp only at h
      injection h with hd hv
      subst hd
      subst hv
      rw [digits1_transport r (skipWs s2) s3 fracP hnd h2]

theorem numBranch2_err_transport (r : List Char) (s : Span)
    (hH : '#' ∉ s.text) (hcr : closeHead r) (h : numBranch2 s = .err) :
    numBranch2 ⟨s.text ++ r, s.offset⟩ = .err := by
  have hrn := closeHead_norm r hcr
  have hnd := closeHead_notDigit r hcr
  simp only [numBranch2] at h ⊢
  rw [skipWs_transport r s hH hrn]
  cases h1 : parsedSpan ['.'] (skipWs s) with
  | fail => rw [h1] at h; exact PResult.noConfusion h
  | err =>
    rw [parsedSpan_single_err_transport '.' r (skipWs s) h1
      (closeHead_ne_cons r hcr '.' (by decide))]
  | ok s2 dot =>
    rw [h1] at h
    dsimp only at h
    rw [parsedSpan_transport ['.'] r (skipWs s) s2 dot h1]
    dsimp only
    have hH2 : '#' ∉ s2.text :=
      suffix_noHash (parsedSpan_suffix _ _ _ _ h1)
        (suffix_noHash (skipWs_suffix s) hH)
    rw [skipWs_transport r s2 hH2 hrn]
    cases h2 : digits1 (skipWs s2) with
    | fail => rw [h2] at h; exact PResult.noConfusion h
    | ok s3 fracP => rw [h2] at h; exact PResult.noConfusion h
    | err => rw [digits1_err_transport r (skipWs s2) hnd h2]

theorem numberTuple_transport (r : List Char) (s d : Span)
    (v : Option (Parsed Unit) × Parsed (List Char)) (hH : '#' ∉ s.text)
    (hcr : closeHead r) (h : numberTuple s = .ok d v) :
    numberTuple ⟨s.text ++ r, s.offset⟩ = .ok ⟨d.text ++ r, d.offset⟩ v := by
  have hrn := closeHead_norm r hcr
  simp only [numberTuple] at h ⊢
  rw [skipWs_transport r s hH hrn]
  have hHsw : '#' ∉ (skipWs s).text := suffix_noHash (skipWs_suffix s) hH
  cases hsg : parsedSpan ['-'] (skipWs s) with
  | fail => exact absurd hsg (parsedSpan_ne_fail _ _)
  | ok rs t =>
    rw [hsg] at h
    dsimp only at h
    rw [parsedSpan_transport ['-'] r (skipWs s) rs t hsg]
    dsimp only
    have hHrs : '#' ∉ rs.text :=
      suffix_noHash (parsedSpan_suffix _ _ _ _ hsg) hHsw
    rw [skipWs_transport r rs hHrs hrn]
    have hHrs2 : '#' ∉ (skipWs rs).text :=
      suffix_noHash (skipWs_suffix rs) hHrs
    cases hb1 : numBranch1 (skipWs rs) with
    | fail => rw [hb1] at h; exact PResult.noConfusion h
    | ok rb vb =>
      rw [hb1] at h
      dsimp only at h
      cases h
      rw [numBranch1_transport r (skipWs rs) rb vb hHrs2 hcr hb1]
      dsimp only
      have hHrb : '#' ∉ rb.text :=
        suffix_noHash (numBranch1_suffix _ _ _ hb1) hHrs2
      rw [skipWs_transport r rb hHrb hrn]
    | err =>
      rw [hb1] at h
      dsimp only at h
      rw [numBranch1_err_transport r (skipWs rs) (closeHead_notDigit r hcr)
        hb1]
      dsimp only
      cases hb2 : numBranch2 (skipWs rs) with
      | err => rw [hb2] at h; exact PResult.noConfusion h
      | fail => rw [hb2] at h; exact PResult.noConfusion h
      | ok rb vb =>
        rw [hb2] at h
        dsimp only at h
        cases h
        rw [numBranch2_transport r (skipWs rs) rb vb hHrs2 hcr hb2]
        dsimp only
        have hHrb : '#' ∉ rb.text :=
          suffix_noHash (numBranch2_suffix _ _ _ hb2) hHrs2
        rw [skipWs_transport r rb hHrb hrn]
  | err =>
    rw [hsg] at h
    dsimp only at h
    rw [parsedSpan_single_err_transport '-' r (skipWs s) hsg
      (closeHead_ne_cons r hcr '-' (by decide))]
    dsimp only
    rw [skipWs_transport r (skipWs s) hHsw hrn]
    have hHsw2 : '#' ∉ (skipWs (skipWs s)).text :=
      suffix_noHash (skipWs_suffix (skipWs s)) hHsw
    cases hb1 : numBranch1 (skipWs (skipWs s)) with
    | fail => rw [hb1] at h; exact PResult.noConfusion h
    | ok rb vb =>
      rw [hb1] at h
      dsimp only at h
      cases h
      rw [numBranch1_transport r (skipWs (skipWs s)) rb vb hHsw2 hcr hb1]
      dsimp only
      have hHrb : '#' ∉ rb.text :=
        suffix_noHash (numBranch1_suffix _ _ _ hb1) hHsw2
      rw [skipWs_transport r rb hHrb hrn]
    | err =>
      rw [hb1] at h
      dsimp only at h
      rw [numBranch1_err_transport r (skipWs (skipWs s))
        (closeHead_notDigit r hcr) hb1]
      dsimp only
      cases hb2 : numBranch2 (skipWs (skipWs s)) with
      | err => rw [hb2] at h; exact PResult.noConfusion h
      | fail => rw [hb2] at h; exact PResult.noConfusion h
      | ok rb vb =>
        rw [hb2] at h
        dsimp only at h
        cases h
        rw [numBranch2_transport r (skipWs (skipWs s)) rb vb hHsw2 hcr hb2]
        dsimp only
        have hHrb : '#' ∉ rb.text :=
          suffix_noHash (numBranch2_suffix _ _ _ hb2) hHsw2
        rw [skipWs_transport r rb hHrb hrn]

theorem numberTuple_err_transport (r : List Char) (s : Span)
    (hH : '#' ∉ s.text) (hcr : closeHead r) (h : numberTuple s = .err) :
    numberTuple ⟨s.text ++ r, s.offset⟩ = .err := by
  have hrn := closeHead_norm r hcr
  simp only [numberTuple] at h ⊢
  rw [skipWs_transport r s hH hrn]
  have hHsw : '#' ∉ (skipWs s).text := suffix_noHash (skipWs_suffix s) hH
  cases hsg : parsedSpan ['-'] (skipWs s) with
  | fail => exact absurd hsg (parsedSpan_ne_fail _ _)
  | ok rs t =>
    rw [hsg] at h
    dsimp only at h
    rw [parsedSpan_transport ['-'] r (skipWs s) rs t hsg]
    dsimp only
    have hHrs : '#' ∉ rs.text :=
      suffix_noHash (parsedSpan_suffix _ _ _ _ hsg) hHsw
    rw [skipWs_transport r rs hHrs hrn]
    have hHrs2 : '#' ∉ (skipWs rs).text :=
      suffix_noHash (skipWs_suffix rs) hHrs
    cases hb1 : numBranch1 (skipWs rs) with
    | fail => rw [hb1] at h; exact PResult.noConfusion h
    | ok rb vb => rw [hb1] at h; exact PResult.noConfusion h
    | err =>
      rw [hb1] at h
      dsimp only at h
      rw [numBranch1_err_transport r (skipWs rs) (closeHead_notDigit r hcr)
        hb1]
      dsimp only
      cases hb2 : numBranch2 (skipWs rs) with
      | fail => rw [hb2] at h; exact PResult.noConfusion h
      | ok rb vb => rw [hb2] at h; exact PResult.noConfusion h
      | err => rw [numBranch2_err_transport r (skipWs rs) hHrs2 hcr hb2]
  | err =>
    rw [hsg] at h
    dsimp only at h
    rw [parsedSpan_single_err_transport '-' r (skipWs s) hsg
      (closeHead_ne_cons r hcr '-' (by decide))]
    dsimp only
    rw [skipWs_transport r (skipWs s) hHsw hrn]
    have hHsw2 : '#' ∉ (skipWs (skipWs s)).text :=
      suffix_noHash (skipWs_suffix (skipWs s)) hHsw
    cases hb1 : numBranch1 (skipWs (skipWs s)) with
    | fail => rw [hb1] at h; exact PResult.noConfusion h
    | ok rb vb => rw [hb1] at h; exact PResult.noConfusion h
    | err =>
      rw [hb1] at h
      dsimp only at h
      rw [numBranch1_err_transport r (skipWs (skipWs s))
        (closeHead_notDigit r hcr) hb1]
      dsimp only
      cases hb2 : numBranch2 (skipWs (skipWs s)) with
      | fail => rw [hb2] at h; exact PResult.noConfusion h
      | ok rb vb => rw [hb2] at h; exact PResult.noConfusion h
      | err =>
        rw [numBranch2_err_transport r (skipWs (skipWs s)) hHsw2 hcr hb2]

theorem parseNumber_transport (r : List Char) (s d : Span)
    (v : Parsed LitExpr) (hH : '#' ∉ s.text) (hcr : closeHead r)
    (h : parseNumber s = .ok d v) :
    parseNumber ⟨s.text ++ r, s.offset⟩ = .ok ⟨d.text ++ r, d.offset⟩ v := by
  rw [parseNumber] at h ⊢
  cases ht : numberTuple s with
  | err => rw [ht] at h; exact PResult.noConfusion h
  | fail => rw [ht] at h; exact PResult.noConfusion h
  | ok rest pr =>
    obtain ⟨neg, num⟩ := pr
    rw [ht] at h
    dsimp only at h
    rw [numberTuple_transport r s rest (neg, num) hH hcr ht]
    dsimp only
    cases hsv : serdeNumberFromString (numberText neg num) with
    | none => rw [hsv] at h; exact PResult.noConfusion h
    | some n =>
      rw [hsv] at h
      dsimp only at h
      dsimp only
      cases h
      rfl

theorem parseNumber_err_transport (r : List Char) (s : Span)
    (hH : '#' ∉ s.text) (hcr : closeHead r) (h : parseNumber s = .err) :
    parseNumber ⟨s.text ++ r, s.offset⟩ = .err := by
  rw [parseNumber] at h ⊢
  cases ht : numberTuple s with
  | fail => rw [ht] at h; exact PResult.noConfusion h
  | err => rw [numberTuple_err_transport r s hH hcr ht]
  | ok rest pr =>
    obtain ⟨neg, num⟩ := pr
    rw [ht] at h
    dsimp only at h
    split at h
    · exact PResult.noConfusion h
    · exact PResult.noConfusion h

/-! ### Transport of path selections across an append boundary -/

theorem parsedSpan_kw_err_transport (tok r : List Char) (s : Span)
    (htok : tok.all isWordChar = true) (hr : headNotWord r)
    (h : parsedSpan tok s = .err) :
    parsedSpan tok ⟨s.text ++ r, s.offset⟩ = .err := by
  apply parsedSpan_err_of_false
  rw [prefix_thru_word tok s.text r htok hr]
  exact parsedSpan_prefix_of_err tok s h

theorem pathTailScan_transport (r : List Char) (hcr : closeHead r) :
    ∀ (fuel : Nat) (s d : Span) (tail : Parsed PathList), '#' ∉ s.text →
    pathTailScan fuel s = (d, tail) → sepRest d.text →
    pathTailScan fuel ⟨s.text ++ r, s.offset⟩ = (⟨d.text ++ r, d.offset⟩, tail)
  | 0, s, d, tail, _, h, _ => by
    rw [pathTailScan] at h ⊢
    injection h with h1 h2
    subst h1
    subst h2
    rfl
  | fuel + 1, s, d, tail, hH, h, hd => by
    have hrn := closeHead_norm r hcr
    rw [pathTailScan] at h
    dsimp only at h
    rw [pathTailScan]
    dsimp only
    rw [skipWs_transport r s hH hrn]
    have hHsw : '#' ∉ (skipWs s).text := suffix_noHash (skipWs_suffix s) hH
    cases hdot : parsedSpan ['.'] (skipWs s) with
    | fail => exact absurd hdot (parsedSpan_ne_fail _ _)
    | err =>
      rw [hdot] at h
      dsimp only at h
      injection h with h1 h2
      subst h1
      subst h2
      rw [parsedSpan_single_err_transport '.' r (skipWs s) hdot
        (closeHead_ne_cons r hcr '.' (by decide))]
    | ok s2 u =>
      rw [hdot] at h
      dsimp only at h
      rw [parsedSpan_transport ['.'] r (skipWs s) s2 u hdot]
      dsimp only
      have hHs2 : '#' ∉ s2.text :=
        suffix_noHash (parsedSpan_suffix _ _ _ _ hdot) hHsw
      have hcontra : ∀ dd : Span, dd = s → sepRest dd.text → False := by
        intro dd hdd hsep
        rw [hdd] at hsep
        have hpre := parsedSpan_prefix_of_ok ['.'] (skipWs s) s2 u hdot
        have hdecomp := listIsPrefix_decomp ['.'] (skipWs s).text hpre
        rcases hsep with hnil | hclose
        · have hnil' : (skipWs s).text = [] := hnil
          rw [hdecomp] at hnil'
          exact List.noConfusion hnil'
        · have hclose' : closeHead ((skipWs s).text) := hclose
          obtain ⟨c0, w0, hr0, -, -, -, -, -, hdot0, -⟩ :=
            closeHead_head _ hclose'
          rw [hdecomp] at hr0
          have hc0 : '.' = c0 := by
            have := congrArg List.head? hr0
            simpa using this
          exact hdot0 hc0.symm
      cases hk : keyParse s2 with
      | ok s3 k =>
        rw [hk] at h
        dsimp only at h
        rcases hpt : pathTailScan fuel s3 with ⟨s4, tl2⟩
        rw [hpt] at h
        dsimp only at h
        injection h with h1 h2
        subst h1
        subst h2
        rw [keyParse_transport r s2 s3 k hHs2 hcr hk]
        dsimp only
        have hHs3 : '#' ∉ s3.text :=
          suffix_noHash (keyParse_suffix _ _ _ hk) hHs2
        rw [pathTailScan_transport r hcr fuel s3 s4 tl2 hHs3 hpt hd]
      | err =>
        rw [hk] at h
        dsimp only at h
        have h1 : s = d := congrArg Prod.fst h
        exact absurd hd (fun hsep => hcontra d h1.symm hsep)
      | fail =>
        rw [hk] at h
        dsimp only at h
        have h1 : s = d := congrArg Prod.fst h
        exact absurd hd (fun hsep => hcontra d h1.symm hsep)

theorem pathSelectionParse_transport (r : List Char) (hcr : closeHead r)
    (fuel : Nat) (s d : Span) (p : Parsed PathSelection) (hH : '#' ∉ s.text)
    (h : pathSelectionParse fuel s = .ok d p) (hd : sepRest d.text) :
    pathSelectionParse fuel ⟨s.text ++ r, s.offset⟩
      = .ok ⟨d.text ++ r, d.offset⟩ p := by
  have hrn := closeHead_norm r hcr
  obtain ⟨t, o⟩ := s
  cases t with
  | nil =>
    have hplain : pathSelectionParse fuel ⟨[], o⟩ = .err := by
      rw [pathSelectionParse_else fuel ⟨[], o⟩ (fun x he => List.noConfusion he)]
      rw [parsedSpan_err_of_false ['.'] ⟨[], o⟩ (by rfl)]
      dsimp only
      rw [show keyParse ⟨[], o⟩ = .err from by
        have hz : scanIgnorable ([] : List Char) = 0 := rfl
        simp [keyParse, skipWs, Span.advance, hz, parseStringLit, scanIdent]]
    rw [hplain] at h
    exact PResult.noConfusion h
  | cons c tl =>
    simp only at hH
    by_cases hdol : c = '$'
    · subst hdol
      rw [pathSelectionParse_dollar] at h
      dsimp only at h
      rw [show ('$' :: tl) ++ r = '$' :: (tl ++ r) from rfl,
        pathSelectionParse_dollar]
      dsimp only
      have hHtl : '#' ∉ tl := fun hm => hH (List.mem_cons_of_mem _ hm)
      have hsw : skipWs ⟨tl ++ r, o + 1⟩
          = ⟨(skipWs ⟨tl, o + 1⟩).text ++ r, (skipWs ⟨tl, o + 1⟩).offset⟩ :=
        skipWs_transport r ⟨tl, o + 1⟩ hHtl hrn
      rw [hsw]
      have hHsw : '#' ∉ (skipWs ⟨tl, o + 1⟩).text :=
        suffix_noHash (skipWs_suffix _) hHtl
      rw [scanIdent_append_noCross (skipWs ⟨tl, o + 1⟩).text r
        (closeHead_notWord r hcr)]
      have hle : scanIdent (skipWs ⟨tl, o + 1⟩).text
          ≤ (skipWs ⟨tl, o + 1⟩).text.length := scanIdent_le _
      rw [List.take_append_of_le_length hle]
      rw [show (⟨(skipWs ⟨tl, o + 1⟩).text ++ r,
            (skipWs ⟨tl, o + 1⟩).offset⟩ : Span).advance
            (scanIdent (skipWs ⟨tl, o + 1⟩).text)
          = ⟨((skipWs ⟨tl, o + 1⟩).advance
              (scanIdent (skipWs ⟨tl, o + 1⟩).text)).text ++ r,
            ((skipWs ⟨tl, o + 1⟩).advance
              (scanIdent (skipWs ⟨tl, o + 1⟩).text)).offset⟩ from by
        simp only [Span.advance]
        rw [List.drop_append_of_le_length hle]]
      rcases hpt : pathTailScan fuel
          ((skipWs ⟨tl, o + 1⟩).advance
            (scanIdent (skipWs ⟨tl, o + 1⟩).text)) with ⟨s4, tl2⟩
      rw [hpt] at h
      dsimp only at h
      injection h with h1 h2
      subst h1
      subst h2
      have hHa : '#' ∉ ((skipWs ⟨tl, o + 1⟩).advance
          (scanIdent (skipWs ⟨tl, o + 1⟩).text)).text :=
        suffix_noHash (List.drop_suffix _ _) hHsw
      rw [pathTailScan_transport r hcr fuel _ s4 tl2 hHa hpt hd]
    · rw [pathSelectionParse_else fuel ⟨c :: tl, o⟩
        (fun x he => hdol (by injection he))] at h
      rw [show (c :: tl) ++ r = c :: (tl ++ r) from rfl,
        pathSelectionParse_else fuel ⟨c :: (tl ++ r), o⟩
          (fun x he => hdol (by injection he))]
      cases hdot : parsedSpan ['.'] ⟨c :: tl, o⟩ with
      | fail => exact absurd hdot (parsedSpan_ne_fail _ _)
      | ok s1 u =>
        rw [hdot] at h
        dsimp only at h
        rw [show parsedSpan ['.'] ⟨c :: (tl ++ r), o⟩
            = .ok ⟨s1.text ++ r, s1.offset⟩ u from
          parsedSpan_transport ['.'] r ⟨c :: tl, o⟩ s1 u hdot]
        dsimp only
        have hHs1 : '#' ∉ s1.text :=
          suffix_noHash (parsedSpan_suffix _ _ _ _ hdot) hH
        cases hk : keyParse s1 with
        | err => rw [hk] at h; exact PResult.noConfusion h
        | fail => rw [hk] at h; exact PResult.noConfusion h
        | ok s2 k =>
          rw [hk] at h
          dsimp only at h
          rw [keyParse_transport r s1 s2 k hHs1 hcr hk]
          dsimp only
          rcases hpt : pathTailScan fuel s2 with ⟨s3, tl2⟩
          rw [hpt] at h
          dsimp only at h
          injection h with h1 h2
          subst h1
          subst h2
          have hHs2 : '#' ∉ s2.text :=
            suffix_noHash (keyParse_suffix _ _ _ hk) hHs1
          rw [pathTailScan_transport r hcr fuel s2 s3 tl2 hHs2 hpt hd]
      | err =>
        rw [hdot] at h
        dsimp only at h
        rw [show parsedSpan ['.'] ⟨c :: (tl ++ r), o⟩ = .err from
          parsedSpan_single_err_transport '.' r ⟨c :: tl, o⟩ hdot
            (closeHead_ne_cons r hcr '.' (by decide))]
        dsimp only
        cases hk : keyParse ⟨c :: tl, o⟩ with
        | err => rw [hk] at h; exact PResult.noConfusion h
        | fail => rw [hk] at h; exact PResult.noConfusion h
        | ok s1 k =>
          rw [hk] at h
          dsimp only at h
          rw [show keyParse ⟨c :: (tl ++ r), o⟩
              = .ok ⟨s1.text ++ r, s1.offset⟩ k from
            keyParse_transport r ⟨c :: tl, o⟩ s1 k hH hcr hk]
          dsimp only
          rcases hpt : pathTailScan fuel s1 with ⟨s2, tl2⟩
          rw [hpt] at h
          dsimp only at h
          injection h with h1 h2
          subst h1
          subst h2
          have hHs1 : '#' ∉ s1.text :=
            suffix_noHash (keyParse_suffix _ _ _ hk) hH
          rw [pathTailScan_transport r hcr fuel s1 s2 tl2 hHs1 hpt hd]

/-! ### Transport of the grammar loops across an append boundary -/

theorem headNotIgn_of_norm (t : List Char) (h : scanIgnorable t = 0) :
    headNotIgn t := by
  cases t with
  | nil => trivial
  | cons c w =>
    constructor
    · cases hw : isWsChar c with
      | false => rfl
      | true => exact absurd h (by simp [scanIgnorable, scanIgn, hw])
    · intro hc
      subst hc
      exact absurd h (by simp [scanIgnorable, scanIgn,
        show isWsChar '#' = false from by decide])

theorem charTok_ok_head (c : Char) (s d : Span) (u : Unit)
    (h : charTok c s = .ok d u) : ∃ tl, s.text = c :: tl := by
  cases ht : s.text with
  | nil => rw [charTok, ht] at h; exact PResult.noConfusion h
  | cons c2 tl =>
    rw [charTok, ht] at h
    dsimp only at h
    split at h
    · next hc => exact ⟨tl, by rw [hc]⟩
    · exact PResult.noConfusion h

theorem charTok_err_transport_ne (c : Char) (r : List Char) (s : Span)
    (hne : s.text ≠ []) (h : charTok c s = .err) :
    charTok c ⟨s.text ++ r, s.offset⟩ = .err := by
  cases ht : s.text with
  | nil => exact absurd ht hne
  | cons c2 tl =>
    rw [charTok, ht] at h
    dsimp only at h
    show charTok c ⟨c2 :: (tl ++ r), s.offset⟩ = .err
    rw [charTok]
    dsimp only
    split at h
    · exact PResult.noConfusion h
    · next hc => rw [if_neg hc]

theorem keyParse_err_postIgn (s : Span) (c : Char) (w : List Char)
    (hpost : s.text.drop (scanIgnorable s.text) = c :: w)
    (hq : ¬(c = squote ∨ c = '"')) (ha : isAlphaU c = false) :
    keyParse s = .err := by
  simp only [keyParse]
  have h1 : (skipWs s).text = c :: w := hpost
  have hskEq : skipWs s = ⟨c :: w, (skipWs s).offset⟩ := by
    conv_lhs => rw [show skipWs s
      = ⟨(skipWs s).text, (skipWs s).offset⟩ from rfl]
    rw [h1]
  rw [hskEq, parseStringLit_err_of_head ⟨c :: w, (skipWs s).offset⟩ c w rfl hq]
  dsimp only
  simp [scanIdent, ha]

theorem parseProperty_err_postIgn (rec₁ : Span → PResult (Parsed LitExpr))
    (s : Span) (c : Char) (w : List Char)
    (hpost : s.text.drop (scanIgnorable s.text) = c :: w)
    (hq : ¬(c = squote ∨ c = '"')) (ha : isAlphaU c = false) :
    parseProperty rec₁ s = .err := by
  rw [parseProperty, keyParse_err_postIgn s c w hpost hq ha]

/-- The post-ignorable head of the appended text, from the post-ignorable
head of the plain text. -/
theorem postIgn_append (u r : List Char) (c : Char) (w : List Char)
    (hH : '#' ∉ u) (hrn : scanIgnorable r = 0)
    (hpost : u.drop (scanIgnorable u) = c :: w) :
    (u ++ r).drop (scanIgnorable (u ++ r)) = c :: (w ++ r) := by
  rw [scanIgnorable_append_noHash u r hH hrn]
  have hle : scanIgnorable u ≤ u.length := scanIgn_le false u
  rw [List.drop_append_of_le_length hle, hpost]
  rfl

/-- `LitProperty` transported across the append boundary. -/
theorem parseProperty_transport (rec₁ : Span → PResult (Parsed LitExpr))
    (r : List Char) (hcr : closeHead r)
    (hrecT : ∀ (t d : Span) (v : Parsed LitExpr), '#' ∉ t.text →
      rec₁ t = .ok d v → sepRest d.text →
      rec₁ ⟨t.text ++ r, t.offset⟩ = .ok ⟨d.text ++ r, d.offset⟩ v)
    (s d : Span) (p : Parsed Key × Parsed LitExpr) (hH : '#' ∉ s.text)
    (h : parseProperty rec₁ s = .ok d p) (hd : sepRest d.text) :
    parseProperty rec₁ ⟨s.text ++ r, s.offset⟩
      = .ok ⟨d.text ++ r, d.offset⟩ p := by
  rw [parseProperty] at h ⊢
  cases h1 : keyParse s with
  | err => rw [h1] at h; exact PResult.noConfusion h
  | fail => rw [h1] at h; exact PResult.noConfusion h
  | ok s1 k =>
    rw [h1] at h
    dsimp only at h
    rw [keyParse_transport r s s1 k hH hcr h1]
    dsimp only
    have hH1 : '#' ∉ s1.text := suffix_noHash (keyParse_suffix _ _ _ h1) hH
    cases h2 : charTok ':' s1 with
    | err => rw [h2] at h; exact PResult.noConfusion h
    | fail => rw [h2] at h; exact PResult.noConfusion h
    | ok s2 u =>
      rw [h2] at h
      dsimp only at h
      rw [charTok_transport ':' r s1 s2 u h2]
      dsimp only
      have hH2 : '#' ∉ s2.text :=
        suffix_noHash (charTok_suffix _ _ _ _ h2) hH1
      cases h3 : rec₁ s2 with
      | err => rw [h3] at h; exact PResult.noConfusion h
      | fail => rw [h3] at h; exact PResult.noConfusion h
      | ok s3 v =>
        rw [h3] at h
        dsimp only at h
        injection h with hdd hvv
        subst hdd
        subst hvv
        rw [hrecT s2 s3 v hH2 h3 hd]

/-- The loop input inherits the separator shape from the loop's final rest:
either the loop consumed a comma at its input, or it returned the input
unchanged. -/
theorem parseElemsRest_input_sep (rec₁ : Span → PResult (Parsed LitExpr))
    (fuel : Nat) (s2 s3 : Span) (l : List (Parsed LitExpr))
    (h : parseElemsRest rec₁ fuel s2 = .ok s3 l)
    (hn : scanIgnorable s2.text = 0) (hstop : sepRest s3.text) :
    sepRest s2.text := by
  cases fuel with
  | zero => exact PResult.noConfusion h
  | succ fuel =>
    rw [parseElemsRest] at h
    cases h1 : charTok ',' s2 with
    | ok sc u =>
      obtain ⟨tl, htl⟩ := charTok_ok_head ',' s2 sc u h1
      right
      rw [show s2.text.drop (scanIgnorable s2.text) = s2.text from by
        rw [hn]; exact List.drop_zero _, htl]
      exact ⟨tl, Or.inl rfl⟩
    | err =>
      rw [h1] at h
      injection h with hdd hvv
      rw [← hdd] at hstop
      exact hstop
    | fail =>
      rw [h1] at h
      injection h with hdd hvv
      rw [← hdd] at hstop
      exact hstop

theorem parsePropsRest_input_sep (rec₁ : Span → PResult (Parsed LitExpr))
    (fuel : Nat) (s2 s3 : Span) (l : List (Parsed Key × Parsed LitExpr))
    (h : parsePropsRest rec₁ fuel s2 = .ok s3 l)
    (hn : scanIgnorable s2.text = 0) (hstop : sepRest s3.text) :
    sepRest s2.text := by
  cases fuel with
  | zero => exact PResult.noConfusion h
  | succ fuel =>
    rw [parsePropsRest] at h
    cases h1 : charTok ',' s2 with
    | ok sc u =>
      obtain ⟨tl, htl⟩ := charTok_ok_head ',' s2 sc u h1
      right
      rw [show s2.text.drop (scanIgnorable s2.text) = s2.text from by
        rw [hn]; exact List.drop_zero _, htl]
      exact ⟨tl, Or.inl rfl⟩
    | err =>
      rw [h1] at h
      injection h with hdd hvv
      rw [← hdd] at hstop
      exact hstop
    | fail =>
      rw [h1] at h
      injection h with hdd hvv
      rw [← hdd] at hstop
      exact hstop

/-- The stop state of a grammar loop whose enclosing production closed
successfully: the loop's rest is nonempty, and when it starts with the
trailing comma, a closing bracket follows the comma (after ignorable
text). -/
def loopStop (dEnd : List Char) : Prop :=
  dEnd ≠ [] ∧ ∀ w, dEnd = ',' :: w →
    ∃ c w2, w.drop (scanIgnorable w) = c :: w2 ∧ (c = ']' ∨ c = '}')

/-- A single-character token never fails fatally. -/
theorem charTok_ne_fail (c : Char) (s : Span) : charTok c s ≠ .fail := by
  rw [charTok]
  split
  · split
    · exact fun hx => PResult.noConfusion hx
    · exact fun hx => PResult.noConfusion hx
  · exact fun hx => PResult.noConfusion hx

/-- The further-elements loop transported across the append boundary. -/
theorem parseElemsRest_transport (rec₁ : Span → PResult (Parsed LitExpr))
    (r : List Char) (hcr : closeHead r)
    (hrecT : ∀ (t d : Span) (v : Parsed LitExpr), '#' ∉ t.text →
      rec₁ t = .ok d v → sepRest d.text →
      rec₁ ⟨t.text ++ r, t.offset⟩ = .ok ⟨d.text ++ r, d.offset⟩ v)
    (hrecE : ∀ (u : List Char) (o : Nat) (c : Char) (w : List Char),
      u.drop (scanIgnorable u) = c :: w → (c = ']' ∨ c = '}') →
      rec₁ ⟨u, o⟩ = .err)
    (hN : ∀ t d v, rec₁ t = .ok d v → scanIgnorable d.text = 0)
    (hS : ∀ t d v, rec₁ t = .ok d v → d.text <:+ t.text) :
    ∀ (fuel : Nat) (s dEnd : Span) (l : List (Parsed LitExpr)),
    '#' ∉ s.text → parseElemsRest rec₁ fuel s = .ok dEnd l →
    sepRest dEnd.text → loopStop dEnd.text →
    parseElemsRest rec₁ fuel ⟨s.text ++ r, s.offset⟩
      = .ok ⟨dEnd.text ++ r, dEnd.offset⟩ l
  | 0, _, _, _, _, h, _, _ => PResult.noConfusion h
  | fuel + 1, s, dEnd, l, hH, h, hsend, hstop => by
    have hrn := closeHead_norm r hcr
    rw [parseElemsRest] at h
    rw [parseElemsRest]
    cases h1 : charTok ',' s with
    | fail => exact absurd h1 (charTok_ne_fail ',' s)
    | err =>
      rw [h1] at h
      injection h with hdd hvv
      subst hdd
      subst hvv
      rw [charTok_err_transport_ne ',' r s hstop.1 h1]
    | ok s1 u =>
      rw [h1] at h
      dsimp only at h
      rw [charTok_transport ',' r s s1 u h1]
      dsimp only
      obtain ⟨tl, htl⟩ := charTok_ok_head ',' s s1 u h1
      have hHtl : '#' ∉ s1.text :=
        suffix_noHash (charTok_suffix _ _ _ _ h1) hH
      cases h2 : rec₁ s1 with
      | fail => rw [h2] at h; exact PResult.noConfusion h
      | err =>
        rw [h2] at h
        injection h with hdd hvv
        subst hdd
        subst hvv
        have hs1 : s1.text = tl := by
          rw [charTok, htl] at h1
          dsimp only at h1
          rw [if_pos rfl] at h1
          injection h1 with hs1' hu'
          rw [← hs1']
          show s.text.drop 1 = tl
          rw [htl]
          rfl
        obtain ⟨c, w2, hpost, hbr⟩ := hstop.2 tl htl
        have hrecErr : rec₁ ⟨s1.text ++ r, s1.offset⟩ = .err := by
          apply hrecE (s1.text ++ r) s1.offset c (w2 ++ r)
          · rw [hs1]
            exact postIgn_append tl r c w2
              (fun hm => hH (htl ▸ List.mem_cons_of_mem _ hm)) hrn hpost
          · exact hbr
        rw [hrecErr]
      | ok s2 e =>
        rw [h2] at h
        dsimp only at h
        cases h3 : parseElemsRest rec₁ fuel s2 with
        | err => rw [h3] at h; exact PResult.noConfusion h
        | fail => rw [h3] at h; exact PResult.noConfusion h
        | ok s3 es =>
          rw [h3] at h
          dsimp only at h
          injection h with hdd hvv
          subst hdd
          subst hvv
          have hn2 : scanIgnorable s2.text = 0 := hN s1 s2 e h2
          have hsep2 : sepRest s2.text :=
            parseElemsRest_input_sep rec₁ fuel s2 s3 es h3 hn2 hsend
          rw [hrecT s1 s2 e hHtl h2 hsep2]
          dsimp only
          have hH2 : '#' ∉ s2.text := suffix_noHash (hS s1 s2 e h2) hHtl
          rw [parseElemsRest_transport rec₁ r hcr hrecT hrecE hN hS fuel
            s2 s3 es hH2 h3 hsend hstop]

/-- The further-properties loop transported across the append boundary. -/
theorem parsePropsRest_transport (rec₁ : Span → PResult (Parsed LitExpr))
    (r : List Char) (hcr : closeHead r)
    (hrecT : ∀ (t d : Span) (v : Parsed LitExpr), '#' ∉ t.text →
      rec₁ t = .ok d v → sepRest d.text →
      rec₁ ⟨t.text ++ r, t.offset⟩ = .ok ⟨d.text ++ r, d.offset⟩ v)
    (hN : ∀ t d v, rec₁ t = .ok d v → scanIgnorable d.text = 0)
    (hS : ∀ t d v, rec₁ t = .ok d v → d.text <:+ t.text) :
    ∀ (fuel : Nat) (s dEnd : Span) (l : List (Parsed Key × Parsed LitExpr)),
    '#' ∉ s.text → parsePropsRest rec₁ fuel s = .ok dEnd l →
    sepRest dEnd.text → loopStop dEnd.text →
    parsePropsRest rec₁ fuel ⟨s.text ++ r, s.offset⟩
      = .ok ⟨dEnd.text ++ r, dEnd.offset⟩ l
  | 0, _, _, _, _, h, _, _ => PResult.noConfusion h
  | fuel + 1, s, dEnd, l, hH, h, hsend, hstop => by
    have hrn := closeHead_norm r hcr
    rw [parsePropsRest] at h
    rw [parsePropsRest]
    cases h1 : charTok ',' s with
    | fail => exact absurd h1 (charTok_ne_fail ',' s)
    | err =>
      rw [h1] at h
      injection h with hdd hvv
      subst hdd
      subst hvv
      rw [charTok_err_transport_ne ',' r s hstop.1 h1]
    | ok s1 u =>
      rw [h1] at h
      dsimp only at h
      rw [charTok_transport ',' r s s1 u h1]
      dsimp only
      obtain ⟨tl, htl⟩ := charTok_ok_head ',' s s1 u h1
      have hHtl : '#' ∉ s1.text :=
        suffix_noHash (charTok_suffix _ _ _ _ h1) hH
      cases h2 : parseProperty rec₁ s1 with
      | fail => rw [h2] at h; exact PResult.noConfusion h
      | err =>
        rw [h2] at h
        injection h with hdd hvv
        subst hdd
        subst hvv
        have hs1 : s1.text = tl := by
          rw [charTok, htl] at h1
          dsimp only at h1
          rw [if_pos rfl] at h1
          injection h1 with hs1' hu'
          rw [← hs1']
          show s.text.drop 1 = tl
          rw [htl]
          rfl
        obtain ⟨c, w2, hpost, hbr⟩ := hstop.2 tl htl
        have hq : ¬(c = squote ∨ c = '"') := by
          rcases hbr with hb | hb <;> subst hb <;> decide
        have ha : isAlphaU c = false := by
          rcases hbr with hb | hb <;> subst hb <;> decide
        have hppErr : parseProperty rec₁ ⟨s1.text ++ r, s1.offset⟩ = .err := by
          apply parseProperty_err_postIgn rec₁ _ c (w2 ++ r) _ hq ha
          show (s1.text ++ r).drop (scanIgnorable (s1.text ++ r)) = c :: (w2 ++ r)
          rw [hs1]
          exact postIgn_append tl r c w2
            (fun hm => hH (htl ▸ List.mem_cons_of_mem _ hm)) hrn hpost
        rw [hppErr]
      | ok s2 p =>
        rw [h2] at h
        dsimp only at h
        cases h3 : parsePropsRest rec₁ fuel s2 with
        | err => rw [h3] at h; exact PResult.noConfusion h
        | fail => rw [h3] at h; exact PResult.noConfusion h
        | ok s3 ps =>
          rw [h3] at h
          dsimp only at h
          injection h with hdd hvv
          subst hdd
          subst hvv
          have hn2 : scanIgnorable s2.text = 0 :=
            parseProperty_norm rec₁ hN s1 s2 p h2
          have hsep2 : sepRest s2.text :=
            parsePropsRest_input_sep rec₁ fuel s2 s3 ps h3 hn2 hsend
          rw [parseProperty_transport rec₁ r hcr hrecT s1 s2 p hHtl h2 hsep2]
          dsimp only
          have hH2 : '#' ∉ s2.text :=
            suffix_noHash (parseProperty_suffix rec₁ hS s1 s2 p h2) hHtl
          rw [parsePropsRest_transport rec₁ r hcr hrecT hN hS fuel
            s2 s3 ps hH2 h3 hsend hstop]

theorem charTok_ok_tail (c : Char) (s d : Span) (u : Unit) (tl : List Char)
    (htl : s.text = c :: tl) (h : charTok c s = .ok d u) : d.text = tl := by
  rw [charTok, htl] at h
  dsimp only at h
  rw [if_pos rfl] at h
  injection h with h1 h2
  rw [← h1]
  show s.text.drop 1 = tl
  rw [htl]
  rfl

/-- `LitExpr::parse_array` transported across the append boundary. -/
theorem parseArray_transport (rec₁ : Span → PResult (Parsed LitExpr))
    (r : List Char) (hcr : closeHead r)
    (hrecT : ∀ (t d : Span) (v : Parsed LitExpr), '#' ∉ t.text →
      rec₁ t = .ok d v → sepRest d.text →
      rec₁ ⟨t.text ++ r, t.offset⟩ = .ok ⟨d.text ++ r, d.offset⟩ v)
    (hrecE : ∀ (u : List Char) (o : Nat) (c : Char) (w : List Char),
      u.drop (scanIgnorable u) = c :: w → (c = ']' ∨ c = '}') →
      rec₁ ⟨u, o⟩ = .err)
    (hN : ∀ t d v, rec₁ t = .ok d v → scanIgnorable d.text = 0)
    (hS : ∀ t d v, rec₁ t = .ok d v → d.text <:+ t.text)
    (fuel : Nat) (s d : Span) (v : Parsed LitExpr) (hH : '#' ∉ s.text)
    (h : parseArray rec₁ fuel s = .ok d v) :
    parseArray rec₁ fuel ⟨s.text ++ r, s.offset⟩
      = .ok ⟨d.text ++ r, d.offset⟩ v := by
  have hrn := closeHead_norm r hcr
  rw [parseArray] at h
  rw [parseArray]
  rw [skipWs_transport r s hH hrn]
  have hHsw : '#' ∉ (skipWs s).text := suffix_noHash (skipWs_suffix s) hH
  cases hb : parsedSpan ['['] (skipWs s) with
  | err => rw [hb] at h; exact PResult.noConfusion h
  | fail => rw [hb] at h; exact PResult.noConfusion h
  | ok s2 openB =>
    rw [hb] at h
    dsimp only at h
    rw [parsedSpan_transport ['['] r (skipWs s) s2 openB hb]
    dsimp only
    have hH2 : '#' ∉ s2.text :=
      suffix_noHash (parsedSpan_suffix _ _ _ _ hb) hHsw
    rw [skipWs_transport r s2 hH2 hrn]
    have hH3 : '#' ∉ (skipWs s2).text := suffix_noHash (skipWs_suffix s2) hH2
    have hclose : ∀ (t : Span) (elems : List (Parsed LitExpr)), '#' ∉ t.text →
        (match parsedSpan [']'] (skipWs t) with
         | .ok s8 closeB => PResult.ok (skipWs s8)
             (⟨.arr elems, mergeLocs openB.loc closeB.loc⟩ : Parsed LitExpr)
         | .err => .err
         | .fail => .fail) = .ok d v →
        (match parsedSpan [']'] (skipWs ⟨t.text ++ r, t.offset⟩) with
         | .ok s8 closeB => PResult.ok (skipWs s8)
             (⟨.arr elems, mergeLocs openB.loc closeB.loc⟩ : Parsed LitExpr)
         | .err => .err
         | .fail => .fail) = .ok ⟨d.text ++ r, d.offset⟩ v := by
      intro t elems hHt hm
      rw [skipWs_transport r t hHt hrn]
      cases hc : parsedSpan [']'] (skipWs t) with
      | err => rw [hc] at hm; exact PResult.noConfusion hm
      | fail => rw [hc] at hm; exact PResult.noConfusion hm
      | ok s8 closeB =>
        rw [hc] at hm
        dsimp only at hm
        rw [parsedSpan_transport [']'] r (skipWs t) s8 closeB hc]
        dsimp only
        injection hm with hdd hvv
        subst hdd
        subst hvv
        have hH8 : '#' ∉ s8.text :=
          suffix_noHash (parsedSpan_suffix _ _ _ _ hc)
            (suffix_noHash (skipWs_suffix t) hHt)
        rw [skipWs_transport r s8 hH8 hrn]
    cases hpp : rec₁ (skipWs s2) with
    | fail => rw [hpp] at h; exact PResult.noConfusion h
    | err =>
      rw [hpp] at h
      dsimp only at h
      cases hc : parsedSpan [']'] (skipWs (skipWs s2)) with
      | err => rw [hc] at h; exact PResult.noConfusion h
      | fail => rw [hc] at h; exact PResult.noConfusion h
      | ok s8 closeB =>
        have hdecomp := listIsPrefix_decomp [']'] _
          (parsedSpan_prefix_of_ok [']'] _ _ _ hc)
        have hrecErr : rec₁ ⟨(skipWs s2).text ++ r, (skipWs s2).offset⟩
            = .err := by
          apply hrecE ((skipWs s2).text ++ r) (skipWs s2).offset ']'
            ((skipWs (skipWs s2)).text.drop 1 ++ r) ?_ (Or.inl rfl)
          exact postIgn_append (skipWs s2).text r ']'
            ((skipWs (skipWs s2)).text.drop 1) hH3 hrn hdecomp
        rw [hrecErr]
        dsimp only
        exact hclose (skipWs s2) [] hH3 h
    | ok s4 e1 =>
      rw [hpp] at h
      dsimp only at h
      have hH4 : '#' ∉ s4.text := suffix_noHash (hS _ _ _ hpp) hH3
      cases hps : parseElemsRest rec₁ fuel s4 with
      | err => rw [hps] at h; exact PResult.noConfusion h
      | fail => rw [hps] at h; exact PResult.noConfusion h
      | ok s5 es =>
        rw [hps] at h
        dsimp only at h
        have hH5 : '#' ∉ s5.text :=
          suffix_noHash (parseElemsRest_suffix rec₁ hS fuel s4 s5 es hps) hH4
        have hn5 : scanIgnorable s5.text = 0 :=
          parseElemsRest_norm rec₁ hN fuel s4 s5 es (hN _ _ _ hpp) hps
        cases hcm : charTok ',' s5 with
        | fail => exact absurd hcm (charTok_ne_fail ',' s5)
        | err =>
          rw [hcm] at h
          dsimp only at h
          cases hc : parsedSpan [']'] (skipWs s5) with
          | err => rw [hc] at h; exact PResult.noConfusion h
          | fail => rw [hc] at h; exact PResult.noConfusion h
          | ok s8 closeB =>
            have hdecomp := listIsPrefix_decomp [']'] _
              (parsedSpan_prefix_of_ok [']'] _ _ _ hc)
            have hsend : sepRest s5.text :=
              Or.inr ⟨(skipWs s5).text.drop 1, Or.inr (Or.inl hdecomp)⟩
            have hne5 : s5.text ≠ [] := by
              intro hnil
              have hx : (skipWs s5).text = [] := by
                show s5.text.drop (scanIgnorable s5.text) = []
                rw [hnil]
                rfl
              rw [hdecomp] at hx
              exact List.noConfusion hx
            have hstop : loopStop s5.text := by
              refine ⟨hne5, ?_⟩
              intro w hw
              exfalso
              rw [charTok, hw] at hcm
              dsimp only at hcm
              rw [if_pos rfl] at hcm
              exact PResult.noConfusion hcm
            have hsep4 : sepRest s4.text :=
              parseElemsRest_input_sep rec₁ fuel s4 s5 es hps
                (hN _ _ _ hpp) hsend
            rw [hrecT (skipWs s2) s4 e1 hH3 hpp hsep4]
            dsimp only
            rw [parseElemsRest_transport rec₁ r hcr hrecT hrecE hN hS fuel
              s4 s5 es hH4 hps hsend hstop]
            dsimp only
            rw [charTok_err_transport_ne ',' r s5 hne5 hcm]
            dsimp only
            exact hclose s5 (e1 :: es) hH5 h
        | ok s6 u =>
          rw [hcm] at h
          dsimp only at h
          obtain ⟨tl5, htl5⟩ := charTok_ok_head ',' s5 s6 u hcm
          cases hc : parsedSpan [']'] (skipWs s6) with
          | err => rw [hc] at h; exact PResult.noConfusion h
          | fail => rw [hc] at h; exact PResult.noConfusion h
          | ok s8 closeB =>
            have hdecomp := listIsPrefix_decomp [']'] _
              (parsedSpan_prefix_of_ok [']'] _ _ _ hc)
            have hs6 : s6.text = tl5 := charTok_ok_tail ',' s5 s6 u tl5 htl5 hcm
            have hsend : sepRest s5.text := by
              right
              rw [show s5.text.drop (scanIgnorable s5.text) = s5.text from by
                rw [hn5]; exact List.drop_zero _, htl5]
              exact ⟨tl5, Or.inl rfl⟩
            have hstop : loopStop s5.text := by
              refine ⟨by rw [htl5]; exact List.cons_ne_nil _ _, ?_⟩
              intro w hw
              have hwtl : w = tl5 := by
                rw [htl5] at hw
                injection hw with h1 h2
                exact h2.symm
              subst hwtl
              refine ⟨']', (skipWs s6).text.drop 1, ?_, Or.inl rfl⟩
              show w.drop (scanIgnorable w) = ']' :: (skipWs s6).text.drop 1
              rw [← hs6]
              exact hdecomp
            have hsep4 : sepRest s4.text :=
              parseElemsRest_input_sep rec₁ fuel s4 s5 es hps
                (hN _ _ _ hpp) hsend
            rw [hrecT (skipWs s2) s4 e1 hH3 hpp hsep4]
            dsimp only
            rw [parseElemsRest_transport rec₁ r hcr hrecT hrecE hN hS fuel
              s4 s5 es hH4 hps hsend hstop]
            dsimp only
            rw [charTok_transport ',' r s5 s6 u hcm]
            dsimp only
            have hH6 : '#' ∉ s6.text :=
              suffix_noHash (charTok_suffix _ _ _ _ hcm) hH5
            exact hclose s6 (e1 :: es) hH6 h

/-- `LitExpr::parse_object` transported across the append boundary. -/
theorem parseObject_transport (rec₁ : Span → PResult (Parsed LitExpr))
    (r : List Char) (hcr : closeHead r)
    (hrecT : ∀ (t d : Span) (v : Parsed LitExpr), '#' ∉ t.text →
      rec₁ t = .ok d v → sepRest d.text →
      rec₁ ⟨t.text ++ r, t.offset⟩ = .ok ⟨d.text ++ r, d.offset⟩ v)
    (hN : ∀ t d v, rec₁ t = .ok d v → scanIgnorable d.text = 0)
    (hS : ∀ t d v, rec₁ t = .ok d v → d.text <:+ t.text)
    (fuel : Nat) (s d : Span) (v : Parsed LitExpr) (hH : '#' ∉ s.text)
    (h : parseObject rec₁ fuel s = .ok d v) :
    parseObject rec₁ fuel ⟨s.text ++ r, s.offset⟩
      = .ok ⟨d.text ++ r, d.offset⟩ v := by
  have hrn := closeHead_norm r hcr
  rw [parseObject] at h
  rw [parseObject]
  rw [skipWs_transport r s hH hrn]
  have hHsw : '#' ∉ (skipWs s).text := suffix_noHash (skipWs_suffix s) hH
  cases hb : parsedSpan ['{'] (skipWs s) with
  | err => rw [hb] at h; exact PResult.noConfusion h
  | fail => rw [hb] at h; exact PResult.noConfusion h
  | ok s2 openB =>
    rw [hb] at h
    dsimp only at h
    rw [parsedSpan_transport ['{'] r (skipWs s) s2 openB hb]
    dsimp only
    have hH2 : '#' ∉ s2.text :=
      suffix_noHash (parsedSpan_suffix _ _ _ _ hb) hHsw
    rw [skipWs_transport r s2 hH2 hrn]
    have hH3 : '#' ∉ (skipWs s2).text := suffix_noHash (skipWs_suffix s2) hH2
    have hclose : ∀ (t : Span) (props : List (Parsed Key × Parsed LitExpr)),
        '#' ∉ t.text →
        (match parsedSpan ['}'] (skipWs t) with
         | .ok s8 closeB => PResult.ok (skipWs s8)
             (⟨.obj (buildObjectEntries props),
               mergeLocs openB.loc closeB.loc⟩ : Parsed LitExpr)
         | .err => .err
         | .fail => .fail) = .ok d v →
        (match parsedSpan ['}'] (skipWs ⟨t.text ++ r, t.offset⟩) with
         | .ok s8 closeB => PResult.ok (skipWs s8)
             (⟨.obj (buildObjectEntries props),
               mergeLocs openB.loc closeB.loc⟩ : Parsed LitExpr)
         | .err => .err
         | .fail => .fail) = .ok ⟨d.text ++ r, d.offset⟩ v := by
      intro t props hHt hm
      rw [skipWs_transport r t hHt hrn]
      cases hc : parsedSpan ['}'] (skipWs t) with
      | err => rw [hc] at hm; exact PResult.noConfusion hm
      | fail => rw [hc] at hm; exact PResult.noConfusion hm
      | ok s8 closeB =>
        rw [hc] at hm
        dsimp only at hm
        rw [parsedSpan_transport ['}'] r (skipWs t) s8 closeB hc]
        dsimp only
        injection hm with hdd hvv
        subst hdd
        subst hvv
        have hH8 : '#' ∉ s8.text :=
          suffix_noHash (parsedSpan_suffix _ _ _ _ hc)
            (suffix_noHash (skipWs_suffix t) hHt)
        rw [skipWs_transport r s8 hH8 hrn]
    cases hpp : parseProperty rec₁ (skipWs s2) with
    | fail => rw [hpp] at h; exact PResult.noConfusion h
    | err =>
      rw [hpp] at h
      dsimp only at h
      cases hc : parsedSpan ['}'] (skipWs (skipWs s2)) with
      | err => rw [hc] at h; exact PResult.noConfusion h
      | fail => rw [hc] at h; exact PResult.noConfusion h
      | ok s8 closeB =>
        have hdecomp := listIsPrefix_decomp ['}'] _
          (parsedSpan_prefix_of_ok ['}'] _ _ _ hc)
        have hppErr : parseProperty rec₁
            ⟨(skipWs s2).text ++ r, (skipWs s2).offset⟩ = .err := by
          apply parseProperty_err_postIgn rec₁ _ '}'
            ((skipWs (skipWs s2)).text.drop 1 ++ r) ?_ (by decide) (by decide)
          exact postIgn_append (skipWs s2).text r '}'
            ((skipWs (skipWs s2)).text.drop 1) hH3 hrn hdecomp
        rw [hppErr]
        dsimp only
        exact hclose (skipWs s2) [] hH3 h
    | ok s4 p1 =>
      rw [hpp] at h
      dsimp only at h
      have hH4 : '#' ∉ s4.text :=
        suffix_noHash (parseProperty_suffix rec₁ hS _ _ _ hpp) hH3
      cases hps : parsePropsRest rec₁ fuel s4 with
      | err => rw [hps] at h; exact PResult.noConfusion h
      | fail => rw [hps] at h; exact PResult.noConfusion h
      | ok s5 ps =>
        rw [hps] at h
        dsimp only at h
        have hH5 : '#' ∉ s5.text :=
          suffix_noHash
            (parsePropsRest_suffix rec₁ hS fuel s4 s5 ps hps) hH4
        have hn5 : scanIgnorable s5.text = 0 :=
          parsePropsRest_norm rec₁ hN fuel s4 s5 ps
            (parseProperty_norm rec₁ hN _ _ _ hpp) hps
        cases hcm : charTok ',' s5 with
        | fail => exact absurd hcm (charTok_ne_fail ',' s5)
        | err =>
          rw [hcm] at h
          dsimp only at h
          cases hc : parsedSpan ['}'] (skipWs s5) with
          | err => rw [hc] at h; exact PResult.noConfusion h
          | fail => rw [hc] at h; exact PResult.noConfusion h
          | ok s8 closeB =>
            have hdecomp := listIsPrefix_decomp ['}'] _
              (parsedSpan_prefix_of_ok ['}'] _ _ _ hc)
            have hsend : sepRest s5.text :=
              Or.inr ⟨(skipWs s5).text.drop 1, Or.inr (Or.inr hdecomp)⟩
            have hne5 : s5.text ≠ [] := by
              intro hnil
              have hx : (skipWs s5).text = [] := by
                show s5.text.drop (scanIgnorable s5.text) = []
                rw [hnil]
                rfl
              rw [hdecomp] at hx
              exact List.noConfusion hx
            have hstop : loopStop s5.text := by
              refine ⟨hne5, ?_⟩
              intro w hw
              exfalso
              rw [charTok, hw] at hcm
              dsimp only at hcm
              rw [if_pos rfl] at hcm
              exact PResult.noConfusion hcm
            have hsep4 : sepRest s4.text :=
              parsePropsRest_input_sep rec₁ fuel s4 s5 ps hps
                (parseProperty_norm rec₁ hN _ _ _ hpp) hsend
            rw [parseProperty_transport rec₁ r hcr hrecT (skipWs s2) s4 p1
              hH3 hpp hsep4]
            dsimp only
            rw [parsePropsRest_transport rec₁ r hcr hrecT hN hS fuel
              s4 s5 ps hH4 hps hsend hstop]
            dsimp only
            rw [charTok_err_transport_ne ',' r s5 hne5 hcm]
            dsimp only
            exact hclose s5 (p1 :: ps) hH5 h
        | ok s6 u =>
          rw [hcm] at h
          dsimp only at h
          obtain ⟨tl5, htl5⟩ := charTok_ok_head ',' s5 s6 u hcm
          cases hc : parsedSpan ['}'] (skipWs s6) with
          | err => rw [hc] at h; exact PResult.noConfusion h
          | fail => rw [hc] at h; exact PResult.noConfusion h
          | ok s8 closeB =>
            have hdecomp := listIsPrefix_decomp ['}'] _
              (parsedSpan_prefix_of_ok ['}'] _ _ _ hc)
            have hs6 : s6.text = tl5 := charTok_ok_tail ',' s5 s6 u tl5 htl5 hcm
            have hsend : sepRest s5.text := by
              right
              rw [show s5.text.drop (scanIgnorable s5.text) = s5.text from by
                rw [hn5]; exact List.drop_zero _, htl5]
              exact ⟨tl5, Or.inl rfl⟩
            have hstop : loopStop s5.text := by
              refine ⟨by rw [htl5]; exact List.cons_ne_nil _ _, ?_⟩
              intro w hw
              have hwtl : w = tl5 := by
                rw [htl5] at hw
                injection hw with h1 h2
                exact h2.symm
              subst hwtl
              refine ⟨'}', (skipWs s6).text.drop 1, ?_, Or.inr rfl⟩
              show w.drop (scanIgnorable w) = '}' :: (skipWs s6).text.drop 1
              rw [← hs6]
              exact hdecomp
            have hsep4 : sepRest s4.text :=
              parsePropsRest_input_sep rec₁ fuel s4 s5 ps hps
                (parseProperty_norm rec₁ hN _ _ _ hpp) hsend
            rw [parseProperty_transport rec₁ r hcr hrecT (skipWs s2) s4 p1
              hH3 hpp hsep4]
            dsimp only
            rw [parsePropsRest_transport rec₁ r hcr hrecT hN hS fuel
              s4 s5 ps hH4 hps hsend hstop]
            dsimp only
            rw [charTok_transport ',' r s5 s6 u hcm]
            dsimp only
            have hH6 : '#' ∉ s6.text :=
              suffix_noHash (charTok_suffix _ _ _ _ hcm) hH5
            exact hclose s6 (p1 :: ps) hH6 h

theorem keyParse_err_nil (o : Nat) : keyParse ⟨[], o⟩ = .err := by
  have hz : scanIgnorable ([] : List Char) = 0 := rfl
  simp [keyParse, skipWs, Span.advance, hz, parseStringLit, scanIdent]

theorem numberTuple_err_nil (o : Nat) : numberTuple ⟨[], o⟩ = .err := by
  have hsw : skipWs ⟨([] : List Char), o⟩ = ⟨[], o⟩ :=
    skipWs_of_headNotIgn [] o trivial
  simp only [numberTuple]
  simp only [hsw]
  rw [parsedSpan_err_of_false ['-'] ⟨[], o⟩ (by rfl)]
  dsimp only
  simp only [hsw]
  rw [numBranch1_err_of_headNot ⟨[], o⟩ trivial]
  dsimp only
  rw [show numBranch2 ⟨([] : List Char), o⟩ = .err from by
    simp only [numBranch2]
    simp only [hsw]
    rw [parsedSpan_err_of_false ['.'] ⟨[], o⟩ (by rfl)]]

theorem litAlt_err_nil (rec : Span → PResult (Parsed LitExpr)) (fuel : Nat)
    (o : Nat) : litAlt rec fuel ⟨[], o⟩ = .err := by
  have hsw : skipWs ⟨([] : List Char), o⟩ = ⟨[], o⟩ :=
    skipWs_of_headNotIgn [] o trivial
  rw [litAlt]
  rw [show parseStringLit ⟨([] : List Char), o⟩ = .err from rfl]
  dsimp only
  rw [show parseNumber ⟨([] : List Char), o⟩ = .err from by
    rw [parseNumber, numberTuple_err_nil]]
  dsimp only
  rw [parsedSpan_err_of_false ['t', 'r', 'u', 'e'] ⟨[], o⟩ (by rfl)]
  dsimp only
  rw [parsedSpan_err_of_false ['f', 'a', 'l', 's', 'e'] ⟨[], o⟩ (by rfl)]
  dsimp only
  rw [parsedSpan_err_of_false ['n', 'u', 'l', 'l'] ⟨[], o⟩ (by rfl)]
  dsimp only
  rw [show parseObject rec fuel ⟨([] : List Char), o⟩ = .err from by
    simp only [parseObject]
    rw [hsw, parsedSpan_err_of_false ['{'] ⟨[], o⟩ (by rfl)]]
  dsimp only
  rw [show parseArray rec fuel ⟨([] : List Char), o⟩ = .err from by
    simp only [parseArray]
    rw [hsw, parsedSpan_err_of_false ['['] ⟨[], o⟩ (by rfl)]]
  dsimp only
  rw [show pathSelectionParse fuel ⟨([] : List Char), o⟩ = .err from by
    rw [pathSelectionParse_else fuel ⟨[], o⟩ (fun x he => List.noConfusion he)]
    rw [parsedSpan_err_of_false ['.'] ⟨[], o⟩ (by rfl)]
    dsimp only
    rw [keyParse_err_nil]]

theorem keyParse_err_of_strErr (s : Span) (hswEq : skipWs s = s)
    (hsl : parseStringLit s = .err) (ha : scanIdent s.text = 0) :
    keyParse s = .err := by
  simp only [keyParse]
  rw [hswEq, hsl]
  dsimp only
  rw [if_pos ha]

/-- The alternative chain of `LitExpr::parse` transported across the append
boundary. -/
theorem litAlt_transport (rec₁ : Span → PResult (Parsed LitExpr))
    (r : List Char) (hcr : closeHead r)
    (hrecT : ∀ (t d : Span) (v : Parsed LitExpr), '#' ∉ t.text →
      rec₁ t = .ok d v → sepRest d.text →
      rec₁ ⟨t.text ++ r, t.offset⟩ = .ok ⟨d.text ++ r, d.offset⟩ v)
    (hrecE : ∀ (u : List Char) (o : Nat) (c : Char) (w : List Char),
      u.drop (scanIgnorable u) = c :: w → (c = ']' ∨ c = '}') →
      rec₁ ⟨u, o⟩ = .err)
    (hN : ∀ t d v, rec₁ t = .ok d v → scanIgnorable d.text = 0)
    (hS : ∀ t d v, rec₁ t = .ok d v → d.text <:+ t.text)
    (fuel : Nat) (s d : Span) (v : Parsed LitExpr)
    (hn : scanIgnorable s.text = 0) (hH : '#' ∉ s.text)
    (h : litAlt rec₁ fuel s = .ok d v) (hd : sepRest d.text) :
    litAlt rec₁ fuel ⟨s.text ++ r, s.offset⟩
      = .ok ⟨d.text ++ r, d.offset⟩ v := by
  obtain ⟨t, o⟩ := s
  cases t with
  | nil =>
    rw [litAlt_err_nil rec₁ fuel o] at h
    exact PResult.noConfusion h
  | cons c0 tl =>
    simp only at hn hH hd ⊢
    have hni : isWsChar c0 = false ∧ c0 ≠ '#' := headNotIgn_of_norm _ hn
    show litAlt rec₁ fuel ⟨c0 :: (tl ++ r), o⟩ = .ok ⟨d.text ++ r, d.offset⟩ v
    have hniApp : headNotIgn (c0 :: (tl ++ r)) := hni
    have hswApp : skipWs ⟨c0 :: (tl ++ r), o⟩ = ⟨c0 :: (tl ++ r), o⟩ :=
      skipWs_of_headNotIgn _ o hniApp
    have hswPlain : skipWs ⟨c0 :: tl, o⟩ = ⟨c0 :: tl, o⟩ :=
      skipWs_of_headNotIgn _ o hni
    rw [litAlt] at h
    rw [litAlt]
    cases hsl : parseStringLit ⟨c0 :: tl, o⟩ with
    | fail => rw [hsl] at h; exact PResult.noConfusion h
    | ok rs vs =>
      rw [hsl] at h
      dsimp only at h
      rw [show parseStringLit ⟨c0 :: (tl ++ r), o⟩
          = .ok ⟨rs.text ++ r, rs.offset⟩ vs from
        parseStringLit_transport r ⟨c0 :: tl, o⟩ rs vs hsl]
      dsimp only
      injection h with hdd hvv
      subst hdd
      subst hvv
      rfl
    | err =>
      rw [hsl] at h
      dsimp only at h
      by_cases hq : (c0 = squote ∨ c0 = '"')
      · -- unterminated quoted string: every later alternative fails
        -- recoverably on the plain side, contradicting the success
        exfalso
        have hdig : isDigitChar c0 = false := by
          rcases hq with hv | hv <;> subst hv <;> decide
        have hdot : c0 ≠ '.' := by
          rcases hq with hv | hv <;> subst hv <;> decide
        have hdash : c0 ≠ '-' := by
          rcases hq with hv | hv <;> subst hv <;> decide
        have halpha : isAlphaU c0 = false := by
          rcases hq with hv | hv <;> subst hv <;> decide
        have hdol : c0 ≠ '$' := by
          rcases hq with hv | hv <;> subst hv <;> decide
        have hkt : 't' ≠ c0 := by
          rcases hq with hv | hv <;> subst hv <;> decide
        have hkf : 'f' ≠ c0 := by
          rcases hq with hv | hv <;> subst hv <;> decide
        have hkn : 'n' ≠ c0 := by
          rcases hq with hv | hv <;> subst hv <;> decide
        have hob : '{' ≠ c0 := by
          rcases hq with hv | hv <;> subst hv <;> decide
        have har : '[' ≠ c0 := by
          rcases hq with hv | hv <;> subst hv <;> decide
        rw [parseNumber_err_of_head (c0 :: tl) o c0 tl rfl hni hdig hdot
          hdash] at h
        dsimp only at h
        rw [parsedSpan_err_of_false ['t', 'r', 'u', 'e'] ⟨c0 :: tl, o⟩
          (listIsPrefix_cons_false 't' c0 _ tl hkt)] at h
        dsimp only at h
        rw [parsedSpan_err_of_false ['f', 'a', 'l', 's', 'e'] ⟨c0 :: tl, o⟩
          (listIsPrefix_cons_false 'f' c0 _ tl hkf)] at h
        dsimp only at h
        rw [parsedSpan_err_of_false ['n', 'u', 'l', 'l'] ⟨c0 :: tl, o⟩
          (listIsPrefix_cons_false 'n' c0 _ tl hkn)] at h
        dsimp only at h
        rw [show parseObject rec₁ fuel ⟨c0 :: tl, o⟩ = .err from by
          simp only [parseObject]
          rw [hswPlain, parsedSpan_err_of_false ['{'] ⟨c0 :: tl, o⟩
            (listIsPrefix_cons_false '{' c0 [] tl hob)]] at h
        dsimp only at h
        rw [show parseArray rec₁ fuel ⟨c0 :: tl, o⟩ = .err from by
          simp only [parseArray]
          rw [hswPlain, parsedSpan_err_of_false ['['] ⟨c0 :: tl, o⟩
            (listIsPrefix_cons_false '[' c0 [] tl har)]] at h
        dsimp only at h
        rw [show pathSelectionParse fuel ⟨c0 :: tl, o⟩ = .err from by
          rw [pathSelectionParse_else fuel ⟨c0 :: tl, o⟩
            (fun x he => hdol (by injection he))]
          rw [parsedSpan_err_of_false ['.'] ⟨c0 :: tl, o⟩
            (listIsPrefix_cons_false '.' c0 [] tl (fun he => hdot he.symm))]
          dsimp only
          rw [keyParse_err_of_strErr ⟨c0 :: tl, o⟩ hswPlain hsl
            (by simp [scanIdent, halpha])]] at h
        exact PResult.noConfusion h
      · rw [parseStringLit_err_of_head ⟨c0 :: (tl ++ r), o⟩ c0 (tl ++ r)
          rfl hq]
        dsimp only
        cases hnum : parseNumber ⟨c0 :: tl, o⟩ with
        | fail => rw [hnum] at h; exact PResult.noConfusion h
        | ok rn vn =>
          rw [hnum] at h
          dsimp only at h
          rw [show parseNumber ⟨c0 :: (tl ++ r), o⟩
              = .ok ⟨rn.text ++ r, rn.offset⟩ vn from
            parseNumber_transport r ⟨c0 :: tl, o⟩ rn vn hH hcr hnum]
          dsimp only
          injection h with hdd hvv
          subst hdd
          subst hvv
          rfl
        | err =>
          rw [hnum] at h
          dsimp only at h
          rw [show parseNumber ⟨c0 :: (tl ++ r), o⟩ = .err from
            parseNumber_err_transport r ⟨c0 :: tl, o⟩ hH hcr hnum]
          dsimp only
          cases htr : parsedSpan ['t', 'r', 'u', 'e'] ⟨c0 :: tl, o⟩ with
          | fail => exact absurd htr (parsedSpan_ne_fail _ _)
          | ok rt vt =>
            rw [htr] at h
            dsimp only at h
            rw [show parsedSpan ['t', 'r', 'u', 'e'] ⟨c0 :: (tl ++ r), o⟩
                = .ok ⟨rt.text ++ r, rt.offset⟩ vt from
              parsedSpan_transport _ r ⟨c0 :: tl, o⟩ rt vt htr]
            dsimp only
            injection h with hdd hvv
            subst hdd
            subst hvv
            rfl
          | err =>
            rw [htr] at h
            dsimp only at h
            rw [show parsedSpan ['t', 'r', 'u', 'e'] ⟨c0 :: (tl ++ r), o⟩
                = .err from
              parsedSpan_kw_err_transport _ r ⟨c0 :: tl, o⟩ (by decide)
                (closeHead_notWord r hcr) htr]
            dsimp only
            cases hfa : parsedSpan ['f', 'a', 'l', 's', 'e'] ⟨c0 :: tl, o⟩ with
            | fail => exact absurd hfa (parsedSpan_ne_fail _ _)
            | ok rf vf =>
              rw [hfa] at h
              dsimp only at h
              rw [show parsedSpan ['f', 'a', 'l', 's', 'e']
                  ⟨c0 :: (tl ++ r), o⟩
                  = .ok ⟨rf.text ++ r, rf.offset⟩ vf from
                parsedSpan_transport _ r ⟨c0 :: tl, o⟩ rf vf hfa]
              dsimp only
              injection h with hdd hvv
              subst hdd
              subst hvv
              rfl
            | err =>
              rw [hfa] at h
              dsimp only at h
              rw [show parsedSpan ['f', 'a', 'l', 's', 'e']
                  ⟨c0 :: (tl ++ r), o⟩ = .err from
                parsedSpan_kw_err_transport _ r ⟨c0 :: tl, o⟩ (by decide)
                  (closeHead_notWord r hcr) hfa]
              dsimp only
              cases hnu : parsedSpan ['n', 'u', 'l', 'l'] ⟨c0 :: tl, o⟩ with
              | fail => exact absurd hnu (parsedSpan_ne_fail _ _)
              | ok rl vl =>
                rw [hnu] at h
                dsimp only at h
                rw [show parsedSpan ['n', 'u', 'l', 'l']
                    ⟨c0 :: (tl ++ r), o⟩
                    = .ok ⟨rl.text ++ r, rl.offset⟩ vl from
                  parsedSpan_transport _ r ⟨c0 :: tl, o⟩ rl vl hnu]
                dsimp only
                injection h with hdd hvv
                subst hdd
                subst hvv
                rfl
              | err =>
                rw [hnu] at h
                dsimp only at h
                rw [show parsedSpan ['n', 'u', 'l', 'l']
                    ⟨c0 :: (tl ++ r), o⟩ = .err from
                  parsedSpan_kw_err_transport _ r ⟨c0 :: tl, o⟩ (by decide)
                    (closeHead_notWord r hcr) hnu]
                dsimp only
                cases hobj : parseObject rec₁ fuel ⟨c0 :: tl, o⟩ with
                | fail => rw [hobj] at h; exact PResult.noConfusion h
                | ok ro vo =>
                  rw [hobj] at h
                  dsimp only at h
                  rw [show parseObject rec₁ fuel ⟨c0 :: (tl ++ r), o⟩
                      = .ok ⟨ro.text ++ r, ro.offset⟩ vo from
                    parseObject_transport rec₁ r hcr hrecT hN hS fuel
                      ⟨c0 :: tl, o⟩ ro vo hH hobj]
                  dsimp only
                  injection h with hdd hvv
                  subst hdd
                  subst hvv
                  rfl
                | err =>
                  rw [hobj] at h
                  dsimp only at h
                  by_cases hcb : c0 = '{'
                  · -- deep object failure: the array and path alternatives
                    -- also fail recoverably on a brace, contradicting success
                    exfalso
                    subst hcb
                    rw [show parseArray rec₁ fuel ⟨'{' :: tl, o⟩ = .err from by
                      simp only [parseArray]
                      rw [hswPlain, parsedSpan_err_of_false ['[']
                        ⟨'{' :: tl, o⟩
                        (listIsPrefix_cons_false '[' '{' [] tl
                          (by decide))]] at h
                    dsimp only at h
                    rw [pathSelectionParse_err_of_head fuel o '{' tl hni
                      (by decide) (by decide) (by decide) (by decide)] at h
                    exact PResult.noConfusion h
                  · rw [show parseObject rec₁ fuel ⟨c0 :: (tl ++ r), o⟩
                        = .err from by
                      simp only [parseObject]
                      rw [hswApp, parsedSpan_err_of_false ['{']
                        ⟨c0 :: (tl ++ r), o⟩
                        (listIsPrefix_cons_false '{' c0 [] (tl ++ r)
                          (fun he => hcb he.symm))]]
                    dsimp only
                    cases harr : parseArray rec₁ fuel ⟨c0 :: tl, o⟩ with
                    | fail => rw [harr] at h; exact PResult.noConfusion h
                    | ok ra va =>
                      rw [harr] at h
                      dsimp only at h
                      rw [show parseArray rec₁ fuel ⟨c0 :: (tl ++ r), o⟩
                          = .ok ⟨ra.text ++ r, ra.offset⟩ va from
                        parseArray_transport rec₁ r hcr hrecT hrecE hN hS fuel
                          ⟨c0 :: tl, o⟩ ra va hH harr]
                      dsimp only
                      injection h with hdd hvv
                      subst hdd
                      subst hvv
                      rfl
                    | err =>
                      rw [harr] at h
                      dsimp only at h
                      by_cases hcb2 : c0 = '['
                      · exfalso
                        subst hcb2
                        rw [pathSelectionParse_err_of_head fuel o '[' tl hni
                          (by decide) (by decide) (by decide) (by decide)] at h
                        exact PResult.noConfusion h
                      · rw [show parseArray rec₁ fuel ⟨c0 :: (tl ++ r), o⟩
                            = .err from by
                          simp only [parseArray]
                          rw [hswApp, parsedSpan_err_of_false ['[']
                            ⟨c0 :: (tl ++ r), o⟩
                            (listIsPrefix_cons_false '[' c0 [] (tl ++ r)
                              (fun he => hcb2 he.symm))]]
                        dsimp only
                        cases hpa : pathSelectionParse fuel ⟨c0 :: tl, o⟩ with
                        | err => rw [hpa] at h; exact PResult.noConfusion h
                        | fail => rw [hpa] at h; exact PResult.noConfusion h
                        | ok rp pp =>
                          rw [hpa] at h
                          dsimp only at h
                          injection h with hdd hvv
                          subst hdd
                          subst hvv
                          rw [show pathSelectionParse fuel
                              ⟨c0 :: (tl ++ r), o⟩
                              = .ok ⟨rp.text ++ r, rp.offset⟩ pp from
                            pathSelectionParse_transport r hcr fuel
                              ⟨c0 :: tl, o⟩ rp pp hH hpa hd]

/-- `LitExpr::parse` transported across the append boundary: a parse of `t`
is also the parse of `t ++ r` when `t` has no `#` character, `r` starts with
a separator of the enclosing production, and the rest either ends the input
or continues with such a separator. -/
theorem litParse_transport (r : List Char) (hcr : closeHead r) :
    ∀ (F : Nat) (s d : Span) (v : Parsed LitExpr), '#' ∉ s.text →
    litParse F s = .ok d v → sepRest d.text →
    litParse F ⟨s.text ++ r, s.offset⟩ = .ok ⟨d.text ++ r, d.offset⟩ v
  | 0, _, _, _, _, h, _ => PResult.noConfusion h
  | F + 1, s, d, v, hH, h, hd => by
    have hrn := closeHead_norm r hcr
    rw [litParse] at h
    rw [litParse]
    rw [skipWs_transport r s hH hrn]
    have hHsw : '#' ∉ (skipWs s).text := suffix_noHash (skipWs_suffix s) hH
    cases ha : litAlt (litParse F) F (skipWs s) with
    | err => rw [ha] at h; exact PResult.noConfusion h
    | fail => rw [ha] at h; exact PResult.noConfusion h
    | ok ra va =>
      rw [ha] at h
      dsimp only at h
      injection h with hdd hvv
      subst hdd
      subst hvv
      have hdra : sepRest ra.text := by
        have h0 : scanIgnorable ((skipWs ra).text) = 0 :=
          scanIgn_drop_eq_zero ra.text false
        rcases hd with hnil | hclose
        · left
          rw [h0, List.drop_zero] at hnil
          exact hnil
        · right
          rw [h0, List.drop_zero] at hclose
          exact hclose
      have hHra : '#' ∉ ra.text :=
        suffix_noHash
          (litAlt_suffix (litParse F) (litParse_suffix F) F _ _ _ ha) hHsw
      rw [litAlt_transport (litParse F) r hcr
        (fun t dd vv hHt hok hsep =>
          litParse_transport r hcr F t dd vv hHt hok hsep)
        (fun u o c w hp hc => litParse_err_close F ⟨u, o⟩ c w hp (Or.inr hc))
        (litParse_norm F) (litParse_suffix F) F (skipWs s) ra va
        (scanIgn_drop_eq_zero s.text false) hHsw ha hdra]
      dsimp only
      rw [skipWs_transport r ra hHra hrn]

/-! ### Assembling arrays and objects from element source chunks
(the general trailing-comma statement, C7) -/

/-- The tail of a comma-separated chunk list: a comma before each chunk. -/
def icTail : List (List Char) → List Char
  | [] => []
  | c :: cs => ',' :: (c ++ icTail cs)

/-- The interior of a bracketed list: the chunks separated by commas. -/
def arrCore : List (List Char) → List Char
  | [] => []
  | c :: cs => c ++ icTail cs

/-- An array literal assembled from element source chunks, with or without a
single trailing comma. -/
def arrSrc (es : List (List Char)) (trail : Bool) : List Char :=
  '[' :: arrCore es ++ (if trail then [',', ']'] else [']'])

/-- An object literal assembled from property source chunks, with or without
a single trailing comma. -/
def objSrc (ps : List (List Char)) (trail : Bool) : List Char :=
  '{' :: arrCore ps ++ (if trail then [',', '}'] else ['}'])

theorem closeHead_icTail (cs : List (List Char)) (close : List Char)
    (hcl : close = [']'] ∨ close = [',', ']'] ∨ close = ['}']
      ∨ close = [',', '}']) :
    closeHead (icTail cs ++ close) := by
  cases cs with
  | cons c cs => exact ⟨(c ++ icTail cs) ++ close, Or.inl rfl⟩
  | nil =>
    show closeHead close
    rcases hcl with hcl | hcl | hcl | hcl <;> subst hcl
    · exact ⟨[], Or.inr (Or.inl rfl)⟩
    · exact ⟨[']'], Or.inl rfl⟩
    · exact ⟨[], Or.inr (Or.inr rfl)⟩
    · exact ⟨['}'], Or.inl rfl⟩

/-- A parsed chunk, re-parsed at an arbitrary offset with the separator
continuation appended: same full consumption, location-stripped-equal
value. -/
theorem chunk_shift (F : Nat) (c : List Char) (e : Nat) (v : Parsed LitExpr)
    (hH : '#' ∉ c) (hok : litParse F ⟨c, 0⟩ = .ok ⟨[], e⟩ v)
    (r : List Char) (hcr : closeHead r) (o : Nat) :
    ∃ e2 v2, litParse F ⟨c ++ r, o⟩ = .ok ⟨r, e2⟩ v2
      ∧ v2.node.strip = v.node.strip := by
  obtain ⟨e2, v2, hok2, hstrip⟩ := litParse_offset F c 0 o e v hok
  refine ⟨e2, v2, ?_, hstrip⟩
  have := litParse_transport r hcr F ⟨c, o⟩ ⟨[], e2⟩ v2 hH hok2 (Or.inl rfl)
  exact this

/-- The further-elements loop consumes the comma-separated chunks and stops
exactly at the closing continuation. -/
theorem elemsLoop_assemble (F : Nat) (close : List Char)
    (hcl : close = [']'] ∨ close = [',', ']']) :
    ∀ (FL : Nat) (cs : List (List Char)) (vs : List (Parsed LitExpr))
      (o : Nat),
    cs.length + 1 ≤ FL →
    List.Forall₂ (fun c v => '#' ∉ c
      ∧ ∃ e, litParse F ⟨c, 0⟩ = .ok ⟨[], e⟩ v) cs vs →
    ∃ o2 vs2, parseElemsRest (litParse F) FL ⟨icTail cs ++ close, o⟩
        = .ok ⟨close, o2⟩ vs2 ∧ stripElems vs2 = stripElems vs
  | 0, cs, vs, o, hlen, hall => absurd hlen (by omega)
  | FL + 1, [], vs, o, hlen, hall => by
    cases hall
    rw [parseElemsRest]
    show ∃ o2 vs2, (match charTok ',' ⟨close, o⟩ with
      | .err => PResult.ok ⟨close, o⟩ ([] : List (Parsed LitExpr))
      | .fail => PResult.ok ⟨close, o⟩ []
      | .ok s1 _ =>
        match litParse F s1 with
        | .fail => .fail
        | .err => PResult.ok ⟨close, o⟩ []
        | .ok s2 e =>
          match parseElemsRest (litParse F) FL s2 with
          | .ok s3 es => .ok s3 (e :: es)
          | .err => .err
          | .fail => .fail) = .ok ⟨close, o2⟩ vs2
      ∧ stripElems vs2 = stripElems []
    rcases hcl with hcl | hcl <;> subst hcl
    · rw [show charTok ',' ⟨([']'] : List Char), o⟩ = .err from by
        rw [charTok]
        dsimp only
        rw [if_neg (by decide)]]
      exact ⟨o, [], rfl, rfl⟩
    · rw [show charTok ',' ⟨([',', ']'] : List Char), o⟩
          = .ok ⟨[']'], o + 1⟩ () from by
        rw [charTok]
        dsimp only
        rw [if_pos rfl]
        rfl]
      dsimp only
      rw [litParse_err_close F ⟨[']'], o + 1⟩ ']' [] rfl
        (Or.inr (Or.inl rfl))]
      exact ⟨o, [], rfl, rfl⟩
  | FL + 1, c :: cs, vs, o, hlen, hall => by
    cases hall with
    | cons hcv hall' =>
      next v vs' =>
      obtain ⟨hHc, e, hok⟩ := hcv
      rw [parseElemsRest]
      have hcons : icTail (c :: cs) ++ close
          = ',' :: (c ++ (icTail cs ++ close)) := by
        show ',' :: ((c ++ icTail cs) ++ close) = _
        rw [List.append_assoc]
      rw [hcons]
      rw [show charTok ',' ⟨',' :: (c ++ (icTail cs ++ close)), o⟩
          = .ok ⟨c ++ (icTail cs ++ close), o + 1⟩ () from by
        rw [charTok]
        dsimp only
        rw [if_pos rfl]
        rfl]
      dsimp only
      obtain ⟨e2, v2, hok2, hstrip⟩ := chunk_shift F c e v hHc hok
        (icTail cs ++ close)
        (closeHead_icTail cs close
          (by rcases hcl with hcl | hcl <;> subst hcl
              · exact Or.inl rfl
              · exact Or.inr (Or.inl rfl))) (o + 1)
      rw [hok2]
      dsimp only
      obtain ⟨o2, vs2, hloop, hstrips⟩ :=
        elemsLoop_assemble F close hcl FL cs vs' e2 (by
          simp only [List.length_cons] at hlen
          omega) hall'
      rw [hloop]
      refine ⟨o2, v2 :: vs2, rfl, ?_⟩
      rw [stripElems_cons, stripElems_cons, hstrips, hstrip]

/-- `parse_array` on an assembled element list with either closing
continuation: the whole input is consumed and the elements are the chunks'
values. -/
theorem arr_assemble_core (F FL : Nat) (es : List (List Char))
    (vs : List (Parsed LitExpr)) (close : List Char)
    (hcl : close = [']'] ∨ close = [',', ']']) (o : Nat)
    (hne : es ≠ []) (hlen : es.length ≤ FL)
    (hall : List.Forall₂ (fun c v => '#' ∉ c
      ∧ ∃ e, litParse F ⟨c, 0⟩ = .ok ⟨[], e⟩ v) es vs) :
    ∃ o2 loc vs2,
      parseArray (litParse F) FL ⟨'[' :: (arrCore es ++ close), o⟩
        = .ok ⟨[], o2⟩ ⟨.arr vs2, loc⟩
      ∧ stripElems vs2 = stripElems vs := by
  obtain ⟨c1, rest, rfl⟩ : ∃ c1 rest, es = c1 :: rest := by
    cases es with
    | nil => exact absurd rfl hne
    | cons a b => exact ⟨a, b, rfl⟩
  cases hall with
  | cons hcv hall' =>
    next v1 vs' =>
    obtain ⟨hHc, e, hok⟩ := hcv
    rw [parseArray]
    rw [skipWs_of_headNotIgn ('[' :: (arrCore (c1 :: rest) ++ close)) o
      ⟨by decide, by decide⟩]
    rw [parsedSpan_single_ok '[' (arrCore (c1 :: rest) ++ close) o]
    dsimp only
    rw [litParse_skipWs F ⟨arrCore (c1 :: rest) ++ close, o + 1⟩]
    have hcore : arrCore (c1 :: rest) ++ close
        = c1 ++ (icTail rest ++ close) := by
      show (c1 ++ icTail rest) ++ close = _
      rw [List.append_assoc]
    rw [hcore]
    have hclBig : close = [']'] ∨ close = [',', ']'] ∨ close = ['}']
        ∨ close = [',', '}'] := by
      rcases hcl with hcl | hcl
      · exact Or.inl hcl
      · exact Or.inr (Or.inl hcl)
    obtain ⟨e2, v2, hok2, hstrip⟩ := chunk_shift F c1 e v1 hHc hok
      (icTail rest ++ close) (closeHead_icTail rest close hclBig) (o + 1)
    rw [hok2]
    dsimp only
    obtain ⟨o2, vs2, hloop, hstrips⟩ := elemsLoop_assemble F close hcl FL
      rest vs' e2 (by simp only [List.length_cons] at hlen; omega) hall'
    rw [hloop]
    dsimp only
    rcases hcl with hcl | hcl <;> subst hcl
    · rw [show charTok ',' ⟨([']'] : List Char), o2⟩ = .err from by
        rw [charTok]
        dsimp only
        rw [if_neg (by decide)]]
      dsimp only
      rw [skipWs_of_headNotIgn [']'] o2 ⟨by decide, by decide⟩]
      rw [parsedSpan_single_ok ']' [] o2]
      dsimp only
      refine ⟨o2 + 1, _, v2 :: vs2, rfl, ?_⟩
      rw [stripElems_cons, stripElems_cons, hstrips, hstrip]
    · rw [show charTok ',' ⟨([',', ']'] : List Char), o2⟩
          = .ok ⟨[']'], o2 + 1⟩ () from by
        rw [charTok]
        dsimp only
        rw [if_pos rfl]
        rfl]
      dsimp only
      rw [skipWs_of_headNotIgn [']'] (o2 + 1) ⟨by decide, by decide⟩]
      rw [parsedSpan_single_ok ']' [] (o2 + 1)]
      dsimp only
      refine ⟨o2 + 1 + 1, _, v2 :: vs2, rfl, ?_⟩
      rw [stripElems_cons, stripElems_cons, hstrips, hstrip]

/-- The full parse of an assembled array literal: every alternative before
the array one fails recoverably on the opening bracket, and the array
consumes everything. -/
theorem litParse_arr_assemble (FL : Nat) (es : List (List Char))
    (vs : List (Parsed LitExpr)) (close : List Char)
    (hcl : close = [']'] ∨ close = [',', ']'])
    (hne : es ≠ []) (hlen : es.length ≤ FL)
    (hall : List.Forall₂ (fun c v => '#' ∉ c
      ∧ ∃ e, litParse FL ⟨c, 0⟩ = .ok ⟨[], e⟩ v) es vs) :
    ∃ o2 loc vs2,
      litParse (FL + 1) ⟨'[' :: (arrCore es ++ close), 0⟩
        = .ok ⟨[], o2⟩ ⟨.arr vs2, loc⟩
      ∧ stripElems vs2 = stripElems vs := by
  rw [litParse]
  rw [skipWs_of_headNotIgn ('[' :: (arrCore es ++ close)) 0
    ⟨by decide, by decide⟩]
  rw [litAlt]
  rw [parseStringLit_err_of_head ⟨'[' :: (arrCore es ++ close), 0⟩ '['
    (arrCore es ++ close) rfl (by decide)]
  dsimp only
  rw [parseNumber_err_of_head ('[' :: (arrCore es ++ close)) 0 '['
    (arrCore es ++ close) rfl ⟨by decide, by decide⟩ (by decide) (by decide)
    (by decide)]
  dsimp only
  rw [parsedSpan_err_of_false ['t', 'r', 'u', 'e']
    ⟨'[' :: (arrCore es ++ close), 0⟩
    (listIsPrefix_cons_false 't' '[' _ _ (by decide))]
  dsimp only
  rw [parsedSpan_err_of_false ['f', 'a', 'l', 's', 'e']
    ⟨'[' :: (arrCore es ++ close), 0⟩
    (listIsPrefix_cons_false 'f' '[' _ _ (by decide))]
  dsimp only
  rw [parsedSpan_err_of_false ['n', 'u', 'l', 'l']
    ⟨'[' :: (arrCore es ++ close), 0⟩
    (listIsPrefix_cons_false 'n' '[' _ _ (by decide))]
  dsimp only
  rw [show parseObject (litParse FL) FL ⟨'[' :: (arrCore es ++ close), 0⟩
      = .err from by
    simp only [parseObject]
    rw [skipWs_of_headNotIgn ('[' :: (arrCore es ++ close)) 0
      ⟨by decide, by decide⟩]
    rw [parsedSpan_err_of_false ['{'] ⟨'[' :: (arrCore es ++ close), 0⟩
      (listIsPrefix_cons_false '{' '[' [] _ (by decide))]]
  dsimp only
  obtain ⟨o2, loc, vs2, harr, hstrips⟩ :=
    arr_assemble_core FL FL es vs close hcl 0 hne hlen hall
  rw [harr]
  dsimp only
  exact ⟨o2, loc, vs2, rfl, hstrips⟩

/-- A parsed property chunk, re-parsed at an arbitrary offset with the
separator continuation appended. -/
theorem propChunk_shift (F : Nat) (c : List Char) (e : Nat)
    (p : Parsed Key × Parsed LitExpr) (hH : '#' ∉ c)
    (hok : parseProperty (litParse F) ⟨c, 0⟩ = .ok ⟨[], e⟩ p)
    (r : List Char) (hcr : closeHead r) (o : Nat) :
    ∃ e2 p2, parseProperty (litParse F) ⟨c ++ r, o⟩ = .ok ⟨r, e2⟩ p2
      ∧ p2.1.node = p.1.node ∧ p2.2.node.strip = p.2.node.strip := by
  have hs := parseProperty_sync (litParse F) (litParse F)
    (litParse_sync F) ⟨c, 0⟩ ⟨c, o⟩ rfl
  rw [hok] at hs
  obtain ⟨r2, p2, hok2, hrest, hk, hv⟩ := RelPR_ok_left hs
  have hr0 : r2.text = [] :=
    lex_nil_norm _
      (parseProperty_norm (litParse F) (litParse_norm F) ⟨c, o⟩ r2 p2 hok2)
      (by rw [← hrest]; rfl)
  have hr2eq : r2 = ⟨[], r2.offset⟩ := by
    cases r2
    simp_all
  rw [hr2eq] at hok2
  have ht := parseProperty_transport (litParse F) r hcr
    (fun t dd vv hHt hpok hsep =>
      litParse_transport r hcr F t dd vv hHt hpok hsep)
    ⟨c, o⟩ ⟨[], r2.offset⟩ p2 hH hok2 (Or.inl rfl)
  exact ⟨r2.offset, p2, ht, hk.symm, hv.symm⟩

/-- The further-properties loop consumes the comma-separated property chunks
and stops exactly at the closing continuation. -/
theorem propsLoop_assemble (F : Nat) (close : List Char)
    (hcl : close = ['}'] ∨ close = [',', '}']) :
    ∀ (FL : Nat) (cs : List (List Char))
      (vs : List (Parsed Key × Parsed LitExpr)) (o : Nat),
    cs.length + 1 ≤ FL →
    List.Forall₂ (fun c p => '#' ∉ c
      ∧ ∃ e, parseProperty (litParse F) ⟨c, 0⟩ = .ok ⟨[], e⟩ p) cs vs →
    ∃ o2 vs2, parsePropsRest (litParse F) FL ⟨icTail cs ++ close, o⟩
        = .ok ⟨close, o2⟩ vs2 ∧ stripEntries vs2 = stripEntries vs
  | 0, cs, vs, o, hlen, hall => absurd hlen (by omega)
  | FL + 1, [], vs, o, hlen, hall => by
    cases hall
    rw [parsePropsRest]
    show ∃ o2 vs2, (match charTok ',' ⟨close, o⟩ with
      | .err => PResult.ok ⟨close, o⟩
          ([] : List (Parsed Key × Parsed LitExpr))
      | .fail => PResult.ok ⟨close, o⟩ []
      | .ok s1 _ =>
        match parseProperty (litParse F) s1 with
        | .fail => .fail
        | .err => PResult.ok ⟨close, o⟩ []
        | .ok s2 p =>
          match parsePropsRest (litParse F) FL s2 with
          | .ok s3 ps => .ok s3 (p :: ps)
          | .err => .err
          | .fail => .fail) = .ok ⟨close, o2⟩ vs2
      ∧ stripEntries vs2 = stripEntries []
    rcases hcl with hcl | hcl <;> subst hcl
    · rw [show charTok ',' ⟨(['}'] : List Char), o⟩ = .err from by
        rw [charTok]
        dsimp only
        rw [if_neg (by decide)]]
      exact ⟨o, [], rfl, rfl⟩
    · rw [show charTok ',' ⟨([',', '}'] : List Char), o⟩
          = .ok ⟨['}'], o + 1⟩ () from by
        rw [charTok]
        dsimp only
        rw [if_pos rfl]
        rfl]
      dsimp only
      rw [parseProperty_err_postIgn (litParse F) ⟨['}'], o + 1⟩ '}' [] rfl
        (by decide) (by decide)]
      exact ⟨o, [], rfl, rfl⟩
  | FL + 1, c :: cs, vs, o, hlen, hall => by
    cases hall with
    | cons hcv hall' =>
      next p vs' =>
      obtain ⟨hHc, e, hok⟩ := hcv
      rw [parsePropsRest]
      have hcons : icTail (c :: cs) ++ close
          = ',' :: (c ++ (icTail cs ++ close)) := by
        show ',' :: ((c ++ icTail cs) ++ close) = _
        rw [List.append_assoc]
      rw [hcons]
      rw [show charTok ',' ⟨',' :: (c ++ (icTail cs ++ close)), o⟩
          = .ok ⟨c ++ (icTail cs ++ close), o + 1⟩ () from by
        rw [charTok]
        dsimp only
        rw [if_pos rfl]
        rfl]
      dsimp only
      obtain ⟨e2, p2, hok2, hk, hv⟩ := propChunk_shift F c e p hHc hok
        (icTail cs ++ close)
        (closeHead_icTail cs close
          (by rcases hcl with hcl | hcl <;> subst hcl
              · exact Or.inr (Or.inr (Or.inl rfl))
              · exact Or.inr (Or.inr (Or.inr rfl)))) (o + 1)
      rw [hok2]
      dsimp only
      obtain ⟨o2, vs2, hloop, hstrips⟩ :=
        propsLoop_assemble F close hcl FL cs vs' e2 (by
          simp only [List.length_cons] at hlen
          omega) hall'
      rw [hloop]
      refine ⟨o2, p2 :: vs2, rfl, ?_⟩
      obtain ⟨⟨kn2, kl2⟩, ⟨vn2, vl2⟩⟩ := p2
      obtain ⟨⟨kn, kl⟩, ⟨vn, vl⟩⟩ := p
      rw [stripEntries_cons, stripEntries_cons, hstrips]
      have hk' : kn2 = kn := hk
      have hv' : vn2.strip = vn.strip := hv
      rw [hk', hv']

/-- `parse_object` on an assembled property list with either closing
continuation. -/
theorem obj_assemble_core (F FL : Nat) (cs : List (List Char))
    (vs : List (Parsed Key × Parsed LitExpr)) (close : List Char)
    (hcl : close = ['}'] ∨ close = [',', '}']) (o : Nat)
    (hne : cs ≠ []) (hlen : cs.length ≤ FL)
    (hall : List.Forall₂ (fun c p => '#' ∉ c
      ∧ ∃ e, parseProperty (litParse F) ⟨c, 0⟩ = .ok ⟨[], e⟩ p) cs vs) :
    ∃ o2 loc vs2,
      parseObject (litParse F) FL ⟨'{' :: (arrCore cs ++ close), o⟩
        = .ok ⟨[], o2⟩ ⟨.obj (buildObjectEntries vs2), loc⟩
      ∧ stripEntries vs2 = stripEntries vs := by
  obtain ⟨c1, rest, rfl⟩ : ∃ c1 rest, cs = c1 :: rest := by
    cases cs with
    | nil => exact absurd rfl hne
    | cons a b => exact ⟨a, b, rfl⟩
  cases hall with
  | cons hcv hall' =>
    next p1 vs' =>
    obtain ⟨hHc, e, hok⟩ := hcv
    rw [parseObject]
    rw [skipWs_of_headNotIgn ('{' :: (arrCore (c1 :: rest) ++ close)) o
      ⟨by decide, by decide⟩]
    rw [parsedSpan_single_ok '{' (arrCore (c1 :: rest) ++ close) o]
    dsimp only
    have hcore : arrCore (c1 :: rest) ++ close
        = c1 ++ (icTail rest ++ close) := by
      show (c1 ++ icTail rest) ++ close = _
      rw [List.append_assoc]
    have hclBig : close = [']'] ∨ close = [',', ']'] ∨ close = ['}']
        ∨ close = [',', '}'] := by
      rcases hcl with hcl | hcl
      · exact Or.inr (Or.inr (Or.inl hcl))
      · exact Or.inr (Or.inr (Or.inr hcl))
    obtain ⟨e2, p2, hok2, hk, hv⟩ := propChunk_shift F c1 e p1 hHc hok
      (icTail rest ++ close) (closeHead_icTail rest close hclBig) (o + 1)
    rw [show skipWs ⟨arrCore (c1 :: rest) ++ close, o + 1⟩
        = skipWs ⟨c1 ++ (icTail rest ++ close), o + 1⟩ from by rw [hcore]]
    rw [show parseProperty (litParse F)
          (skipWs ⟨c1 ++ (icTail rest ++ close), o + 1⟩)
        = .ok ⟨icTail rest ++ close, e2⟩ p2 from by
      rw [show parseProperty (litParse F)
            (skipWs ⟨c1 ++ (icTail rest ++ close), o + 1⟩)
          = parseProperty (litParse F) ⟨c1 ++ (icTail rest ++ close), o + 1⟩
          from by
        simp only [parseProperty, keyParse, skipWs_idem]]
      exact hok2]
    dsimp only
    obtain ⟨o2, vs2, hloop, hstrips⟩ := propsLoop_assemble F close hcl FL
      rest vs' e2 (by simp only [List.length_cons] at hlen; omega) hall'
    rw [hloop]
    dsimp only
    rcases hcl with hcl | hcl <;> subst hcl
    · rw [show charTok ',' ⟨(['}'] : List Char), o2⟩ = .err from by
        rw [charTok]
        dsimp only
        rw [if_neg (by decide)]]
      dsimp only
      rw [skipWs_of_headNotIgn ['}'] o2 ⟨by decide, by decide⟩]
      rw [parsedSpan_single_ok '}' [] o2]
      dsimp only
      refine ⟨o2 + 1, _, p2 :: vs2, rfl, ?_⟩
      obtain ⟨⟨kn2, kl2⟩, ⟨vn2, vl2⟩⟩ := p2
      obtain ⟨⟨kn, kl⟩, ⟨vn, vl⟩⟩ := p1
      rw [stripEntries_cons, stripEntries_cons, hstrips]
      have hk' : kn2 = kn := hk
      have hv' : vn2.strip = vn.strip := hv
      rw [hk', hv']
    · rw [show charTok ',' ⟨([',', '}'] : List Char), o2⟩
          = .ok ⟨['}'], o2 + 1⟩ () from by
        rw [charTok]
        dsimp only
        rw [if_pos rfl]
        rfl]
      dsimp only
      rw [skipWs_of_headNotIgn ['}'] (o2 + 1) ⟨by decide, by decide⟩]
      rw [parsedSpan_single_ok '}' [] (o2 + 1)]
      dsimp only
      refine ⟨o2 + 1 + 1, _, p2 :: vs2, rfl, ?_⟩
      obtain ⟨⟨kn2, kl2⟩, ⟨vn2, vl2⟩⟩ := p2
      obtain ⟨⟨kn, kl⟩, ⟨vn, vl⟩⟩ := p1
      rw [stripEntries_cons, stripEntries_cons, hstrips]
      have hk' : kn2 = kn := hk
      have hv' : vn2.strip = vn.strip := hv
      rw [hk', hv']

/-- The full parse of an assembled object literal. -/
theorem litParse_obj_assemble (FL : Nat) (cs : List (List Char))
    (vs : List (Parsed Key × Parsed LitExpr)) (close : List Char)
    (hcl : close = ['}'] ∨ close = [',', '}'])
    (hne : cs ≠ []) (hlen : cs.length ≤ FL)
    (hall : List.Forall₂ (fun c p => '#' ∉ c
      ∧ ∃ e, parseProperty (litParse FL) ⟨c, 0⟩ = .ok ⟨[], e⟩ p) cs vs) :
    ∃ o2 loc vs2,
      litParse (FL + 1) ⟨'{' :: (arrCore cs ++ close), 0⟩
        = .ok ⟨[], o2⟩ ⟨.obj (buildObjectEntries vs2), loc⟩
      ∧ stripEntries vs2 = stripEntries vs := by
  rw [litParse]
  rw [skipWs_of_headNotIgn ('{' :: (arrCore cs ++ close)) 0
    ⟨by decide, by decide⟩]
  rw [litAlt]
  rw [parseStringLit_err_of_head ⟨'{' :: (arrCore cs ++ close), 0⟩ '{'
    (arrCore cs ++ close) rfl (by decide)]
  dsimp only
  rw [parseNumber_err_of_head ('{' :: (arrCore cs ++ close)) 0 '{'
    (arrCore cs ++ close) rfl ⟨by decide, by decide⟩ (by decide) (by decide)
    (by decide)]
  dsimp only
  rw [parsedSpan_err_of_false ['t', 'r', 'u', 'e']
    ⟨'{' :: (arrCore cs ++ close), 0⟩
    (listIsPrefix_cons_false 't' '{' _ _ (by decide))]
  dsimp only
  rw [parsedSpan_err_of_false ['f', 'a', 'l', 's', 'e']
    ⟨'{' :: (arrCore cs ++ close), 0⟩
    (listIsPrefix_cons_false 'f' '{' _ _ (by decide))]
  dsimp only
  rw [parsedSpan_err_of_false ['n', 'u', 'l', 'l']
    ⟨'{' :: (arrCore cs ++ close), 0⟩
    (listIsPrefix_cons_false 'n' '{' _ _ (by decide))]
  dsimp only
  obtain ⟨o2, loc, vs2, hobj, hstrips⟩ :=
    obj_assemble_core FL FL cs vs close hcl 0 hne hlen hall
  rw [hobj]
  dsimp only
  exact ⟨o2, loc, vs2, rfl, hstrips⟩

/-! ## Recoverable versus fatal behaviour (supporting C2) -/

theorem numberTuple_skipWs (s : Span) : numberTuple (skipWs s) = numberTuple s := by
  rw [numberTuple, numberTuple, skipWs_idem]

theorem parseNumber_skipWs (s : Span) : parseNumber (skipWs s) = parseNumber s := by
  rw [parseNumber, parseNumber, numberTuple_skipWs]

theorem numberTuple_ok_head (s rest : Span)
    (pr : Option (Parsed Unit) × Parsed (List Char))
    (h : numberTuple s = .ok rest pr) :
    ∃ c t, (skipWs s).text = c :: t
      ∧ (c = '-' ∨ isDigitChar c = true ∨ c = '.') := by
  rw [numberTuple] at h
  cases hsig : parsedSpan ['-'] (skipWs s) with
  | ok r1 t1 =>
    obtain ⟨hpre, _, _⟩ := parsedSpan_ok_shape _ _ _ _ hsig
    obtain ⟨t, ht⟩ := listIsPrefix_single _ _ hpre
    exact ⟨'-', t, ht, Or.inl rfl⟩
  | err =>
    rw [hsig] at h
    simp only at h
    rw [skipWs_idem] at h
    cases hb1 : numBranch1 (skipWs s) with
    | ok r1 p1 =>
      rw [numBranch1] at hb1
      cases hd : digits1 (skipWs s) with
      | ok r2 p2 =>
        obtain ⟨c, t, hct, hc⟩ := digits1_ok_head _ _ _ hd
        exact ⟨c, t, hct, Or.inr (Or.inl hc)⟩
      | err => rw [hd] at hb1; exact absurd hb1 (by simp)
      | fail => rw [hd] at hb1; exact absurd hb1 (by simp)
    | err =>
      rw [hb1] at h
      simp only at h
      cases hb2 : numBranch2 (skipWs s) with
      | ok r1 p1 =>
        rw [numBranch2, skipWs_idem] at hb2
        cases hdot : parsedSpan ['.'] (skipWs s) with
        | ok r2 t2 =>
          obtain ⟨hpre, _, _⟩ := parsedSpan_ok_shape _ _ _ _ hdot
          obtain ⟨t, ht⟩ := listIsPrefix_single _ _ hpre
          exact ⟨'.', t, ht, Or.inr (Or.inr rfl)⟩
        | err => rw [hdot] at hb2; exact absurd hb2 (by simp)
        | fail => rw [hdot] at hb2; exact absurd hb2 (by simp)
      | err => rw [hb2] at h; exact absurd h (by simp)
      | fail => rw [hb2] at h; exact absurd h (by simp)
    | fail => rw [hb1] at h; exact absurd h (by simp)
  | fail =>
    rw [parsedSpan] at hsig
    split at hsig <;> exact absurd hsig (by simp)

/-! ## Parsing rendered numerals (supporting C1) -/

theorem digitChar_facts (c : Char) (h : isDigitChar c = true) :
    isWsChar c = false ∧ c ≠ '#' ∧ c ≠ '-' ∧ ¬(c = squote ∨ c = '"') := by
  refine ⟨?_, ?_, ?_, ?_⟩
  · cases hw : isWsChar c with
    | false => rfl
    | true =>
      exfalso
      simp only [isWsChar, Bool.or_eq_true, decide_eq_true_eq] at hw
      simp only [isDigitChar, Bool.and_eq_true, decide_eq_true_eq] at h
      omega
  · intro h1; subst h1; exact absurd h (by decide)
  · intro h1; subst h1; exact absurd h (by decide)
  · intro h1; rcases h1 with h1 | h1 <;> subst h1 <;> exact absurd h (by decide)

theorem headNotIgn_of_digits (l : List Char) (h : l.all isDigitChar = true) :
    headNotIgn l := by
  cases l with
  | nil => trivial
  | cons c t =>
    simp only [List.all_cons, Bool.and_eq_true] at h
    exact ⟨(digitChar_facts c h.1).1, (digitChar_facts c h.1).2.1⟩

theorem headNotIgn_append_digits (ds r : List Char) (h : ds.all isDigitChar = true)
    (hne : ds ≠ []) : headNotIgn (ds ++ r) := by
  cases ds with
  | nil => exact absurd rfl hne
  | cons c t =>
    simp only [List.all_cons, Bool.and_eq_true] at h
    exact ⟨(digitChar_facts c h.1).1, (digitChar_facts c h.1).2.1⟩

theorem parsedSpan_dash_err_append_digits (ds r : List Char) (o : Nat)
    (h : ds.all isDigitChar = true) (hne : ds ≠ []) :
    parsedSpan ['-'] ⟨ds ++ r, o⟩ = .err := by
  refine parsedSpan_single_err '-' _ ?_
  intro t hh
  have hh2 : ds ++ r = '-' :: t := hh
  cases ds with
  | nil => exact absurd rfl hne
  | cons c t2 =>
    simp only [List.all_cons, Bool.and_eq_true] at h
    injection hh2 with h1 _
    rw [h1] at h
    exact absurd h.1 (by decide)

theorem parsedSpan_dash_err_of_digits (l : List Char) (o : Nat)
    (h : l.all isDigitChar = true) (hne : l ≠ []) :
    parsedSpan ['-'] ⟨l, o⟩ = .err := by
  have := parsedSpan_dash_err_append_digits l [] o h hne
  rwa [List.append_nil] at this

theorem parsedSpan_dash_err_of_dot (fs : List Char) (o : Nat) :
    parsedSpan ['-'] ⟨'.' :: fs, o⟩ = .err := by
  refine parsedSpan_single_err '-' _ ?_
  intro t hh
  have hh2 : ('.' : Char) :: fs = '-' :: t := hh
  injection hh2 with h1 _
  exact absurd h1 (by decide)

theorem numBranch1_intOnly (ds : List Char) (o : Nat)
    (hds : ds.all isDigitChar = true) (hne : ds ≠ []) :
    numBranch1 ⟨ds, o⟩ = .ok ⟨[], o + ds.length⟩ ⟨ds, some (o, o + ds.length)⟩ := by
  have h1 := digits1_append ds [] o hds hne trivial
  rw [List.append_nil] at h1
  rw [numBranch1, h1]
  dsimp only
  rw [skipWs_of_headNotIgn [] _ trivial,
    parsedSpan_single_err '.' ⟨[], o + ds.length⟩ (by intro t h; exact absurd h (by simp))]

theorem numBranch1_intFrac (ds fs : List Char) (o : Nat)
    (hds : ds.all isDigitChar = true) (hne : ds ≠ [])
    (hfs : fs.all isDigitChar = true) :
    ∃ loc, numBranch1 ⟨ds ++ '.' :: fs, o⟩
      = .ok ⟨[], o + ds.length + 1 + fs.length⟩
          ⟨ds ++ ['.'] ++ (if fs = [] then ['0'] else fs), loc⟩ := by
  have h1 : digits1 ⟨ds ++ '.' :: fs, o⟩
      = .ok ⟨'.' :: fs, o + ds.length⟩ ⟨ds, some (o, o + ds.length)⟩ :=
    digits1_append ds ('.' :: fs) o hds hne (show isDigitChar '.' = false from rfl)
  have h0 := digits0_append fs [] (o + ds.length + 1) hfs trivial
  rw [List.append_nil] at h0
  rw [numBranch1, h1]
  dsimp only
  rw [skipWs_of_headNotIgn ('.' :: fs) _ ⟨rfl, by decide⟩,
    parsedSpan_single_ok '.' fs (o + ds.length)]
  dsimp only
  rw [skipWs_of_headNotIgn fs _ (headNotIgn_of_digits fs hfs), h0]
  exact ⟨_, rfl⟩

theorem numBranch1_err_dotHead (fs : List Char) (o : Nat) :
    numBranch1 ⟨'.' :: fs, o⟩ = .err := by
  have h : digits1 ⟨'.' :: fs, o⟩ = .err := by
    rw [digits1]
    rw [scanDigits_eq_zero ('.' :: fs) (show isDigitChar '.' = false from rfl)]
    rfl
  rw [numBranch1, h]

theorem numBranch2_fracOnly (fs : List Char) (o : Nat)
    (hfs : fs.all isDigitChar = true) (hne : fs ≠ []) :
    ∃ loc, numBranch2 ⟨'.' :: fs, o⟩
      = .ok ⟨[], o + 1 + fs.length⟩ ⟨'0' :: '.' :: fs, loc⟩ := by
  have h1 := digits1_append fs [] (o + 1) hfs hne trivial
  rw [List.append_nil] at h1
  rw [numBranch2, skipWs_of_headNotIgn ('.' :: fs) o ⟨rfl, by decide⟩,
    parsedSpan_single_ok '.' fs o]
  dsimp only
  rw [skipWs_of_headNotIgn fs _ (headNotIgn_of_digits fs hfs), h1]
  exact ⟨_, rfl⟩

theorem numberTuple_render (n : Numeral) (w : List Char) (o : Nat)
    (hwf : n.wfB = true) (hw : w.all isWsChar = true) :
    ∃ numLoc, numberTuple ⟨n.render w, o⟩
      = .ok ⟨[], o + (n.render w).length⟩
          ((if n.neg then some ⟨(), some (o, o + 1)⟩ else none),
           ⟨n.form.normalized, numLoc⟩) := by
  obtain ⟨neg, form⟩ := n
  have hwf2 : form.wfB = true := hwf
  cases neg with
  | true =>
    cases form with
    | intOnly ds =>
      simp only [NumForm.wfB, Bool.and_eq_true, Bool.not_eq_true'] at hwf2
      have hne : ds ≠ [] := by
        intro h; rw [h] at hwf2; exact absurd hwf2.1 (by simp)
      show ∃ numLoc, numberTuple ⟨'-' :: (w ++ ds), o⟩
        = .ok ⟨[], o + ('-' :: (w ++ ds)).length⟩
            (some ⟨(), some (o, o + 1)⟩, ⟨ds, numLoc⟩)
      simp only [numberTuple]
      rw [skipWs_of_headNotIgn ('-' :: (w ++ ds)) o ⟨rfl, by decide⟩,
        parsedSpan_single_ok '-' (w ++ ds) o]
      dsimp only
      rw [skipWs_append w ds (o + 1) hw (headNotIgn_of_digits ds hwf2.2)]
      rw [numBranch1_intOnly ds _ hwf2.2 hne]
      dsimp only
      rw [skipWs_of_headNotIgn [] _ trivial]
      refine ⟨some (o + 1 + w.length, o + ('-' :: (w ++ ds)).length), ?_⟩
      rw [show o + 1 + w.length + ds.length = o + ('-' :: (w ++ ds)).length by
        simp [List.length_cons, List.length_append]; omega]
    | intFrac ds fs =>
      simp only [NumForm.wfB, Bool.and_eq_true, Bool.not_eq_true'] at hwf2
      have hne : ds ≠ [] := by
        intro h; rw [h] at hwf2; exact absurd hwf2.1.1 (by simp)
      show ∃ numLoc, numberTuple ⟨'-' :: (w ++ (ds ++ '.' :: fs)), o⟩
        = .ok ⟨[], o + ('-' :: (w ++ (ds ++ '.' :: fs))).length⟩
            (some ⟨(), some (o, o + 1)⟩,
             ⟨ds ++ ['.'] ++ (if fs = [] then ['0'] else fs), numLoc⟩)
      simp only [numberTuple]
      rw [skipWs_of_headNotIgn ('-' :: (w ++ (ds ++ '.' :: fs))) o ⟨rfl, by decide⟩,
        parsedSpan_single_ok '-' (w ++ (ds ++ '.' :: fs)) o]
      dsimp only
      rw [skipWs_append w (ds ++ '.' :: fs) (o + 1) hw
        (headNotIgn_append_digits ds ('.' :: fs) hwf2.1.2 hne)]
      obtain ⟨loc1, hb⟩ := numBranch1_intFrac ds fs (o + 1 + w.length) hwf2.1.2 hne hwf2.2
      rw [hb]
      dsimp only
      rw [skipWs_of_headNotIgn [] _ trivial]
      refine ⟨loc1, ?_⟩
      rw [show o + 1 + w.length + ds.length + 1 + fs.length
          = o + ('-' :: (w ++ (ds ++ '.' :: fs))).length by
        simp [List.length_cons, List.length_append]; omega]
    | fracOnly fs =>
      simp only [NumForm.wfB, Bool.and_eq_true, Bool.not_eq_true'] at hwf2
      have hne : fs ≠ [] := by
        intro h; rw [h] at hwf2; exact absurd hwf2.1 (by simp)
      show ∃ numLoc, numberTuple ⟨'-' :: (w ++ '.' :: fs), o⟩
        = .ok ⟨[], o + ('-' :: (w ++ '.' :: fs)).length⟩
            (some ⟨(), some (o, o + 1)⟩, ⟨'0' :: '.' :: fs, numLoc⟩)
      simp only [numberTuple]
      rw [skipWs_of_headNotIgn ('-' :: (w ++ '.' :: fs)) o ⟨rfl, by decide⟩,
        parsedSpan_single_ok '-' (w ++ '.' :: fs) o]
      dsimp only
      rw [skipWs_append w ('.' :: fs) (o + 1) hw ⟨rfl, by decide⟩]
      rw [numBranch1_err_dotHead fs _]
      dsimp only
      obtain ⟨loc1, hb⟩ := numBranch2_fracOnly fs (o + 1 + w.length) hwf2.2 hne
      rw [hb]
      dsimp only
      rw [skipWs_of_headNotIgn [] _ trivial]
      refine ⟨loc1, ?_⟩
      rw [show o + 1 + w.length + 1 + fs.length
          = o + ('-' :: (w ++ '.' :: fs)).length by
        simp [List.length_cons, List.length_append]; omega]
  | false =>
    cases form with
    | intOnly ds =>
      simp only [NumForm.wfB, Bool.and_eq_true, Bool.not_eq_true'] at hwf2
      have hne : ds ≠ [] := by
        intro h; rw [h] at hwf2; exact absurd hwf2.1 (by simp)
      show ∃ numLoc, numberTuple ⟨w ++ ds, o⟩
        = .ok ⟨[], o + (w ++ ds).length⟩ (none, ⟨ds, numLoc⟩)
      simp only [numberTuple]
      rw [skipWs_append w ds o hw (headNotIgn_of_digits ds hwf2.2)]
      rw [parsedSpan_dash_err_of_digits ds _ hwf2.2 hne]
      dsimp only
      rw [skipWs_of_headNotIgn ds _ (headNotIgn_of_digits ds hwf2.2)]
      rw [numBranch1_intOnly ds _ hwf2.2 hne]
      dsimp only
      rw [skipWs_of_headNotIgn [] _ trivial]
      refine ⟨some (o + w.length, o + (w ++ ds).length), ?_⟩
      rw [show o + w.length + ds.length = o + (w ++ ds).length by
        simp [List.length_append]; omega]
    | intFrac ds fs =>
      simp only [NumForm.wfB, Bool.and_eq_true, Bool.not_eq_true'] at hwf2
      have hne : ds ≠ [] := by
        intro h; rw [h] at hwf2; exact absurd hwf2.1.1 (by simp)
      show ∃ numLoc, numberTuple ⟨w ++ (ds ++ '.' :: fs), o⟩
        = .ok ⟨[], o + (w ++ (ds ++ '.' :: fs)).length⟩
            (none, ⟨ds ++ ['.'] ++ (if fs = [] then ['0'] else fs), numLoc⟩)
      simp only [numberTuple]
      rw [skipWs_append w (ds ++ '.' :: fs) o hw
        (headNotIgn_append_digits ds ('.' :: fs) hwf2.1.2 hne)]
      rw [parsedSpan_dash_err_append_digits ds ('.' :: fs) _ hwf2.1.2 hne]
      dsimp only
      rw [skipWs_of_headNotIgn (ds ++ '.' :: fs) _
        (headNotIgn_append_digits ds ('.' :: fs) hwf2.1.2 hne)]
      obtain ⟨loc1, hb⟩ := numBranch1_intFrac ds fs (o + w.length) hwf2.1.2 hne hwf2.2
      rw [hb]
      dsimp only
      rw [skipWs_of_headNotIgn [] _ trivial]
      refine ⟨loc1, ?_⟩
      rw [show o + w.length + ds.length + 1 + fs.length
          = o + (w ++ (ds ++ '.' :: fs)).length by
        simp [List.length_cons, List.length_append]; omega]
    | fracOnly fs =>
      simp only [NumForm.wfB, Bool.and_eq_true, Bool.not_eq_true'] at hwf2
      have hne : fs ≠ [] := by
        intro h; rw [h] at hwf2; exact absurd hwf2.1 (by simp)
      show ∃ numLoc, numberTuple ⟨w ++ '.' :: fs, o⟩
        = .ok ⟨[], o + (w ++ '.' :: fs).length⟩ (none, ⟨'0' :: '.' :: fs, numLoc⟩)
      simp only [numberTuple]
      rw [skipWs_append w ('.' :: fs) o hw ⟨rfl, by decide⟩]
      rw [parsedSpan_dash_err_of_dot fs _]
      dsimp only
      rw [skipWs_of_headNotIgn ('.' :: fs) _ ⟨rfl, by decide⟩]
      rw [numBranch1_err_dotHead fs _]
      dsimp only
      obtain ⟨loc1, hb⟩ := numBranch2_fracOnly fs (o + w.length) hwf2.2 hne
      rw [hb]
      dsimp only
      rw [skipWs_of_headNotIgn [] _ trivial]
      refine ⟨loc1, ?_⟩
      rw [show o + w.length + 1 + fs.length = o + (w ++ '.' :: fs).length by
        simp [List.length_cons, List.length_append]; omega]

/-- C2: when the number tuple has matched (optional sign plus digit and dot
text) but the normalized textual form fails the numeric conversion,
`parse_number` returns a fatal failure — and therefore the whole
`LitExpr::parse` aborts with a fatal failure instead of trying the remaining
alternatives (object, array, path, …). -/
theorem c2_conversion_failure_is_fatal :
    ∀ (s rest : Span) (neg : Option (Parsed Unit)) (num : Parsed (List Char)),
    numberTuple s = .ok rest (neg, num) →
    serdeNumberFromString (numberText neg num) = none →
    parseNumber s = .fail ∧ ∀ fuel, litParse (fuel + 1) s = .fail := by
  intro s rest neg num h1 h2
  have hpn : parseNumber s = .fail := by
    rw [parseNumber, h1]
    dsimp only
    rw [h2]
  refine ⟨hpn, ?_⟩
  intro fuel
  obtain ⟨c, t, hct, hc⟩ := numberTuple_ok_head s rest (neg, num) h1
  have hstr : parseStringLit (skipWs s) = .err := by
    refine parseStringLit_err_of_head _ c t hct ?_
    rcases hc with h | h | h
    · subst h; decide
    · intro habs
      rcases habs with h3 | h3 <;> rw [h3] at h <;> exact absurd h (by decide)
    · subst h; decide
  have hnum : parseNumber (skipWs s) = .fail := by rw [parseNumber_skipWs]; exact hpn
  simp only [litParse, litAlt, hstr, hnum]

set_option maxRecDepth 100000 in
/-- C2 witness: three hundred nine nines match the number tuple, overflow the
f64 conversion, and make both `parse_number` and `LitExpr::parse` fail
fatally. -/
theorem c2_witness :
    parseNumber ⟨List.replicate 309 '9', 0⟩ = .fail
    ∧ litParse 1 ⟨List.replicate 309 '9', 0⟩ = .fail := by
  have h := c2_conversion_failure_is_fatal ⟨List.replicate 309 '9', 0⟩ ⟨[], 309⟩
    none ⟨List.replicate 309 '9', some (0, 309)⟩ (by rfl) (by rfl)
  exact ⟨h.1, h.2 0⟩

theorem litParse_of_number_ok (fuel : Nat) (s : Span) (rest : Span)
    (v : Parsed LitExpr)
    (hstr : parseStringLit (skipWs s) = .err)
    (hnum : parseNumber (skipWs s) = .ok rest v) :
    litParse (fuel + 1) s = .ok (skipWs rest) v := by
  simp only [litParse, litAlt, hstr, hnum]

theorem parseStringLit_err_of_numHead (s : Span) (c : Char) (t : List Char)
    (hct : (skipWs s).text = c :: t)
    (hc : c = '-' ∨ isDigitChar c = true ∨ c = '.') :
    parseStringLit (skipWs s) = .err := by
  refine parseStringLit_err_of_head _ c t hct ?_
  rcases hc with h | h | h
  · subst h; decide
  · exact (digitChar_facts c h).2.2.2
  · subst h; decide

/-! ## Claim theorems -/

/-- C3: the grammar alternatives are tried in order string, number, boolean /
null keywords, object, array, path — whenever `LitExpr::parse` produces a
path literal, every other alternative returned a recoverable error at that
position — and the input `true` parses to the boolean literal, never to a
one-segment path. -/
theorem c3_alternative_order :
    (∀ (fuel : Nat) (s rest : Span) (v : Parsed LitExpr),
      litParse (fuel + 1) s = .ok rest v →
      v.node.isPathLit = true →
      parseStringLit (skipWs s) = .err
      ∧ parseNumber (skipWs s) = .err
      ∧ parsedSpan ['t', 'r', 'u', 'e'] (skipWs s) = .err
      ∧ parsedSpan ['f', 'a', 'l', 's', 'e'] (skipWs s) = .err
      ∧ parsedSpan ['n', 'u', 'l', 'l'] (skipWs s) = .err
      ∧ parseObject (litParse fuel) fuel (skipWs s) = .err
      ∧ parseArray (litParse fuel) fuel (skipWs s) = .err)
    ∧ litParseTop srcTrueKw = .ok ⟨[], 4⟩ ⟨.bool true, some (0, 4)⟩ := by
  constructor
  · intro fuel s rest v h hpath
    simp only [litParse] at h
    cases halt : litAlt (litParse fuel) fuel (skipWs s) with
    | err => rw [halt] at h; exact absurd h (by simp)
    | fail => rw [halt] at h; exact absurd h (by simp)
    | ok r0 v0 =>
      rw [halt] at h
      have hv : v = v0 := by cases h; rfl
      subst hv
      rw [litAlt] at halt
      cases h1 : parseStringLit (skipWs s) with
      | ok r1 p1 =>
        rw [h1] at halt; dsimp only at halt
        cases halt; exact absurd hpath (by simp [LitExpr.isPathLit])
      | fail => rw [h1] at halt; exact absurd halt (by simp)
      | err =>
      rw [h1] at halt; dsimp only at halt
      cases h2 : parseNumber (skipWs s) with
      | ok r1 p1 =>
        rw [h2] at halt; dsimp only at halt
        cases halt
        rw [parseNumber] at h2
        cases hnt : numberTuple (skipWs s) with
        | ok r2 pr2 =>
          rw [hnt] at h2; dsimp only at h2
          obtain ⟨neg2, num2⟩ := pr2
          dsimp only at h2
          cases hser : serdeNumberFromString (numberText neg2 num2) with
          | some j => rw [hser] at h2; dsimp only at h2; cases h2
                      exact absurd hpath (by simp [LitExpr.isPathLit])
          | none => rw [hser] at h2; exact absurd h2 (by simp)
        | err => rw [hnt] at h2; exact absurd h2 (by simp)
        | fail => rw [hnt] at h2; exact absurd h2 (by simp)
      | fail => rw [h2] at halt; exact absurd halt (by simp)
      | err =>
      rw [h2] at halt; dsimp only at halt
      cases h3 : parsedSpan ['t', 'r', 'u', 'e'] (skipWs s) with
      | ok r1 p1 =>
        rw [h3] at halt; dsimp only at halt
        cases halt; exact absurd hpath (by simp [LitExpr.isPathLit])
      | fail => rw [h3] at halt; exact absurd halt (by simp)
      | err =>
      rw [h3] at halt; dsimp only at halt
      cases h4 : parsedSpan ['f', 'a', 'l', 's', 'e'] (skipWs s) with
      | ok r1 p1 =>
        rw [h4] at halt; dsimp only at halt
        cases halt; exact absurd hpath (by simp [LitExpr.isPathLit])
      | fail => rw [h4] at halt; exact absurd halt (by simp)
      | err =>
      rw [h4] at halt; dsimp only at halt
      cases h5 : parsedSpan ['n', 'u', 'l', 'l'] (skipWs s) with
      | ok r1 p1 =>
        rw [h5] at halt; dsimp only at halt
        cases halt; exact absurd hpath (by simp [LitExpr.isPathLit])
      | fail => rw [h5] at halt; exact absurd halt (by simp)
      | err =>
      rw [h5] at halt; dsimp only at halt
      cases h6 : parseObject (litParse fuel) fuel (skipWs s) with
      | ok r1 p1 =>
        rw [h6] at halt; dsimp only at halt
        cases halt
        exact absurd hpath (by
          rw [parseObject] at h6
          -- a successful object parse always returns an `.obj` node
          revert h6
          cases parsedSpan ['{'] (skipWs (skipWs s)) with
          | ok s2 openB =>
            dsimp only
            intro h6
            revert h6
            cases parseProperty (litParse fuel) (skipWs s2) with
            | fail => intro h6; exact absurd h6 (by simp)
            | err =>
              dsimp only
              cases parsedSpan ['}'] (skipWs (skipWs s2)) with
              | ok s8 closeB => dsimp only; intro h6; cases h6; simp [LitExpr.isPathLit]
              | err => intro h6; exact absurd h6 (by simp)
              | fail => intro h6; exact absurd h6 (by simp)
            | ok s4 p1 =>
              dsimp only
              cases parsePropsRest (litParse fuel) fuel s4 with
              | ok s5 ps =>
                dsimp only
                cases charTok ',' s5 with
                | ok s6 u =>
                  dsimp only
                  cases parsedSpan ['}'] (skipWs s6) with
                  | ok s8 closeB => dsimp only; intro h6; cases h6; simp [LitExpr.isPathLit]
                  | err => intro h6; exact absurd h6 (by simp)
                  | fail => intro h6; exact absurd h6 (by simp)
                | err =>
                  dsimp only
                  cases parsedSpan ['}'] (skipWs s5) with
                  | ok s8 closeB => dsimp only; intro h6; cases h6; simp [LitExpr.isPathLit]
                  | err => intro h6; exact absurd h6 (by simp)
                  | fail => intro h6; exact absurd h6 (by simp)
                | fail =>
                  dsimp only
                  cases parsedSpan ['}'] (skipWs s5) with
                  | ok s8 closeB => dsimp only; intro h6; cases h6; simp [LitExpr.isPathLit]
                  | err => intro h6; exact absurd h6 (by simp)
                  | fail => intro h6; exact absurd h6 (by simp)
              | err => intro h6; exact absurd h6 (by simp)
              | fail => intro h6; exact absurd h6 (by simp)
          | err => intro h6; exact absurd h6 (by simp)
          | fail => intro h6; exact absurd h6 (by simp))
      | fail => rw [h6] at halt; exact absurd halt (by simp)
      | err =>
      rw [h6] at halt; dsimp only at halt
      cases h7 : parseArray (litParse fuel) fuel (skipWs s) with
      | ok r1 p1 =>
        rw [h7] at halt; dsimp only at halt
        cases halt
        exact absurd hpath (by
          rw [parseArray] at h7
          revert h7
          cases parsedSpan ['['] (skipWs (skipWs s)) with
          | ok s2 openB =>
            dsimp only
            cases litParse fuel (skipWs s2) with
            | fail => intro h7; exact absurd h7 (by simp)
            | err =>
              dsimp only
              cases parsedSpan [']'] (skipWs (skipWs s2)) with
              | ok s8 closeB => dsimp only; intro h7; cases h7; simp [LitExpr.isPathLit]
              | err => intro h7; exact absurd h7 (by simp)
              | fail => intro h7; exact absurd h7 (by simp)
            | ok s4 e1 =>
              dsimp only
              cases parseElemsRest (litParse fuel) fuel s4 with
              | ok s5 es =>
                dsimp only
                cases charTok ',' s5 with
                | ok s6 u =>
                  dsimp only
                  cases parsedSpan [']'] (skipWs s6) with
                  | ok s8 closeB => dsimp only; intro h7; cases h7; simp [LitExpr.isPathLit]
                  | err => intro h7; exact absurd h7 (by simp)
                  | fail => intro h7; exact absurd h7 (by simp)
                | err =>
                  dsimp only
                  cases parsedSpan [']'] (skipWs s5) with
                  | ok s8 closeB => dsimp only; intro h7; cases h7; simp [LitExpr.isPathLit]
                  | err => intro h7; exact absurd h7 (by simp)
                  | fail => intro h7; exact absurd h7 (by simp)
                | fail =>
                  dsimp only
                  cases parsedSpan [']'] (skipWs s5) with
                  | ok s8 closeB => dsimp only; intro h7; cases h7; simp [LitExpr.isPathLit]
                  | err => intro h7; exact absurd h7 (by simp)
                  | fail => intro h7; exact absurd h7 (by simp)
              | err => intro h7; exact absurd h7 (by simp)
              | fail => intro h7; exact absurd h7 (by simp)
          | err => intro h7; exact absurd h7 (by simp)
          | fail => intro h7; exact absurd h7 (by simp))
      | fail => rw [h7] at halt; exact absurd halt (by simp)
      | err =>
      exact ⟨rfl, rfl, rfl, rfl, rfl, rfl, rfl⟩
  · rfl

/-- C8: the location attached to every parsed object and array node is the
merge of the opening and closing delimiter token locations; `merge_locs`
produces the smallest byte-offset range enclosing both inputs, or `none` when
both are `none`; concrete parses show the merged location is independent of
interior whitespace. -/
theorem c8_delimiter_locations :
    mergeLocs none none = none
    ∧ (∀ l : Loc, mergeLocs (some l) none = some l)
    ∧ (∀ r : Loc, mergeLocs none (some r) = some r)
    ∧ (∀ l r : Loc, mergeLocs (some l) (some r) = some (min l.1 r.1, max l.2 r.2))
    ∧ (∀ l r : Loc, min l.1 r.1 ≤ l.1 ∧ min l.1 r.1 ≤ r.1
        ∧ l.2 ≤ max l.2 r.2 ∧ r.2 ≤ max l.2 r.2)
    ∧ (∀ l r m2 : Loc, m2.1 ≤ l.1 → m2.1 ≤ r.1 → l.2 ≤ m2.2 → r.2 ≤ m2.2 →
        m2.1 ≤ min l.1 r.1 ∧ max l.2 r.2 ≤ m2.2)
    ∧ (∀ (rec : Span → PResult (Parsed LitExpr)) (fuel : Nat) (s rest : Span)
        (v : Parsed LitExpr), parseObject rec fuel s = .ok rest v →
        ∃ cSpan : Span,
          v.loc = mergeLocs (some ((skipWs s).offset, (skipWs s).offset + 1))
                            (some (cSpan.offset, cSpan.offset + 1))
          ∧ (∃ t, (skipWs s).text = '{' :: t)
          ∧ (∃ t, cSpan.text = '}' :: t))
    ∧ (∀ (rec : Span → PResult (Parsed LitExpr)) (fuel : Nat) (s rest : Span)
        (v : Parsed LitExpr), parseArray rec fuel s = .ok rest v →
        ∃ cSpan : Span,
          v.loc = mergeLocs (some ((skipWs s).offset, (skipWs s).offset + 1))
                            (some (cSpan.offset, cSpan.offset + 1))
          ∧ (∃ t, (skipWs s).text = '[' :: t)
          ∧ (∃ t, cSpan.text = ']' :: t))
    ∧ locOfParse srcArrTight = some (some (0, 5))
    ∧ locOfParse srcArrSpaced = some (some (0, 9))
    ∧ locOfParse srcObjSpaced = some (some (0, 8)) := by
  refine ⟨rfl, fun l => rfl, fun r => rfl, fun l r => rfl,
    fun l r => ⟨Nat.min_le_left _ _, Nat.min_le_right _ _,
      Nat.le_max_left _ _, Nat.le_max_right _ _⟩,
    fun l r m2 h1 h2 h3 h4 => ⟨le_min h1 h2, max_le h3 h4⟩,
    ?_, ?_, rfl, rfl, rfl⟩
  · intro rec fuel s rest v h
    rw [parseObject] at h
    revert h
    cases hopen : parsedSpan ['{'] (skipWs s) with
    | err => intro h; exact absurd h (by simp)
    | fail => intro h; exact absurd h (by simp)
    | ok s2 openB =>
      obtain ⟨hpre, _, hB⟩ := parsedSpan_ok_shape _ _ _ _ hopen
      obtain ⟨t, ht⟩ := listIsPrefix_single _ _ hpre
      dsimp only
      cases parseProperty rec (skipWs s2) with
      | fail => intro h; exact absurd h (by simp)
      | err =>
        dsimp only
        cases hclose : parsedSpan ['}'] (skipWs (skipWs s2)) with
        | ok s8 closeB =>
          obtain ⟨hpre2, _, hC⟩ := parsedSpan_ok_shape _ _ _ _ hclose
          obtain ⟨t2, ht2⟩ := listIsPrefix_single _ _ hpre2
          dsimp only
          intro h
          cases h
          exact ⟨skipWs (skipWs s2), by rw [hB, hC]; rfl, ⟨t, ht⟩, ⟨t2, ht2⟩⟩
        | err => intro h; exact absurd h (by simp)
        | fail => intro h; exact absurd h (by simp)
      | ok s4 p1 =>
        dsimp only
        cases parsePropsRest rec fuel s4 with
        | err => intro h; exact absurd h (by simp)
        | fail => intro h; exact absurd h (by simp)
        | ok s5 ps =>
          dsimp only
          cases charTok ',' s5 with
          | ok s6 u =>
            dsimp only
            cases hclose : parsedSpan ['}'] (skipWs s6) with
            | ok s8 closeB =>
              obtain ⟨hpre2, _, hC⟩ := parsedSpan_ok_shape _ _ _ _ hclose
              obtain ⟨t2, ht2⟩ := listIsPrefix_single _ _ hpre2
              dsimp only
              intro h
              cases h
              exact ⟨skipWs s6, by rw [hB, hC]; rfl, ⟨t, ht⟩, ⟨t2, ht2⟩⟩
            | err => intro h; exact absurd h (by simp)
            | fail => intro h; exact absurd h (by simp)
          | err =>
            dsimp only
            cases hclose : parsedSpan ['}'] (skipWs s5) with
            | ok s8 closeB =>
              obtain ⟨hpre2, _, hC⟩ := parsedSpan_ok_shape _ _ _ _ hclose
              obtain ⟨t2, ht2⟩ := listIsPrefix_single _ _ hpre2
              dsimp only
              intro h
              cases h
              exact ⟨skipWs s5, by rw [hB, hC]; rfl, ⟨t, ht⟩, ⟨t2, ht2⟩⟩
            | err => intro h; exact absurd h (by simp)
            | fail => intro h; exact absurd h (by simp)
          | fail =>
            dsimp only
            cases hclose : parsedSpan ['}'] (skipWs s5) with
            | ok s8 closeB =>
              obtain ⟨hpre2, _, hC⟩ := parsedSpan_ok_shape _ _ _ _ hclose
              obtain ⟨t2, ht2⟩ := listIsPrefix_single _ _ hpre2
              dsimp only
              intro h
              cases h
              exact ⟨skipWs s5, by rw [hB, hC]; rfl, ⟨t, ht⟩, ⟨t2, ht2⟩⟩
            | err => intro h; exact absurd h (by simp)
            | fail => intro h; exact absurd h (by simp)
  · intro rec fuel s rest v h
    rw [parseArray] at h
    revert h
    cases hopen : parsedSpan ['['] (skipWs s) with
    | err => intro h; exact absurd h (by simp)
    | fail => intro h; exact absurd h (by simp)
    | ok s2 openB =>
      obtain ⟨hpre, _, hB⟩ := parsedSpan_ok_shape _ _ _ _ hopen
      obtain ⟨t, ht⟩ := listIsPrefix_single _ _ hpre
      dsimp only
      cases rec (skipWs s2) with
      | fail => intro h; exact absurd h (by simp)
      | err =>
        dsimp only
        cases hclose : parsedSpan [']'] (skipWs (skipWs s2)) with
        | ok s8 closeB =>
          obtain ⟨hpre2, _, hC⟩ := parsedSpan_ok_shape _ _ _ _ hclose
          obtain ⟨t2, ht2⟩ := listIsPrefix_single _ _ hpre2
          dsimp only
          intro h
          cases h
          exact ⟨skipWs (skipWs s2), by rw [hB, hC]; rfl, ⟨t, ht⟩, ⟨t2, ht2⟩⟩
        | err => intro h; exact absurd h (by simp)
        | fail => intro h; exact absurd h (by simp)
      | ok s4 e1 =>
        dsimp only
        cases parseElemsRest rec fuel s4 with
        | err => intro h; exact absurd h (by simp)
        | fail => intro h; exact absurd h (by simp)
        | ok s5 es =>
          dsimp only
          cases charTok ',' s5 with
          | ok s6 u =>
            dsimp only
            cases hclose : parsedSpan [']'] (skipWs s6) with
            | ok s8 closeB =>
              obtain ⟨hpre2, _, hC⟩ := parsedSpan_ok_shape _ _ _ _ hclose
              obtain ⟨t2, ht2⟩ := listIsPrefix_single _ _ hpre2
              dsimp only
              intro h
              cases h
              exact ⟨skipWs s6, by rw [hB, hC]; rfl, ⟨t, ht⟩, ⟨t2, ht2⟩⟩
            | err => intro h; exact absurd h (by simp)
            | fail => intro h; exact absurd h (by simp)
          | err =>
            dsimp only
            cases hclose : parsedSpan [']'] (skipWs s5) with
            | ok s8 closeB =>
              obtain ⟨hpre2, _, hC⟩ := parsedSpan_ok_shape _ _ _ _ hclose
              obtain ⟨t2, ht2⟩ := listIsPrefix_single _ _ hpre2
              dsimp only
              intro h
              cases h
              exact ⟨skipWs s5, by rw [hB, hC]; rfl, ⟨t, ht⟩, ⟨t2, ht2⟩⟩
            | err => intro h; exact absurd h (by simp)
            | fail => intro h; exact absurd h (by simp)
          | fail =>
            dsimp only
            cases hclose : parsedSpan [']'] (skipWs s5) with
            | ok s8 closeB =>
              obtain ⟨hpre2, _, hC⟩ := parsedSpan_ok_shape _ _ _ _ hclose
              obtain ⟨t2, ht2⟩ := listIsPrefix_single _ _ hpre2
              dsimp only
              intro h
              cases h
              exact ⟨skipWs s5, by rw [hB, hC]; rfl, ⟨t, ht⟩, ⟨t2, ht2⟩⟩
            | err => intro h; exact absurd h (by simp)
            | fail => intro h; exact absurd h (by simp)

/-- C8 witness: the merged range of `(0, 5)` and `(4, 9)` is minimal among
enclosing ranges; on `{ a: 1 }` and `[ 1 , 2 ]` the object and array parses
succeed and their locations are the merges of the opening and closing
delimiter token locations. -/
theorem c8_witness :
    ((0, 9) : Loc).1 ≤ min ((0, 5) : Loc).1 ((4, 9) : Loc).1
    ∧ max ((0, 5) : Loc).2 ((4, 9) : Loc).2 ≤ ((0, 9) : Loc).2
    ∧ (∃ cSpan : Span,
      (⟨LitExpr.obj [(⟨.field ['a'], some (2, 3)⟩, ⟨.num (.int 1), some (5, 6)⟩)],
        some (0, 8)⟩ : Parsed LitExpr).loc
        = mergeLocs (some ((skipWs ⟨srcObjSpaced, 0⟩).offset,
                           (skipWs ⟨srcObjSpaced, 0⟩).offset + 1))
                    (some (cSpan.offset, cSpan.offset + 1))
      ∧ (∃ t, (skipWs ⟨srcObjSpaced, 0⟩).text = '{' :: t)
      ∧ (∃ t, cSpan.text = '}' :: t))
    ∧ (∃ cSpan : Span,
      (⟨LitExpr.arr [⟨.num (.int 1), some (2, 3)⟩, ⟨.num (.int 2), some (6, 7)⟩],
        some (0, 9)⟩ : Parsed LitExpr).loc
        = mergeLocs (some ((skipWs ⟨srcArrSpaced, 0⟩).offset,
                           (skipWs ⟨srcArrSpaced, 0⟩).offset + 1))
                    (some (cSpan.offset, cSpan.offset + 1))
      ∧ (∃ t, (skipWs ⟨srcArrSpaced, 0⟩).text = '[' :: t)
      ∧ (∃ t, cSpan.text = ']' :: t)) :=
  ⟨(c8_delimiter_locations.2.2.2.2.2.1 (0, 5) (4, 9) (0, 9)
      (by decide) (by decide) (by decide) (by decide)).1,
   (c8_delimiter_locations.2.2.2.2.2.1 (0, 5) (4, 9) (0, 9)
      (by decide) (by decide) (by decide) (by decide)).2,
   c8_delimiter_locations.2.2.2.2.2.2.1 (litParse 30) 30 ⟨srcObjSpaced, 0⟩ ⟨[], 8⟩
    ⟨LitExpr.obj [(⟨.field ['a'], some (2, 3)⟩, ⟨.num (.int 1), some (5, 6)⟩)],
      some (0, 8)⟩ (by rfl),
   c8_delimiter_locations.2.2.2.2.2.2.2.1 (litParse 30) 30 ⟨srcArrSpaced, 0⟩ ⟨[], 9⟩
    ⟨LitExpr.arr [⟨.num (.int 1), some (2, 3)⟩, ⟨.num (.int 2), some (6, 7)⟩],
      some (0, 9)⟩ (by rfl)⟩

/-- C3 witness: on the one-segment path input `a`, which parses to a path
literal, every earlier alternative returned a recoverable error. -/
theorem c3_witness :
    parseStringLit (skipWs ⟨['a'], 0⟩) = .err
    ∧ parseNumber (skipWs ⟨['a'], 0⟩) = .err
    ∧ parsedSpan ['t', 'r', 'u', 'e'] (skipWs ⟨['a'], 0⟩) = .err
    ∧ parsedSpan ['f', 'a', 'l', 's', 'e'] (skipWs ⟨['a'], 0⟩) = .err
    ∧ parsedSpan ['n', 'u', 'l', 'l'] (skipWs ⟨['a'], 0⟩) = .err
    ∧ parseObject (litParse 19) 19 (skipWs ⟨['a'], 0⟩) = .err
    ∧ parseArray (litParse 19) 19 (skipWs ⟨['a'], 0⟩) = .err :=
  c3_alternative_order.1 19 ⟨['a'], 0⟩ ⟨[], 1⟩
    ⟨.path ⟨⟨⟨.key ⟨.field ['a'], some (0, 1)⟩ ⟨.empty, none⟩, some (0, 1)⟩⟩,
      some (0, 1)⟩, some (0, 1)⟩
    (by rfl) (by rfl)



mutual

theorem evp_eq_specPathLeaves : (e : LitExpr) →
    LitExpr.externalVarPaths e = specPathLeaves e
  | .str _ => rfl
  | .num _ => rfl
  | .bool _ => rfl
  | .null => rfl
  | .obj es => evpEntries_eq_spec es
  | .arr es => evpElems_eq_spec es
  | .path ⟨_, _⟩ => rfl

theorem evpEntries_eq_spec : (es : List (Parsed Key × Parsed LitExpr)) →
    evpEntries es = specPathLeavesEntries es
  | [] => rfl
  | (_, ⟨v, _⟩) :: rest => by
    show LitExpr.externalVarPaths v ++ evpEntries rest
        = specPathLeaves v ++ specPathLeavesEntries rest
    rw [evp_eq_specPathLeaves v, evpEntries_eq_spec rest]

theorem evpElems_eq_spec : (es : List (Parsed LitExpr)) →
    evpElems es = specPathLeavesElems es
  | [] => rfl
  | ⟨v, _⟩ :: rest => by
    show LitExpr.externalVarPaths v ++ evpElems rest
        = specPathLeaves v ++ specPathLeavesElems rest
    rw [evp_eq_specPathLeaves v, evpElems_eq_spec rest]

end

/-- C4: `external_var_paths` returns exactly the path selections sitting at
`Path` leaves of the `LitExpr`, in left-to-right depth-first AST order
(object values in insertion order, array elements in order), with primitives
contributing nothing; on the parsed literal `{a: $args.a, b: $this.b}` it
yields exactly the `$args.a` and `$this.b` paths, in property order. -/
theorem c4_external_var_paths :
    (∀ e : LitExpr, e.externalVarPaths = specPathLeaves e)
    ∧ (∀ s, (LitExpr.str s).externalVarPaths = [])
    ∧ (∀ n, (LitExpr.num n).externalVarPaths = [])
    ∧ (∀ b, (LitExpr.bool b).externalVarPaths = [])
    ∧ LitExpr.null.externalVarPaths = []
    ∧ evpOfParse srcEvpObj = some [psArgsA, psThisB] :=
  ⟨evp_eq_specPathLeaves, fun _ => rfl, fun _ => rfl, fun _ => rfl, rfl, rfl⟩

set_option maxHeartbeats 1000000 in
/-- C7: a single trailing comma after the last element or property is
permitted and ignored.  Generally: for every nonempty list of element source
chunks (each `#`-free and parsing fully as a literal at the given nesting
fuel), the array assembled from them with and without a trailing comma parses
completely in both forms, to the same elements up to locations, namely the
chunks' values; the same for objects assembled from property chunks.  In
particular `[1, 2,]` and `[1, 2]` parse to identical stripped ASTs, and
likewise `{a: 1, b: 2,}` and `{a: 1, b: 2}`. -/
theorem c7_trailing_comma :
    (∀ (F : Nat) (es : List (List Char)) (vs : List (Parsed LitExpr)),
      es ≠ [] → es.length ≤ F →
      List.Forall₂ (fun c v => '#' ∉ c
        ∧ ∃ e, litParse F ⟨c, 0⟩ = .ok ⟨[], e⟩ v) es vs →
      ∃ o₁ o₂ l₁ l₂ v₁ v₂,
        litParse (F + 1) ⟨arrSrc es true, 0⟩ = .ok ⟨[], o₁⟩ ⟨.arr v₁, l₁⟩
        ∧ litParse (F + 1) ⟨arrSrc es false, 0⟩ = .ok ⟨[], o₂⟩ ⟨.arr v₂, l₂⟩
        ∧ stripElems v₁ = stripElems v₂
        ∧ stripElems v₂ = stripElems vs)
    ∧ (∀ (F : Nat) (cs : List (List Char))
        (vs : List (Parsed Key × Parsed LitExpr)),
      cs ≠ [] → cs.length ≤ F →
      List.Forall₂ (fun c p => '#' ∉ c
        ∧ ∃ e, parseProperty (litParse F) ⟨c, 0⟩ = .ok ⟨[], e⟩ p) cs vs →
      ∃ o₁ o₂ l₁ l₂ p₁ p₂,
        litParse (F + 1) ⟨objSrc cs true, 0⟩
          = .ok ⟨[], o₁⟩ ⟨.obj (buildObjectEntries p₁), l₁⟩
        ∧ litParse (F + 1) ⟨objSrc cs false, 0⟩
          = .ok ⟨[], o₂⟩ ⟨.obj (buildObjectEntries p₂), l₂⟩
        ∧ stripEntries p₁ = stripEntries p₂
        ∧ stripEntries p₂ = stripEntries vs)
    ∧ litParseStrip srcArrTrailing = litParseStrip srcArrPlain
    ∧ litParseStrip srcArrPlain
      = some (.arr [⟨.num (.int 1), none⟩, ⟨.num (.int 2), none⟩])
    ∧ litParseStrip srcObjTrailing = litParseStrip srcObjPlain
    ∧ litParseStrip srcObjPlain
      = some (.obj [(⟨.field ['a'], none⟩, ⟨.num (.int 1), none⟩),
                    (⟨.field ['b'], none⟩, ⟨.num (.int 2), none⟩)]) := by
  have ha1 : litParseStrip srcArrTrailing
      = some (.arr [⟨.num (.int 1), none⟩, ⟨.num (.int 2), none⟩]) := rfl
  have ha2 : litParseStrip srcArrPlain
      = some (.arr [⟨.num (.int 1), none⟩, ⟨.num (.int 2), none⟩]) := rfl
  have ho1 : litParseStrip srcObjTrailing
      = some (.obj [(⟨.field ['a'], none⟩, ⟨.num (.int 1), none⟩),
                    (⟨.field ['b'], none⟩, ⟨.num (.int 2), none⟩)]) := rfl
  have ho2 : litParseStrip srcObjPlain
      = some (.obj [(⟨.field ['a'], none⟩, ⟨.num (.int 1), none⟩),
                    (⟨.field ['b'], none⟩, ⟨.num (.int 2), none⟩)]) := rfl
  refine ⟨?_, ?_, ha1.trans ha2.symm, ha2, ho1.trans ho2.symm, ho2⟩
  · intro F es vs hne hlen hall
    obtain ⟨o₁, l₁, v₁, h1, hs1⟩ :=
      litParse_arr_assemble F es vs [',', ']'] (Or.inr rfl) hne hlen hall
    obtain ⟨o₂, l₂, v₂, h2, hs2⟩ :=
      litParse_arr_assemble F es vs [']'] (Or.inl rfl) hne hlen hall
    refine ⟨o₁, o₂, l₁, l₂, v₁, v₂, ?_, ?_, hs1.trans hs2.symm, hs2⟩
    · rw [show arrSrc es true = '[' :: (arrCore es ++ [',', ']']) from rfl]
      exact h1
    · rw [show arrSrc es false = '[' :: (arrCore es ++ [']']) from rfl]
      exact h2
  · intro F cs vs hne hlen hall
    obtain ⟨o₁, l₁, p₁, h1, hs1⟩ :=
      litParse_obj_assemble F cs vs [',', '}'] (Or.inr rfl) hne hlen hall
    obtain ⟨o₂, l₂, p₂, h2, hs2⟩ :=
      litParse_obj_assemble F cs vs ['}'] (Or.inl rfl) hne hlen hall
    refine ⟨o₁, o₂, l₁, l₂, p₁, p₂, ?_, ?_, hs1.trans hs2.symm, hs2⟩
    · rw [show objSrc cs true = '{' :: (arrCore cs ++ [',', '}']) from rfl]
      exact h1
    · rw [show objSrc cs false = '{' :: (arrCore cs ++ ['}']) from rfl]
      exact h2

set_option maxRecDepth 10000 in
/-- Witness for C7 at concrete chunks: the elements `1` and ` 2` (the second
with interior whitespace) assembled into `[1, 2,]` / `[1, 2]`, and the
properties `a:1` and ` b:2` assembled into `{a:1, b:2,}` / `{a:1, b:2}`. -/
theorem c7_witness :
    (∃ o₁ o₂ l₁ l₂ v₁ v₂,
      litParse 3 ⟨arrSrc [['1'], [' ', '2']] true, 0⟩
        = .ok ⟨[], o₁⟩ ⟨.arr v₁, l₁⟩
      ∧ litParse 3 ⟨arrSrc [['1'], [' ', '2']] false, 0⟩
        = .ok ⟨[], o₂⟩ ⟨.arr v₂, l₂⟩
      ∧ stripElems v₁ = stripElems v₂
      ∧ stripElems v₂
        = stripElems [⟨.num (.int 1), some (0, 1)⟩,
                      ⟨.num (.int 2), some (1, 2)⟩])
    ∧ (∃ o₁ o₂ l₁ l₂ p₁ p₂,
      litParse 3 ⟨objSrc [['a', ':', '1'], [' ', 'b', ':', '2']] true, 0⟩
        = .ok ⟨[], o₁⟩ ⟨.obj (buildObjectEntries p₁), l₁⟩
      ∧ litParse 3 ⟨objSrc [['a', ':', '1'], [' ', 'b', ':', '2']] false, 0⟩
        = .ok ⟨[], o₂⟩ ⟨.obj (buildObjectEntries p₂), l₂⟩
      ∧ stripEntries p₁ = stripEntries p₂
      ∧ stripEntries p₂
        = stripEntries [(⟨.field ['a'], some (0, 1)⟩,
                         ⟨.num (.int 1), some (2, 3)⟩),
                        (⟨.field ['b'], some (1, 2)⟩,
                         ⟨.num (.int 2), some (3, 4)⟩)]) :=
  ⟨c7_trailing_comma.1 2 [['1'], [' ', '2']]
      [⟨.num (.int 1), some (0, 1)⟩, ⟨.num (.int 2), some (1, 2)⟩]
      (by decide) (by decide)
      (List.Forall₂.cons ⟨by decide, ⟨1, rfl⟩⟩
        (List.Forall₂.cons ⟨by decide, ⟨2, rfl⟩⟩ List.Forall₂.nil)),
   c7_trailing_comma.2.1 2 [['a', ':', '1'], [' ', 'b', ':', '2']]
      [(⟨.field ['a'], some (0, 1)⟩, ⟨.num (.int 1), some (2, 3)⟩),
       (⟨.field ['b'], some (1, 2)⟩, ⟨.num (.int 2), some (3, 4)⟩)]
      (by decide) (by decide)
      (List.Forall₂.cons ⟨by decide, ⟨3, rfl⟩⟩
        (List.Forall₂.cons ⟨by decide, ⟨4, rfl⟩⟩ List.Forall₂.nil))⟩

set_option maxRecDepth 100000 in
/-- C1 counterexample: three hundred nine nines form an (unsigned, hence
optionally signed) decimal numeral, yet `LitExpr::parse` returns a fatal
failure on them — not the normalized number — because the numeric conversion
overflows the f64 range. -/
theorem c1_counterexample :
    (Numeral.mk false (.intOnly (List.replicate 309 '9'))).wfB = true
    ∧ (Numeral.mk false (.intOnly (List.replicate 309 '9'))).render []
      = List.replicate 309 '9'
    ∧ litParseTop (List.replicate 309 '9') = .fail := by
  exact ⟨by rfl, by rfl, by rfl⟩

set_option maxRecDepth 100000 in
/-- C1 (amended): for every optionally signed decimal numeral whose
normalized textual form passes the final numeric conversion, `LitExpr::parse`
consumes the whole input and returns that number (whitespace is allowed
between the sign and the digits); in particular `123` and `-123` parse to the
integers 123 and -123, `.456`, `123.`, `-.456`, `-123.` parse to 0.456,
123.0, -0.456, -123.0 after gaining the implicit `0` digits, and `.` alone or
`-.` alone fails to parse. -/
theorem c1_signed_decimal_numerals :
    (∀ (n : Numeral) (w : List Char) (j : JNumber),
      n.wfB = true → w.all isWsChar = true →
      serdeNumberFromString n.normalized = some j →
      ∃ loc, litParseTop (n.render w) = .ok ⟨[], (n.render w).length⟩ ⟨.num j, loc⟩)
    ∧ litParseTop ['1', '2', '3'] = .ok ⟨[], 3⟩ ⟨.num (.int 123), some (0, 3)⟩
    ∧ litParseTop ['-', '1', '2', '3'] = .ok ⟨[], 4⟩ ⟨.num (.int (-123)), some (0, 4)⟩
    ∧ litParseTop ['-', ' ', '1', '2', '3'] = .ok ⟨[], 5⟩ ⟨.num (.int (-123)), some (0, 5)⟩
    ∧ litParseTop ['.', '4', '5', '6'] = .ok ⟨[], 4⟩ ⟨.num (.float 456 3), some (0, 4)⟩
    ∧ litParseTop ['1', '2', '3', '.'] = .ok ⟨[], 4⟩ ⟨.num (.float 1230 1), some (0, 4)⟩
    ∧ litParseTop ['-', '.', '4', '5', '6']
      = .ok ⟨[], 5⟩ ⟨.num (.float (-456) 3), some (0, 5)⟩
    ∧ litParseTop ['-', '1', '2', '3', '.']
      = .ok ⟨[], 5⟩ ⟨.num (.float (-1230) 1), some (0, 5)⟩
    ∧ litParseTop ['.'] = .err
    ∧ litParseTop ['-', '.'] = .err := by
  refine ⟨?_, rfl, rfl, rfl, rfl, rfl, rfl, rfl, rfl, rfl⟩
  intro n w j hwf hwall hser
  obtain ⟨numLoc, hnt⟩ := numberTuple_render n w 0 hwf hwall
  have htext : numberText (if n.neg then some ⟨(), some (0, 0 + 1)⟩ else none)
      ⟨n.form.normalized, numLoc⟩ = n.normalized := by
    cases hneg : n.neg <;> simp [numberText, Numeral.normalized, hneg]
  have hpn : ∃ loc2, parseNumber ⟨n.render w, 0⟩
      = .ok ⟨[], 0 + (n.render w).length⟩ ⟨.num j, loc2⟩ := by
    rw [parseNumber, hnt]
    dsimp only
    rw [htext, hser]
    exact ⟨_, rfl⟩
  obtain ⟨loc2, hpn⟩ := hpn
  rw [Nat.zero_add] at hpn
  obtain ⟨c2, t2, hct2, hc2⟩ := numberTuple_ok_head ⟨n.render w, 0⟩ _ _ hnt
  have hstr : parseStringLit (skipWs ⟨n.render w, 0⟩) = .err :=
    parseStringLit_err_of_numHead _ c2 t2 hct2 hc2
  refine ⟨loc2, ?_⟩
  have hassemble := litParse_of_number_ok (4 * (lex (n.render w)).length + 15)
    ⟨n.render w, 0⟩ ⟨[], (n.render w).length⟩ ⟨.num j, loc2⟩ hstr
    (by rw [parseNumber_skipWs]; exact hpn)
  rw [litParseTop,
    show litFuel (lex (n.render w)).length
      = (4 * (lex (n.render w)).length + 15) + 1 from rfl,
    hassemble, skipWs_of_headNotIgn [] _ trivial]

set_option maxRecDepth 100000 in
/-- C1 witness: the numeral `- 123.` (sign, space, digits, trailing dot) is
well formed, its normalization `-123.0` converts, and it parses to the number
-123.0 consuming the whole input. -/
theorem c1_witness :
    ∃ loc, litParseTop ((Numeral.mk true (.intFrac ['1', '2', '3'] [])).render [' '])
      = .ok ⟨[], ((Numeral.mk true (.intFrac ['1', '2', '3'] [])).render [' ']).length⟩
          ⟨.num (.float (-1230) 1), loc⟩ :=
  c1_signed_decimal_numerals.1 (Numeral.mk true (.intFrac ['1', '2', '3'] [])) [' ']
    (.float (-1230) 1) (by rfl) (by rfl) (by rfl)

/-- Whether the map already has an entry whose key looks up equal to `k`. -/
def containsKey (m : List (Parsed Key × Parsed LitExpr)) (k : Key) : Bool :=
  m.any (fun kv => keyLookupEq kv.1.node k)

theorem keyLookupEq_trans {a b c : Key} (h : keyLookupEq a b = true) :
    keyLookupEq b c = keyLookupEq a c := by
  have : a.asText = b.asText := by
    have := h
    simpa [keyLookupEq, beq_iff_eq] using this
  simp [keyLookupEq, this]

theorem indexMapGet_insert (m : List (Parsed Key × Parsed LitExpr))
    (k0 : Parsed Key) (v0 : Parsed LitExpr) (k : Key) :
    indexMapGet (indexMapInsert m k0 v0) k
      = if keyLookupEq k0.node k then some v0 else indexMapGet m k := by
  induction m with
  | nil => simp [indexMapInsert, indexMapGet]
  | cons hd tl ih =>
    obtain ⟨k1, v1⟩ := hd
    by_cases h1 : keyLookupEq k1.node k0.node
    · rw [show indexMapInsert ((k1, v1) :: tl) k0 v0 = (k1, v0) :: tl by
        simp [indexMapInsert, h1]]
      have hiff : ∀ c, keyLookupEq k0.node c = keyLookupEq k1.node c :=
        fun c => keyLookupEq_trans h1
      cases h2 : keyLookupEq k1.node k with
      | true =>
        have h3 : keyLookupEq k0.node k = true := by rw [hiff k]; exact h2
        simp [indexMapGet, h2, h3]
      | false =>
        have h3 : keyLookupEq k0.node k = false := by rw [hiff k]; exact h2
        simp [indexMapGet, h2, h3]
    · rw [show indexMapInsert ((k1, v1) :: tl) k0 v0
          = (k1, v1) :: indexMapInsert tl k0 v0 by simp [indexMapInsert, h1]]
      by_cases h2 : keyLookupEq k1.node k
      · have h3 : keyLookupEq k0.node k = false := by
          by_contra hc
          have hc : keyLookupEq k0.node k = true := by
            revert hc; cases keyLookupEq k0.node k <;> simp
          have t1 : k1.node.asText = k.asText := by
            simpa [keyLookupEq, beq_iff_eq] using h2
          have t2 : k0.node.asText = k.asText := by
            simpa [keyLookupEq, beq_iff_eq] using hc
          have : keyLookupEq k1.node k0.node = true := by
            simp [keyLookupEq, beq_iff_eq, t1, t2]
          exact h1 this
        simp [indexMapGet, h2, h3]
      · simp [indexMapGet, h2, ih]

/-- The object construction step of `parse_object`, as folded over the
property list. -/
def insStep (m : List (Parsed Key × Parsed LitExpr))
    (kv : Parsed Key × Parsed LitExpr) : List (Parsed Key × Parsed LitExpr) :=
  indexMapInsert m kv.1 kv.2

theorem buildObjectEntries_eq_foldl (props : List (Parsed Key × Parsed LitExpr)) :
    buildObjectEntries props = props.foldl insStep [] := rfl

theorem indexMapGet_foldl (props : List (Parsed Key × Parsed LitExpr)) :
    ∀ (m : List (Parsed Key × Parsed LitExpr)) (k : Key),
    indexMapGet (props.foldl insStep m) k
      = match lastBinding props k with
        | some v => some v
        | none => indexMapGet m k := by
  induction props with
  | nil => intro m k; rfl
  | cons hd tl ih =>
    intro m k
    obtain ⟨k0, v0⟩ := hd
    rw [List.foldl_cons, ih]
    show (match lastBinding tl k with
          | some v => some v
          | none => indexMapGet (indexMapInsert m k0 v0) k)
        = match (match lastBinding tl k with
                 | some v => some v
                 | none => if keyLookupEq k0.node k then some v0 else none) with
          | some v => some v
          | none => indexMapGet m k
    cases lastBinding tl k with
    | some v => rfl
    | none =>
      rw [indexMapGet_insert]
      by_cases h : keyLookupEq k0.node k <;> simp [h]

theorem keysOf_insert (m : List (Parsed Key × Parsed LitExpr))
    (k : Parsed Key) (v : Parsed LitExpr) :
    keysOf (indexMapInsert m k v)
      = if containsKey m k.node then keysOf m else keysOf m ++ [k.node] := by
  induction m with
  | nil => simp [indexMapInsert, containsKey, keysOf]
  | cons hd tl ih =>
    obtain ⟨k1, v1⟩ := hd
    by_cases h1 : keyLookupEq k1.node k.node
    · rw [show indexMapInsert ((k1, v1) :: tl) k v = (k1, v) :: tl by
        simp [indexMapInsert, h1]]
      simp [containsKey, keysOf, h1]
    · rw [show indexMapInsert ((k1, v1) :: tl) k v
          = (k1, v1) :: indexMapInsert tl k v by simp [indexMapInsert, h1]]
      have : containsKey ((k1, v1) :: tl) k.node = containsKey tl k.node := by
        simp [containsKey, h1]
      rw [this]
      by_cases h2 : containsKey tl k.node <;>
        simp [keysOf, h2] at ih ⊢ <;> simp [ih]

theorem dedupKeysAux_congr (l : List Key) :
    ∀ s1 s2 : List Key,
    (∀ k, s1.any (fun s => keyLookupEq s k) = s2.any (fun s => keyLookupEq s k)) →
    dedupKeysAux s1 l = dedupKeysAux s2 l := by
  induction l with
  | nil => intro s1 s2 _; rfl
  | cons k tl ih =>
    intro s1 s2 hs
    show (if s1.any (fun s => keyLookupEq s k) then dedupKeysAux s1 tl
          else k :: dedupKeysAux (k :: s1) tl)
        = (if s2.any (fun s => keyLookupEq s k) then dedupKeysAux s2 tl
          else k :: dedupKeysAux (k :: s2) tl)
    rw [hs k]
    by_cases h : s2.any (fun s => keyLookupEq s k)
    · simp [h, ih s1 s2 hs]
    · simp [h]
      exact ih (k :: s1) (k :: s2) (by intro k2; simp [List.any_cons, hs k2])

theorem keysOf_foldl (props : List (Parsed Key × Parsed LitExpr)) :
    ∀ m : List (Parsed Key × Parsed LitExpr),
    keysOf (props.foldl insStep m)
      = keysOf m ++ dedupKeysAux (keysOf m) (keysOf props) := by
  induction props with
  | nil => intro m; simp [keysOf, dedupKeysAux]
  | cons hd tl ih =>
    intro m
    obtain ⟨k0, v0⟩ := hd
    rw [List.foldl_cons, ih]
    have hseen : (keysOf m).any (fun s => keyLookupEq s k0.node)
        = containsKey m k0.node := by
      clear ih
      induction m with
      | nil => rfl
      | cons hd2 tl2 ih2 => simp [keysOf, containsKey, List.any_cons] at ih2 ⊢; rw [ih2]
    show keysOf (indexMapInsert m k0 v0)
          ++ dedupKeysAux (keysOf (indexMapInsert m k0 v0)) (keysOf tl)
        = keysOf m ++ dedupKeysAux (keysOf m) (k0.node :: keysOf tl)
    rw [keysOf_insert]
    cases h : containsKey m k0.node with
    | true =>
      simp only [h, if_true]
      rw [show dedupKeysAux (keysOf m) (k0.node :: keysOf tl)
          = dedupKeysAux (keysOf m) (keysOf tl) by
        show (if (keysOf m).any (fun s => keyLookupEq s k0.node) then _ else _) = _
        rw [hseen, h]; simp]
    | false =>
      simp only [h, Bool.false_eq_true, if_false]
      rw [show dedupKeysAux (keysOf m) (k0.node :: keysOf tl)
          = k0.node :: dedupKeysAux (k0.node :: keysOf m) (keysOf tl) by
        show (if (keysOf m).any (fun s => keyLookupEq s k0.node) then _ else _) = _
        rw [hseen, h]; simp]
      rw [dedupKeysAux_congr (keysOf tl) (keysOf m ++ [k0.node]) (k0.node :: keysOf m)
        (by intro k2; simp [List.any_append, List.any_cons, Bool.or_comm])]
      simp

set_option maxHeartbeats 1000000 in
/-- C5: duplicate keys in an object literal follow last-write-wins with the
insertion position of the first occurrence: looking up any key in the built
ordered mapping yields the value of the last property with that key, the key
sequence is the first-occurrence deduplication of the property keys in source
order, and `{a: 1, b: 2, a: 3}` parses to the two-entry object
`{a: 3, b: 2}` with `a` still first and carrying its first occurrence's
location. -/
theorem c5_duplicate_keys :
    (∀ props k, indexMapGet (buildObjectEntries props) k = lastBinding props k)
    ∧ (∀ props, keysOf (buildObjectEntries props) = dedupKeys (keysOf props))
    ∧ litParseTop srcDupKeys
      = .ok ⟨[], 18⟩ ⟨.obj [(⟨.field ['a'], some (1, 2)⟩, ⟨.num (.int 3), some (16, 17)⟩),
                           (⟨.field ['b'], some (7, 8)⟩, ⟨.num (.int 2), some (10, 11)⟩)],
                     some (0, 18)⟩ := by
  refine ⟨?_, ?_, rfl⟩
  · intro props k
    rw [buildObjectEntries_eq_foldl, indexMapGet_foldl]
    cases lastBinding props k <;> rfl
  · intro props
    rw [buildObjectEntries_eq_foldl, keysOf_foldl]
    rfl

/-- No two entries of the list have lookup-equal keys (the `IndexMap`
invariant). -/
def nodupKeysB : List (Parsed Key × Parsed LitExpr) → Bool
  | [] => true
  | (k, _) :: rest =>
    !(rest.any fun kv => keyLookupEq kv.1.node k.node) && nodupKeysB rest

mutual

/-- Every object level of the tree satisfies the `IndexMap` key invariant. -/
def LitExpr.wfKeysB : LitExpr → Bool
  | .str _ => true
  | .num _ => true
  | .bool _ => true
  | .null => true
  | .obj es => nodupKeysB es && wfEntriesList es
  | .arr es => wfElemsList es
  | .path _ => true

def wfEntriesList : List (Parsed Key × Parsed LitExpr) → Bool
  | [] => true
  | (_, ⟨v, _⟩) :: rest => v.wfKeysB && wfEntriesList rest

def wfElemsList : List (Parsed LitExpr) → Bool
  | [] => true
  | ⟨v, _⟩ :: rest => v.wfKeysB && wfElemsList rest

end

theorem jnumEq_refl (n : JNumber) : jnumEq n n = true := by
  cases n <;> simp [jnumEq]

theorem pathListBeq_refl : (p : PathList) → pathListBeq p p = true
  | .var ⟨v, _⟩ ⟨t, _⟩ => by
    show (v == v && pathListBeq t t) = true
    rw [beq_self_eq_true, pathListBeq_refl t]
    rfl
  | .key ⟨k, _⟩ ⟨t, _⟩ => by
    show (k == k && pathListBeq t t) = true
    rw [beq_self_eq_true, pathListBeq_refl t]
    rfl
  | .empty => rfl

theorem keyLookupEq_refl (k : Key) : keyLookupEq k k = true := by
  simp [keyLookupEq]

theorem keyLookupEq_symm (a b : Key) : keyLookupEq a b = keyLookupEq b a := by
  by_cases h : a.asText = b.asText
  · simp [keyLookupEq, h]
  · have h2 : ¬(b.asText = a.asText) := fun hh => h hh.symm
    simp [keyLookupEq, h, h2]

theorem fsize_pos (x : LitExpr) : 1 ≤ x.fsize := by
  cases x <;> simp [LitExpr.fsize]

theorem fsizeEntries_cons (k : Parsed Key) (v : Parsed LitExpr)
    (rest : List (Parsed Key × Parsed LitExpr)) :
    fsizeEntries ((k, v) :: rest) = 1 + v.node.fsize + fsizeEntries rest := by
  obtain ⟨vn, vl⟩ := v
  rfl

theorem length_le_fsizeEntries (m : List (Parsed Key × Parsed LitExpr)) :
    m.length ≤ fsizeEntries m := by
  induction m with
  | nil => simp [fsizeEntries]
  | cons hd tl ih =>
    obtain ⟨k, v⟩ := hd
    rw [fsizeEntries_cons]
    simp only [List.length_cons]
    omega

theorem mem_length_fsize_le_entries (m : List (Parsed Key × Parsed LitExpr)) :
    ∀ (e : Parsed Key × Parsed LitExpr), e ∈ m →
    m.length + e.2.node.fsize ≤ fsizeEntries m := by
  induction m with
  | nil => intro e he; cases he
  | cons hd tl ih =>
    intro e he
    obtain ⟨k, v⟩ := hd
    rw [fsizeEntries_cons]
    simp only [List.length_cons]
    rcases List.mem_cons.mp he with h | h
    · subst h
      have h2 : ((k, v) : Parsed Key × Parsed LitExpr).2.node.fsize
          = v.node.fsize := rfl
      have h4 := length_le_fsizeEntries tl
      omega
    · have h5 := ih e h
      omega

theorem length_le_fsizeElems (es : List (Parsed LitExpr)) :
    es.length ≤ fsizeElems es := by
  induction es with
  | nil => simp [fsizeElems]
  | cons hd tl ih =>
    obtain ⟨v, vloc⟩ := hd
    have hc : fsizeElems (⟨v, vloc⟩ :: tl) = 1 + v.fsize + fsizeElems tl := rfl
    rw [hc]
    simp only [List.length_cons]
    omega

theorem mem_length_fsize_le_elems (es : List (Parsed LitExpr)) :
    ∀ (e : Parsed LitExpr), e ∈ es →
    es.length + e.node.fsize ≤ fsizeElems es := by
  induction es with
  | nil => intro e he; cases he
  | cons hd tl ih =>
    intro e he
    obtain ⟨v, vloc⟩ := hd
    have hc : fsizeElems (⟨v, vloc⟩ :: tl) = 1 + v.fsize + fsizeElems tl := rfl
    rw [hc]
    simp only [List.length_cons]
    rcases List.mem_cons.mp he with h | h
    · subst h
      have h2 : (⟨v, vloc⟩ : Parsed LitExpr).node.fsize = v.fsize := rfl
      have h4 := length_le_fsizeElems tl
      omega
    · have h5 := ih e h
      omega

/-- Permuting the entries of an object leaves its size measure unchanged. -/
theorem fsizeEntries_perm (m₁ m₂ : List (Parsed Key × Parsed LitExpr))
    (h : m₁.Perm m₂) : fsizeEntries m₁ = fsizeEntries m₂ := by
  induction h with
  | nil => rfl
  | cons x h ih =>
    obtain ⟨k, v⟩ := x
    rw [fsizeEntries_cons, fsizeEntries_cons, ih]
  | swap x y l =>
    obtain ⟨k1, v1⟩ := x
    obtain ⟨k2, v2⟩ := y
    rw [fsizeEntries_cons, fsizeEntries_cons, fsizeEntries_cons,
      fsizeEntries_cons]
    omega
  | trans h1 h2 ih1 ih2 => rw [ih1, ih2]

/-- A key-matching entry holding the value `v` is found by `findValF` and its
value compares equal to `v`, given reflexivity for `v` and the key
invariant. -/
theorem findValF_mem (kn : Key) (v : LitExpr)
    (hv : ∀ f, 3 * v.fsize ≤ f → litEqF f v v = true) :
    ∀ (b : List (Parsed Key × Parsed LitExpr)) (f : Nat),
    (∃ kp vloc, (kp, ⟨v, vloc⟩) ∈ b ∧ keyLookupEq kp.node kn = true) →
    nodupKeysB b = true →
    b.length + 3 * v.fsize + 1 ≤ f →
    findValF f kn v b = true := by
  intro b
  induction b with
  | nil =>
    intro f hmem _ _
    obtain ⟨kp, vloc, hmem, _⟩ := hmem
    cases hmem
  | cons hd tl ih =>
    intro f hmem hnd hf
    obtain ⟨k0, v0⟩ := hd
    obtain ⟨f2, rfl⟩ : ∃ f2, f = f2 + 1 := ⟨f - 1, by omega⟩
    simp only [nodupKeysB, Bool.and_eq_true, Bool.not_eq_true',
      List.any_eq_false] at hnd
    obtain ⟨kp, vloc, hmem, hkeq⟩ := hmem
    show (if keyLookupEq k0.node kn then litEqF f2 v v0.node
          else findValF f2 kn v tl) = true
    rcases List.mem_cons.mp hmem with h | h
    · have hv0 : v0 = ⟨v, vloc⟩ := by cases h; rfl
      have hk0 : k0 = kp := by cases h; rfl
      rw [hk0, if_pos hkeq, hv0]
      exact hv f2 (by simp only [List.length_cons] at hf; omega)
    · cases hk : keyLookupEq k0.node kn with
      | true =>
        exfalso
        have hk2 : keyLookupEq kp.node k0.node = true := by
          rw [← keyLookupEq_trans hkeq, keyLookupEq_symm]
          exact hk
        exact hnd.1 _ h hk2
      | false =>
        simp only [hk, Bool.false_eq_true, if_false]
        exact ih f2 ⟨kp, vloc, h, hkeq⟩ hnd.2
          (by simp only [List.length_cons] at hf; omega)

mutual

/-- Reflexivity of the derived `PartialEq` model on key-invariant values,
with a linear fuel bound. -/
theorem litEqF_refl : (x : LitExpr) → x.wfKeysB = true →
    ∀ f, 3 * x.fsize ≤ f → litEqF f x x = true
  | .str s => fun _ f _ => by simp [litEqF]
  | .num n => fun _ f _ => by simp [litEqF, jnumEq_refl]
  | .bool b => fun _ f _ => by simp [litEqF]
  | .null => fun _ f _ => by simp [litEqF]
  | .obj es => fun hwf f hf => by
    have hwf2 : (nodupKeysB es && wfEntriesList es) = true := hwf
    simp only [Bool.and_eq_true] at hwf2
    have h3 : LitExpr.fsize (.obj es) = 1 + fsizeEntries es := rfl
    have hlen : es.length ≤ fsizeEntries es := length_le_fsizeEntries es
    obtain ⟨f2, rfl⟩ : ∃ f2, f = f2 + 1 := ⟨f - 1, by omega⟩
    show (es.length == es.length && objSubF f2 es es) = true
    rw [beq_self_eq_true, objSubF_mem es es f2 (fun e he => he) hwf2.1 hwf2.2
      (by omega)
      (fun e he => by
        have hm := mem_length_fsize_le_entries es e he
        omega)]
    rfl
  | .arr es => fun hwf f hf => by
    have hwf2 : wfElemsList es = true := hwf
    have h3 : LitExpr.fsize (.arr es) = 1 + fsizeElems es := rfl
    have hlen : es.length ≤ fsizeElems es := length_le_fsizeElems es
    obtain ⟨f2, rfl⟩ : ∃ f2, f = f2 + 1 := ⟨f - 1, by omega⟩
    show arrEqF f2 es es = true
    exact arrEqF_refl es hwf2 f2 (by omega)
      (fun e he => by
        have hm := mem_length_fsize_le_elems es e he
        omega)
  | .path p => fun _ f _ => by simp [litEqF, pathListBeq_refl]

/-- Every entry of `m₁` is bound, at its key, to an equal value in `m₂`,
whenever `m₁`'s entries all occur in `m₂` and `m₂` satisfies the key
invariant.  The fuel bounds are stated per entry. -/
theorem objSubF_mem : (m₁ : List (Parsed Key × Parsed LitExpr)) →
    ∀ (m₂ : List (Parsed Key × Parsed LitExpr)) (f : Nat),
    (∀ e, e ∈ m₁ → e ∈ m₂) → nodupKeysB m₂ = true → wfEntriesList m₁ = true →
    m₁.length + 1 ≤ f →
    (∀ e, e ∈ m₁ → m₁.length + m₂.length + 3 * e.2.node.fsize + 2 ≤ f) →
    objSubF f m₁ m₂ = true
  | [] => fun m₂ f _ _ _ hf1 _ => by
    have hf1b : 0 + 1 ≤ f := hf1
    obtain ⟨f2, rfl⟩ : ∃ f2, f = f2 + 1 := ⟨f - 1, by omega⟩
    rfl
  | (k, ⟨v, vloc⟩) :: rest => fun m₂ f hsub hnd hwf hf1 hfam => by
    have hwf2 : (v.wfKeysB && wfEntriesList rest) = true := hwf
    simp only [Bool.and_eq_true] at hwf2
    have hhead : rest.length + 1 + m₂.length + 3 * v.fsize + 2 ≤ f :=
      hfam _ (List.mem_cons_self _ _)
    have hf1b : rest.length + 1 + 1 ≤ f := hf1
    obtain ⟨f2, rfl⟩ : ∃ f2, f = f2 + 1 := ⟨f - 1, by omega⟩
    show (findValF f2 k.node v m₂ && objSubF f2 rest m₂) = true
    have hmemv : (k, (⟨v, vloc⟩ : Parsed LitExpr)) ∈ m₂ :=
      hsub _ (List.mem_cons_self _ _)
    rw [findValF_mem k.node v (litEqF_refl v hwf2.1) m₂ f2
        ⟨k, vloc, hmemv, keyLookupEq_refl _⟩ hnd (by omega),
      objSubF_mem rest m₂ f2 (fun e he => hsub e (List.mem_cons_of_mem _ he))
        hnd hwf2.2 (by omega)
        (fun e he => by
          have hh : rest.length + 1 + m₂.length + 3 * e.2.node.fsize + 2
              ≤ f2 + 1 := hfam e (List.mem_cons_of_mem _ he)
          omega)]
    rfl

/-- Pointwise reflexivity for array elements, fuel bounds per element. -/
theorem arrEqF_refl : (es : List (Parsed LitExpr)) → wfElemsList es = true →
    ∀ f, es.length + 1 ≤ f →
    (∀ e, e ∈ es → es.length + 3 * e.node.fsize + 1 ≤ f) →
    arrEqF f es es = true
  | [] => fun _ f hf1 _ => by
    have hf1b : 0 + 1 ≤ f := hf1
    obtain ⟨f2, rfl⟩ : ∃ f2, f = f2 + 1 := ⟨f - 1, by omega⟩
    rfl
  | ⟨v, vloc⟩ :: rest => fun hwf f hf1 hfam => by
    have hwf2 : (v.wfKeysB && wfElemsList rest) = true := hwf
    simp only [Bool.and_eq_true] at hwf2
    have hhead : rest.length + 1 + 3 * v.fsize + 1 ≤ f :=
      hfam _ (List.mem_cons_self _ _)
    have hf1b : rest.length + 1 + 1 ≤ f := hf1
    obtain ⟨f2, rfl⟩ : ∃ f2, f = f2 + 1 := ⟨f - 1, by omega⟩
    show (litEqF f2 v v && arrEqF f2 rest rest) = true
    rw [litEqF_refl v hwf2.1 f2 (by omega),
      arrEqF_refl rest hwf2.2 f2 (by omega)
        (fun e he => by
          have hh : rest.length + 1 + 3 * e.node.fsize + 1 ≤ f2 + 1 :=
            hfam e (List.mem_cons_of_mem _ he)
          omega)]
    rfl

end

/-- Parse both inputs and compare the parsed nodes with the derived
`PartialEq` model. -/
def eqOfParses (a b : List Char) : Option Bool :=
  match nodeOfParse a, nodeOfParse b with
  | some x, some y => some (litEq x y)
  | _, _ => none

set_option maxHeartbeats 1000000 in
/-- C10: `LitExpr` equality under the derived `PartialEq` is insensitive to
object key order: two `Object` nodes holding the same key-to-value bindings in
different insertion orders compare equal — generally, any permutation of a
key-invariant entry list yields an equal object — and concretely the parses of
`{a: 1, b: 2}` and `{b: 2, a: 1}` compare equal (in both directions), even
though the parser preserves their differing iteration orders. -/
theorem c10_object_key_order_equality :
    (∀ (m₁ m₂ : List (Parsed Key × Parsed LitExpr)), m₁.Perm m₂ →
      nodupKeysB m₂ = true → wfEntriesList m₁ = true →
      litEq (.obj m₁) (.obj m₂) = true)
    ∧ eqOfParses srcObjAB srcObjBA = some true
    ∧ eqOfParses srcObjBA srcObjAB = some true
    ∧ objKeysOfParse srcObjAB = some [.field ['a'], .field ['b']]
    ∧ objKeysOfParse srcObjBA = some [.field ['b'], .field ['a']]
    ∧ decide (([Key.field ['a'], .field ['b']] : List Key)
        = [Key.field ['b'], .field ['a']]) = false := by
  refine ⟨?_, rfl, rfl, rfl, rfl, by decide⟩
  intro m₁ m₂ hperm hnd hwf
  have hS : fsizeEntries m₁ = fsizeEntries m₂ := fsizeEntries_perm m₁ m₂ hperm
  have hlen12 : m₁.length = m₂.length := hperm.length_eq
  have h31 : LitExpr.fsize (.obj m₁) = 1 + fsizeEntries m₁ := rfl
  have h32 : LitExpr.fsize (.obj m₂) = 1 + fsizeEntries m₂ := rfl
  have hl1 : m₁.length ≤ fsizeEntries m₁ := length_le_fsizeEntries m₁
  have hl2 : m₂.length ≤ fsizeEntries m₂ := length_le_fsizeEntries m₂
  show litEqF ((LitExpr.fsize (.obj m₁) + 1) * (LitExpr.fsize (.obj m₂) + 1))
    (.obj m₁) (.obj m₂) = true
  have hexp : (LitExpr.fsize (.obj m₁) + 1) * (LitExpr.fsize (.obj m₂) + 1)
      = 4 + 2 * fsizeEntries m₁ + 2 * fsizeEntries m₂
        + fsizeEntries m₁ * fsizeEntries m₂ := by
    rw [h31, h32]; ring
  obtain ⟨f2, hf2⟩ :
      ∃ f2, (LitExpr.fsize (.obj m₁) + 1) * (LitExpr.fsize (.obj m₂) + 1)
        = f2 + 1 :=
    ⟨(LitExpr.fsize (.obj m₁) + 1) * (LitExpr.fsize (.obj m₂) + 1) - 1,
      by omega⟩
  rw [hf2]
  rw [hf2] at hexp
  show (m₁.length == m₂.length && objSubF f2 m₁ m₂) = true
  rw [hlen12, beq_self_eq_true,
    objSubF_mem m₁ m₂ f2 (fun e he => hperm.subset he) hnd hwf (by omega)
      (fun e he => by
        have hm := mem_length_fsize_le_entries m₁ e he
        omega)]
  rfl

set_option maxRecDepth 10000 in
/-- Witness for C10: the general permutation conjunct applied to the two-entry
lists `[a ↦ 1, b ↦ 2]` and `[b ↦ 2, a ↦ 1]`. -/
theorem c10_witness :
    litEq
      (.obj [(⟨.field ['a'], none⟩, ⟨.num (.int 1), none⟩),
             (⟨.field ['b'], none⟩, ⟨.num (.int 2), none⟩)])
      (.obj [(⟨.field ['b'], none⟩, ⟨.num (.int 2), none⟩),
             (⟨.field ['a'], none⟩, ⟨.num (.int 1), none⟩)]) = true :=
  c10_object_key_order_equality.1
    [(⟨.field ['a'], none⟩, ⟨.num (.int 1), none⟩),
     (⟨.field ['b'], none⟩, ⟨.num (.int 2), none⟩)]
    [(⟨.field ['b'], none⟩, ⟨.num (.int 2), none⟩),
     (⟨.field ['a'], none⟩, ⟨.num (.int 1), none⟩)]
    (List.Perm.swap
      ((⟨.field ['b'], none⟩, ⟨.num (.int 2), none⟩)
        : Parsed Key × Parsed LitExpr)
      ((⟨.field ['a'], none⟩, ⟨.num (.int 1), none⟩)
        : Parsed Key × Parsed LitExpr) [])
    rfl rfl

set_option maxHeartbeats 1000000 in
/-- C9: a bare key and a quoted key with the same text address the same entry
of the ordered mapping (the parsed `{a: 1, "a": 2}` has a single entry, under
the first occurrence's bare form, holding the later value), while the AST
still records which form was written as distinct `Key` variants (`{a: 1}`
yields a bare key, `{'a': 1}` and `{"a": 1}` a quoted key). -/
theorem c9_key_forms :
    nodeOfParse srcMixedKeyForms
      = some (.obj [(⟨.field ['a'], some (1, 2)⟩, ⟨.num (.int 2), some (12, 13)⟩)])
    ∧ keyLookupEq (.field ['a']) (.quoted ['a']) = true
    ∧ decide (Key.field ['a'] = Key.quoted ['a']) = false
    ∧ (Key.field ['a']).isQuotedForm = false
    ∧ (Key.quoted ['a']).isQuotedForm = true
    ∧ objKeysOfParse srcObjBareKey = some [.field ['a']]
    ∧ objKeysOfParse srcObjQuotedKey = some [.quoted ['a']]
    ∧ objKeysOfParse srcObjSingleQuotedKey = some [.quoted ['a']] :=
  ⟨rfl, rfl, by decide, rfl, rfl, rfl, rfl, rfl⟩

/-! ## Whitespace- and comment-insensitivity (C6)

Two inputs that differ only by inserting or removing insignificant whitespace
or comments around tokens — never inside quoted strings — have the same token
sequence (`lex`), and `lex` is precisely insensitive to such edits: ignorable
text between tokens contributes nothing to it.  The claim is therefore stated
for every pair of inputs with equal token sequences, which covers exactly the
pairs the claim describes (including whitespace between a `-` sign — a
punctuation token — and its digits, and around `.`, `,`, `:`, braces and
brackets). -/

/-- The array `[ 1 , 2]` with whitespace and a `#` comment between tokens;
token-for-token identical to `srcArrTight`. -/
def srcArrCommented : List Char :=
  ['[', ' ', '1', ' ', ',', ' ', '#', 'x', '\n', '2', ']']

def srcNegTight : List Char := ['-', '2']

/-- A `-` sign separated from its digits by whitespace. -/
def srcNegSpaced : List Char := ['-', ' ', ' ', '2']

/-- C6: for every pair of inputs with equal token sequences — in particular
every pair differing only by insignificant whitespace or comments around
tokens, never inside quoted strings, including between a `-` sign and its
digits and around `.`, `,`, `:`, braces and brackets — `LitExpr::parse`
returns the same kind of result on both (recoverable error, fatal failure, or
success), and on success the two ASTs are equal once locations are
stripped. -/
theorem c6_whitespace_insensitivity (l₁ l₂ : List Char)
    (he : lex l₁ = lex l₂) :
    RelPR (fun v₁ v₂ : Parsed LitExpr => v₁.node.strip = v₂.node.strip)
      (litParseTop l₁) (litParseTop l₂)
    ∧ litParseStrip l₁ = litParseStrip l₂ := by
  have hmain : RelPR (fun v₁ v₂ : Parsed LitExpr =>
      v₁.node.strip = v₂.node.strip) (litParseTop l₁) (litParseTop l₂) := by
    rw [litParseTop, litParseTop, he]
    exact litParse_sync (litFuel (lex l₂).length) ⟨l₁, 0⟩ ⟨l₂, 0⟩ he
  refine ⟨hmain, ?_⟩
  rw [litParseStrip, litParseStrip]
  cases h1 : litParseTop l₁ with
  | ok r v =>
    rw [h1] at hmain
    obtain ⟨r₂, v₂, h2, -, hval⟩ := RelPR_ok_left hmain
    rw [h2]
    dsimp only
    rw [hval]
  | err =>
    rw [h1] at hmain
    rw [RelPR_err_left hmain]
  | fail =>
    rw [h1] at hmain
    rw [RelPR_fail_left hmain]

/-- Witness for C6 at concrete inputs: the tight array `[1,2]` against the
same array spread out with whitespace and a `#` comment, and a `-` sign
directly against its digits versus separated from them by spaces. -/
theorem c6_witness :
    lex srcArrTight = lex srcArrCommented
    ∧ litParseStrip srcArrTight = litParseStrip srcArrCommented
    ∧ litParseStrip srcArrTight
      = some (.arr [⟨.num (.int 1), none⟩, ⟨.num (.int 2), none⟩])
    ∧ lex srcNegTight = lex srcNegSpaced
    ∧ litParseStrip srcNegTight = litParseStrip srcNegSpaced
    ∧ litParseStrip srcNegTight = some (.num (.int (-2))) :=
  ⟨rfl,
   (c6_whitespace_insensitivity srcArrTight srcArrCommented rfl).2,
   rfl,
   rfl,
   (c6_whitespace_insensitivity srcNegTight srcNegSpaced rfl).2,
   rfl⟩

end Router
